import Mathlib

/-!
# Clock-tree management core of `arch/arm/mach-msm/clock.c`

A shallow embedding of the voltage-level arbiter (`find_vdd_level`, `update_vdd`,
`vote_vdd_level`, `unvote_vdd_level`) and of the reference-counted
prepare/enable protocol (`clk_prepare`, `clk_unprepare`, `clk_enable`,
`clk_disable`), followed by the properties proved about them.
-/

namespace Clock

/-! ## Error numbers -/

/-- The errno value `EINVAL`. -/
def EINVAL : Int := 22

/-- The errno value `ENOSYS`. -/
def ENOSYS : Int := 38

/-- The errno value `ENOMEM`. -/
def ENOMEM : Int := 12

/-! ## Voltage rails -/

/-- Modelled from the spec: `struct clk_vdd_class` is declared in the header
`mach/clk-provider.h`, which is not among the sources.  The spec's data model gives a
rail `N` discrete levels `0..N-1`, a vote counter per level and a cached resolved
level.  `level_votes` is the memory addressed as `level_votes[i]`: the indices
`0..num_levels-1` are the table, any other index stands for the neighbouring cell that
the C expression would touch.  `num_levels` is read as a signed `int` (it is compared
with and assigned to `int level`).  `cur_level` keeps the integer that
`cur_level = level` stores.  The counters are natural numbers: the code decrements a
counter only when it is not zero, and wrap-around of a counter is not modelled. -/
structure clk_vdd_class where
  num_levels : Nat
  level_votes : Int → Nat
  cur_level : Int

/-- Outcome of one arbiter operation: the returned `rc`, the rail afterwards, the
levels handed to the rail's `set_vdd` setter during the call (in call order) and
whether the `WARN` of `unvote_vdd_level` fired. -/
structure vdd_result where
  rc : Int
  vdd : clk_vdd_class
  calls : List Int
  warned : Bool

/-- The assignment `level_votes[level] = n`. -/
def set_votes (v : clk_vdd_class) (level : Int) (n : Nat) : clk_vdd_class :=
  { v with level_votes := fun i => if i = level then n else v.level_votes i }

/-- The iterations of `for (...; level > 0; level--) if (level_votes[level]) break;`
started at the positive level `n`; the value is the final `level`. -/
def scan_down (votes : Int → Nat) : Nat → Int
  | 0 => 0
  | n + 1 => if votes ((n : Int) + 1) ≠ 0 then (n : Int) + 1 else scan_down votes n

/-- The whole loop of `update_vdd` started at `level`: it does not iterate when
`level <= 0` and leaves `level` as it is. -/
def update_vdd_loop (votes : Int → Nat) (level : Int) : Int :=
  if 0 < level then scan_down votes level.toNat else level

/-- Embedding of `update_vdd`; `set_vdd` is the rail's setter, which sees the rail and
the requested level and returns an error code. -/
def update_vdd (set_vdd : clk_vdd_class → Int → Int) (v : clk_vdd_class) : vdd_result :=
  let level := update_vdd_loop v.level_votes ((v.num_levels : Int) - 1)
  if level = v.cur_level then
    { rc := 0, vdd := v, calls := [], warned := false }
  else
    let rc := set_vdd v level
    if rc = 0 then
      { rc := rc, vdd := { v with cur_level := level }, calls := [level], warned := false }
    else
      { rc := rc, vdd := v, calls := [level], warned := false }

/-- Embedding of `vote_vdd_level`. -/
def vote_vdd_level (set_vdd : clk_vdd_class → Int → Int) (v : clk_vdd_class)
    (level : Int) : vdd_result :=
  if level ≥ (v.num_levels : Int) then
    { rc := -EINVAL, vdd := v, calls := [], warned := false }
  else
    let r := update_vdd set_vdd (set_votes v level (v.level_votes level + 1))
    if r.rc ≠ 0 then
      { r with vdd := set_votes r.vdd level (r.vdd.level_votes level - 1) }
    else r

/-- Embedding of `unvote_vdd_level`. -/
def unvote_vdd_level (set_vdd : clk_vdd_class → Int → Int) (v : clk_vdd_class)
    (level : Int) : vdd_result :=
  if level ≥ (v.num_levels : Int) then
    { rc := -EINVAL, vdd := v, calls := [], warned := false }
  else if v.level_votes level = 0 then
    { rc := 0, vdd := v, calls := [], warned := true }
  else
    let r := update_vdd set_vdd (set_votes v level (v.level_votes level - 1))
    if r.rc ≠ 0 then
      { r with vdd := set_votes r.vdd level (r.vdd.level_votes level + 1) }
    else r

/-- Embedding of `find_vdd_level` on the clock's `fmax` table (`num_fmax` is the
length of the table): the loop, started at `level`, over the remaining entries. -/
def find_vdd_loop (rate : Nat) : List Nat → Nat → Nat
  | [], level => level
  | f :: rest, level => if rate ≤ f then level else find_vdd_loop rate rest (level + 1)

/-- Embedding of `find_vdd_level`: the level found, or `-EINVAL`. -/
def find_vdd_level (fmax : List Nat) (rate : Nat) : Int :=
  let level := find_vdd_loop rate fmax 0
  if level = fmax.length then -EINVAL else (level : Int)

/-! ## Specification vocabulary for rails -/

/-- Spec wording: `L` is the highest level index holding a non-zero vote count. -/
def is_highest_voted (v : clk_vdd_class) (L : Int) : Prop :=
  0 ≤ L ∧ L < (v.num_levels : Int) ∧ v.level_votes L ≠ 0 ∧
    ∀ j : Nat, j < v.num_levels → L < (j : Int) → v.level_votes j = 0

/-- Spec wording: no level of the rail has votes. -/
def no_votes (v : clk_vdd_class) : Prop :=
  ∀ j : Nat, j < v.num_levels → v.level_votes j = 0

/-- Spec wording of the arbiter invariant: `L` is the highest level index with a
non-zero vote count, or level 0 if no votes. -/
def is_resolved_level (v : clk_vdd_class) (L : Int) : Prop :=
  is_highest_voted v L ∨ (L = 0 ∧ no_votes v)

instance (v : clk_vdd_class) (L : Int) : Decidable (is_highest_voted v L) := by
  unfold is_highest_voted; infer_instance

instance (v : clk_vdd_class) : Decidable (no_votes v) := by
  unfold no_votes; infer_instance

instance (v : clk_vdd_class) (L : Int) : Decidable (is_resolved_level v L) := by
  unfold is_resolved_level; infer_instance

/-- A rail whose levels `0..n-1` are the listed vote counts. -/
def rail_of (votes : List Nat) (cur : Int) : clk_vdd_class :=
  { num_levels := votes.length,
    level_votes := fun i => if 0 ≤ i then votes.getD i.toNat 0 else 0,
    cur_level := cur }

/-! ## Clocks -/

/-- A `struct clk *` value as the code tests it: `NULL`, an `ERR_PTR` value (`IS_ERR`),
or a pointer to the clock with the given index. -/
inductive clk_ref where
  | null : clk_ref
  | err (e : Int) : clk_ref
  | ptr (c : Nat) : clk_ref
  deriving DecidableEq

/-- The members of `clk->ops` that are not `NULL`: which hooks the clock type has. -/
structure clk_ops where
  prepare : Bool
  unprepare : Bool
  enable : Bool
  disable : Bool
  set_rate : Bool
  get_rate : Bool
  round_rate : Bool
  set_parent : Bool
  get_parent : Bool
  reset : Bool
  handoff : Bool

/-- Modelled from the spec: `struct clk` is declared in the header
`mach/clk-provider.h`, which is not among the sources.  These are the members that the
functions below only read: the flags, the hook table, the auxiliary dependency, the
rail (an index into the rails, `none` for `vdd_class == NULL`), the ascending `fmax`
table (`num_fmax` is its length) and `parent`, the clock that the `get_parent` hook
reports. -/
structure clk where
  flags : Nat
  ops : clk_ops
  depends : clk_ref
  vdd_class : Option Nat
  fmax : List Nat
  parent : clk_ref

/-- Modelled from the spec: `enum handoff` is declared in the header
`mach/clk-provider.h`, which is not among the sources.  The spec gives the handoff
detection two outcomes: the clock is already enabled (running), or it is disabled. -/
inductive handoff where
  | HANDOFF_ENABLED_CLK : handoff
  | HANDOFF_DISABLED_CLK : handoff
  deriving DecidableEq

/-- One observable step: a call of an external hook with its return code, the return
code of an arbiter call, a `WARN`, or the `pr_err` of a failed handoff. -/
inductive event where
  | set_vdd (rail : Nat) (level : Int) (rc : Int) : event
  | vote (rail : Nat) (level : Int) (rc : Int) : event
  | unvote (rail : Nat) (level : Int) (rc : Int) : event
  | warn_votes (rail : Nat) (level : Int) : event
  | prepare (c : Nat) (rc : Int) : event
  | unprepare (c : Nat) : event
  | enable (c : Nat) (rc : Int) : event
  | disable (c : Nat) : event
  | set_rate (c : Nat) (rate : Nat) (rc : Int) : event
  | warn_unprepared (c : Nat) : event
  | warn_unbalanced (c : Nat) : event
  | warn_enabled (c : Nat) : event
  | handoff (c : Nat) (ret : handoff) : event
  | handoff_failed (c : Nat) (err : Int) : event
  | reset (c : Nat) (action : Nat) (rc : Int) : event
  | get_rate (c : Nat) (rate : Nat) : event
  | round_rate (c : Nat) (rate : Nat) (rc : Int) : event
  | set_parent (c : Nat) (parent : clk_ref) (rc : Int) : event
  deriving DecidableEq

/-- The external collaborators: the rail setter and the hooks of the clock types that
can fail.  Each result may depend on everything that happened before (the log of
events so far), so a hook may succeed on one call and fail on the next. -/
structure hooks where
  set_vdd : List event → Nat → clk_vdd_class → Int → Int
  prepare : List event → Nat → Int
  enable : List event → Nat → Int
  set_rate : List event → Nat → Nat → Int

/-- The mutable part of the clock tree: per clock the members `rate`, `count` (the
enable count) and `prepare_count` (natural numbers, wrap-around is not modelled), the
rails, and the log of events. -/
structure clk_state where
  rate : Nat → Nat
  count : Nat → Nat
  prepare_count : Nat → Nat
  vdd : Nat → clk_vdd_class
  log : List event

/-- Appends events to the log. -/
def add_log (s : clk_state) (es : List event) : clk_state :=
  { s with log := s.log ++ es }

/-- The events of a `WARN(p, ...)`, or of a hook that is called only when `p` holds
(the hook is present): the event `e` when `p` holds, nothing otherwise. -/
def log_if (p : Prop) [Decidable p] (e : event) : List event :=
  if p then [e] else []

/-- The assignment `clk->count = n`. -/
def set_count (s : clk_state) (c : Nat) (n : Nat) : clk_state :=
  { s with count := fun x => if x = c then n else s.count x }

/-- The assignment `clk->prepare_count = n`. -/
def set_prepare_count (s : clk_state) (c : Nat) (n : Nat) : clk_state :=
  { s with prepare_count := fun x => if x = c then n else s.prepare_count x }

/-- Stores the rail `v` back as rail number `rail`. -/
def set_vdd_class (s : clk_state) (rail : Nat) (v : clk_vdd_class) : clk_state :=
  { s with vdd := fun x => if x = rail then v else s.vdd x }

/-- The events of one arbiter call on `rail`: the setter calls it made (each returned
the `rc` of the call) and the warning, if any. -/
def vdd_events (rail : Nat) (level : Int) (r : vdd_result) : List event :=
  r.calls.map (fun l => event.set_vdd rail l r.rc) ++
    (if r.warned then [event.warn_votes rail level] else [])

/-- Embedding of `clk_get_parent`: `NULL` for a null or error pointer and for a clock
without a `get_parent` hook, otherwise what the hook reports. -/
def clk_get_parent (cfg : Nat → clk) : clk_ref → clk_ref
  | .ptr c => if (cfg c).ops.get_parent then (cfg c).parent else .null
  | _ => .null

/-- Embedding of `vote_rate_vdd`. -/
def vote_rate_vdd (hw : hooks) (cfg : Nat → clk) (s : clk_state) (c : Nat) (rate : Nat) :
    Int × clk_state :=
  match (cfg c).vdd_class with
  | none => (0, s)
  | some rail =>
    let level := find_vdd_level (cfg c).fmax rate
    if level < 0 then (level, s)
    else
      let r := vote_vdd_level (hw.set_vdd s.log rail) (s.vdd rail) level
      (r.rc, add_log (set_vdd_class s rail r.vdd)
        (vdd_events rail level r ++ [event.vote rail level r.rc]))

/-- Embedding of `unvote_rate_vdd`; the result of `unvote_vdd_level` is dropped. -/
def unvote_rate_vdd (hw : hooks) (cfg : Nat → clk) (s : clk_state) (c : Nat) (rate : Nat) :
    clk_state :=
  match (cfg c).vdd_class with
  | none => s
  | some rail =>
    let level := find_vdd_level (cfg c).fmax rate
    if level < 0 then s
    else
      let r := unvote_vdd_level (hw.set_vdd s.log rail) (s.vdd rail) level
      add_log (set_vdd_class s rail r.vdd)
        (vdd_events rail level r ++ [event.unvote rail level r.rc])

/-- Embedding of `is_rate_valid`. -/
def is_rate_valid (cfg : Nat → clk) (c : Nat) (rate : Nat) : Bool :=
  match (cfg c).vdd_class with
  | none => true
  | some _ => decide (0 ≤ find_vdd_level (cfg c).fmax rate)

/-- Embedding of `clk_unprepare`.  The first argument bounds the depth of the recursion
over parents and dependencies; `none` means the bound was too small, or the clock is an
error pointer: the code reads `clk->dbg_name` of every non-null `clk` before its
`IS_ERR_OR_NULL` test. -/
def clk_unprepare (hw : hooks) (cfg : Nat → clk) : Nat → clk_state → clk_ref → Option clk_state
  | _, s, .null => some s
  | _, _, .err _ => none
  | 0, _, .ptr _ => none
  | fuel + 1, s, .ptr c =>
    if s.prepare_count c = 0 then
      some (add_log s [event.warn_unbalanced c])
    else if s.prepare_count c = 1 then
      let parent := clk_get_parent cfg (.ptr c)
      let s1 := add_log s (log_if (s.count c ≠ 0) (event.warn_enabled c))
      let s2 := add_log s1 (log_if ((cfg c).ops.unprepare = true) (event.unprepare c))
      let s3 := unvote_rate_vdd hw cfg s2 c (s2.rate c)
      match clk_unprepare hw cfg fuel s3 (cfg c).depends with
      | none => none
      | some s4 =>
        match clk_unprepare hw cfg fuel s4 parent with
        | none => none
        | some s5 => some (set_prepare_count s5 c (s5.prepare_count c - 1))
    else
      some (set_prepare_count s c (s.prepare_count c - 1))

/-- The code at label `err_prepare_depends` of `clk_prepare`. -/
def err_prepare_depends (hw : hooks) (cfg : Nat → clk) (fuel : Nat) (ret : Int)
    (s : clk_state) (parent : clk_ref) : Option (Int × clk_state) :=
  match clk_unprepare hw cfg fuel s parent with
  | none => none
  | some s1 => some (ret, s1)

/-- The code at label `err_vote_vdd` of `clk_prepare`, falling through to
`err_prepare_depends`. -/
def err_vote_vdd (hw : hooks) (cfg : Nat → clk) (fuel : Nat) (ret : Int)
    (s : clk_state) (c : Nat) (parent : clk_ref) : Option (Int × clk_state) :=
  match clk_unprepare hw cfg fuel s (cfg c).depends with
  | none => none
  | some s1 => err_prepare_depends hw cfg fuel ret s1 parent

/-- The code at label `err_prepare_clock` of `clk_prepare`, falling through to
`err_vote_vdd`. -/
def err_prepare_clock (hw : hooks) (cfg : Nat → clk) (fuel : Nat) (ret : Int)
    (s : clk_state) (c : Nat) (parent : clk_ref) : Option (Int × clk_state) :=
  err_vote_vdd hw cfg fuel ret (unvote_rate_vdd hw cfg s c (s.rate c)) c parent

/-- Embedding of `clk_prepare`, with the same depth bound as `clk_unprepare`. -/
def clk_prepare (hw : hooks) (cfg : Nat → clk) :
    Nat → clk_state → clk_ref → Option (Int × clk_state)
  | _, s, .null => some (0, s)
  | _, s, .err _ => some (-EINVAL, s)
  | 0, _, .ptr _ => none
  | fuel + 1, s, .ptr c =>
    if s.prepare_count c = 0 then
      let parent := clk_get_parent cfg (.ptr c)
      match clk_prepare hw cfg fuel s parent with
      | none => none
      | some (ret1, s1) =>
        if ret1 ≠ 0 then some (ret1, s1)
        else
          match clk_prepare hw cfg fuel s1 (cfg c).depends with
          | none => none
          | some (ret2, s2) =>
            if ret2 ≠ 0 then err_prepare_depends hw cfg fuel ret2 s2 parent
            else
              let v := vote_rate_vdd hw cfg s2 c (s2.rate c)
              if v.1 ≠ 0 then err_vote_vdd hw cfg fuel v.1 v.2 c parent
              else
                let ret4 := if (cfg c).ops.prepare = true then hw.prepare v.2.log c else v.1
                let s4 := add_log v.2
                  (log_if ((cfg c).ops.prepare = true) (event.prepare c ret4))
                if ret4 ≠ 0 then err_prepare_clock hw cfg fuel ret4 s4 c parent
                else some (ret4, set_prepare_count s4 c (s4.prepare_count c + 1))
    else
      some (0, set_prepare_count s c (s.prepare_count c + 1))

/-- Embedding of `clk_disable`, with a depth bound as in `clk_unprepare`; `none` also
for an error pointer, whose `dbg_name` the code reads before its `IS_ERR_OR_NULL`
test. -/
def clk_disable (cfg : Nat → clk) : Nat → clk_state → clk_ref → Option clk_state
  | _, s, .null => some s
  | _, _, .err _ => none
  | 0, _, .ptr _ => none
  | fuel + 1, s, .ptr c =>
    let s0 := add_log s (log_if (s.prepare_count c = 0) (event.warn_unprepared c))
    if s0.count c = 0 then
      some (add_log s0 [event.warn_unbalanced c])
    else if s0.count c = 1 then
      let parent := clk_get_parent cfg (.ptr c)
      let s1 := add_log s0 (log_if ((cfg c).ops.disable = true) (event.disable c))
      match clk_disable cfg fuel s1 (cfg c).depends with
      | none => none
      | some s2 =>
        match clk_disable cfg fuel s2 parent with
        | none => none
        | some s3 => some (set_count s3 c (s3.count c - 1))
    else
      some (set_count s0 c (s0.count c - 1))

/-- The code at label `err_enable_depends` of `clk_enable`. -/
def err_enable_depends (cfg : Nat → clk) (fuel : Nat) (ret : Int)
    (s : clk_state) (parent : clk_ref) : Option (Int × clk_state) :=
  match clk_disable cfg fuel s parent with
  | none => none
  | some s1 => some (ret, s1)

/-- The code at label `err_enable_clock` of `clk_enable`, falling through to
`err_enable_depends`. -/
def err_enable_clock (cfg : Nat → clk) (fuel : Nat) (ret : Int)
    (s : clk_state) (c : Nat) (parent : clk_ref) : Option (Int × clk_state) :=
  match clk_disable cfg fuel s (cfg c).depends with
  | none => none
  | some s1 => err_enable_depends cfg fuel ret s1 parent

/-- Embedding of `clk_enable`, with a depth bound as in `clk_unprepare`; `none` also
for an error pointer, whose `dbg_name` the code reads before its `IS_ERR` test (the
`return -EINVAL` behind that test is not reached). -/
def clk_enable (hw : hooks) (cfg : Nat → clk) :
    Nat → clk_state → clk_ref → Option (Int × clk_state)
  | _, s, .null => some (0, s)
  | _, _, .err _ => none
  | 0, _, .ptr _ => none
  | fuel + 1, s, .ptr c =>
    let s0 := add_log s (log_if (s.prepare_count c = 0) (event.warn_unprepared c))
    if s0.count c = 0 then
      let parent := clk_get_parent cfg (.ptr c)
      match clk_enable hw cfg fuel s0 parent with
      | none => none
      | some (ret1, s1) =>
        if ret1 ≠ 0 then some (ret1, s1)
        else
          match clk_enable hw cfg fuel s1 (cfg c).depends with
          | none => none
          | some (ret2, s2) =>
            if ret2 ≠ 0 then err_enable_depends cfg fuel ret2 s2 parent
            else
              let ret3 := if (cfg c).ops.enable = true then hw.enable s2.log c else ret2
              let s3 := add_log s2 (log_if ((cfg c).ops.enable = true) (event.enable c ret3))
              if ret3 ≠ 0 then err_enable_clock cfg fuel ret3 s3 c parent
              else some (0, set_count s3 c (s3.count c + 1))
    else
      some (0, set_count s0 c (s0.count c + 1))

/-! ## Specification vocabulary for clocks -/

/-- The rank of a clock reference under the height function `h`: 0 for `NULL` and error
pointers, one more than the height for a clock. -/
def rank (h : Nat → Nat) : clk_ref → Nat
  | .ptr c => h c + 1
  | _ => 0

/-- The parent and dependency links are acyclic: `h` assigns every clock a height
strictly above the heights of its parent and of its dependency. -/
def ranked (cfg : Nat → clk) (h : Nat → Nat) : Prop :=
  ∀ c, rank h (clk_get_parent cfg (.ptr c)) ≤ h c ∧ rank h (cfg c).depends ≤ h c

/-- No parent link and no dependency link of the tree is an error pointer. -/
def no_error_pointers (cfg : Nat → clk) : Prop :=
  ∀ c e, clk_get_parent cfg (.ptr c) ≠ .err e ∧ (cfg c).depends ≠ .err e

/-- The parent and dependency links followed from the reference reach valid clocks and
null pointers only, and end within `fuel` steps: the recursion of `clk_enable`,
`clk_disable` or `clk_unprepare` started at the reference with this depth bound meets
no error pointer and does not run out of depth. -/
def valid_below (cfg : Nat → clk) : Nat → clk_ref → Bool
  | _, .null => true
  | _, .err _ => false
  | 0, .ptr _ => false
  | fuel + 1, .ptr c =>
    valid_below cfg fuel (clk_get_parent cfg (.ptr c)) && valid_below cfg fuel (cfg c).depends

/-- The event records an `unvote_vdd_level` call that returned an error. -/
def unvote_failed : event → Bool
  | .unvote _ _ rc => rc != 0
  | _ => false

/-- No `unvote_vdd_level` call among the events returned an error. -/
def unvotes_ok (es : List event) : Prop :=
  ∀ e ∈ es, unvote_failed e = false

instance (es : List event) : Decidable (unvotes_ok es) := by
  unfold unvotes_ok; infer_instance

/-- The events logged between state `s` and the later state `t`. -/
def new_events (s t : clk_state) : List event :=
  t.log.drop s.log.length

/-- The log of `t` continues the log of `s`. -/
def log_extends (s t : clk_state) : Prop :=
  ∃ es, t.log = s.log ++ es

/-- Two states have the same vote tables: every rail has the same number of levels and
the same vote counts (the cached resolved levels may differ). -/
def same_votes (s t : clk_state) : Prop :=
  ∀ rail, (s.vdd rail).num_levels = (t.vdd rail).num_levels ∧
    (s.vdd rail).level_votes = (t.vdd rail).level_votes

/-- The unvotes among the events can be relied on to take their vote back: none of them
returned an error, or the rail setter never fails. -/
def rollback_ok (hw : hooks) (es : List event) : Prop :=
  unvotes_ok es ∨ ∀ log rail v l, hw.set_vdd log rail v l = 0

/-- The states after `n` calls of `clk_prepare` on `r` that all return 0; `none` when
one of them fails (or the depth bound is too small). -/
def prepare_times (hw : hooks) (cfg : Nat → clk) (fuel : Nat) :
    Nat → clk_state → clk_ref → Option clk_state
  | 0, s, _ => some s
  | n + 1, s, r =>
    match clk_prepare hw cfg fuel s r with
    | none => none
    | some (ret, s1) => if ret = 0 then prepare_times hw cfg fuel n s1 r else none

/-- The state after `n` calls of `clk_unprepare` on `r`; `none` when the depth bound is
too small or a call reads through an error pointer. -/
def unprepare_times (hw : hooks) (cfg : Nat → clk) (fuel : Nat) :
    Nat → clk_state → clk_ref → Option clk_state
  | 0, s, _ => some s
  | n + 1, s, r =>
    match clk_unprepare hw cfg fuel s r with
    | none => none
    | some s1 => unprepare_times hw cfg fuel n s1 r

/-- The states after `n` calls of `clk_enable` on `r` that all return 0; `none` when
one of them fails (or the depth bound is too small, or a call reads through an error
pointer). -/
def enable_times (hw : hooks) (cfg : Nat → clk) (fuel : Nat) :
    Nat → clk_state → clk_ref → Option clk_state
  | 0, s, _ => some s
  | n + 1, s, r =>
    match clk_enable hw cfg fuel s r with
    | none => none
    | some (ret, s1) => if ret = 0 then enable_times hw cfg fuel n s1 r else none

/-- The state after `n` calls of `clk_disable` on `r`; `none` when the depth bound is too
small or a call reads through an error pointer. -/
def disable_times (cfg : Nat → clk) (fuel : Nat) :
    Nat → clk_state → clk_ref → Option clk_state
  | 0, s, _ => some s
  | n + 1, s, r =>
    match clk_disable cfg fuel s r with
    | none => none
    | some s1 => disable_times cfg fuel n s1 r

/-! ## Rates -/

/-- The assignment `clk->rate = rate`. -/
def set_clk_rate (s : clk_state) (c : Nat) (rate : Nat) : clk_state :=
  { s with rate := fun x => if x = c then rate else s.rate x }

/-- The code of `clk_set_rate` behind its pointer test, for the valid clock `c`: the
return code and the state afterwards. -/
def clk_set_rate_clk (hw : hooks) (cfg : Nat → clk) (s : clk_state) (c : Nat) (rate : Nat) :
    Int × clk_state :=
  if (cfg c).ops.set_rate = false then (-ENOSYS, s)
  else if s.rate c = rate then (0, s)
  else if s.prepare_count c ≠ 0 then
    let start_rate := s.rate c
    let v := vote_rate_vdd hw cfg s c rate
    if v.1 ≠ 0 then (v.1, v.2)
    else
      let rc := hw.set_rate v.2.log c rate
      let s2 := add_log v.2 [event.set_rate c rate rc]
      if rc ≠ 0 then (rc, unvote_rate_vdd hw cfg s2 c rate)
      else (rc, set_clk_rate (unvote_rate_vdd hw cfg s2 c start_rate) c rate)
  else if is_rate_valid cfg c rate = true then
    let rc := hw.set_rate s.log c rate
    let s2 := add_log s [event.set_rate c rate rc]
    if rc ≠ 0 then (rc, s2) else (rc, set_clk_rate s2 c rate)
  else (-EINVAL, s)

/-- Embedding of `clk_set_rate`: the return code and the state afterwards; `none` for
an error pointer, whose `dbg_name` the code reads before its `IS_ERR_OR_NULL` test. -/
def clk_set_rate (hw : hooks) (cfg : Nat → clk) (s : clk_state) (r : clk_ref) (rate : Nat) :
    Option (Int × clk_state) :=
  match r with
  | .null => some (-EINVAL, s)
  | .err _ => none
  | .ptr c => some (clk_set_rate_clk hw cfg s c rate)

/-! ## More specification vocabulary -/

/-- Spec wording: the total number of votes on the rail (over its levels `0..N-1`). -/
def total_votes (v : clk_vdd_class) : Nat :=
  Finset.sum (Finset.range v.num_levels) (fun i => v.level_votes (i : Int))

/-- The clock `x` is the clock `r` itself or one of its ancestors through parent and
dependency links, found within the given depth (the depth bound of the recursive
operations). -/
def reaches (cfg : Nat → clk) : Nat → clk_ref → Nat → Bool
  | 0, _, _ => false
  | fuel + 1, .ptr c, x =>
    x == c || reaches cfg fuel (clk_get_parent cfg (.ptr c)) x ||
      reaches cfg fuel (cfg c).depends x
  | _ + 1, _, _ => false

/-- One client call of the prepare/enable protocol on a clock. -/
inductive clk_call where
  | prepare (c : Nat) : clk_call
  | unprepare (c : Nat) : clk_call
  | enable (c : Nat) : clk_call
  | disable (c : Nat) : clk_call
  deriving DecidableEq

/-- The state after one client call (the return code of `clk_prepare` and `clk_enable`
is not looked at); `none` when the depth bound is too small or the call reads through an
error pointer. -/
def run_call (hw : hooks) (cfg : Nat → clk) (fuel : Nat) (s : clk_state) :
    clk_call → Option clk_state
  | .prepare c => (clk_prepare hw cfg fuel s (.ptr c)).map Prod.snd
  | .unprepare c => clk_unprepare hw cfg fuel s (.ptr c)
  | .enable c => (clk_enable hw cfg fuel s (.ptr c)).map Prod.snd
  | .disable c => clk_disable cfg fuel s (.ptr c)

/-- The state after a sequence of client calls. -/
def run_calls (hw : hooks) (cfg : Nat → clk) (fuel : Nat) :
    List clk_call → clk_state → Option clk_state
  | [], s => some s
  | k :: ks, s =>
    match run_call hw cfg fuel s k with
    | none => none
    | some s1 => run_calls hw cfg fuel ks s1

/-- Spec wording: no clock is in the state EnabledNotPrepared. -/
def enabled_implies_prepared (s : clk_state) : Prop :=
  ∀ x, 0 < s.count x → 0 < s.prepare_count x

/-- The event is one of the warnings that defend the prepare-before-enable contract:
`clk_enable` or `clk_disable` of an unprepared clock, or the last `clk_unprepare` of a
clock that is still enabled. -/
def is_contract_warning : event → Bool
  | .warn_unprepared _ => true
  | .warn_enabled _ => true
  | _ => false

/-- None of the events is a contract warning. -/
def no_contract_warning (es : List event) : Prop :=
  ∀ e ∈ es, is_contract_warning e = false

instance (es : List event) : Decidable (no_contract_warning es) := by
  unfold no_contract_warning; infer_instance

/-! ## Pass-through operations -/

/-- The hooks that the pass-through operations forward to; each result may depend on
the log of events so far. -/
structure fwd_hooks where
  reset : List event → Nat → Nat → Int
  get_rate : List event → Nat → Nat
  round_rate : List event → Nat → Nat → Int
  set_parent : List event → Nat → clk_ref → Int

/-- Embedding of `clk_reset`; `action` is the `enum clk_reset_action` value. -/
def clk_reset (fw : fwd_hooks) (cfg : Nat → clk) (s : clk_state) (r : clk_ref)
    (action : Nat) : Int × clk_state :=
  match r with
  | .ptr c =>
    if (cfg c).ops.reset = false then (-ENOSYS, s)
    else (fw.reset s.log c action, add_log s [event.reset c action (fw.reset s.log c action)])
  | _ => (-EINVAL, s)

/-- Embedding of `clk_get_rate`. -/
def clk_get_rate (fw : fwd_hooks) (cfg : Nat → clk) (s : clk_state) (r : clk_ref) :
    Nat × clk_state :=
  match r with
  | .ptr c =>
    if (cfg c).ops.get_rate = false then (s.rate c, s)
    else (fw.get_rate s.log c, add_log s [event.get_rate c (fw.get_rate s.log c)])
  | _ => (0, s)

/-- Embedding of `clk_round_rate`. -/
def clk_round_rate (fw : fwd_hooks) (cfg : Nat → clk) (s : clk_state) (r : clk_ref)
    (rate : Nat) : Int × clk_state :=
  match r with
  | .ptr c =>
    if (cfg c).ops.round_rate = false then (-ENOSYS, s)
    else (fw.round_rate s.log c rate,
      add_log s [event.round_rate c rate (fw.round_rate s.log c rate)])
  | _ => (-EINVAL, s)

/-- Embedding of `clk_set_parent`, which has no `IS_ERR_OR_NULL` guard: on a null or
error pointer the read of `clk->ops` faults, which is the result `none`. -/
def clk_set_parent (fw : fwd_hooks) (cfg : Nat → clk) (s : clk_state) (r : clk_ref)
    (parent : clk_ref) : Option (Int × clk_state) :=
  match r with
  | .ptr c =>
    if (cfg c).ops.set_parent = false then some (0, s)
    else some (fw.set_parent s.log c parent,
      add_log s [event.set_parent c parent (fw.set_parent s.log c parent)])
  | _ => none

/-! ## Registration and handoff -/

/-- The list primitive `list_add(new, head)` of the kernel header `linux/list.h`, which
is not among the sources: it inserts the new entry right after the head, so the new
entry is the first one that a traversal from the head visits.  A list is written in
traversal order. -/
def list_add (new : Nat) (head : List Nat) : List Nat := new :: head

/-- The list primitive `list_add_tail(new, head)` of `linux/list.h`: it inserts the new
entry right before the head, so the new entry is the last one that a traversal
visits. -/
def list_add_tail (new : Nat) (head : List Nat) : List Nat := head ++ [new]

/-- The linkage members of the clocks: per clock the `children` list (its entries in
traversal order) and whether its `siblings` node is unlinked (`list_empty`). -/
structure link_state where
  children : Nat → List Nat
  siblings_empty : Nat → Bool

/-- One iteration of the first loop of `msm_clock_init`, for the table entry `r`.
With an error pointer as parent, `list_add` writes through it: the fault is the result
`none`. -/
def link_clk (cfg : Nat → clk) (ls : link_state) (r : clk_ref) : Option link_state :=
  match r, clk_get_parent cfg r with
  | .ptr c, .ptr p =>
    if ls.siblings_empty c = true then
      some { children := fun x => if x = p then list_add c (ls.children p) else ls.children x,
             siblings_empty := fun x => if x = c then false else ls.siblings_empty x }
    else some ls
  | .ptr c, .err _ => if ls.siblings_empty c = true then none else some ls
  | _, _ => some ls

/-- The first loop of `msm_clock_init` over the clocks of the table. -/
def msm_clock_init_link (cfg : Nat → clk) : List clk_ref → link_state → Option link_state
  | [], ls => some ls
  | r :: rest, ls =>
    match link_clk cfg ls r with
    | none => none
    | some ls1 => msm_clock_init_link cfg rest ls1

/-- The external collaborators of the boot-time handoff: the `handoff` hook of the
clock types and whether `kmalloc` returns memory; each result may depend on the log. -/
structure init_hooks where
  handoff : List event → Nat → handoff
  kmalloc : List event → Bool

/-- The clock state together with the static `handoff_list`: the clocks of its records
in traversal order. -/
structure init_state where
  clk : clk_state
  handoff_list : List Nat

/-- Modelled from the spec: `clk_prepare_enable` is an inline helper of the header
`linux/clk.h`, which is not among the sources.  The spec has the handoff acquire the
prepare-plus-enable reference and take no reference when that fails: `clk_prepare`,
then `clk_enable`, and `clk_unprepare` again when the enable fails. -/
def clk_prepare_enable (hw : hooks) (cfg : Nat → clk) (fuel : Nat) (s : clk_state)
    (r : clk_ref) : Option (Int × clk_state) :=
  match clk_prepare hw cfg fuel s r with
  | none => none
  | some (ret, s1) =>
    if ret ≠ 0 then some (ret, s1)
    else
      match clk_enable hw cfg fuel s1 r with
      | none => none
      | some (ret2, s2) =>
        if ret2 ≠ 0 then
          match clk_unprepare hw cfg fuel s2 r with
          | none => none
          | some s3 => some (ret2, s3)
        else some (ret2, s2)

/-- Modelled from the spec: `clk_disable_unprepare` is an inline helper of the header
`linux/clk.h`, which is not among the sources.  The spec has the cleanup call the
symmetric disable plus unprepare: `clk_disable`, then `clk_unprepare`. -/
def clk_disable_unprepare (hw : hooks) (cfg : Nat → clk) (fuel : Nat) (s : clk_state)
    (r : clk_ref) : Option clk_state :=
  match clk_disable cfg fuel s r with
  | none => none
  | some s1 => clk_unprepare hw cfg fuel s1 r

/-- Embedding of `__handoff_clk`.  `skip_handoff` is the flag mask
`CLKFLAG_SKIP_HANDOFF` (declared in a header that is not among the sources).  The first
argument bounds the depth of the recursion over parents; `none` means the bound was too
small, or the clock is an error pointer, which the code would read through.  The
`clk_get_rate` call feeds a debug message only. -/
def __handoff_clk (ih : init_hooks) (hw : hooks) (fw : fwd_hooks) (cfg : Nat → clk)
    (skip_handoff : Nat) : Nat → init_state → clk_ref → Option (handoff × init_state)
  | _, st, .null => some (.HANDOFF_ENABLED_CLK, st)
  | _, _, .err _ => none
  | 0, _, .ptr _ => none
  | fuel + 1, st, .ptr c =>
    if st.clk.count c ≠ 0 then some (.HANDOFF_ENABLED_CLK, st)
    else if (cfg c).ops.handoff = false ∨ Nat.land (cfg c).flags skip_handoff ≠ 0 then
      some (.HANDOFF_DISABLED_CLK, st)
    else
      let ret := ih.handoff st.clk.log c
      let st1 : init_state := { st with clk := add_log st.clk [event.handoff c ret] }
      if ret = .HANDOFF_ENABLED_CLK then
        match __handoff_clk ih hw fw cfg skip_handoff fuel st1 (clk_get_parent cfg (.ptr c)) with
        | none => none
        | some (ret2, st2) =>
          if ret2 = .HANDOFF_ENABLED_CLK then
            if ih.kmalloc st2.clk.log = false then
              some (.HANDOFF_DISABLED_CLK,
                { st2 with clk := add_log st2.clk [event.handoff_failed c (-ENOMEM)] })
            else
              match clk_prepare_enable hw cfg (fuel + 1) st2.clk (.ptr c) with
              | none => none
              | some (err, s3) =>
                if err ≠ 0 then
                  some (.HANDOFF_DISABLED_CLK,
                    { st2 with clk := add_log s3 [event.handoff_failed c err] })
                else
                  some (ret2, { clk := (clk_get_rate fw cfg s3 (.ptr c)).2,
                                handoff_list := list_add_tail c st2.handoff_list })
          else some (ret2, st2)
      else some (ret, st1)

/-- The loop of `clock_late_init` over the records of `handoff_list`: each clock gets
`clk_disable_unprepare` and its record is deleted. -/
def late_walk (hw : hooks) (cfg : Nat → clk) (fuel : Nat) :
    List Nat → clk_state → Option clk_state
  | [], s => some s
  | c :: rest, s =>
    match clk_disable_unprepare hw cfg fuel s (.ptr c) with
    | none => none
    | some s1 => late_walk hw cfg fuel rest s1

/-- Embedding of `clock_late_init`; `late_init` is the optional callback of the
`clock_init_data`, whose result is returned. -/
def clock_late_init (hw : hooks) (cfg : Nat → clk) (fuel : Nat)
    (late_init : Option (List event → Int)) (st : init_state) : Option (Int × init_state) :=
  match late_walk hw cfg fuel st.handoff_list st.clk with
  | none => none
  | some s =>
    some (match late_init with
          | none => 0
          | some f => f s.log,
      { clk := s, handoff_list := [] })

/-- The event belongs to the arbiter: a setter call, a vote or unvote record, or the
arbiter's warning. -/
def is_rail_event : event → Bool
  | .set_vdd _ _ _ => true
  | .vote _ _ _ => true
  | .unvote _ _ _ => true
  | .warn_votes _ _ => true
  | _ => false

/-- The reference to the first clock of a list, `NULL` for the empty list. -/
def head_ref : List Nat → clk_ref
  | [] => .null
  | p :: _ => .ptr p

/-- Spec wording: the list is a chain of clocks ending in a parentless root: the parent
of each clock is the next clock of the list, the last clock has no parent, and every
clock has a `handoff` hook, no skip-handoff flag and no dependency. -/
def is_chain (cfg : Nat → clk) (skip : Nat) : List Nat → Prop
  | [] => True
  | c :: rest =>
    clk_get_parent cfg (.ptr c) = head_ref rest ∧ (cfg c).ops.handoff = true ∧
      Nat.land (cfg c).flags skip = 0 ∧ (cfg c).depends = .null ∧ is_chain cfg skip rest

/-- The event is the `pr_err` of a failed handoff: the allocation or
`clk_prepare_enable` failed. -/
def is_handoff_failure : event → Bool
  | .handoff_failed _ _ => true
  | _ => false

/-- Spec wording: every allocation and every `clk_prepare_enable` of the handoff
succeeded: no handoff failure is among the events. -/
def no_handoff_failure (es : List event) : Prop :=
  ∀ e ∈ es, is_handoff_failure e = false

instance (es : List event) : Decidable (no_handoff_failure es) := by
  unfold no_handoff_failure; infer_instance

/-- The level that the `fmax` table of clock `c` gives the clock's stored rate. -/
def level_of (cfg : Nat → clk) (s : clk_state) (c : Nat) : Int :=
  find_vdd_level (cfg c).fmax (s.rate c)

/-- Spec wording (rail adequacy), for the clocks that count as holding a vote: each of
them that declares a rail has its stored rate mapped to a level of that rail; on every
rail and level the vote count is at least the number of those clocks on that rail whose
rate maps to that level (every duplicate-free list of such clocks is at most that
long); and every rail's `cur_level` is the resolved level of its vote table. -/
def adequate (cfg : Nat → clk) (holds : Nat → Prop) (s : clk_state) : Prop :=
  (∀ c rail, holds c → (cfg c).vdd_class = some rail →
    0 ≤ level_of cfg s c ∧ level_of cfg s c < ((s.vdd rail).num_levels : Int)) ∧
  (∀ rail (L : Int) (cs : List Nat), cs.Nodup →
    (∀ c ∈ cs, holds c ∧ (cfg c).vdd_class = some rail ∧ level_of cfg s c = L) →
    cs.length ≤ (s.vdd rail).level_votes L) ∧
  (∀ rail, is_resolved_level (s.vdd rail) (s.vdd rail).cur_level)

/-- The clocks with a non-zero prepare count, apart from the clocks of `X` (the clocks
that are in the middle of their last `clk_unprepare`). -/
def prepared_outside (X : List Nat) (s : clk_state) : Nat → Prop :=
  fun c => s.prepare_count c ≠ 0 ∧ c ∉ X

/-- Below every clock with a non-zero prepare count there are valid clocks and null
pointers only, within the clock's height `h`: the recursion of `clk_unprepare` on a
prepared clock meets no error pointer. -/
def prepared_valid (cfg : Nat → clk) (h : Nat → Nat) (s : clk_state) : Prop :=
  ∀ x, s.prepare_count x ≠ 0 → valid_below cfg (h x + 1) (.ptr x) = true

/-- A call of the prepare and rate interface on a clock. -/
inductive rate_call where
  | prepare (c : Nat) : rate_call
  | unprepare (c : Nat) : rate_call
  | set_rate (c : Nat) (rate : Nat) : rate_call
  deriving DecidableEq

/-- The clock a call is made on. -/
def rate_call_clock : rate_call → Nat
  | .prepare c => c
  | .unprepare c => c
  | .set_rate c _ => c

/-- The state after one call, whatever it returns; `none` when the depth bound was too
small or the call read through an error pointer. -/
def run_rate_call (hw : hooks) (cfg : Nat → clk) (fuel : Nat) (s : clk_state) :
    rate_call → Option clk_state
  | .prepare c => (clk_prepare hw cfg fuel s (.ptr c)).map Prod.snd
  | .unprepare c => clk_unprepare hw cfg fuel s (.ptr c)
  | .set_rate c rate => (clk_set_rate hw cfg s (.ptr c) rate).map Prod.snd

/-- The state after a sequence of calls. -/
def run_rate_calls (hw : hooks) (cfg : Nat → clk) (fuel : Nat) :
    List rate_call → clk_state → Option clk_state
  | [], s => some s
  | k :: ks, s =>
    match run_rate_call hw cfg fuel s k with
    | none => none
    | some s1 => run_rate_calls hw cfg fuel ks s1

/-- Spec wording (ancestor liveness): every clock's count is its number of outstanding
direct client enables plus the number of active clocks that name it as parent plus the
number of active clocks that name it as dependency.  The number of clocks with a
property is the length of a duplicate-free list of exactly those clocks. -/
def counted_links (cfg : Nat → clk) (active : Nat → Prop) (cnt direct : Nat → Nat) : Prop :=
  ∀ x, ∃ ps ds : List Nat,
    ps.Nodup ∧ (∀ y, y ∈ ps ↔ active y ∧ clk_get_parent cfg (.ptr y) = .ptr x) ∧
    ds.Nodup ∧ (∀ y, y ∈ ds ↔ active y ∧ (cfg y).depends = .ptr x) ∧
    cnt x = direct x + ps.length + ds.length

/-- One more outstanding enable on the referenced clock; nothing for `NULL` and error
pointers. -/
def bump_ref (d : Nat → Nat) : clk_ref → Nat → Nat
  | .ptr c => fun x => if x = c then d x + 1 else d x
  | _ => d

/-- One outstanding enable less on the referenced clock. -/
def drop_ref (d : Nat → Nat) : clk_ref → Nat → Nat
  | .ptr c => fun x => if x = c then d x - 1 else d x
  | _ => d

/-- A client's call of the enable interface on a clock. -/
inductive enable_call where
  | enable (c : Nat) : enable_call
  | disable (c : Nat) : enable_call
  deriving DecidableEq

/-- The clock a call is made on. -/
def enable_call_clock : enable_call → Nat
  | .enable c => c
  | .disable c => c

/-- The clock state together with the clients' bookkeeping: for every clock, the number
of `clk_enable` calls by clients that returned 0 minus the number of `clk_disable` calls
by clients. -/
structure client_state where
  clk : clk_state
  direct : Nat → Nat

/-- The state after one client call; a `clk_enable` that fails leaves the clients'
bookkeeping as it was; `none` when the depth bound is too small or the call reads
through an error pointer. -/
def run_enable_call (hw : hooks) (cfg : Nat → clk) (fuel : Nat) (st : client_state) :
    enable_call → Option client_state
  | .enable c =>
    match clk_enable hw cfg fuel st.clk (.ptr c) with
    | none => none
    | some (rc, s1) =>
      some { clk := s1, direct := if rc = 0 then bump_ref st.direct (.ptr c) else st.direct }
  | .disable c =>
    match clk_disable cfg fuel st.clk (.ptr c) with
    | none => none
    | some s1 => some { clk := s1, direct := drop_ref st.direct (.ptr c) }

/-- The state after a sequence of client calls. -/
def run_enable_calls (hw : hooks) (cfg : Nat → clk) (fuel : Nat) :
    List enable_call → client_state → Option client_state
  | [], st => some st
  | k :: ks, st =>
    match run_enable_call hw cfg fuel st k with
    | none => none
    | some st1 => run_enable_calls hw cfg fuel ks st1

/-- No call of the sequence disables a clock that has no outstanding direct enable at
that point: no client disables a clock more often than it has successfully enabled
it. -/
def balanced (hw : hooks) (cfg : Nat → clk) (fuel : Nat) :
    List enable_call → client_state → Bool
  | [], _ => true
  | k :: ks, st =>
    (match k with
      | .disable c => st.direct c != 0
      | .enable _ => true) &&
    (match run_enable_call hw cfg fuel st k with
      | none => true
      | some st1 => balanced hw cfg fuel ks st1)

/-- The event is a call of the prepare, unprepare, enable or disable hook of clock
`x`. -/
def is_hook_of (x : Nat) : event → Bool
  | .prepare c _ => c == x
  | .unprepare c => c == x
  | .enable c _ => c == x
  | .disable c => c == x
  | _ => false

/-- The calls of the prepare, unprepare, enable and disable hooks of the clocks `xs`
among the events, in the order in which they were made. -/
def hooks_of (xs : List Nat) (es : List event) : List event :=
  es.filter (fun e => xs.any (fun x => is_hook_of x e))

/-- Spec wording: the clock has the prepare, unprepare, enable and disable hooks. -/
def has_hooks (cfg : Nat → clk) (c : Nat) : Prop :=
  (cfg c).ops.prepare = true ∧ (cfg c).ops.unprepare = true ∧
    (cfg c).ops.enable = true ∧ (cfg c).ops.disable = true

instance (cfg : Nat → clk) (c : Nat) : Decidable (has_hooks cfg c) := by
  unfold has_hooks; infer_instance

/-! ## Example tree -/

/-- A clock type without any hook. -/
def no_ops : clk_ops :=
  { prepare := false, unprepare := false, enable := false, disable := false,
    set_rate := false, get_rate := false, round_rate := false, set_parent := false,
    get_parent := false, reset := false, handoff := false }

/-- Example tree: clock 1 is a child whose parent is clock 0, on rail 0 with the `fmax`
table `[10_000_000, 50_000_000]` and with all the hooks of the prepare/enable protocol;
every other clock is a rail-less, parentless root with the same hooks. -/
def demo_cfg : Nat → clk := fun c =>
  if c = 1 then
    { flags := 0,
      ops := { no_ops with prepare := true, unprepare := true, enable := true,
                           disable := true, set_rate := true, get_parent := true },
      depends := .null, vdd_class := some 0, fmax := [10000000, 50000000],
      parent := .ptr 0 }
  else
    { flags := 0,
      ops := { no_ops with prepare := true, unprepare := true, enable := true,
                           disable := true, set_rate := true },
      depends := .null, vdd_class := none, fmax := [], parent := .null }

/-- Example state: every clock idle at the given rate, every rail with two levels, no
votes and resolved level 0, empty log. -/
def demo_state (rate : Nat) : clk_state :=
  { rate := fun _ => rate, count := fun _ => 0, prepare_count := fun _ => 0,
    vdd := fun _ => rail_of [0, 0] 0, log := [] }

/-- Example hooks: the setter returns `set_low` when asked for level 0 and succeeds
otherwise; the prepare and enable hooks of clock 1 return the given codes, all other
hooks succeed. -/
def demo_hooks (set_low prepare1 enable1 : Int) : hooks :=
  { set_vdd := fun _ _ _ l => if l = 0 then set_low else 0,
    prepare := fun _ c => if c = 1 then prepare1 else 0,
    enable := fun _ c => if c = 1 then enable1 else 0,
    set_rate := fun _ _ _ => 0 }

/-- Example tree with a shared ancestor: clock 2 has parent 0 and dependency 1, clock 1
has parent 0, and every other clock is a parentless root; no rails and no hooks other
than `get_parent`. -/
def diamond_cfg : Nat → clk := fun c =>
  if c = 2 then
    { flags := 0, ops := { no_ops with get_parent := true }, depends := .ptr 1,
      vdd_class := none, fmax := [], parent := .ptr 0 }
  else if c = 1 then
    { flags := 0, ops := { no_ops with get_parent := true }, depends := .null,
      vdd_class := none, fmax := [], parent := .ptr 0 }
  else
    { flags := 0, ops := no_ops, depends := .null, vdd_class := none, fmax := [],
      parent := .null }

/-- Example state for rate changes: clocks 0 and 1 (the root and the child of the
example tree) prepared once, every clock at the given rate, every rail with the given
vote counts and resolved level, empty log. -/
def demo_prepared (rate : Nat) (votes : List Nat) (cur : Int) : clk_state :=
  { rate := fun _ => rate, count := fun _ => 0,
    prepare_count := fun x => if x = 0 ∨ x = 1 then 1 else 0,
    vdd := fun _ => rail_of votes cur, log := [] }

/-- Example hooks for rate changes: the setter returns `set_low` when asked for level 0
and succeeds otherwise; the rate-set hook returns `set_rate1`; the other hooks
succeed. -/
def rate_hooks (set_low set_rate1 : Int) : hooks :=
  { set_vdd := fun _ _ _ l => if l = 0 then set_low else 0,
    prepare := fun _ _ => 0,
    enable := fun _ _ => 0,
    set_rate := fun _ _ _ => set_rate1 }

/-- Example state of the end-to-end scenario: every clock idle at the given rate, every
rail with two levels, no votes and the given cached level, empty log. -/
def fresh_state (rate : Nat) (cur : Int) : clk_state :=
  { rate := fun _ => rate, count := fun _ => 0, prepare_count := fun _ => 0,
    vdd := fun _ => rail_of [0, 0] cur, log := [] }

/-- The clock a call is made on. -/
def call_clock : clk_call → Nat
  | .prepare c => c
  | .unprepare c => c
  | .enable c => c
  | .disable c => c

/-- The clocks of a table: its entries that point to a clock, in table order. -/
def tbl_clocks (table : List clk_ref) : List Nat :=
  table.filterMap (fun r => match r with
    | .ptr c => some c
    | _ => none)

/-- Spec wording: the clocks of the table whose parent is `p`, each once, ordered from
the latest table entry to the earliest (a repeated clock counts where it occurs
first). -/
def linked_children (cfg : Nat → clk) (table : List clk_ref) (p : Nat) : List Nat :=
  ((tbl_clocks table).reverse.filter
    (fun c => decide (clk_get_parent cfg (.ptr c) = .ptr p))).dedup

/-- Spec wording: each clock appears at most once in at most one children list, and a
clock that is in a children list has its `siblings` node linked. -/
def links_wf (ls : link_state) : Prop :=
  (∀ p, (ls.children p).Nodup) ∧
  (∀ p c, c ∈ ls.children p → ls.siblings_empty c = false) ∧
  (∀ c p q, c ∈ ls.children p → c ∈ ls.children q → p = q)

/-- Example linkage state: no clock is linked and every children list is empty. -/
def no_links : link_state :=
  { children := fun _ => [], siblings_empty := fun _ => true }

/-- Example tree for the handoff: the example tree with a `handoff` hook on every
clock. -/
def handoff_cfg : Nat → clk := fun c =>
  { demo_cfg c with ops := { (demo_cfg c).ops with handoff := true } }

/-- Example handoff hooks: the `handoff` hook of clock 1 reports `running1`, every other
clock is reported running; `kmalloc` succeeds or fails as given. -/
def demo_init_hooks (running1 : handoff) (kmalloc_ok : Bool) : init_hooks :=
  { handoff := fun _ c => if c = 1 then running1 else .HANDOFF_ENABLED_CLK,
    kmalloc := fun _ => kmalloc_ok }

/-- Example pass-through hooks: every hook returns 0. -/
def no_fwd : fwd_hooks :=
  { reset := fun _ _ _ => 0, get_rate := fun _ _ => 0, round_rate := fun _ _ _ => 0,
    set_parent := fun _ _ _ => 0 }

/-- Example boot state: every clock idle at the given rate, no handoff record. -/
def boot_state (rate : Nat) : init_state :=
  { clk := demo_state rate, handoff_list := [] }

/-- Example tree with hooks: clock 2 has the parent 1 and the dependency 0, and every
clock has the four hooks.  With `link`, clock 0 is also the parent of clock 1, so the
dependency of clock 2 is an ancestor of its parent. -/
def nest_cfg (link : Bool) : Nat → clk := fun c =>
  if c = 2 then
    { flags := 0,
      ops := { no_ops with prepare := true, unprepare := true, enable := true,
                           disable := true, get_parent := true },
      depends := .ptr 0, vdd_class := none, fmax := [], parent := .ptr 1 }
  else if c = 1 then
    { flags := 0,
      ops := { no_ops with prepare := true, unprepare := true, enable := true,
                           disable := true, get_parent := link },
      depends := .null, vdd_class := none, fmax := [], parent := .ptr 0 }
  else
    { flags := 0,
      ops := { no_ops with prepare := true, unprepare := true, enable := true,
                           disable := true },
      depends := .null, vdd_class := none, fmax := [], parent := .null }

/-! ## Theorems: rails -/

theorem scan_down_spec (votes : Int → Nat) (n : Nat) :
    0 ≤ scan_down votes n ∧ scan_down votes n ≤ (n : Int) ∧
    (scan_down votes n ≠ 0 → votes (scan_down votes n) ≠ 0) ∧
    ∀ j : Nat, scan_down votes n < (j : Int) → j ≤ n → votes j = 0 := by
  induction n with
  | zero =>
    refine ⟨by simp [scan_down], by simp [scan_down], by simp [scan_down], ?_⟩
    intro j h1 h2
    simp [scan_down] at h1
    omega
  | succ n ih =>
    obtain ⟨h0, hle, hnz, hz⟩ := ih
    by_cases hv : votes ((n : Int) + 1) ≠ 0
    · have e : scan_down votes (n + 1) = (n : Int) + 1 := by simp [scan_down, hv]
      rw [e]
      refine ⟨by omega, by push_cast; omega, fun _ => hv, ?_⟩
      intro j h1 h2
      omega
    · have e : scan_down votes (n + 1) = scan_down votes n := by simp [scan_down, hv]
      rw [e]
      refine ⟨h0, by push_cast; omega, hnz, ?_⟩
      intro j h1 h2
      by_cases hj : j = n + 1
      · subst hj
        push_cast
        simpa using hv
      · exact hz j h1 (by omega)

theorem update_vdd_loop_resolved (v : clk_vdd_class) (hN : 1 ≤ v.num_levels) :
    is_resolved_level v (update_vdd_loop v.level_votes ((v.num_levels : Int) - 1)) := by
  unfold update_vdd_loop
  by_cases hpos : 0 < (v.num_levels : Int) - 1
  · rw [if_pos hpos]
    have hn : (((v.num_levels : Int) - 1).toNat : Int) = (v.num_levels : Int) - 1 := by omega
    obtain ⟨h0, hle, hnz, hz⟩ := scan_down_spec v.level_votes ((v.num_levels : Int) - 1).toNat
    generalize scan_down v.level_votes ((v.num_levels : Int) - 1).toNat = L at h0 hle hnz hz
    by_cases hL : v.level_votes L ≠ 0
    · left
      refine ⟨h0, by omega, hL, ?_⟩
      intro j hj hlt
      exact hz j hlt (by omega)
    · have hL0 : L = 0 := by
        by_contra hne
        exact hL (hnz hne)
      right
      refine ⟨hL0, ?_⟩
      intro j hj
      by_cases hj0 : j = 0
      · subst hj0
        subst hL0
        simpa using hL
      · exact hz j (by omega) (by omega)
  · rw [if_neg hpos]
    have hN1 : v.num_levels = 1 := by omega
    have e : (v.num_levels : Int) - 1 = 0 := by omega
    rw [e]
    by_cases hL : v.level_votes 0 ≠ 0
    · left
      refine ⟨le_refl _, by omega, hL, ?_⟩
      intro j hj hlt
      omega
    · right
      refine ⟨rfl, ?_⟩
      intro j hj
      have hj0 : j = 0 := by omega
      subst hj0
      simpa using hL

theorem update_vdd_resolved (set_vdd : clk_vdd_class → Int → Int) (v : clk_vdd_class)
    (hN : 1 ≤ v.num_levels) (h : (update_vdd set_vdd v).rc = 0) :
    is_resolved_level (update_vdd set_vdd v).vdd (update_vdd set_vdd v).vdd.cur_level := by
  have hres := update_vdd_loop_resolved v hN
  unfold update_vdd at h ⊢
  simp only at h ⊢
  split
  · next heq => simpa [← heq] using hres
  · split
    · exact hres
    · next hne hrc =>
      rw [if_neg hne, if_neg hrc] at h
      exact absurd h hrc

theorem update_vdd_votes (set_vdd : clk_vdd_class → Int → Int) (v : clk_vdd_class) :
    (update_vdd set_vdd v).vdd.level_votes = v.level_votes ∧
    (update_vdd set_vdd v).vdd.num_levels = v.num_levels ∧
    ((update_vdd set_vdd v).rc ≠ 0 → (update_vdd set_vdd v).vdd = v) := by
  unfold update_vdd
  simp only
  split
  · simp
  · split
    · next hrc => simp [hrc]
    · simp

theorem set_votes_set_votes (v : clk_vdd_class) (level : Int) (n : Nat) :
    set_votes (set_votes v level n) level (v.level_votes level) = v := by
  cases v with
  | mk N votes cur =>
    simp only [set_votes]
    congr 1
    funext i
    by_cases h : i = level
    · simp [h]
    · simp [h]

theorem set_votes_level_votes (v : clk_vdd_class) (level : Int) (n : Nat) (i : Int) :
    (set_votes v level n).level_votes i = if i = level then n else v.level_votes i := rfl

theorem set_votes_num_levels (v : clk_vdd_class) (level : Int) (n : Nat) :
    (set_votes v level n).num_levels = v.num_levels := rfl

theorem set_votes_cur_level (v : clk_vdd_class) (level : Int) (n : Nat) :
    (set_votes v level n).cur_level = v.cur_level := rfl

/-- The two ways an in-range `vote_vdd_level` ends: `update_vdd` succeeded and its
outcome is returned, or it failed and the increment is taken back. -/
theorem vote_vdd_level_cases (set_vdd : clk_vdd_class → Int → Int) (v : clk_vdd_class)
    (level : Int) (hlt : level < (v.num_levels : Int)) :
    ((update_vdd set_vdd (set_votes v level (v.level_votes level + 1))).rc = 0 ∧
      vote_vdd_level set_vdd v level =
        update_vdd set_vdd (set_votes v level (v.level_votes level + 1))) ∨
    ((update_vdd set_vdd (set_votes v level (v.level_votes level + 1))).rc ≠ 0 ∧
      (vote_vdd_level set_vdd v level).vdd = v ∧
      (vote_vdd_level set_vdd v level).rc =
        (update_vdd set_vdd (set_votes v level (v.level_votes level + 1))).rc ∧
      (vote_vdd_level set_vdd v level).calls =
        (update_vdd set_vdd (set_votes v level (v.level_votes level + 1))).calls) := by
  have hge : ¬ level ≥ (v.num_levels : Int) := by omega
  by_cases hrc : (update_vdd set_vdd (set_votes v level (v.level_votes level + 1))).rc = 0
  · left
    refine ⟨hrc, ?_⟩
    simp [vote_vdd_level, hge, hrc]
  · right
    have hsame := (update_vdd_votes set_vdd (set_votes v level (v.level_votes level + 1))).2.2 hrc
    refine ⟨hrc, ?_, ?_, ?_⟩
    · simp only [vote_vdd_level, if_neg hge, hrc, ne_eq, not_false_eq_true, if_true]
      rw [hsame]
      have e : (set_votes v level (v.level_votes level + 1)).level_votes level - 1 =
          v.level_votes level := by simp [set_votes]
      rw [e]
      exact set_votes_set_votes v level _
    · simp [vote_vdd_level, hge, hrc]
    · simp [vote_vdd_level, hge, hrc]

/-- The two ways an in-range `unvote_vdd_level` of a non-zero counter ends. -/
theorem unvote_vdd_level_cases (set_vdd : clk_vdd_class → Int → Int) (v : clk_vdd_class)
    (level : Int) (hlt : level < (v.num_levels : Int)) (hnz : v.level_votes level ≠ 0) :
    ((update_vdd set_vdd (set_votes v level (v.level_votes level - 1))).rc = 0 ∧
      unvote_vdd_level set_vdd v level =
        update_vdd set_vdd (set_votes v level (v.level_votes level - 1))) ∨
    ((update_vdd set_vdd (set_votes v level (v.level_votes level - 1))).rc ≠ 0 ∧
      (unvote_vdd_level set_vdd v level).vdd = v ∧
      (unvote_vdd_level set_vdd v level).rc =
        (update_vdd set_vdd (set_votes v level (v.level_votes level - 1))).rc ∧
      (unvote_vdd_level set_vdd v level).calls =
        (update_vdd set_vdd (set_votes v level (v.level_votes level - 1))).calls) := by
  have hge : ¬ level ≥ (v.num_levels : Int) := by omega
  by_cases hrc : (update_vdd set_vdd (set_votes v level (v.level_votes level - 1))).rc = 0
  · left
    refine ⟨hrc, ?_⟩
    simp [unvote_vdd_level, hge, hnz, hrc]
  · right
    have hsame := (update_vdd_votes set_vdd (set_votes v level (v.level_votes level - 1))).2.2 hrc
    refine ⟨hrc, ?_, ?_, ?_⟩
    · simp only [unvote_vdd_level, if_neg hge, if_neg hnz, hrc, ne_eq, not_false_eq_true,
        if_true]
      rw [hsame]
      have e : (set_votes v level (v.level_votes level - 1)).level_votes level + 1 =
          v.level_votes level := by
        simp only [set_votes, if_true]
        omega
      rw [e]
      exact set_votes_set_votes v level _
    · simp [unvote_vdd_level, hge, hnz, hrc]
    · simp [unvote_vdd_level, hge, hnz, hrc]

/-- Out-of-range levels at or above `num_levels` are rejected by both operations with
`-EINVAL`, without a setter call and without touching the rail. -/
theorem vdd_level_above_range (set_vdd : clk_vdd_class → Int → Int) (v : clk_vdd_class)
    (level : Int) (hge : level ≥ (v.num_levels : Int)) :
    vote_vdd_level set_vdd v level = { rc := -EINVAL, vdd := v, calls := [], warned := false } ∧
    unvote_vdd_level set_vdd v level =
      { rc := -EINVAL, vdd := v, calls := [], warned := false } := by
  simp [vote_vdd_level, unvote_vdd_level, hge]

/-- C1: on a rail with at least one level whose cached `cur_level` is the highest level
index with a non-zero vote count (or 0 when no level has votes), the same holds after
any single `vote_vdd_level` or `unvote_vdd_level` call, for every level passed and
every behaviour of the setter. -/
theorem vote_unvote_keep_resolved_level (set_vdd : clk_vdd_class → Int → Int)
    (v : clk_vdd_class) (level : Int) (hN : 1 ≤ v.num_levels)
    (hinv : is_resolved_level v v.cur_level) :
    is_resolved_level (vote_vdd_level set_vdd v level).vdd
        (vote_vdd_level set_vdd v level).vdd.cur_level ∧
    is_resolved_level (unvote_vdd_level set_vdd v level).vdd
        (unvote_vdd_level set_vdd v level).vdd.cur_level := by
  by_cases hge : level ≥ (v.num_levels : Int)
  · obtain ⟨h1, h2⟩ := vdd_level_above_range set_vdd v level hge
    rw [h1, h2]
    exact ⟨hinv, hinv⟩
  · have hlt : level < (v.num_levels : Int) := by omega
    constructor
    · rcases vote_vdd_level_cases set_vdd v level hlt with ⟨hrc, e⟩ | ⟨_, e, _, _⟩
      · rw [e]
        exact update_vdd_resolved set_vdd _ (by rw [set_votes_num_levels]; exact hN) hrc
      · rw [e]
        exact hinv
    · by_cases hz : v.level_votes level = 0
      · have e : unvote_vdd_level set_vdd v level =
            { rc := 0, vdd := v, calls := [], warned := true } := by
          simp [unvote_vdd_level, hge, hz]
        rw [e]
        exact hinv
      · rcases unvote_vdd_level_cases set_vdd v level hlt hz with ⟨hrc, e⟩ | ⟨_, e, _, _⟩
        · rw [e]
          exact update_vdd_resolved set_vdd _ (by rw [set_votes_num_levels]; exact hN) hrc
        · rw [e]
          exact hinv

/-- Witness of C1: a three-level rail with one vote on level 1, voted and unvoted at
level 2 with a setter that always fails. -/
theorem vote_unvote_keep_resolved_level_witness :
    is_resolved_level (vote_vdd_level (fun _ _ => -5) (rail_of [0, 1, 0] 1) 2).vdd
        (vote_vdd_level (fun _ _ => -5) (rail_of [0, 1, 0] 1) 2).vdd.cur_level ∧
    is_resolved_level (unvote_vdd_level (fun _ _ => -5) (rail_of [0, 1, 0] 1) 2).vdd
        (unvote_vdd_level (fun _ _ => -5) (rail_of [0, 1, 0] 1) 2).vdd.cur_level :=
  vote_unvote_keep_resolved_level (fun _ _ => -5) (rail_of [0, 1, 0] 1) 2 (by decide)
    (by decide)

theorem find_vdd_loop_spec (rate : Nat) (fmax : List Nat) (level : Nat) :
    level ≤ find_vdd_loop rate fmax level ∧
    find_vdd_loop rate fmax level ≤ level + fmax.length ∧
    (∀ j, j < find_vdd_loop rate fmax level - level → fmax.getD j 0 < rate) ∧
    (find_vdd_loop rate fmax level < level + fmax.length →
      rate ≤ fmax.getD (find_vdd_loop rate fmax level - level) 0) := by
  induction fmax generalizing level with
  | nil => simp [find_vdd_loop]
  | cons f rest ih =>
    by_cases hle : rate ≤ f
    · simp [find_vdd_loop, hle]
    · have e : find_vdd_loop rate (f :: rest) level = find_vdd_loop rate rest (level + 1) := by
        simp [find_vdd_loop, hle]
      rw [e]
      obtain ⟨h1, h2, h3, h4⟩ := ih (level + 1)
      refine ⟨by omega, by simp only [List.length_cons]; omega, ?_, ?_⟩
      · intro j hj
        cases j with
        | zero => simp only [List.getD_cons_zero]; omega
        | succ j =>
          simp only [List.getD_cons_succ]
          exact h3 j (by omega)
      · intro hlt
        have hlt2 : find_vdd_loop rate rest (level + 1) < level + 1 + rest.length := by
          simp only [List.length_cons] at hlt
          omega
        have e2 : find_vdd_loop rate rest (level + 1) - level =
            (find_vdd_loop rate rest (level + 1) - (level + 1)) + 1 := by omega
        rw [e2, List.getD_cons_succ]
        exact h4 hlt2

/-- C2: `find_vdd_level` returns the smallest index `i < num_fmax` with
`rate <= fmax[i]`; it returns `-EINVAL` exactly when no entry of the table is `>= rate`,
in particular for every rate when the table is empty; and it returns nothing else. -/
theorem find_vdd_level_spec (fmax : List Nat) (rate : Nat) :
    (∀ i : Nat, find_vdd_level fmax rate = (i : Int) ↔
      (i < fmax.length ∧ rate ≤ fmax.getD i 0 ∧ ∀ j, j < i → fmax.getD j 0 < rate)) ∧
    (find_vdd_level fmax rate = -EINVAL ↔ ∀ j, j < fmax.length → fmax.getD j 0 < rate) ∧
    (fmax = [] → find_vdd_level fmax rate = -EINVAL) ∧
    (find_vdd_level fmax rate = -EINVAL ∨
      ∃ i : Nat, i < fmax.length ∧ find_vdd_level fmax rate = (i : Int)) := by
  obtain ⟨_, h2, h3, h4⟩ := find_vdd_loop_spec rate fmax 0
  simp only [Nat.sub_zero, Nat.zero_add] at h2 h3 h4
  have hE : (-EINVAL : Int) < 0 := by decide
  by_cases hfull : find_vdd_loop rate fmax 0 = fmax.length
  · have e : find_vdd_level fmax rate = -EINVAL := by simp [find_vdd_level, hfull]
    have hall : ∀ j, j < fmax.length → fmax.getD j 0 < rate := fun j hj => h3 j (by omega)
    refine ⟨?_, ?_, fun _ => e, Or.inl e⟩
    · intro i
      rw [e]
      constructor
      · intro h
        omega
      · rintro ⟨hi, hle, _⟩
        have := hall i hi
        omega
    · rw [e]
      exact ⟨fun _ => hall, fun _ => rfl⟩
  · have hlt : find_vdd_loop rate fmax 0 < fmax.length := by omega
    have e : find_vdd_level fmax rate = (find_vdd_loop rate fmax 0 : Int) := by
      simp [find_vdd_level, hfull]
    refine ⟨?_, ?_, ?_, Or.inr ⟨_, hlt, e⟩⟩
    · intro i
      rw [e]
      constructor
      · intro h
        have hi : find_vdd_loop rate fmax 0 = i := by exact_mod_cast h
        subst hi
        exact ⟨hlt, h4 hlt, h3⟩
      · rintro ⟨hi, hle, hmin⟩
        have h5 := h4 hlt
        have hi2 : find_vdd_loop rate fmax 0 = i := by
          rcases Nat.lt_trichotomy (find_vdd_loop rate fmax 0) i with h | h | h
          · have := hmin _ h
            omega
          · exact h
          · have := h3 i h
            omega
        rw [hi2]
    · rw [e]
      constructor
      · intro h
        omega
      · intro hall
        have := hall _ hlt
        have := h4 hlt
        omega
    · intro hnil
      subst hnil
      simp at hlt

theorem is_highest_voted_unique (v : clk_vdd_class) (L M : Int)
    (hL : is_highest_voted v L) (hM : is_highest_voted v M) : L = M := by
  obtain ⟨l0, l1, l2, l3⟩ := hL
  obtain ⟨m0, m1, m2, m3⟩ := hM
  rcases lt_trichotomy L M with h | h | h
  · exfalso
    have e : ((M.toNat : Nat) : Int) = M := by omega
    have := l3 M.toNat (by omega) (by omega)
    rw [e] at this
    exact m2 this
  · exact h
  · exfalso
    have e : ((L.toNat : Nat) : Int) = L := by omega
    have := m3 L.toNat (by omega) (by omega)
    rw [e] at this
    exact l2 this

theorem is_resolved_level_unique (v : clk_vdd_class) (L M : Int)
    (hL : is_highest_voted v L) (hM : is_resolved_level v M) : L = M := by
  rcases hM with hM | ⟨_, hno⟩
  · exact is_highest_voted_unique v L M hL hM
  · exfalso
    obtain ⟨l0, l1, l2, _⟩ := hL
    have e : ((L.toNat : Nat) : Int) = L := by omega
    have := hno L.toNat (by omega)
    rw [e] at this
    exact l2 this

theorem update_vdd_rc_zero (set_vdd : clk_vdd_class → Int → Int) (v : clk_vdd_class)
    (hset : ∀ l, set_vdd v l = 0) : (update_vdd set_vdd v).rc = 0 := by
  unfold update_vdd
  simp only
  split
  · rfl
  · simp [hset]

/-- An in-range vote whose setter call (if any) succeeds. -/
theorem vote_vdd_level_ok (set_vdd : clk_vdd_class → Int → Int) (v : clk_vdd_class)
    (level : Int) (h0 : 0 ≤ level) (hlt : level < (v.num_levels : Int))
    (hcall : ∀ l, set_vdd (set_votes v level (v.level_votes level + 1)) l = 0) :
    (vote_vdd_level set_vdd v level).rc = 0 ∧
    (vote_vdd_level set_vdd v level).vdd.level_votes level = v.level_votes level + 1 ∧
    (∀ i, i ≠ level → (vote_vdd_level set_vdd v level).vdd.level_votes i = v.level_votes i) ∧
    (vote_vdd_level set_vdd v level).vdd.num_levels = v.num_levels ∧
    is_highest_voted (vote_vdd_level set_vdd v level).vdd
      (vote_vdd_level set_vdd v level).vdd.cur_level := by
  have hrc := update_vdd_rc_zero set_vdd _ hcall
  rcases vote_vdd_level_cases set_vdd v level hlt with ⟨_, e⟩ | ⟨hne, _⟩
  · obtain ⟨hv, hn, _⟩ := update_vdd_votes set_vdd (set_votes v level (v.level_votes level + 1))
    have hN : 1 ≤ (set_votes v level (v.level_votes level + 1)).num_levels := by
      rw [set_votes_num_levels]
      omega
    have hres := update_vdd_resolved set_vdd _ hN hrc
    rw [e]
    have hvl : (update_vdd set_vdd (set_votes v level (v.level_votes level + 1))).vdd.level_votes
        level = v.level_votes level + 1 := by
      rw [hv]
      simp [set_votes]
    refine ⟨hrc, hvl, ?_, ?_, ?_⟩
    · intro i hi
      rw [hv]
      simp [set_votes, hi]
    · rw [hn, set_votes_num_levels]
    · rcases hres with h | ⟨_, hno⟩
      · exact h
      · exfalso
        have e2 : ((level.toNat : Nat) : Int) = level := by omega
        have := hno level.toNat (by rw [hn, set_votes_num_levels]; omega)
        rw [e2, hvl] at this
        omega
  · exact absurd hrc hne

/-- C5: for an in-range level, `vote_vdd_level` invokes the setter exactly when the
level recomputed from the incremented table differs from the cached one, and then
returns the setter's result; when that result is a failure the rail after the call
(every vote count and `cur_level`) is the rail before the call. -/
theorem vote_vdd_level_setter_failure (set_vdd : clk_vdd_class → Int → Int)
    (v : clk_vdd_class) (level : Int) (h0 : 0 ≤ level) (hlt : level < (v.num_levels : Int)) :
    (update_vdd_loop (set_votes v level (v.level_votes level + 1)).level_votes
          ((v.num_levels : Int) - 1) = v.cur_level ∧
        (vote_vdd_level set_vdd v level).calls = [] ∧
        (vote_vdd_level set_vdd v level).rc = 0) ∨
    (update_vdd_loop (set_votes v level (v.level_votes level + 1)).level_votes
          ((v.num_levels : Int) - 1) ≠ v.cur_level ∧
        (vote_vdd_level set_vdd v level).calls =
          [update_vdd_loop (set_votes v level (v.level_votes level + 1)).level_votes
            ((v.num_levels : Int) - 1)] ∧
        (vote_vdd_level set_vdd v level).rc =
          set_vdd (set_votes v level (v.level_votes level + 1))
            (update_vdd_loop (set_votes v level (v.level_votes level + 1)).level_votes
              ((v.num_levels : Int) - 1)) ∧
        ((vote_vdd_level set_vdd v level).rc ≠ 0 →
          (vote_vdd_level set_vdd v level).vdd = v)) := by
  have _ := h0
  have hupd : ∀ w : clk_vdd_class,
      (update_vdd_loop w.level_votes ((w.num_levels : Int) - 1) = w.cur_level ∧
        (update_vdd set_vdd w).calls = [] ∧ (update_vdd set_vdd w).rc = 0) ∨
      (update_vdd_loop w.level_votes ((w.num_levels : Int) - 1) ≠ w.cur_level ∧
        (update_vdd set_vdd w).calls =
          [update_vdd_loop w.level_votes ((w.num_levels : Int) - 1)] ∧
        (update_vdd set_vdd w).rc =
          set_vdd w (update_vdd_loop w.level_votes ((w.num_levels : Int) - 1))) := by
    intro w
    unfold update_vdd
    simp only
    split
    · next heq => exact Or.inl ⟨heq, rfl, rfl⟩
    · next hne =>
      right
      refine ⟨hne, ?_, ?_⟩
      · split <;> rfl
      · split <;> rfl
  have hw := hupd (set_votes v level (v.level_votes level + 1))
  rw [set_votes_num_levels, set_votes_cur_level] at hw
  rcases vote_vdd_level_cases set_vdd v level hlt with ⟨hrc, e⟩ | ⟨hne, ev, erc, ecalls⟩
  · rw [e]
    rcases hw with ⟨a, b, c⟩ | ⟨a, b, c⟩
    · exact Or.inl ⟨a, b, c⟩
    · exact Or.inr ⟨a, b, c, fun h => absurd hrc h⟩
  · rw [erc, ecalls, ev]
    rcases hw with ⟨a, b, c⟩ | ⟨a, b, c⟩
    · exact Or.inl ⟨a, b, c⟩
    · exact Or.inr ⟨a, b, c, fun _ => rfl⟩

/-- Witness of C5: a vote on level 1 of a fresh two-level rail whose setter fails. -/
theorem vote_vdd_level_setter_failure_witness :
    (update_vdd_loop (set_votes (rail_of [0, 0] 0) 1
          ((rail_of [0, 0] 0).level_votes 1 + 1)).level_votes
          ((((rail_of [0, 0] 0).num_levels : Nat) : Int) - 1) = (rail_of [0, 0] 0).cur_level ∧
        (vote_vdd_level (fun _ _ => -5) (rail_of [0, 0] 0) 1).calls = [] ∧
        (vote_vdd_level (fun _ _ => -5) (rail_of [0, 0] 0) 1).rc = 0) ∨
    (update_vdd_loop (set_votes (rail_of [0, 0] 0) 1
          ((rail_of [0, 0] 0).level_votes 1 + 1)).level_votes
          ((((rail_of [0, 0] 0).num_levels : Nat) : Int) - 1) ≠ (rail_of [0, 0] 0).cur_level ∧
        (vote_vdd_level (fun _ _ => -5) (rail_of [0, 0] 0) 1).calls =
          [update_vdd_loop (set_votes (rail_of [0, 0] 0) 1
            ((rail_of [0, 0] 0).level_votes 1 + 1)).level_votes
            ((((rail_of [0, 0] 0).num_levels : Nat) : Int) - 1)] ∧
        (vote_vdd_level (fun _ _ => -5) (rail_of [0, 0] 0) 1).rc =
          (fun _ _ => -5) (set_votes (rail_of [0, 0] 0) 1
              ((rail_of [0, 0] 0).level_votes 1 + 1))
            (update_vdd_loop (set_votes (rail_of [0, 0] 0) 1
              ((rail_of [0, 0] 0).level_votes 1 + 1)).level_votes
              ((((rail_of [0, 0] 0).num_levels : Nat) : Int) - 1)) ∧
        ((vote_vdd_level (fun _ _ => -5) (rail_of [0, 0] 0) 1).rc ≠ 0 →
          (vote_vdd_level (fun _ _ => -5) (rail_of [0, 0] 0) 1).vdd = rail_of [0, 0] 0)) :=
  vote_vdd_level_setter_failure (fun _ _ => -5) (rail_of [0, 0] 0) 1 (by decide) (by decide)

/-- C6 (counterexample): on the two-level rail with one vote on level 0 and cached
level 1, `unvote_vdd_level` of level 1 (count already zero) leaves `cur_level` at 1,
which is not the highest level with a non-zero count, whereas the recomputation by
`update_vdd` on the same table yields 0. -/
theorem unvote_vdd_level_zero_no_recompute :
    (rail_of [1, 0] 1).level_votes 1 = 0 ∧
    (unvote_vdd_level (fun _ _ => 0) (rail_of [1, 0] 1) 1).vdd.cur_level = 1 ∧
    ¬ is_resolved_level (unvote_vdd_level (fun _ _ => 0) (rail_of [1, 0] 1) 1).vdd
      (unvote_vdd_level (fun _ _ => 0) (rail_of [1, 0] 1) 1).vdd.cur_level ∧
    (update_vdd (fun _ _ => 0) (rail_of [1, 0] 1)).vdd.cur_level = 0 := by
  decide

/-- C6 (amended): for an in-range level whose vote count is already zero,
`unvote_vdd_level` warns, returns 0, invokes no setter and leaves the rail (every vote
count and `cur_level`) exactly as it was, without recomputing the resolved level; so
`cur_level` is the highest level with a non-zero count afterwards exactly when it was
before. -/
theorem unvote_vdd_level_zero_count (set_vdd : clk_vdd_class → Int → Int)
    (v : clk_vdd_class) (level : Int) (h0 : 0 ≤ level) (hlt : level < (v.num_levels : Int))
    (hz : v.level_votes level = 0) :
    unvote_vdd_level set_vdd v level = { rc := 0, vdd := v, calls := [], warned := true } ∧
    (is_resolved_level (unvote_vdd_level set_vdd v level).vdd
        (unvote_vdd_level set_vdd v level).vdd.cur_level ↔
      is_resolved_level v v.cur_level) := by
  have _ := h0
  have hge : ¬ level ≥ (v.num_levels : Int) := by omega
  have e : unvote_vdd_level set_vdd v level =
      { rc := 0, vdd := v, calls := [], warned := true } := by
    simp [unvote_vdd_level, hge, hz]
  rw [e]
  exact ⟨rfl, Iff.rfl⟩

/-- Witness of C6 (amended): the rail of the counterexample. -/
theorem unvote_vdd_level_zero_count_witness :
    unvote_vdd_level (fun _ _ => 0) (rail_of [1, 0] 1) 1 =
      { rc := 0, vdd := rail_of [1, 0] 1, calls := [], warned := true } ∧
    (is_resolved_level (unvote_vdd_level (fun _ _ => 0) (rail_of [1, 0] 1) 1).vdd
        (unvote_vdd_level (fun _ _ => 0) (rail_of [1, 0] 1) 1).vdd.cur_level ↔
      is_resolved_level (rail_of [1, 0] 1) (rail_of [1, 0] 1).cur_level) :=
  unvote_vdd_level_zero_count (fun _ _ => 0) (rail_of [1, 0] 1) 1 (by decide) (by decide)
    (by decide)

/-! ## Theorems: enable and disable -/

@[simp] theorem add_log_count (s : clk_state) (es : List event) :
    (add_log s es).count = s.count := rfl
@[simp] theorem add_log_prepare_count (s : clk_state) (es : List event) :
    (add_log s es).prepare_count = s.prepare_count := rfl
@[simp] theorem add_log_rate (s : clk_state) (es : List event) :
    (add_log s es).rate = s.rate := rfl
@[simp] theorem add_log_vdd (s : clk_state) (es : List event) :
    (add_log s es).vdd = s.vdd := rfl
@[simp] theorem add_log_log (s : clk_state) (es : List event) :
    (add_log s es).log = s.log ++ es := rfl
@[simp] theorem set_count_count (s : clk_state) (c n x : Nat) :
    (set_count s c n).count x = if x = c then n else s.count x := rfl
@[simp] theorem set_count_prepare_count (s : clk_state) (c n : Nat) :
    (set_count s c n).prepare_count = s.prepare_count := rfl
@[simp] theorem set_count_rate (s : clk_state) (c n : Nat) :
    (set_count s c n).rate = s.rate := rfl
@[simp] theorem set_count_vdd (s : clk_state) (c n : Nat) :
    (set_count s c n).vdd = s.vdd := rfl
@[simp] theorem set_count_log (s : clk_state) (c n : Nat) :
    (set_count s c n).log = s.log := rfl

/-- What `clk_disable` leaves alone when it returns: everything but the enable counts
of the clock and of the clocks below it. -/
theorem clk_disable_frame (cfg : Nat → clk) (h : Nat → Nat) (hr : ranked cfg h) :
    ∀ fuel s r t, clk_disable cfg fuel s r = some t →
      t.prepare_count = s.prepare_count ∧ t.rate = s.rate ∧ t.vdd = s.vdd ∧
      (∀ x, rank h r ≤ h x → t.count x = s.count x) := by
  intro fuel
  induction fuel with
  | zero =>
    intro s r t he
    cases r with
    | null =>
      simp only [clk_disable, Option.some.injEq] at he
      subst he
      exact ⟨rfl, rfl, rfl, fun _ _ => rfl⟩
    | err e => simp [clk_disable] at he
    | ptr c => simp [clk_disable] at he
  | succ fuel ih =>
    intro s r t he
    cases r with
    | null =>
      simp only [clk_disable, Option.some.injEq] at he
      subst he
      exact ⟨rfl, rfl, rfl, fun _ _ => rfl⟩
    | err e => simp [clk_disable] at he
    | ptr c =>
      obtain ⟨hp, hd⟩ := hr c
      rw [clk_disable] at he
      simp only [add_log_count] at he
      by_cases h0 : s.count c = 0
      · rw [if_pos h0] at he
        cases he
        exact ⟨rfl, rfl, rfl, fun _ _ => rfl⟩
      · rw [if_neg h0] at he
        by_cases h1 : s.count c = 1
        · rw [if_pos h1] at he
          split at he
          · cases he
          · next s2 heq =>
            obtain ⟨a1, a2, a3, a4⟩ := ih _ _ _ heq
            split at he
            · cases he
            · next s3 heq2 =>
              obtain ⟨b1, b2, b3, b4⟩ := ih _ _ _ heq2
              cases he
              refine ⟨?_, ?_, ?_, ?_⟩
              · simp [b1, a1]
              · simp [b2, a2]
              · simp [b3, a3]
              · intro x hx
                simp only [rank] at hx
                have hxc : x ≠ c := by
                  rintro rfl
                  omega
                simp only [set_count_count, if_neg hxc]
                rw [b4 x (by omega), a4 x (by omega)]
                rfl
        · rw [if_neg h1] at he
          cases he
          refine ⟨rfl, rfl, rfl, ?_⟩
          intro x hx
          simp only [rank] at hx
          have hxc : x ≠ c := by
            rintro rfl
            omega
          simp only [set_count_count, if_neg hxc, add_log_count]

/-- The depth bound `fuel` suffices and no error pointer is met below a clock or `NULL`
on an acyclic tree without error pointers, when the bound covers the rank. -/
theorem valid_below_of_ranked (cfg : Nat → clk) (h : Nat → Nat) (hr : ranked cfg h)
    (hne : no_error_pointers cfg) :
    ∀ fuel r, (∀ e, r ≠ .err e) → rank h r ≤ fuel → valid_below cfg fuel r = true := by
  intro fuel
  induction fuel with
  | zero =>
    intro r hr0 hf
    cases r with
    | null => rfl
    | err e => exact absurd rfl (hr0 e)
    | ptr c => simp [rank] at hf
  | succ fuel ih =>
    intro r hr0 hf
    cases r with
    | null => rfl
    | err e => exact absurd rfl (hr0 e)
    | ptr c =>
      obtain ⟨hp, hd⟩ := hr c
      simp only [rank] at hf
      simp only [valid_below, Bool.and_eq_true]
      exact ⟨ih _ (fun e => (hne c e).1) (by omega), ih _ (fun e => (hne c e).2) (by omega)⟩

theorem valid_below_ptr (cfg : Nat → clk) (fuel : Nat) (c : Nat)
    (hv : valid_below cfg (fuel + 1) (.ptr c) = true) :
    valid_below cfg fuel (clk_get_parent cfg (.ptr c)) = true ∧
    valid_below cfg fuel (cfg c).depends = true := by
  simpa only [valid_below, Bool.and_eq_true] using hv

/-- Validity below a reference is kept by a larger depth bound. -/
theorem valid_below_mono (cfg : Nat → clk) :
    ∀ fuel r, valid_below cfg fuel r = true → valid_below cfg (fuel + 1) r = true := by
  intro fuel
  induction fuel with
  | zero =>
    intro r hv
    cases r with
    | null => rfl
    | err e => simp [valid_below] at hv
    | ptr c => simp [valid_below] at hv
  | succ fuel ih =>
    intro r hv
    cases r with
    | null => rfl
    | err e => simp [valid_below] at hv
    | ptr c =>
      obtain ⟨h1, h2⟩ := valid_below_ptr cfg fuel c hv
      rw [valid_below, Bool.and_eq_true]
      exact ⟨ih _ h1, ih _ h2⟩

/-- The call `clk_disable` returns when no error pointer lies below the reference within
the depth bound. -/
theorem clk_disable_valid (cfg : Nat → clk) :
    ∀ fuel s r, valid_below cfg fuel r = true → ∃ t, clk_disable cfg fuel s r = some t := by
  intro fuel
  induction fuel with
  | zero =>
    intro s r hv
    cases r with
    | null => exact ⟨s, rfl⟩
    | err e => simp [valid_below] at hv
    | ptr c => simp [valid_below] at hv
  | succ fuel ih =>
    intro s r hv
    cases r with
    | null => exact ⟨s, rfl⟩
    | err e => simp [valid_below] at hv
    | ptr c =>
      obtain ⟨hvp, hvd⟩ := valid_below_ptr cfg fuel c hv
      rw [clk_disable]
      simp only [add_log_count]
      by_cases h0 : s.count c = 0
      · rw [if_pos h0]
        exact ⟨_, rfl⟩
      · rw [if_neg h0]
        by_cases h1 : s.count c = 1
        · rw [if_pos h1]
          obtain ⟨s2, e2⟩ := ih (add_log (add_log s (log_if (s.prepare_count c = 0)
            (event.warn_unprepared c))) (log_if ((cfg c).ops.disable = true)
            (event.disable c))) (cfg c).depends hvd
          rw [e2]
          dsimp only
          obtain ⟨s3, e3⟩ := ih s2 (clk_get_parent cfg (.ptr c)) hvp
          rw [e3]
          exact ⟨_, rfl⟩
        · rw [if_neg h1]
          exact ⟨_, rfl⟩

/-- On a tree without error pointers `clk_disable` returns for every clock and for
`NULL`, whenever the depth bound covers the rank. -/
theorem clk_disable_returns (cfg : Nat → clk) (h : Nat → Nat) (hr : ranked cfg h)
    (hne : no_error_pointers cfg) :
    ∀ fuel s r, (∀ e, r ≠ .err e) → rank h r ≤ fuel → ∃ t, clk_disable cfg fuel s r = some t ∧
      t.prepare_count = s.prepare_count ∧ t.rate = s.rate ∧ t.vdd = s.vdd ∧
      (∀ x, rank h r ≤ h x → t.count x = s.count x) := by
  intro fuel s r hr0 hf
  obtain ⟨t, e⟩ := clk_disable_valid cfg fuel s r (valid_below_of_ranked cfg h hr hne fuel r hr0 hf)
  exact ⟨t, e, clk_disable_frame cfg h hr fuel s r t e⟩

/-- Everything the proofs need about one `clk_enable` call that returns: only enable
counts of the clock and of clocks below it change; a failing call restores every enable
count; and after a successful call, `clk_disable` run in any state with the same enable
counts below the rank returns and restores the counts that held before the call. -/
theorem clk_enable_spec (hw : hooks) (cfg : Nat → clk) (h : Nat → Nat) (hr : ranked cfg h) :
    ∀ fuel s r rc s1, clk_enable hw cfg fuel s r = some (rc, s1) →
      s1.prepare_count = s.prepare_count ∧ s1.rate = s.rate ∧ s1.vdd = s.vdd ∧
      (∀ x, rank h r ≤ h x → s1.count x = s.count x) ∧
      (rc ≠ 0 → s1.count = s.count) ∧
      (rc = 0 → ∀ t1, (∀ x, h x < rank h r → t1.count x = s1.count x) →
        ∃ t2, clk_disable cfg fuel t1 r = some t2 ∧
          ∀ x, h x < rank h r → t2.count x = s.count x) := by
  intro fuel
  induction fuel with
  | zero =>
    intro s r rc s1 he
    cases r with
    | null =>
      simp only [clk_enable, Option.some.injEq, Prod.mk.injEq] at he
      obtain ⟨rfl, rfl⟩ := he
      refine ⟨rfl, rfl, rfl, fun _ _ => rfl, fun _ => rfl, ?_⟩
      intro _ t1 _
      exact ⟨t1, rfl, fun x hx => by simp [rank] at hx⟩
    | err e => simp [clk_enable] at he
    | ptr c => simp [clk_enable] at he
  | succ fuel ih =>
    intro s r rc s1 he
    cases r with
    | null =>
      simp only [clk_enable, Option.some.injEq, Prod.mk.injEq] at he
      obtain ⟨rfl, rfl⟩ := he
      refine ⟨rfl, rfl, rfl, fun _ _ => rfl, fun _ => rfl, ?_⟩
      intro _ t1 _
      exact ⟨t1, rfl, fun x hx => by simp [rank] at hx⟩
    | err e => simp [clk_enable] at he
    | ptr c =>
      obtain ⟨hp, hd⟩ := hr c
      have dP := clk_disable_frame cfg h hr fuel
      rw [clk_enable] at he
      simp only [add_log_count] at he
      by_cases h0 : s.count c = 0
      · rw [if_pos h0] at he
        split at he
        · cases he
        · next ret1 s1' heq1 =>
          obtain ⟨p1, r1, v1, f1, fail1, undo1⟩ := ih _ _ _ _ heq1
          simp only [add_log_prepare_count, add_log_rate, add_log_vdd, add_log_count]
            at p1 r1 v1 f1 fail1 undo1
          by_cases hr1 : ret1 ≠ 0
          · rw [if_pos hr1] at he
            cases he
            refine ⟨p1, r1, v1, ?_, fun _ => fail1 hr1, fun h => absurd h hr1⟩
            intro x hx
            simp only [rank] at hx
            exact f1 x (by omega)
          · rw [if_neg hr1] at he
            have hr1z : ret1 = 0 := by simpa using hr1
            have undo1 := undo1 hr1z
            split at he
            · cases he
            · next ret2 s2 heq2 =>
              obtain ⟨p2, r2, v2, f2, fail2, undo2⟩ := ih _ _ _ _ heq2
              by_cases hr2 : ret2 ≠ 0
              · rw [if_pos hr2] at he
                unfold err_enable_depends at he
                split at he
                · cases he
                · next t heqd =>
                  obtain ⟨dp, dr, dv, df⟩ := dP _ _ _ heqd
                  have hcnt : t.count = s.count := by
                    funext x
                    by_cases hx : h x < rank h (clk_get_parent cfg (clk_ref.ptr c))
                    · obtain ⟨t', e', u'⟩ := undo1 s2 (fun y _ => by rw [fail2 hr2])
                      rw [heqd] at e'
                      cases e'
                      exact u' x hx
                    · rw [df x (by omega), fail2 hr2, f1 x (by omega)]
                  cases he
                  refine ⟨?_, ?_, ?_, ?_, fun _ => hcnt, fun h => absurd h hr2⟩
                  · rw [dp, p2, p1]
                  · rw [dr, r2, r1]
                  · rw [dv, v2, v1]
                  · intro x _
                    rw [hcnt]
              · rw [if_neg hr2] at he
                have hr2z : ret2 = 0 := by simpa using hr2
                have undo2 := undo2 hr2z
                generalize hret3 :
                  (if (cfg c).ops.enable = true then hw.enable s2.log c else ret2) = ret3 at he
                by_cases hr3 : ret3 ≠ 0
                · rw [if_pos hr3] at he
                  unfold err_enable_clock err_enable_depends at he
                  split at he
                  · cases he
                  · next t heqd =>
                    obtain ⟨dp, dr, dv, df⟩ := dP _ _ _ heqd
                    simp only [add_log_prepare_count, add_log_rate, add_log_vdd,
                      add_log_count] at dp dr dv df
                    have hcnt1 : t.count = s1'.count := by
                      funext x
                      by_cases hx : h x < rank h (cfg c).depends
                      · obtain ⟨t', e', u'⟩ := undo2 (add_log s2 (log_if
                          ((cfg c).ops.enable = true) (event.enable c ret3)))
                          (fun y _ => by simp)
                        rw [heqd] at e'
                        cases e'
                        exact u' x hx
                      · rw [df x (by omega), f2 x (by omega)]
                    split at he
                    · cases he
                    · next t' heqd' =>
                      obtain ⟨dp', dr', dv', df'⟩ := dP _ _ _ heqd'
                      have hcnt : t'.count = s.count := by
                        funext x
                        by_cases hx : h x < rank h (clk_get_parent cfg (clk_ref.ptr c))
                        · obtain ⟨t'', e'', u''⟩ := undo1 t (fun y _ => by rw [hcnt1])
                          rw [heqd'] at e''
                          cases e''
                          exact u'' x hx
                        · rw [df' x (by omega), hcnt1, f1 x (by omega)]
                      cases he
                      refine ⟨?_, ?_, ?_, ?_, fun _ => hcnt, fun h => absurd h hr3⟩
                      · rw [dp', dp, p2, p1]
                      · rw [dr', dr, r2, r1]
                      · rw [dv', dv, v2, v1]
                      · intro x _
                        rw [hcnt]
                · rw [if_neg hr3] at he
                  cases he
                  have hc2 : s2.count c = 0 := by
                    rw [f2 c (by omega), f1 c (by omega), h0]
                  refine ⟨?_, ?_, ?_, ?_, fun h => absurd rfl h, ?_⟩
                  · simp [p2, p1]
                  · simp [r2, r1]
                  · simp [v2, v1]
                  · intro x hx
                    simp only [rank] at hx
                    have hxc : x ≠ c := by
                      rintro rfl
                      omega
                    simp only [set_count_count, if_neg hxc, add_log_count]
                    rw [f2 x (by omega), f1 x (by omega)]
                  · intro _ t1 hag
                    simp only [rank] at hag
                    have ht1c : t1.count c = 1 := by
                      rw [hag c (by omega)]
                      simp [hc2]
                    have hag' : ∀ y, h y < h c + 1 → y ≠ c → t1.count y = s2.count y := by
                      intro y hy hyc
                      rw [hag y hy]
                      simp [hyc]
                    obtain ⟨u, hequ, hu1⟩ := undo2 (add_log (add_log t1 (log_if
                      (t1.prepare_count c = 0) (event.warn_unprepared c))) (log_if
                      ((cfg c).ops.disable = true) (event.disable c))) (by
                        intro z hz
                        simp only [add_log_count]
                        exact hag' z (by omega) (by rintro rfl; omega))
                    obtain ⟨_, _, _, uf⟩ := dP _ _ _ hequ
                    simp only [add_log_count] at uf
                    obtain ⟨u', hequ', hu2⟩ := undo1 u (by
                        intro z hz
                        by_cases hzd : h z < rank h (cfg c).depends
                        · exact hu1 z hzd
                        · rw [uf z (by omega), hag' z (by omega) (by rintro rfl; omega),
                            f2 z (by omega)])
                    obtain ⟨_, _, _, uf'⟩ := dP _ _ _ hequ'
                    rw [clk_disable]
                    simp only [add_log_count, ht1c, one_ne_zero, if_false, if_true]
                    rw [hequ]
                    dsimp only
                    rw [hequ']
                    refine ⟨_, rfl, ?_⟩
                    intro x hx
                    simp only [rank] at hx
                    by_cases hxc : x = c
                    · subst hxc
                      simp only [set_count_count, if_true]
                      rw [uf' x (by omega), uf x (by omega), ht1c, h0]
                    · simp only [set_count_count, if_neg hxc]
                      by_cases hxp : h x < rank h (clk_get_parent cfg (clk_ref.ptr c))
                      · exact hu2 x hxp
                      · rw [uf' x (by omega)]
                        by_cases hxd : h x < rank h (cfg c).depends
                        · rw [hu1 x hxd, f1 x (by omega)]
                        · rw [uf x (by omega), hag' x hx hxc, f2 x (by omega),
                            f1 x (by omega)]
      · rw [if_neg h0] at he
        cases he
        refine ⟨rfl, rfl, rfl, ?_, fun h => absurd rfl h, ?_⟩
        · intro x hx
          simp only [rank] at hx
          have hxc : x ≠ c := by
            rintro rfl
            omega
          simp only [set_count_count, if_neg hxc, add_log_count]
        · intro _ t1 hag
          simp only [rank] at hag
          have ht1c : t1.count c = s.count c + 1 := by
            rw [hag c (by omega)]
            simp
          have hne0 : ¬ (s.count c + 1 = 0) := by omega
          have hne1 : ¬ (s.count c + 1 = 1) := by omega
          rw [clk_disable]
          simp only [add_log_count, ht1c, hne0, hne1, if_false]
          refine ⟨_, rfl, ?_⟩
          intro x hx
          by_cases hxc : x = c
          · subst hxc
            simp
          · simp only [set_count_count, if_neg hxc, add_log_count]
            rw [hag x hx]
            simp [hxc]

/-- The call `clk_enable` returns when no error pointer lies below the reference within
the depth bound. -/
theorem clk_enable_valid (hw : hooks) (cfg : Nat → clk) :
    ∀ fuel s r, valid_below cfg fuel r = true →
      ∃ rc s1, clk_enable hw cfg fuel s r = some (rc, s1) := by
  intro fuel
  induction fuel with
  | zero =>
    intro s r hv
    cases r with
    | null => exact ⟨0, s, rfl⟩
    | err e => simp [valid_below] at hv
    | ptr c => simp [valid_below] at hv
  | succ fuel ih =>
    intro s r hv
    cases r with
    | null => exact ⟨0, s, rfl⟩
    | err e => simp [valid_below] at hv
    | ptr c =>
      obtain ⟨hvp, hvd⟩ := valid_below_ptr cfg fuel c hv
      have dT := clk_disable_valid cfg fuel
      rw [clk_enable]
      simp only [add_log_count]
      by_cases h0 : s.count c = 0
      · rw [if_pos h0]
        obtain ⟨ret1, s1, e1⟩ := ih (add_log s (log_if (s.prepare_count c = 0)
          (event.warn_unprepared c))) (clk_get_parent cfg (.ptr c)) hvp
        rw [e1]
        dsimp only
        by_cases hr1 : ret1 ≠ 0
        · rw [if_pos hr1]
          exact ⟨_, _, rfl⟩
        · rw [if_neg hr1]
          obtain ⟨ret2, s2, e2⟩ := ih s1 (cfg c).depends hvd
          rw [e2]
          dsimp only
          by_cases hr2 : ret2 ≠ 0
          · rw [if_pos hr2]
            unfold err_enable_depends
            obtain ⟨t, et⟩ := dT s2 (clk_get_parent cfg (.ptr c)) hvp
            rw [et]
            exact ⟨_, _, rfl⟩
          · rw [if_neg hr2]
            generalize hret3 :
              (if (cfg c).ops.enable = true then hw.enable s2.log c else ret2) = ret3
            by_cases hr3 : ret3 ≠ 0
            · rw [if_pos hr3]
              unfold err_enable_clock err_enable_depends
              obtain ⟨t, et⟩ := dT (add_log s2 (log_if ((cfg c).ops.enable = true)
                (event.enable c ret3))) (cfg c).depends hvd
              rw [et]
              dsimp only
              obtain ⟨t', et'⟩ := dT t (clk_get_parent cfg (.ptr c)) hvp
              rw [et']
              exact ⟨_, _, rfl⟩
            · rw [if_neg hr3]
              exact ⟨_, _, rfl⟩
      · rw [if_neg h0]
        exact ⟨_, _, rfl⟩

/-- On a tree without error pointers `clk_enable` returns for every clock and for
`NULL`, whenever the depth bound covers the rank; with what `clk_enable_spec` says of
the result. -/
theorem clk_enable_returns (hw : hooks) (cfg : Nat → clk) (h : Nat → Nat)
    (hr : ranked cfg h) (hne : no_error_pointers cfg) :
    ∀ fuel s r, (∀ e, r ≠ .err e) → rank h r ≤ fuel →
      ∃ rc s1, clk_enable hw cfg fuel s r = some (rc, s1) ∧
      s1.prepare_count = s.prepare_count ∧ s1.rate = s.rate ∧ s1.vdd = s.vdd ∧
      (∀ x, rank h r ≤ h x → s1.count x = s.count x) ∧
      (rc ≠ 0 → s1.count = s.count) ∧
      (rc = 0 → ∀ t1 t2, (∀ x, h x < rank h r → t1.count x = s1.count x) →
        clk_disable cfg fuel t1 r = some t2 → ∀ x, h x < rank h r → t2.count x = s.count x) := by
  intro fuel s r hr0 hf
  obtain ⟨rc, s1, e⟩ := clk_enable_valid hw cfg fuel s r
    (valid_below_of_ranked cfg h hr hne fuel r hr0 hf)
  obtain ⟨a1, a2, a3, a4, a5, a6⟩ := clk_enable_spec hw cfg h hr fuel s r rc s1 e
  refine ⟨rc, s1, e, a1, a2, a3, a4, a5, fun hz t1 t2 hag hd => ?_⟩
  obtain ⟨t2', e2, u⟩ := a6 hz t1 hag
  rw [hd] at e2
  cases e2
  exact u

/-- A successful `clk_enable` is undone by `clk_disable`, run in any state with the
same enable counts; the `clk_disable` call returns. -/
theorem clk_enable_disable (hw : hooks) (cfg : Nat → clk) (h : Nat → Nat) (hr : ranked cfg h)
    (fuel : Nat) (s s1 t1 : clk_state) (r : clk_ref)
    (he : clk_enable hw cfg fuel s r = some (0, s1)) (hag : t1.count = s1.count) :
    ∃ t2, clk_disable cfg fuel t1 r = some t2 ∧ t2.count = s.count := by
  obtain ⟨_, _, _, f, _, undo⟩ := clk_enable_spec hw cfg h hr fuel s r 0 s1 he
  obtain ⟨t2, e2, u2⟩ := undo rfl t1 (fun y _ => by rw [hag])
  obtain ⟨_, _, _, f2⟩ := clk_disable_frame cfg h hr fuel t1 r t2 e2
  refine ⟨t2, e2, ?_⟩
  funext x
  by_cases hx : h x < rank h r
  · exact u2 x hx
  · rw [f2 x (by omega), hag, f x (by omega)]

theorem disable_times_succ (cfg : Nat → clk) (fuel : Nat) (r : clk_ref) :
    ∀ n s, disable_times cfg fuel (n + 1) s r =
      (disable_times cfg fuel n s r).bind (fun u => clk_disable cfg fuel u r) := by
  intro n
  induction n with
  | zero =>
    intro s
    simp only [disable_times, Option.some_bind]
    cases clk_disable cfg fuel s r <;> rfl
  | succ n ih =>
    intro s
    rw [disable_times]
    cases hd : clk_disable cfg fuel s r with
    | none => simp [disable_times, hd]
    | some u =>
      simp only
      rw [ih u]
      conv_rhs => rw [disable_times, hd]

/-- C8: when `clk_enable` on a clock returns an error, the enable count of every clock
(the clock itself, its parent, its dependency and all their ancestors included), every
prepare count and rate, and every rail are as before the call; and on a tree without
error pointers the call returns whenever the depth bound covers the clock's height. -/
theorem clk_enable_failure_restores (hw : hooks) (cfg : Nat → clk) (h : Nat → Nat)
    (hr : ranked cfg h) (fuel : Nat) (s : clk_state) (c : Nat) (hf : h c < fuel) :
    (no_error_pointers cfg → ∃ rc s1, clk_enable hw cfg fuel s (.ptr c) = some (rc, s1)) ∧
    ∀ rc s1, clk_enable hw cfg fuel s (.ptr c) = some (rc, s1) → rc ≠ 0 →
      (∀ x, s1.count x = s.count x) ∧
      (∀ rail i, (s1.vdd rail).level_votes i = (s.vdd rail).level_votes i) ∧
      s1.vdd = s.vdd ∧ s1.prepare_count = s.prepare_count ∧ s1.rate = s.rate := by
  refine ⟨fun hne => ?_, ?_⟩
  · obtain ⟨rc, s1, e, _⟩ := clk_enable_returns hw cfg h hr hne fuel s (.ptr c)
      (fun _ => clk_ref.noConfusion) (by simp only [rank]; omega)
    exact ⟨rc, s1, e⟩
  intro rc s1 e hrc
  obtain ⟨p, rt, v, _, fail, _⟩ := clk_enable_spec hw cfg h hr fuel s (.ptr c) rc s1 e
  exact ⟨fun x => by rw [fail hrc], fun rail i => by rw [v], v, p, rt⟩

/-- C10: `n` calls of `clk_enable` on a clock that all succeed, followed by `n` calls of
`clk_disable`, return the enable count of every clock (the clock itself, its parent,
its dependency and all their ancestors included) to its value before the sequence;
the `n` disables all return. -/
theorem enable_disable_times (hw : hooks) (cfg : Nat → clk) (h : Nat → Nat)
    (hr : ranked cfg h) (fuel : Nat) (c : Nat) (hf : h c < fuel) (n : Nat) (s : clk_state)
    (hen : (enable_times hw cfg fuel n s (.ptr c)).isSome = true) :
    ∃ s2, (enable_times hw cfg fuel n s (.ptr c)).bind
        (fun s1 => disable_times cfg fuel n s1 (.ptr c)) = some s2 ∧
      ∀ x, s2.count x = s.count x := by
  have hrk : rank h (.ptr c) ≤ fuel := by simp only [rank]; omega
  have gen : ∀ n s s1 t1, enable_times hw cfg fuel n s (.ptr c) = some s1 →
      t1.count = s1.count →
      ∃ t2, disable_times cfg fuel n t1 (.ptr c) = some t2 ∧ t2.count = s.count := by
    intro n
    induction n with
    | zero =>
      intro s s1 t1 hen hag
      simp only [enable_times, Option.some.injEq] at hen
      subst hen
      exact ⟨t1, rfl, hag⟩
    | succ n ih =>
      intro s s1 t1 hen hag
      rw [enable_times] at hen
      split at hen
      · cases hen
      · next ret u heq =>
        split at hen
        · next hret =>
          subst hret
          obtain ⟨t2, e2, c2⟩ := ih u s1 t1 hen hag
          obtain ⟨t3, e3, c3⟩ := clk_enable_disable hw cfg h hr fuel s u t2 (.ptr c) heq c2
          refine ⟨t3, ?_, c3⟩
          rw [disable_times_succ, e2]
          exact e3
        · cases hen
  obtain ⟨s1, e1⟩ := Option.isSome_iff_exists.mp hen
  obtain ⟨t2, e2, c2⟩ := gen n s s1 s1 e1 rfl
  refine ⟨t2, ?_, fun x => by rw [c2]⟩
  rw [e1]
  exact e2

theorem demo_ranked : ranked demo_cfg (fun c => c) := by
  intro c
  by_cases hc : c = 1
  · subst hc
    simp [demo_cfg, clk_get_parent, rank, no_ops]
  · simp [demo_cfg, clk_get_parent, rank, no_ops, hc]

/-- The example tree has no error pointers. -/
theorem demo_no_error_pointers : no_error_pointers demo_cfg := by
  intro c e
  by_cases hc : c = 1
  · subst hc
    simp [demo_cfg, clk_get_parent, no_ops]
  · simp [demo_cfg, clk_get_parent, no_ops, hc]

/-- Witness of C8: in the example tree the enable hook of the child fails after the
parent was enabled. -/
theorem clk_enable_failure_restores_witness :
    (clk_enable (demo_hooks 0 0 (-5)) demo_cfg 2 (demo_state 0) (.ptr 1)).map
        (fun p => (p.1, p.2.count 0, p.2.count 1)) = some (-5, 0, 0) ∧
    (∃ rc s1, clk_enable (demo_hooks 0 0 (-5)) demo_cfg 2 (demo_state 0) (.ptr 1) =
        some (rc, s1)) ∧
    ∀ rc s1, clk_enable (demo_hooks 0 0 (-5)) demo_cfg 2 (demo_state 0) (.ptr 1) =
        some (rc, s1) → rc ≠ 0 →
      (∀ x, s1.count x = (demo_state 0).count x) ∧
      (∀ rail i, (s1.vdd rail).level_votes i = ((demo_state 0).vdd rail).level_votes i) ∧
      s1.vdd = (demo_state 0).vdd ∧ s1.prepare_count = (demo_state 0).prepare_count ∧
      s1.rate = (demo_state 0).rate :=
  ⟨by decide,
    (clk_enable_failure_restores (demo_hooks 0 0 (-5)) demo_cfg (fun c => c)
      demo_ranked 2 (demo_state 0) 1 (by decide)).1 demo_no_error_pointers,
    (clk_enable_failure_restores (demo_hooks 0 0 (-5)) demo_cfg (fun c => c)
      demo_ranked 2 (demo_state 0) 1 (by decide)).2⟩

/-- Witness of C10: three enables and three disables of the child of the example
tree. -/
theorem enable_disable_times_witness :
    ∃ s2, (enable_times (demo_hooks 0 0 0) demo_cfg 2 3 (demo_state 0) (.ptr 1)).bind
        (fun s1 => disable_times demo_cfg 2 3 s1 (.ptr 1)) = some s2 ∧
      ∀ x, s2.count x = (demo_state 0).count x :=
  enable_disable_times (demo_hooks 0 0 0) demo_cfg (fun c => c) demo_ranked 2 1 (by decide)
    3 (demo_state 0) (by decide)

/-! ## Theorems: prepare and unprepare -/

@[simp] theorem set_prepare_count_prepare_count (s : clk_state) (c n x : Nat) :
    (set_prepare_count s c n).prepare_count x = if x = c then n else s.prepare_count x := rfl
@[simp] theorem set_prepare_count_count (s : clk_state) (c n : Nat) :
    (set_prepare_count s c n).count = s.count := rfl
@[simp] theorem set_prepare_count_rate (s : clk_state) (c n : Nat) :
    (set_prepare_count s c n).rate = s.rate := rfl
@[simp] theorem set_prepare_count_vdd (s : clk_state) (c n : Nat) :
    (set_prepare_count s c n).vdd = s.vdd := rfl
@[simp] theorem set_prepare_count_log (s : clk_state) (c n : Nat) :
    (set_prepare_count s c n).log = s.log := rfl
@[simp] theorem set_vdd_class_vdd (s : clk_state) (rail : Nat) (v : clk_vdd_class) (x : Nat) :
    (set_vdd_class s rail v).vdd x = if x = rail then v else s.vdd x := rfl
@[simp] theorem set_vdd_class_count (s : clk_state) (rail : Nat) (v : clk_vdd_class) :
    (set_vdd_class s rail v).count = s.count := rfl
@[simp] theorem set_vdd_class_prepare_count (s : clk_state) (rail : Nat) (v : clk_vdd_class) :
    (set_vdd_class s rail v).prepare_count = s.prepare_count := rfl
@[simp] theorem set_vdd_class_rate (s : clk_state) (rail : Nat) (v : clk_vdd_class) :
    (set_vdd_class s rail v).rate = s.rate := rfl
@[simp] theorem set_vdd_class_log (s : clk_state) (rail : Nat) (v : clk_vdd_class) :
    (set_vdd_class s rail v).log = s.log := rfl

theorem log_extends_refl (s : clk_state) : log_extends s s := ⟨[], by simp⟩

theorem log_extends_trans {s t u : clk_state} (h1 : log_extends s t) (h2 : log_extends t u) :
    log_extends s u := by
  obtain ⟨a, ha⟩ := h1
  obtain ⟨b, hb⟩ := h2
  exact ⟨a ++ b, by rw [hb, ha, List.append_assoc]⟩

theorem log_extends_of_log {s t : clk_state} (es : List event) (h : t.log = s.log ++ es) :
    log_extends s t := ⟨es, h⟩

theorem new_events_of_log {s t : clk_state} (es : List event) (h : t.log = s.log ++ es) :
    new_events s t = es := by
  simp [new_events, h]

theorem new_events_split {s t u : clk_state} (h1 : log_extends s t) (h2 : log_extends t u) :
    new_events s u = new_events s t ++ new_events t u := by
  obtain ⟨a, ha⟩ := h1
  obtain ⟨b, hb⟩ := h2
  rw [new_events_of_log a ha, new_events_of_log b hb,
    new_events_of_log (a ++ b) (by rw [hb, ha, List.append_assoc])]

theorem rollback_ok_left {hw : hooks} {a b : List event} (h : rollback_ok hw (a ++ b)) :
    rollback_ok hw a := by
  rcases h with h | h
  · exact Or.inl (fun e hm => h e (List.mem_append_left _ hm))
  · exact Or.inr h

theorem rollback_ok_right {hw : hooks} {a b : List event} (h : rollback_ok hw (a ++ b)) :
    rollback_ok hw b := by
  rcases h with h | h
  · exact Or.inl (fun e hm => h e (List.mem_append_right _ hm))
  · exact Or.inr h

/-- A part of a run whose unvotes can be relied on inherits that property. -/
theorem rollback_ok_mid {hw : hooks} {s a b t : clk_state} (h1 : log_extends s a)
    (h2 : log_extends a b) (h3 : log_extends b t) (h : rollback_ok hw (new_events s t)) :
    rollback_ok hw (new_events a b) := by
  rw [new_events_split h1 (log_extends_trans h2 h3), new_events_split h2 h3] at h
  exact rollback_ok_left (rollback_ok_right h)

theorem same_votes_refl (s : clk_state) : same_votes s s := fun _ => ⟨rfl, rfl⟩

theorem same_votes_symm {s t : clk_state} (h : same_votes s t) : same_votes t s :=
  fun rail => ⟨(h rail).1.symm, (h rail).2.symm⟩

theorem same_votes_trans {s t u : clk_state} (h1 : same_votes s t) (h2 : same_votes t u) :
    same_votes s u :=
  fun rail => ⟨(h1 rail).1.trans (h2 rail).1, (h1 rail).2.trans (h2 rail).2⟩

theorem same_votes_of_vdd {s t : clk_state} (h : s.vdd = t.vdd) : same_votes s t := by
  intro rail
  rw [h]
  exact ⟨rfl, rfl⟩

theorem vote_vdd_level_num_levels (f : clk_vdd_class → Int → Int) (v : clk_vdd_class)
    (l : Int) : (vote_vdd_level f v l).vdd.num_levels = v.num_levels := by
  by_cases hge : l ≥ (v.num_levels : Int)
  · rw [(vdd_level_above_range f v l hge).1]
  · rcases vote_vdd_level_cases f v l (by omega) with ⟨_, e⟩ | ⟨_, e, _, _⟩
    · rw [e, (update_vdd_votes f _).2.1, set_votes_num_levels]
    · rw [e]

theorem unvote_vdd_level_num_levels (f : clk_vdd_class → Int → Int) (v : clk_vdd_class)
    (l : Int) : (unvote_vdd_level f v l).vdd.num_levels = v.num_levels := by
  by_cases hge : l ≥ (v.num_levels : Int)
  · rw [(vdd_level_above_range f v l hge).2]
  · by_cases hz : v.level_votes l = 0
    · simp [unvote_vdd_level, hge, hz]
    · rcases unvote_vdd_level_cases f v l (by omega) hz with ⟨_, e⟩ | ⟨_, e, _, _⟩
      · rw [e, (update_vdd_votes f _).2.1, set_votes_num_levels]
      · rw [e]

/-- What `unvote_rate_vdd` leaves alone. -/
theorem unvote_rate_vdd_frame (hw : hooks) (cfg : Nat → clk) (s : clk_state) (c rate : Nat) :
    (unvote_rate_vdd hw cfg s c rate).count = s.count ∧
    (unvote_rate_vdd hw cfg s c rate).prepare_count = s.prepare_count ∧
    (unvote_rate_vdd hw cfg s c rate).rate = s.rate ∧
    log_extends s (unvote_rate_vdd hw cfg s c rate) ∧
    ∀ rail, ((unvote_rate_vdd hw cfg s c rate).vdd rail).num_levels =
      (s.vdd rail).num_levels := by
  unfold unvote_rate_vdd
  split
  · exact ⟨rfl, rfl, rfl, log_extends_refl s, fun _ => rfl⟩
  · next rail _ =>
    simp only
    split
    · exact ⟨rfl, rfl, rfl, log_extends_refl s, fun _ => rfl⟩
    · refine ⟨rfl, rfl, rfl, ⟨_, rfl⟩, ?_⟩
      intro x
      simp only [add_log_vdd, set_vdd_class_vdd]
      split
      · next hx => rw [unvote_vdd_level_num_levels, hx]
      · rfl

theorem new_events_set_vdd_class (t : clk_state) (rail : Nat) (v : clk_vdd_class)
    (es : List event) : new_events t (add_log (set_vdd_class t rail v) es) = es :=
  new_events_of_log es rfl

/-- What `vote_rate_vdd` does: it touches only the rails and the log; a failing call
leaves the rails as they were; and after a successful call, `unvote_rate_vdd` for the
same rate, run in any state with the same vote tables, restores the vote tables that
held before the vote (when its unvote can be relied on). -/
theorem vote_rate_vdd_spec (hw : hooks) (cfg : Nat → clk) (s : clk_state) (c rate : Nat) :
    (vote_rate_vdd hw cfg s c rate).2.count = s.count ∧
    (vote_rate_vdd hw cfg s c rate).2.prepare_count = s.prepare_count ∧
    (vote_rate_vdd hw cfg s c rate).2.rate = s.rate ∧
    log_extends s (vote_rate_vdd hw cfg s c rate).2 ∧
    ((vote_rate_vdd hw cfg s c rate).1 ≠ 0 → (vote_rate_vdd hw cfg s c rate).2.vdd = s.vdd) ∧
    ((vote_rate_vdd hw cfg s c rate).1 = 0 → ∀ t, same_votes t (vote_rate_vdd hw cfg s c rate).2 →
      rollback_ok hw (new_events t (unvote_rate_vdd hw cfg t c rate)) →
      same_votes (unvote_rate_vdd hw cfg t c rate) s) := by
  unfold vote_rate_vdd
  cases hvc : (cfg c).vdd_class with
  | none =>
    refine ⟨rfl, rfl, rfl, log_extends_refl s, fun _ => rfl, ?_⟩
    intro _ t ht _
    have e : unvote_rate_vdd hw cfg t c rate = t := by simp [unvote_rate_vdd, hvc]
    rw [e]
    exact ht
  | some rail =>
    simp only
    by_cases hl : find_vdd_level (cfg c).fmax rate < 0
    · rw [if_pos hl]
      refine ⟨rfl, rfl, rfl, log_extends_refl s, fun _ => rfl, ?_⟩
      intro h0
      simp only at h0
      omega
    · rw [if_neg hl]
      generalize hlev : find_vdd_level (cfg c).fmax rate = level at hl
      refine ⟨rfl, rfl, rfl, ⟨_, rfl⟩, ?_, ?_⟩
      · intro hne
        simp only at hne
        simp only [add_log_vdd]
        funext x
        simp only [set_vdd_class_vdd]
        split
        · next hx =>
          subst hx
          by_cases hge : level ≥ ((s.vdd x).num_levels : Int)
          · rw [(vdd_level_above_range _ _ level hge).1]
          · rcases vote_vdd_level_cases (hw.set_vdd s.log x) (s.vdd x) level (by omega) with
              ⟨h0, e⟩ | ⟨_, e, _, _⟩
            · rw [e] at hne
              exact absurd h0 hne
            · exact e
        · rfl
      · intro h0 t ht hok
        simp only at h0
        have hge : ¬ level ≥ ((s.vdd rail).num_levels : Int) := by
          intro hge
          rw [(vdd_level_above_range _ _ level hge).1] at h0
          simp [EINVAL] at h0
        rcases vote_vdd_level_cases (hw.set_vdd s.log rail) (s.vdd rail) level (by omega) with
          ⟨_, e⟩ | ⟨hne, _, erc, _⟩
        · rw [e] at ht
          obtain ⟨hv, hn, _⟩ := update_vdd_votes (hw.set_vdd s.log rail)
            (set_votes (s.vdd rail) level ((s.vdd rail).level_votes level + 1))
          have htr := ht rail
          simp only [add_log_vdd, set_vdd_class_vdd, if_true] at htr
          rw [hv, hn, set_votes_num_levels] at htr
          obtain ⟨htn, htv⟩ := htr
          have htl : (t.vdd rail).level_votes level = (s.vdd rail).level_votes level + 1 := by
            rw [htv]
            simp [set_votes]
          have hother : ∀ x, x ≠ rail → (t.vdd x).num_levels = (s.vdd x).num_levels ∧
              (t.vdd x).level_votes = (s.vdd x).level_votes := by
            intro x hx
            have := ht x
            simpa only [add_log_vdd, set_vdd_class_vdd, if_neg hx] using this
          have hlt : level < ((t.vdd rail).num_levels : Int) := by
            rw [htn]
            omega
          have hnz : (t.vdd rail).level_votes level ≠ 0 := by
            rw [htl]
            omega
          have hun : unvote_rate_vdd hw cfg t c rate =
              add_log (set_vdd_class t rail
                (unvote_vdd_level (hw.set_vdd t.log rail) (t.vdd rail) level).vdd)
                (vdd_events rail level
                  (unvote_vdd_level (hw.set_vdd t.log rail) (t.vdd rail) level) ++
                  [event.unvote rail level
                    (unvote_vdd_level (hw.set_vdd t.log rail) (t.vdd rail) level).rc]) := by
            simp [unvote_rate_vdd, hvc, hlev, hl]
          rw [hun] at hok ⊢
          rw [new_events_set_vdd_class] at hok
          have hrc0 : (update_vdd (hw.set_vdd t.log rail)
              (set_votes (t.vdd rail) level ((t.vdd rail).level_votes level - 1))).rc = 0 := by
            rcases hok with hok | hset
            · rcases unvote_vdd_level_cases (hw.set_vdd t.log rail) (t.vdd rail) level hlt hnz
                with ⟨h0', _⟩ | ⟨hne', _, erc', _⟩
              · exact h0'
              · exfalso
                have := hok (event.unvote rail level _)
                  (List.mem_append_right _ (List.mem_singleton.mpr rfl))
                rw [erc'] at this
                simp only [unvote_failed, bne_eq_false_iff_eq] at this
                exact hne' this
            · exact update_vdd_rc_zero _ _ (fun l => hset _ _ _ l)
          rcases unvote_vdd_level_cases (hw.set_vdd t.log rail) (t.vdd rail) level hlt hnz
            with ⟨_, e'⟩ | ⟨hne', _, _, _⟩
          · rw [e']
            obtain ⟨hv', hn', _⟩ := update_vdd_votes (hw.set_vdd t.log rail)
              (set_votes (t.vdd rail) level ((t.vdd rail).level_votes level - 1))
            intro x
            simp only [add_log_vdd, set_vdd_class_vdd]
            split
            · next hx =>
              subst hx
              rw [hv', hn', set_votes_num_levels]
              refine ⟨htn, ?_⟩
              funext i
              rw [set_votes_level_votes, htl, htv, set_votes_level_votes]
              split
              · next hi => rw [hi]; omega
              · rfl
            · next hx => exact hother x hx
          · exact absurd hrc0 hne'
        · rw [erc] at h0
          exact absurd h0 hne

theorem log_extends_add_log (s : clk_state) (es : List event) : log_extends s (add_log s es) :=
  ⟨es, rfl⟩

theorem ne_none_of_exists {α : Type} {o : Option α} {p : α → Prop}
    (h : ∃ a, o = some a ∧ p a) : o ≠ none := by
  obtain ⟨a, e, _⟩ := h
  rw [e]
  exact fun hh => Option.noConfusion hh

/-- What `clk_unprepare` leaves alone when it returns: the enable counts, the rates, and
the prepare counts of all clocks that are not below the clock. -/
theorem clk_unprepare_frame (hw : hooks) (cfg : Nat → clk) (h : Nat → Nat)
    (hr : ranked cfg h) :
    ∀ fuel s r t, clk_unprepare hw cfg fuel s r = some t →
      t.count = s.count ∧ t.rate = s.rate ∧ log_extends s t ∧
      (∀ x, rank h r ≤ h x → t.prepare_count x = s.prepare_count x) := by
  intro fuel
  induction fuel with
  | zero =>
    intro s r t he
    cases r with
    | null =>
      simp only [clk_unprepare, Option.some.injEq] at he
      subst he
      exact ⟨rfl, rfl, log_extends_refl s, fun _ _ => rfl⟩
    | err e => simp [clk_unprepare] at he
    | ptr c => simp [clk_unprepare] at he
  | succ fuel ih =>
    intro s r t he
    cases r with
    | null =>
      simp only [clk_unprepare, Option.some.injEq] at he
      subst he
      exact ⟨rfl, rfl, log_extends_refl s, fun _ _ => rfl⟩
    | err e => simp [clk_unprepare] at he
    | ptr c =>
      obtain ⟨hp, hd⟩ := hr c
      rw [clk_unprepare] at he
      by_cases h0 : s.prepare_count c = 0
      · rw [if_pos h0] at he
        cases he
        exact ⟨rfl, rfl, log_extends_add_log _ _, fun _ _ => rfl⟩
      · rw [if_neg h0] at he
        by_cases h1 : s.prepare_count c = 1
        · rw [if_pos h1] at he
          simp only at he
          have k1 : (add_log (add_log s (log_if (s.count c ≠ 0) (event.warn_enabled c)))
              (log_if ((cfg c).ops.unprepare = true) (event.unprepare c))).count = s.count := rfl
          have k2 : (add_log (add_log s (log_if (s.count c ≠ 0) (event.warn_enabled c)))
              (log_if ((cfg c).ops.unprepare = true) (event.unprepare c))).rate = s.rate := rfl
          have k3 : (add_log (add_log s (log_if (s.count c ≠ 0) (event.warn_enabled c)))
              (log_if ((cfg c).ops.unprepare = true) (event.unprepare c))).prepare_count =
              s.prepare_count := rfl
          have k4 : log_extends s (add_log (add_log s (log_if (s.count c ≠ 0)
              (event.warn_enabled c)))
              (log_if ((cfg c).ops.unprepare = true) (event.unprepare c))) :=
            log_extends_trans (log_extends_add_log _ _) (log_extends_add_log _ _)
          generalize add_log (add_log s (log_if (s.count c ≠ 0) (event.warn_enabled c)))
              (log_if ((cfg c).ops.unprepare = true) (event.unprepare c)) = s2 at k1 k2 k3 k4 he
          obtain ⟨vc, vp, vr, ve, _⟩ := unvote_rate_vdd_frame hw cfg s2 c (s2.rate c)
          generalize unvote_rate_vdd hw cfg s2 c (s2.rate c) = s3 at vc vp vr ve he
          split at he
          · cases he
          · next s4 heq =>
            obtain ⟨a1, a2, a3, a4⟩ := ih _ _ _ heq
            split at he
            · cases he
            · next s5 heq2 =>
              obtain ⟨b1, b2, b3, b4⟩ := ih _ _ _ heq2
              cases he
              refine ⟨?_, ?_, ?_, ?_⟩
              · simp only [set_prepare_count_count]
                rw [b1, a1, vc, k1]
              · simp only [set_prepare_count_rate]
                rw [b2, a2, vr, k2]
              · exact log_extends_trans (log_extends_trans (log_extends_trans k4 ve) a3)
                  (log_extends_trans b3 ⟨[], by simp⟩)
              · intro x hx
                simp only [rank] at hx
                have hxc : x ≠ c := by
                  rintro rfl
                  omega
                simp only [set_prepare_count_prepare_count, if_neg hxc]
                rw [b4 x (by omega), a4 x (by omega), vp, k3]
        · rw [if_neg h1] at he
          cases he
          refine ⟨rfl, rfl, ⟨[], by simp⟩, ?_⟩
          intro x hx
          simp only [rank] at hx
          have hxc : x ≠ c := by
            rintro rfl
            omega
          simp only [set_prepare_count_prepare_count, if_neg hxc]

/-- The call `clk_unprepare` returns when no error pointer lies below the reference
within the depth bound. -/
theorem clk_unprepare_valid (hw : hooks) (cfg : Nat → clk) :
    ∀ fuel s r, valid_below cfg fuel r = true →
      ∃ t, clk_unprepare hw cfg fuel s r = some t := by
  intro fuel
  induction fuel with
  | zero =>
    intro s r hv
    cases r with
    | null => exact ⟨s, rfl⟩
    | err e => simp [valid_below] at hv
    | ptr c => simp [valid_below] at hv
  | succ fuel ih =>
    intro s r hv
    cases r with
    | null => exact ⟨s, rfl⟩
    | err e => simp [valid_below] at hv
    | ptr c =>
      obtain ⟨hvp, hvd⟩ := valid_below_ptr cfg fuel c hv
      rw [clk_unprepare]
      by_cases h0 : s.prepare_count c = 0
      · rw [if_pos h0]
        exact ⟨_, rfl⟩
      · rw [if_neg h0]
        by_cases h1 : s.prepare_count c = 1
        · rw [if_pos h1]
          simp only
          generalize unvote_rate_vdd hw cfg _ c _ = s3
          obtain ⟨s4, e4⟩ := ih s3 (cfg c).depends hvd
          rw [e4]
          dsimp only
          obtain ⟨s5, e5⟩ := ih s4 (clk_get_parent cfg (.ptr c)) hvp
          rw [e5]
          exact ⟨_, rfl⟩
        · rw [if_neg h1]
          exact ⟨_, rfl⟩

/-- On a tree without error pointers `clk_unprepare` returns for every clock and for
`NULL`, whenever the depth bound covers the rank. -/
theorem clk_unprepare_returns (hw : hooks) (cfg : Nat → clk) (h : Nat → Nat)
    (hr : ranked cfg h) (hne : no_error_pointers cfg) :
    ∀ fuel s r, (∀ e, r ≠ .err e) → rank h r ≤ fuel →
      ∃ t, clk_unprepare hw cfg fuel s r = some t ∧
      t.count = s.count ∧ t.rate = s.rate ∧ log_extends s t ∧
      (∀ x, rank h r ≤ h x → t.prepare_count x = s.prepare_count x) := by
  intro fuel s r hr0 hf
  obtain ⟨t, e⟩ := clk_unprepare_valid hw cfg fuel s r
    (valid_below_of_ranked cfg h hr hne fuel r hr0 hf)
  exact ⟨t, e, clk_unprepare_frame hw cfg h hr fuel s r t e⟩

/-- Everything the proofs need about one `clk_prepare` call whose depth bound covers
the rank: it returns; it leaves enable counts and rates alone and changes prepare counts
only of the clock and of clocks below it; a failing call restores every prepare count,
and the vote tables too when its unvotes can be relied on; and after a successful call,
`clk_unprepare` run in any state with the same prepare counts below the rank and the
same rates restores the prepare counts that held before the call, and the vote tables
too when it starts from the same vote tables and its unvotes can be relied on; and that
`clk_unprepare` call returns in every state with the same prepare counts below the
rank. -/
theorem clk_prepare_full (hw : hooks) (cfg : Nat → clk) (h : Nat → Nat) (hr : ranked cfg h) :
    ∀ fuel s r, rank h r ≤ fuel → ∃ rc s1, clk_prepare hw cfg fuel s r = some (rc, s1) ∧
      s1.count = s.count ∧ s1.rate = s.rate ∧ log_extends s s1 ∧
      (∀ x, rank h r ≤ h x → s1.prepare_count x = s.prepare_count x) ∧
      (rc ≠ 0 → s1.prepare_count = s.prepare_count ∧
        (rollback_ok hw (new_events s s1) → same_votes s1 s)) ∧
      (rc = 0 → ∀ t1 t2, (∀ x, h x < rank h r → t1.prepare_count x = s1.prepare_count x) →
        t1.rate = s1.rate → clk_unprepare hw cfg fuel t1 r = some t2 →
        (∀ x, h x < rank h r → t2.prepare_count x = s.prepare_count x) ∧
        (same_votes t1 s1 → rollback_ok hw (new_events t1 t2) → same_votes t2 s)) ∧
      (rc = 0 → ∀ t1, (∀ x, h x < rank h r → t1.prepare_count x = s1.prepare_count x) →
        ∃ t2, clk_unprepare hw cfg fuel t1 r = some t2 ∧
          ∀ x, h x < rank h r → t2.prepare_count x = s.prepare_count x) := by
  have hnull : ∀ fuel s, ∃ rc s1, clk_prepare hw cfg fuel s .null = some (rc, s1) ∧
      s1.count = s.count ∧ s1.rate = s.rate ∧ log_extends s s1 ∧
      (∀ x, rank h .null ≤ h x → s1.prepare_count x = s.prepare_count x) ∧
      (rc ≠ 0 → s1.prepare_count = s.prepare_count ∧
        (rollback_ok hw (new_events s s1) → same_votes s1 s)) ∧
      (rc = 0 → ∀ t1 t2, (∀ x, h x < rank h .null → t1.prepare_count x = s1.prepare_count x) →
        t1.rate = s1.rate → clk_unprepare hw cfg fuel t1 .null = some t2 →
        (∀ x, h x < rank h .null → t2.prepare_count x = s.prepare_count x) ∧
        (same_votes t1 s1 → rollback_ok hw (new_events t1 t2) → same_votes t2 s)) ∧
      (rc = 0 → ∀ t1, (∀ x, h x < rank h .null → t1.prepare_count x = s1.prepare_count x) →
        ∃ t2, clk_unprepare hw cfg fuel t1 .null = some t2 ∧
          ∀ x, h x < rank h .null → t2.prepare_count x = s.prepare_count x) := by
    intro fuel s
    refine ⟨0, s, by cases fuel <;> rfl, rfl, rfl, log_extends_refl s, fun _ _ => rfl,
      fun hne => absurd rfl hne, ?_⟩
    refine ⟨?_, ?_⟩
    · intro _ t1 t2 _ _ hun
      have e : clk_unprepare hw cfg fuel t1 .null = some t1 := by cases fuel <;> rfl
      rw [e] at hun
      cases hun
      refine ⟨?_, fun hv _ => hv⟩
      intro x hx
      simp [rank] at hx
    · intro _ t1 _
      refine ⟨t1, by cases fuel <;> rfl, ?_⟩
      intro x hx
      simp [rank] at hx
  have herr : ∀ fuel s e, ∃ rc s1, clk_prepare hw cfg fuel s (.err e) = some (rc, s1) ∧
      s1.count = s.count ∧ s1.rate = s.rate ∧ log_extends s s1 ∧
      (∀ x, rank h (.err e) ≤ h x → s1.prepare_count x = s.prepare_count x) ∧
      (rc ≠ 0 → s1.prepare_count = s.prepare_count ∧
        (rollback_ok hw (new_events s s1) → same_votes s1 s)) ∧
      (rc = 0 → ∀ t1 t2,
        (∀ x, h x < rank h (.err e) → t1.prepare_count x = s1.prepare_count x) →
        t1.rate = s1.rate → clk_unprepare hw cfg fuel t1 (.err e) = some t2 →
        (∀ x, h x < rank h (.err e) → t2.prepare_count x = s.prepare_count x) ∧
        (same_votes t1 s1 → rollback_ok hw (new_events t1 t2) → same_votes t2 s)) ∧
      (rc = 0 → ∀ t1, (∀ x, h x < rank h (.err e) → t1.prepare_count x = s1.prepare_count x) →
        ∃ t2, clk_unprepare hw cfg fuel t1 (.err e) = some t2 ∧
          ∀ x, h x < rank h (.err e) → t2.prepare_count x = s.prepare_count x) := by
    intro fuel s e
    refine ⟨-EINVAL, s, by cases fuel <;> rfl, rfl, rfl, log_extends_refl s, fun _ _ => rfl,
      fun _ => ⟨rfl, fun _ => same_votes_refl s⟩, ?_, ?_⟩
    · intro h0
      simp [EINVAL] at h0
    · intro h0
      simp [EINVAL] at h0
  intro fuel
  induction fuel with
  | zero =>
    intro s r hf
    cases r with
    | null => exact hnull 0 s
    | err e => exact herr 0 s e
    | ptr c => simp [rank] at hf
  | succ fuel ih =>
    intro s r hf
    cases r with
    | null => exact hnull _ s
    | err e => exact herr _ s e
    | ptr c =>
      obtain ⟨hp, hd⟩ := hr c
      simp only [rank] at hf
      have ihP : ∀ s r rc s1, rank h r ≤ fuel → clk_prepare hw cfg fuel s r = some (rc, s1) →
          s1.count = s.count ∧ s1.rate = s.rate ∧ log_extends s s1 ∧
          (∀ x, rank h r ≤ h x → s1.prepare_count x = s.prepare_count x) ∧
          (rc ≠ 0 → s1.prepare_count = s.prepare_count ∧
            (rollback_ok hw (new_events s s1) → same_votes s1 s)) ∧
          (rc = 0 → ∀ t1 t2,
            (∀ x, h x < rank h r → t1.prepare_count x = s1.prepare_count x) →
            t1.rate = s1.rate → clk_unprepare hw cfg fuel t1 r = some t2 →
            (∀ x, h x < rank h r → t2.prepare_count x = s.prepare_count x) ∧
            (same_votes t1 s1 → rollback_ok hw (new_events t1 t2) → same_votes t2 s)) ∧
          (rc = 0 → ∀ t1, (∀ x, h x < rank h r → t1.prepare_count x = s1.prepare_count x) →
            ∃ t2, clk_unprepare hw cfg fuel t1 r = some t2 ∧
              ∀ x, h x < rank h r → t2.prepare_count x = s.prepare_count x) := by
        intro s r rc s1 hb he
        obtain ⟨rc', s1', e', p⟩ := ih s r hb
        rw [e'] at he
        cases he
        exact p
      have ihT : ∀ s r, rank h r ≤ fuel → clk_prepare hw cfg fuel s r ≠ none := by
        intro s r hb he
        obtain ⟨_, _, e', _⟩ := ih s r hb
        rw [e'] at he
        cases he
      have uP : ∀ s r t, rank h r ≤ fuel → clk_unprepare hw cfg fuel s r = some t →
          t.count = s.count ∧ t.rate = s.rate ∧ log_extends s t ∧
          (∀ x, rank h r ≤ h x → t.prepare_count x = s.prepare_count x) :=
        fun s r t _ he => clk_unprepare_frame hw cfg h hr fuel s r t he
      have hpf : rank h (clk_get_parent cfg (clk_ref.ptr c)) ≤ fuel := by omega
      have hdf : rank h (cfg c).depends ≤ fuel := by omega
      rw [clk_prepare]
      simp only [err_prepare_clock, err_vote_vdd, err_prepare_depends]
      by_cases h0 : s.prepare_count c = 0
      · rw [if_pos h0]
        split
        · next heq => exact absurd heq (ihT _ _ hpf)
        · next ret1 s1 heq1 =>
          obtain ⟨c1, r1, e1, f1, fail1, undo1, back1⟩ := ihP _ _ _ _ hpf heq1
          by_cases hr1 : ret1 ≠ 0
          · rw [if_pos hr1]
            refine ⟨_, _, rfl, c1, r1, e1, ?_, fun _ => fail1 hr1, fun h => absurd h hr1,
              fun h => absurd h hr1⟩
            intro x hx
            simp only [rank] at hx
            exact f1 x (by omega)
          · rw [if_neg hr1]
            have hr1z : ret1 = 0 := by simpa using hr1
            have undo1 := undo1 hr1z
            have back1 := back1 hr1z
            split
            · next heq => exact absurd heq (ihT _ _ hdf)
            · next ret2 s2 heq2 =>
              obtain ⟨c2, r2, e2, f2, fail2, undo2, back2⟩ := ihP _ _ _ _ hdf heq2
              by_cases hr2 : ret2 ≠ 0
              · rw [if_pos hr2]
                obtain ⟨fp2, fv2⟩ := fail2 hr2
                split
                · next heq => exact absurd heq (ne_none_of_exists (back1 _ (fun y _ => by rw [fp2])))
                · next t heqd =>
                  obtain ⟨uc, ur, ue, uf⟩ := uP _ _ _ hpf heqd
                  obtain ⟨und1, unv1⟩ := undo1 s2 t (fun y _ => by rw [fp2]) r2 heqd
                  have hcnt : t.prepare_count = s.prepare_count := by
                    funext x
                    by_cases hx : h x < rank h (clk_get_parent cfg (clk_ref.ptr c))
                    · exact und1 x hx
                    · rw [uf x (by omega), fp2, f1 x (by omega)]
                  refine ⟨_, _, rfl, ?_, ?_, ?_, ?_, fun _ => ⟨hcnt, ?_⟩, fun h => absurd h hr2,
                    fun h => absurd h hr2⟩
                  · rw [uc, c2, c1]
                  · rw [ur, r2, r1]
                  · exact log_extends_trans e1 (log_extends_trans e2 ue)
                  · intro x _
                    rw [hcnt]
                  · intro hok
                    have ok2 := rollback_ok_mid e1 e2 ue hok
                    have ok3 := rollback_ok_mid (log_extends_trans e1 e2) ue
                      (log_extends_refl t) hok
                    exact unv1 (fv2 ok2) ok3
              · rw [if_neg hr2]
                have hr2z : ret2 = 0 := by simpa using hr2
                have undo2 := undo2 hr2z
                have back2 := back2 hr2z
                obtain ⟨vc, vp, vr, ve, vfail, vundo⟩ := vote_rate_vdd_spec hw cfg s2 c (s2.rate c)
                generalize vote_rate_vdd hw cfg s2 c (s2.rate c) = V at vc vp vr ve vfail vundo ⊢
                obtain ⟨ret3, s3⟩ := V
                simp only at vc vp vr ve vfail vundo ⊢
                by_cases hr3 : ret3 ≠ 0
                · rw [if_pos hr3]
                  have hv3 := vfail hr3
                  split
                  · next heq => exact absurd heq (ne_none_of_exists (back2 _ (fun y _ => by rw [vp])))
                  · next t heqd =>
                    obtain ⟨uc, ur, ue, uf⟩ := uP _ _ _ hdf heqd
                    obtain ⟨und2, unv2⟩ := undo2 s3 t (fun y _ => by rw [vp]) (by rw [vr]) heqd
                    have hcnt1 : t.prepare_count = s1.prepare_count := by
                      funext x
                      by_cases hx : h x < rank h (cfg c).depends
                      · exact und2 x hx
                      · rw [uf x (by omega), vp, f2 x (by omega)]
                    split
                    · next heq => exact absurd heq (ne_none_of_exists (back1 _ (fun y _ => by rw [hcnt1])))
                    · next t' heqd' =>
                      obtain ⟨uc', ur', ue', uf'⟩ := uP _ _ _ hpf heqd'
                      obtain ⟨und1, unv1⟩ := undo1 t t' (fun y _ => by rw [hcnt1])
                        (by rw [ur, vr, r2]) heqd'
                      have hcnt : t'.prepare_count = s.prepare_count := by
                        funext x
                        by_cases hx : h x < rank h (clk_get_parent cfg (clk_ref.ptr c))
                        · exact und1 x hx
                        · rw [uf' x (by omega), hcnt1, f1 x (by omega)]
                      refine ⟨_, _, rfl, ?_, ?_, ?_, ?_, fun _ => ⟨hcnt, ?_⟩,
                        fun h => absurd h hr3, fun h => absurd h hr3⟩
                      · rw [uc', uc, vc, c2, c1]
                      · rw [ur', ur, vr, r2, r1]
                      · exact log_extends_trans e1 (log_extends_trans e2
                          (log_extends_trans ve (log_extends_trans ue ue')))
                      · intro x _
                        rw [hcnt]
                      · intro hok
                        have es3 := log_extends_trans e1 (log_extends_trans e2 ve)
                        have ok2 := rollback_ok_mid es3 ue ue' hok
                        have ok3 := rollback_ok_mid (log_extends_trans es3 ue) ue'
                          (log_extends_refl t') hok
                        exact unv1 (unv2 (same_votes_of_vdd hv3) ok2) ok3
                · rw [if_neg hr3]
                  have hr3z : ret3 = 0 := by simpa using hr3
                  have vundo := vundo hr3z
                  generalize hret4 : (if (cfg c).ops.prepare = true then hw.prepare s3.log c
                    else ret3) = ret4
                  have k1 : (add_log s3 (log_if ((cfg c).ops.prepare = true)
                      (event.prepare c ret4))).count = s3.count := rfl
                  have k2 : (add_log s3 (log_if ((cfg c).ops.prepare = true)
                      (event.prepare c ret4))).rate = s3.rate := rfl
                  have k3 : (add_log s3 (log_if ((cfg c).ops.prepare = true)
                      (event.prepare c ret4))).prepare_count = s3.prepare_count := rfl
                  have k4 : log_extends s3 (add_log s3 (log_if ((cfg c).ops.prepare = true)
                      (event.prepare c ret4))) := log_extends_add_log _ _
                  have k5 : (add_log s3 (log_if ((cfg c).ops.prepare = true)
                      (event.prepare c ret4))).vdd = s3.vdd := rfl
                  generalize add_log s3 (log_if ((cfg c).ops.prepare = true)
                      (event.prepare c ret4)) = s4 at k1 k2 k3 k4 k5 ⊢
                  have es4 := log_extends_trans e1 (log_extends_trans e2
                    (log_extends_trans ve k4))
                  by_cases hr4 : ret4 ≠ 0
                  · rw [if_pos hr4]
                    have hrate : s4.rate c = s2.rate c := by rw [k2, vr]
                    rw [hrate]
                    obtain ⟨wc, wp, wr, we, _⟩ := unvote_rate_vdd_frame hw cfg s4 c (s2.rate c)
                    have wv := vundo s4 (same_votes_of_vdd k5)
                    generalize unvote_rate_vdd hw cfg s4 c (s2.rate c) = s5 at wc wp wr we wv ⊢
                    split
                    · next heq => exact absurd heq (ne_none_of_exists (back2 _ (fun y _ => by rw [wp, k3, vp])))
                    · next t heqd =>
                      obtain ⟨uc, ur, ue, uf⟩ := uP _ _ _ hdf heqd
                      obtain ⟨und2, unv2⟩ := undo2 s5 t (fun y _ => by rw [wp, k3, vp])
                        (by rw [wr, k2, vr]) heqd
                      have hcnt1 : t.prepare_count = s1.prepare_count := by
                        funext x
                        by_cases hx : h x < rank h (cfg c).depends
                        · exact und2 x hx
                        · rw [uf x (by omega), wp, k3, vp, f2 x (by omega)]
                      split
                      · next heq => exact absurd heq (ne_none_of_exists (back1 _ (fun y _ => by rw [hcnt1])))
                      · next t' heqd' =>
                        obtain ⟨uc', ur', ue', uf'⟩ := uP _ _ _ hpf heqd'
                        obtain ⟨und1, unv1⟩ := undo1 t t' (fun y _ => by rw [hcnt1])
                          (by rw [ur, wr, k2, vr, r2]) heqd'
                        have hcnt : t'.prepare_count = s.prepare_count := by
                          funext x
                          by_cases hx : h x < rank h (clk_get_parent cfg (clk_ref.ptr c))
                          · exact und1 x hx
                          · rw [uf' x (by omega), hcnt1, f1 x (by omega)]
                        refine ⟨_, _, rfl, ?_, ?_, ?_, ?_, fun _ => ⟨hcnt, ?_⟩,
                          fun h => absurd h hr4, fun h => absurd h hr4⟩
                        · rw [uc', uc, wc, k1, vc, c2, c1]
                        · rw [ur', ur, wr, k2, vr, r2, r1]
                        · exact log_extends_trans es4
                            (log_extends_trans we (log_extends_trans ue ue'))
                        · intro x _
                          rw [hcnt]
                        · intro hok
                          have ok1 := rollback_ok_mid es4 we (log_extends_trans ue ue') hok
                          have es5 := log_extends_trans es4 we
                          have ok2 := rollback_ok_mid es5 ue ue' hok
                          have ok3 := rollback_ok_mid (log_extends_trans es5 ue) ue'
                            (log_extends_refl t') hok
                          exact unv1 (unv2 (wv ok1) ok2) ok3
                  · rw [if_neg hr4]
                    have hr4z : ret4 = 0 := by simpa using hr4
                    have hc4 : s4.prepare_count c = 0 := by
                      rw [k3, vp, f2 c (by omega), f1 c (by omega), h0]
                    refine ⟨_, _, rfl, ?_, ?_, ?_, ?_, fun h => absurd hr4z h, ?_, ?_⟩
                    · simp only [set_prepare_count_count]
                      rw [k1, vc, c2, c1]
                    · simp only [set_prepare_count_rate]
                      rw [k2, vr, r2, r1]
                    · exact log_extends_trans es4 ⟨[], by simp⟩
                    · intro x hx
                      simp only [rank] at hx
                      have hxc : x ≠ c := by
                        rintro rfl
                        omega
                      simp only [set_prepare_count_prepare_count, if_neg hxc]
                      rw [k3, vp, f2 x (by omega), f1 x (by omega)]
                    · intro _ t1 t2 hag hrt hun
                      simp only [rank] at hag
                      simp only [set_prepare_count_rate] at hrt
                      have ht1c : t1.prepare_count c = 1 := by
                        rw [hag c (by omega)]
                        simp [hc4]
                      have hag' : ∀ y, h y < h c + 1 → y ≠ c →
                          t1.prepare_count y = s2.prepare_count y := by
                        intro y hy hyc
                        rw [hag y hy]
                        simp only [set_prepare_count_prepare_count, if_neg hyc]
                        rw [k3, vp]
                      rw [clk_unprepare] at hun
                      simp only [ht1c, one_ne_zero, if_false, if_true] at hun
                      have j2 : (add_log (add_log t1 (log_if (t1.count c ≠ 0)
                          (event.warn_enabled c)))
                          (log_if ((cfg c).ops.unprepare = true) (event.unprepare c))).rate =
                          t1.rate := rfl
                      have j3 : (add_log (add_log t1 (log_if (t1.count c ≠ 0)
                          (event.warn_enabled c)))
                          (log_if ((cfg c).ops.unprepare = true)
                            (event.unprepare c))).prepare_count = t1.prepare_count := rfl
                      have j4 : log_extends t1 (add_log (add_log t1 (log_if (t1.count c ≠ 0)
                          (event.warn_enabled c)))
                          (log_if ((cfg c).ops.unprepare = true) (event.unprepare c))) :=
                        log_extends_trans (log_extends_add_log _ _) (log_extends_add_log _ _)
                      have j5 : (add_log (add_log t1 (log_if (t1.count c ≠ 0)
                          (event.warn_enabled c)))
                          (log_if ((cfg c).ops.unprepare = true) (event.unprepare c))).vdd =
                          t1.vdd := rfl
                      generalize add_log (add_log t1 (log_if (t1.count c ≠ 0)
                          (event.warn_enabled c)))
                          (log_if ((cfg c).ops.unprepare = true) (event.unprepare c)) = a
                        at j2 j3 j4 j5 hun
                      have hrate : a.rate c = s2.rate c := by rw [j2, hrt, k2, vr]
                      rw [hrate] at hun
                      obtain ⟨wc, wp, wr, we, _⟩ := unvote_rate_vdd_frame hw cfg a c (s2.rate c)
                      have wv := vundo a
                      generalize unvote_rate_vdd hw cfg a c (s2.rate c) = u at wc wp wr we wv hun
                      split at hun
                      · cases hun
                      · next w hequ =>
                        obtain ⟨_, ur, ue, uf⟩ := uP _ _ _ hdf hequ
                        obtain ⟨und2, unv2⟩ := undo2 u w
                          (fun y hy => by
                            rw [wp, j3]
                            exact hag' y (by omega) (by rintro rfl; omega))
                          (by rw [wr, j2, hrt, k2, vr]) hequ
                        split at hun
                        · cases hun
                        · next w' hequ' =>
                          obtain ⟨_, ur', ue', uf'⟩ := uP _ _ _ hpf hequ'
                          obtain ⟨und1, unv1⟩ := undo1 w w'
                            (fun y hy => by
                              by_cases hyd : h y < rank h (cfg c).depends
                              · exact und2 y hyd
                              · rw [uf y (by omega), wp, j3,
                                  hag' y (by omega) (by rintro rfl; omega), f2 y (by omega)])
                            (by rw [ur, wr, j2, hrt, k2, vr, r2]) hequ'
                          cases hun
                          constructor
                          · intro x hx
                            simp only [rank] at hx
                            by_cases hxc : x = c
                            · subst hxc
                              simp only [set_prepare_count_prepare_count, if_true]
                              rw [uf' x (by omega), uf x (by omega), wp, j3, ht1c, h0]
                            · simp only [set_prepare_count_prepare_count, if_neg hxc]
                              by_cases hxp : h x < rank h (clk_get_parent cfg (clk_ref.ptr c))
                              · exact und1 x hxp
                              · rw [uf' x (by omega)]
                                by_cases hxd : h x < rank h (cfg c).depends
                                · rw [und2 x hxd, f1 x (by omega)]
                                · rw [uf x (by omega), wp, j3, hag' x hx hxc, f2 x (by omega),
                                    f1 x (by omega)]
                          · intro hsv hok
                            have hlast : log_extends w'
                                (set_prepare_count w' c (w'.prepare_count c - 1)) :=
                              ⟨[], by simp⟩
                            have hsa : same_votes a s3 := by
                              intro rail
                              rw [j5]
                              have := hsv rail
                              simpa only [set_prepare_count_vdd, k5] using this
                            have ok1 := rollback_ok_mid j4 we
                              (log_extends_trans ue (log_extends_trans ue' hlast)) hok
                            have ok2 := rollback_ok_mid (log_extends_trans j4 we) ue
                              (log_extends_trans ue' hlast) hok
                            have ok3 := rollback_ok_mid
                              (log_extends_trans (log_extends_trans j4 we) ue) ue' hlast hok
                            have := unv1 (unv2 (wv hsa ok1) ok2) ok3
                            intro rail
                            simpa only [set_prepare_count_vdd] using this rail
                    · intro _ t1 hag
                      simp only [rank] at hag
                      have ht1c : t1.prepare_count c = 1 := by
                        rw [hag c (by omega)]
                        simp [hc4]
                      have hag' : ∀ y, h y < h c + 1 → y ≠ c →
                          t1.prepare_count y = s2.prepare_count y := by
                        intro y hy hyc
                        rw [hag y hy]
                        simp only [set_prepare_count_prepare_count, if_neg hyc]
                        rw [k3, vp]
                      rw [clk_unprepare]
                      simp only [ht1c, one_ne_zero, if_false, if_true]
                      have j3 : (add_log (add_log t1 (log_if (t1.count c ≠ 0)
                          (event.warn_enabled c)))
                          (log_if ((cfg c).ops.unprepare = true)
                            (event.unprepare c))).prepare_count = t1.prepare_count := rfl
                      generalize add_log (add_log t1 (log_if (t1.count c ≠ 0)
                          (event.warn_enabled c)))
                          (log_if ((cfg c).ops.unprepare = true) (event.unprepare c)) = a
                        at j3 ⊢
                      obtain ⟨_, wp, _, _, _⟩ := unvote_rate_vdd_frame hw cfg a c (a.rate c)
                      generalize unvote_rate_vdd hw cfg a c (a.rate c) = u at wp ⊢
                      obtain ⟨w, hequ, und2⟩ := back2 u (fun y hy => by
                        rw [wp, j3]
                        exact hag' y (by omega) (by rintro rfl; omega))
                      obtain ⟨_, _, _, uf⟩ := uP _ _ _ hdf hequ
                      obtain ⟨w', hequ', und1⟩ := back1 w (fun y hy => by
                        by_cases hyd : h y < rank h (cfg c).depends
                        · exact und2 y hyd
                        · rw [uf y (by omega), wp, j3,
                            hag' y (by omega) (by rintro rfl; omega), f2 y (by omega)])
                      obtain ⟨_, _, _, uf'⟩ := uP _ _ _ hpf hequ'
                      rw [hequ]
                      dsimp only
                      rw [hequ']
                      refine ⟨_, rfl, ?_⟩
                      intro x hx
                      simp only [rank] at hx
                      by_cases hxc : x = c
                      · subst hxc
                        simp only [set_prepare_count_prepare_count, if_true]
                        rw [uf' x (by omega), uf x (by omega), wp, j3, ht1c, h0]
                      · simp only [set_prepare_count_prepare_count, if_neg hxc]
                        by_cases hxp : h x < rank h (clk_get_parent cfg (clk_ref.ptr c))
                        · exact und1 x hxp
                        · rw [uf' x (by omega)]
                          by_cases hxd : h x < rank h (cfg c).depends
                          · rw [und2 x hxd, f1 x (by omega)]
                          · rw [uf x (by omega), wp, j3, hag' x hx hxc, f2 x (by omega),
                              f1 x (by omega)]
      · rw [if_neg h0]
        refine ⟨_, _, rfl, rfl, rfl, ⟨[], by simp⟩, ?_, fun h => absurd rfl h, ?_, ?_⟩
        · intro x hx
          simp only [rank] at hx
          have hxc : x ≠ c := by
            rintro rfl
            omega
          simp only [set_prepare_count_prepare_count, if_neg hxc]
        · intro _ t1 t2 hag _ hun
          simp only [rank] at hag
          have ht1c : t1.prepare_count c = s.prepare_count c + 1 := by
            rw [hag c (by omega)]
            simp
          have hne0 : ¬ (s.prepare_count c + 1 = 0) := by omega
          have hne1 : ¬ (s.prepare_count c + 1 = 1) := by omega
          rw [clk_unprepare] at hun
          simp only [ht1c, hne0, hne1, if_false] at hun
          cases hun
          constructor
          · intro x hx
            simp only [rank] at hx
            by_cases hxc : x = c
            · subst hxc
              simp
            · simp only [set_prepare_count_prepare_count, if_neg hxc]
              rw [hag x hx]
              simp [hxc]
          · intro hsv _ rail
            have := hsv rail
            simpa only [set_prepare_count_vdd] using this
        · intro _ t1 hag
          simp only [rank] at hag
          have ht1c : t1.prepare_count c = s.prepare_count c + 1 := by
            rw [hag c (by omega)]
            simp
          have hne0 : ¬ (s.prepare_count c + 1 = 0) := by omega
          have hne1 : ¬ (s.prepare_count c + 1 = 1) := by omega
          rw [clk_unprepare]
          simp only [ht1c, hne0, hne1, if_false]
          refine ⟨_, rfl, ?_⟩
          intro x hx
          by_cases hxc : x = c
          · subst hxc
            simp
          · simp only [set_prepare_count_prepare_count, if_neg hxc]
            rw [hag x hx]
            simp [hxc]

/-- The part of `clk_prepare_full` without the last clause. -/
theorem clk_prepare_spec (hw : hooks) (cfg : Nat → clk) (h : Nat → Nat) (hr : ranked cfg h) :
    ∀ fuel s r, rank h r ≤ fuel → ∃ rc s1, clk_prepare hw cfg fuel s r = some (rc, s1) ∧
      s1.count = s.count ∧ s1.rate = s.rate ∧ log_extends s s1 ∧
      (∀ x, rank h r ≤ h x → s1.prepare_count x = s.prepare_count x) ∧
      (rc ≠ 0 → s1.prepare_count = s.prepare_count ∧
        (rollback_ok hw (new_events s s1) → same_votes s1 s)) ∧
      (rc = 0 → ∀ t1 t2, (∀ x, h x < rank h r → t1.prepare_count x = s1.prepare_count x) →
        t1.rate = s1.rate → clk_unprepare hw cfg fuel t1 r = some t2 →
        (∀ x, h x < rank h r → t2.prepare_count x = s.prepare_count x) ∧
        (same_votes t1 s1 → rollback_ok hw (new_events t1 t2) → same_votes t2 s)) := by
  intro fuel s r hf
  obtain ⟨rc, s1, e, a1, a2, a3, a4, a5, a6, _⟩ := clk_prepare_full hw cfg h hr fuel s r hf
  exact ⟨rc, s1, e, a1, a2, a3, a4, a5, a6⟩

/-- After a successful `clk_prepare`, `clk_unprepare` returns in every state with the
same prepare counts below the rank, and restores the prepare counts below the rank
that held before the `clk_prepare` call. -/
theorem clk_prepare_undo (hw : hooks) (cfg : Nat → clk) (h : Nat → Nat) (hr : ranked cfg h)
    (fuel : Nat) (s s1 : clk_state) (r : clk_ref) (hf : rank h r ≤ fuel)
    (he : clk_prepare hw cfg fuel s r = some (0, s1)) (t1 : clk_state)
    (hag : ∀ x, h x < rank h r → t1.prepare_count x = s1.prepare_count x) :
    ∃ t2, clk_unprepare hw cfg fuel t1 r = some t2 ∧
      ∀ x, h x < rank h r → t2.prepare_count x = s.prepare_count x := by
  obtain ⟨rc, s1', e, _, _, _, _, _, _, back⟩ := clk_prepare_full hw cfg h hr fuel s r hf
  rw [e] at he
  cases he
  exact back rfl t1 hag

/-- A successful `clk_prepare` is undone by `clk_unprepare`, run in any state with the
same prepare counts, rates and vote tables, when the rail setter never fails. -/
theorem clk_prepare_unprepare (hw : hooks) (cfg : Nat → clk) (h : Nat → Nat)
    (hr : ranked cfg h) (fuel : Nat) (s s1 t1 : clk_state) (r : clk_ref)
    (hf : rank h r ≤ fuel) (hset : ∀ log rail v l, hw.set_vdd log rail v l = 0)
    (he : clk_prepare hw cfg fuel s r = some (0, s1))
    (hag : t1.prepare_count = s1.prepare_count) (hrt : t1.rate = s1.rate)
    (hsv : same_votes t1 s1) :
    ∃ t2, clk_unprepare hw cfg fuel t1 r = some t2 ∧ t2.prepare_count = s.prepare_count ∧
      t2.rate = s.rate ∧ same_votes t2 s := by
  obtain ⟨rc, s1', e, _, r1, _, f, _, undo⟩ := clk_prepare_spec hw cfg h hr fuel s r hf
  rw [e] at he
  cases he
  obtain ⟨t2, e2, _⟩ := clk_prepare_undo hw cfg h hr fuel s s1 r hf e t1
    (fun y _ => by rw [hag])
  obtain ⟨_, r2, _, f2⟩ := clk_unprepare_frame hw cfg h hr fuel t1 r t2 e2
  obtain ⟨und, unv⟩ := undo rfl t1 t2 (fun y _ => by rw [hag]) hrt e2
  refine ⟨t2, e2, ?_, by rw [r2, hrt, r1], unv hsv (Or.inr hset)⟩
  funext x
  by_cases hx : h x < rank h r
  · exact und x hx
  · rw [f2 x (by omega), hag, f x (by omega)]

theorem unprepare_times_succ (hw : hooks) (cfg : Nat → clk) (fuel : Nat) (r : clk_ref) :
    ∀ n s, unprepare_times hw cfg fuel (n + 1) s r =
      (unprepare_times hw cfg fuel n s r).bind (fun u => clk_unprepare hw cfg fuel u r) := by
  intro n
  induction n with
  | zero =>
    intro s
    simp only [unprepare_times, Option.some_bind]
    cases clk_unprepare hw cfg fuel s r <;> rfl
  | succ n ih =>
    intro s
    rw [unprepare_times]
    cases hd : clk_unprepare hw cfg fuel s r with
    | none => simp [unprepare_times, hd]
    | some u =>
      simp only
      rw [ih u]
      conv_rhs => rw [unprepare_times, hd]

/-- C7 (counterexample): in the example tree, with the child at 50 MHz, a prepare hook
of the child that fails and a setter that fails when asked to lower the rail to level
0, `clk_prepare` of the child returns the error -5 and leaves one vote on level 1 of
the rail, which had none before the call. -/
theorem clk_prepare_failure_keeps_vote :
    (clk_prepare (demo_hooks (-5) (-5) 0) demo_cfg 2 (demo_state 50000000) (.ptr 1)).map
        (fun p => (p.1, (p.2.vdd 0).level_votes 1)) = some (-5, 1) ∧
    ((demo_state 50000000).vdd 0).level_votes 1 = 0 := by
  decide

/-- C7 (amended): when `clk_prepare` on a clock returns an error, the prepare count of
every clock (the clock itself, its parent, its dependency and all their ancestors
included), every rate and every enable count are as before the call, and every rail's
vote counts are as before the call provided that no `unvote_vdd_level` issued during
the call returned an error; the call returns whenever the depth bound covers the
clock's height. -/
theorem clk_prepare_failure_restores (hw : hooks) (cfg : Nat → clk) (h : Nat → Nat)
    (hr : ranked cfg h) (fuel : Nat) (s : clk_state) (c : Nat) (hf : h c < fuel) :
    (∃ rc s1, clk_prepare hw cfg fuel s (.ptr c) = some (rc, s1)) ∧
    ∀ rc s1, clk_prepare hw cfg fuel s (.ptr c) = some (rc, s1) → rc ≠ 0 →
      (∀ x, s1.prepare_count x = s.prepare_count x) ∧
      (∀ x, s1.rate x = s.rate x) ∧
      (∀ x, s1.count x = s.count x) ∧
      (unvotes_ok (new_events s s1) →
        ∀ rail i, (s1.vdd rail).level_votes i = (s.vdd rail).level_votes i) := by
  obtain ⟨rc, s1, e, cn, rt, _, _, fail, _⟩ :=
    clk_prepare_spec hw cfg h hr fuel s (.ptr c) (by simp only [rank]; omega)
  refine ⟨⟨rc, s1, e⟩, ?_⟩
  intro rc' s1' e' hne
  rw [e] at e'
  cases e'
  obtain ⟨fp, fv⟩ := fail hne
  refine ⟨fun x => by rw [fp], fun x => by rw [rt], fun x => by rw [cn], ?_⟩
  intro hok rail i
  rw [(fv (Or.inl hok) rail).2]

/-- Witness of C7 (amended): in the example tree the prepare hook of the child fails
after the parent was prepared and the rail was voted for; the setter succeeds. -/
theorem clk_prepare_failure_restores_witness :
    (clk_prepare (demo_hooks 0 (-5) 0) demo_cfg 2 (demo_state 50000000) (.ptr 1)).map
        (fun p => (p.1, decide (unvotes_ok (new_events (demo_state 50000000) p.2)))) =
      some (-5, true) ∧
    ((∃ rc s1, clk_prepare (demo_hooks 0 (-5) 0) demo_cfg 2 (demo_state 50000000) (.ptr 1) =
        some (rc, s1)) ∧
      ∀ rc s1, clk_prepare (demo_hooks 0 (-5) 0) demo_cfg 2 (demo_state 50000000) (.ptr 1) =
          some (rc, s1) → rc ≠ 0 →
        (∀ x, s1.prepare_count x = (demo_state 50000000).prepare_count x) ∧
        (∀ x, s1.rate x = (demo_state 50000000).rate x) ∧
        (∀ x, s1.count x = (demo_state 50000000).count x) ∧
        (unvotes_ok (new_events (demo_state 50000000) s1) →
          ∀ rail i, (s1.vdd rail).level_votes i =
            ((demo_state 50000000).vdd rail).level_votes i)) :=
  ⟨by decide, clk_prepare_failure_restores (demo_hooks 0 (-5) 0) demo_cfg (fun c => c)
    demo_ranked 2 (demo_state 50000000) 1 (by decide)⟩

/-- C9: `n` calls of `clk_prepare` on a clock that all succeed, followed by `n` calls of
`clk_unprepare` (nothing else in between, the rail setter never failing), return the
prepare count of every clock (the clock itself, its parent, its dependency and all
their ancestors included), every rail's vote counts and every rate to their values
before the sequence; the `n` unprepares all return. -/
theorem prepare_unprepare_times (hw : hooks) (cfg : Nat → clk) (h : Nat → Nat)
    (hr : ranked cfg h) (fuel : Nat) (c : Nat) (hf : h c < fuel) (n : Nat) (s : clk_state)
    (hset : ∀ log rail v l, hw.set_vdd log rail v l = 0)
    (hen : (prepare_times hw cfg fuel n s (.ptr c)).isSome = true) :
    ∃ s2, (prepare_times hw cfg fuel n s (.ptr c)).bind
        (fun s1 => unprepare_times hw cfg fuel n s1 (.ptr c)) = some s2 ∧
      (∀ x, s2.prepare_count x = s.prepare_count x) ∧
      (∀ rail i, (s2.vdd rail).level_votes i = (s.vdd rail).level_votes i) ∧
      (∀ x, s2.rate x = s.rate x) := by
  have hrk : rank h (.ptr c) ≤ fuel := by simp only [rank]; omega
  have gen : ∀ n s s1 t1, prepare_times hw cfg fuel n s (.ptr c) = some s1 →
      t1.prepare_count = s1.prepare_count → t1.rate = s1.rate → same_votes t1 s1 →
      ∃ t2, unprepare_times hw cfg fuel n t1 (.ptr c) = some t2 ∧
        t2.prepare_count = s.prepare_count ∧ t2.rate = s.rate ∧ same_votes t2 s := by
    intro n
    induction n with
    | zero =>
      intro s s1 t1 hen hag hrt hsv
      simp only [prepare_times, Option.some.injEq] at hen
      subst hen
      exact ⟨t1, rfl, hag, hrt, hsv⟩
    | succ n ih =>
      intro s s1 t1 hen hag hrt hsv
      rw [prepare_times] at hen
      split at hen
      · cases hen
      · next ret u heq =>
        split at hen
        · next hret =>
          subst hret
          obtain ⟨t2, e2, c2, r2, v2⟩ := ih u s1 t1 hen hag hrt hsv
          obtain ⟨t3, e3, c3, r3, v3⟩ :=
            clk_prepare_unprepare hw cfg h hr fuel s u t2 (.ptr c) hrk hset heq c2 r2 v2
          refine ⟨t3, ?_, c3, r3, v3⟩
          rw [unprepare_times_succ, e2]
          exact e3
        · cases hen
  obtain ⟨s1, e1⟩ := Option.isSome_iff_exists.mp hen
  obtain ⟨t2, e2, c2, r2, v2⟩ := gen n s s1 s1 e1 rfl rfl (same_votes_refl s1)
  refine ⟨t2, ?_, fun x => by rw [c2], fun rail i => by rw [(v2 rail).2], fun x => by rw [r2]⟩
  rw [e1]
  exact e2

/-- Witness of C9: three prepares and three unprepares of the child of the example
tree at 50 MHz, with a setter that always succeeds. -/
theorem prepare_unprepare_times_witness :
    ∃ s2, (prepare_times (demo_hooks 0 0 0) demo_cfg 2 3 (demo_state 50000000) (.ptr 1)).bind
        (fun s1 => unprepare_times (demo_hooks 0 0 0) demo_cfg 2 3 s1 (.ptr 1)) = some s2 ∧
      (∀ x, s2.prepare_count x = (demo_state 50000000).prepare_count x) ∧
      (∀ rail i, (s2.vdd rail).level_votes i =
        ((demo_state 50000000).vdd rail).level_votes i) ∧
      (∀ x, s2.rate x = (demo_state 50000000).rate x) :=
  prepare_unprepare_times (demo_hooks 0 0 0) demo_cfg (fun c => c) demo_ranked 2 1
    (by decide) 3 (demo_state 50000000) (fun _ _ _ l => by simp [demo_hooks])
    (by decide)

/-! ## Theorems: reference counting and rates -/

@[simp] theorem set_clk_rate_rate (s : clk_state) (c rate x : Nat) :
    (set_clk_rate s c rate).rate x = if x = c then rate else s.rate x := rfl
@[simp] theorem set_clk_rate_count (s : clk_state) (c rate : Nat) :
    (set_clk_rate s c rate).count = s.count := rfl
@[simp] theorem set_clk_rate_prepare_count (s : clk_state) (c rate : Nat) :
    (set_clk_rate s c rate).prepare_count = s.prepare_count := rfl
@[simp] theorem set_clk_rate_vdd (s : clk_state) (c rate : Nat) :
    (set_clk_rate s c rate).vdd = s.vdd := rfl
@[simp] theorem set_clk_rate_log (s : clk_state) (c rate : Nat) :
    (set_clk_rate s c rate).log = s.log := rfl

theorem new_events_self (s : clk_state) : new_events s s = [] := by
  simp [new_events]

theorem new_events_add_log (s : clk_state) (es : List event) :
    new_events s (add_log s es) = es :=
  new_events_of_log es rfl

/-- C11: for a clock with `prepare_count > 0`, `clk_prepare` returns success and adds
exactly one to that clock's `prepare_count`, with no other effect: nothing is logged
(no hook of any clock is invoked, no setter is called), no rail changes (vote counts and
resolved levels), and the `prepare_count` of every other clock, every enable count and
every rate are unchanged. -/
theorem clk_prepare_already_prepared (hw : hooks) (cfg : Nat → clk) (fuel : Nat)
    (s : clk_state) (c : Nat) (hpos : 0 < s.prepare_count c) :
    ∃ s1, clk_prepare hw cfg (fuel + 1) s (.ptr c) = some (0, s1) ∧
      s1.prepare_count c = s.prepare_count c + 1 ∧
      (∀ x, x ≠ c → s1.prepare_count x = s.prepare_count x) ∧
      s1.log = s.log ∧ new_events s s1 = [] ∧ s1.vdd = s.vdd ∧
      s1.count = s.count ∧ s1.rate = s.rate := by
  have hne : ¬ s.prepare_count c = 0 := by omega
  refine ⟨set_prepare_count s c (s.prepare_count c + 1), ?_, ?_, ?_, rfl, ?_, rfl, rfl, rfl⟩
  · rw [clk_prepare, if_neg hne]
  · simp
  · intro x hx
    simp [hx]
  · simp [new_events]

/-- Witness of C11: the prepared child of the example tree. -/
theorem clk_prepare_already_prepared_witness :
    ∃ s1, clk_prepare (demo_hooks 0 0 0) demo_cfg (1 + 1) (demo_prepared 0 [1, 0] 0) (.ptr 1) =
        some (0, s1) ∧
      s1.prepare_count 1 = (demo_prepared 0 [1, 0] 0).prepare_count 1 + 1 ∧
      (∀ x, x ≠ 1 → s1.prepare_count x = (demo_prepared 0 [1, 0] 0).prepare_count x) ∧
      s1.log = (demo_prepared 0 [1, 0] 0).log ∧
      new_events (demo_prepared 0 [1, 0] 0) s1 = [] ∧
      s1.vdd = (demo_prepared 0 [1, 0] 0).vdd ∧
      s1.count = (demo_prepared 0 [1, 0] 0).count ∧
      s1.rate = (demo_prepared 0 [1, 0] 0).rate :=
  clk_prepare_already_prepared (demo_hooks 0 0 0) demo_cfg 1 (demo_prepared 0 [1, 0] 0) 1
    (by decide)

/-- C13: an unbalanced release is a no-op that never underflows.  For a clock `c` with
enable count 0, `clk_disable` only logs its warnings: every enable count, prepare
count, rate and rail is unchanged and no disable hook is invoked.  For a clock `d` with
`prepare_count == 0`, `clk_unprepare` only logs its warning: every prepare count, enable
count, rate and rail (so every vote count) is unchanged and no unprepare hook is
invoked.  On a null clock both return the state as it is. -/
theorem unbalanced_release_noop (hw : hooks) (cfg : Nat → clk) (fuel : Nat) (s : clk_state)
    (c d : Nat) (hc : s.count c = 0) (hd : s.prepare_count d = 0) :
    (∃ t, clk_disable cfg (fuel + 1) s (.ptr c) = some t ∧
      t.count = s.count ∧ t.prepare_count = s.prepare_count ∧ t.rate = s.rate ∧
      t.vdd = s.vdd ∧ ∀ x, event.disable x ∉ new_events s t) ∧
    (∃ t, clk_unprepare hw cfg (fuel + 1) s (.ptr d) = some t ∧
      t.prepare_count = s.prepare_count ∧ t.count = s.count ∧ t.rate = s.rate ∧
      t.vdd = s.vdd ∧ ∀ x, event.unprepare x ∉ new_events s t) ∧
    clk_disable cfg fuel s .null = some s ∧
    clk_unprepare hw cfg fuel s .null = some s := by
  refine ⟨⟨add_log (add_log s (log_if (s.prepare_count c = 0) (event.warn_unprepared c)))
      [event.warn_unbalanced c], ?_, rfl, rfl, rfl, rfl, ?_⟩,
    ⟨add_log s [event.warn_unbalanced d], ?_, rfl, rfl, rfl, rfl, ?_⟩, ?_, ?_⟩
  · rw [clk_disable]
    simp only [add_log_count, hc, if_true]
  · intro x hx
    rw [new_events_of_log (log_if (s.prepare_count c = 0) (event.warn_unprepared c) ++
      [event.warn_unbalanced c]) (by simp [add_log])] at hx
    simp only [log_if, List.mem_append, List.mem_singleton] at hx
    rcases hx with hx | hx
    · split at hx <;> simp at hx
    · cases hx
  · rw [clk_unprepare, if_pos hd]
  · intro x hx
    rw [new_events_add_log] at hx
    simp at hx
  · cases fuel <;> rfl
  · cases fuel <;> rfl

/-- Witness of C13: the idle child of the example tree. -/
theorem unbalanced_release_noop_witness :
    (∃ t, clk_disable demo_cfg (1 + 1) (demo_state 0) (.ptr 1) = some t ∧
      t.count = (demo_state 0).count ∧ t.prepare_count = (demo_state 0).prepare_count ∧
      t.rate = (demo_state 0).rate ∧ t.vdd = (demo_state 0).vdd ∧
      ∀ x, event.disable x ∉ new_events (demo_state 0) t) ∧
    (∃ t, clk_unprepare (demo_hooks 0 0 0) demo_cfg (1 + 1) (demo_state 0) (.ptr 1) = some t ∧
      t.prepare_count = (demo_state 0).prepare_count ∧ t.count = (demo_state 0).count ∧
      t.rate = (demo_state 0).rate ∧ t.vdd = (demo_state 0).vdd ∧
      ∀ x, event.unprepare x ∉ new_events (demo_state 0) t) ∧
    clk_disable demo_cfg 1 (demo_state 0) .null = some (demo_state 0) ∧
    clk_unprepare (demo_hooks 0 0 0) demo_cfg 1 (demo_state 0) .null = some (demo_state 0) :=
  unbalanced_release_noop (demo_hooks 0 0 0) demo_cfg 1 (demo_state 0) 1 1 (by decide)
    (by decide)

/-- C18: for a clock with a rate-set hook, `clk_set_rate` with the stored rate returns
success and leaves the whole state as it is (nothing logged, so the hook is not invoked;
no rate, count or rail changes), whatever the prepare count and the `fmax` table. -/
theorem clk_set_rate_same_rate (hw : hooks) (cfg : Nat → clk) (s : clk_state) (c : Nat)
    (hop : (cfg c).ops.set_rate = true) :
    clk_set_rate hw cfg s (.ptr c) (s.rate c) = some (0, s) := by
  simp [clk_set_rate, clk_set_rate_clk, hop]

/-- Witness of C18: the prepared child of the example tree at 60 MHz, above the highest
`fmax`. -/
theorem clk_set_rate_same_rate_witness :
    clk_set_rate (rate_hooks 0 0) demo_cfg (demo_prepared 60000000 [1, 0] 0) (.ptr 1)
        ((demo_prepared 60000000 [1, 0] 0).rate 1) =
      some (0, demo_prepared 60000000 [1, 0] 0) :=
  clk_set_rate_same_rate (rate_hooks 0 0) demo_cfg (demo_prepared 60000000 [1, 0] 0) 1
    (by decide)

theorem find_vdd_level_neg_iff (fmax : List Nat) (rate : Nat) :
    find_vdd_level fmax rate < 0 ↔ ∀ j, j < fmax.length → fmax.getD j 0 < rate := by
  obtain ⟨_, h2, h3, h4⟩ := find_vdd_loop_spec rate fmax 0
  simp only [Nat.sub_zero, Nat.zero_add] at h2 h3 h4
  by_cases hfull : find_vdd_loop rate fmax 0 = fmax.length
  · have e : find_vdd_level fmax rate = -EINVAL := by simp [find_vdd_level, hfull]
    rw [e]
    exact ⟨fun _ j hj => h3 j (by omega), fun _ => by decide⟩
  · have e : find_vdd_level fmax rate = (find_vdd_loop rate fmax 0 : Int) := by
      simp [find_vdd_level, hfull]
    rw [e]
    constructor
    · intro h
      omega
    · intro hall
      have := hall _ (by omega : find_vdd_loop rate fmax 0 < fmax.length)
      have := h4 (by omega)
      omega

/-- The events of one `vote_rate_vdd` call are setter calls, the arbiter's warning and
the vote record: no hook of a clock is among them. -/
theorem vote_rate_vdd_events (hw : hooks) (cfg : Nat → clk) (s : clk_state) (c rate : Nat) :
    ∀ e ∈ new_events s (vote_rate_vdd hw cfg s c rate).2,
      (∃ rail l rc, e = event.set_vdd rail l rc) ∨ (∃ rail l, e = event.warn_votes rail l) ∨
      (∃ rail l rc, e = event.vote rail l rc) := by
  intro e he
  unfold vote_rate_vdd at he
  split at he
  · simp [new_events_self] at he
  · next rail _ =>
    simp only at he
    split at he
    · simp [new_events_self] at he
    · rw [new_events_set_vdd_class] at he
      simp only [vdd_events, List.mem_append, List.mem_map, List.mem_singleton] at he
      rcases he with (⟨l, _, rfl⟩ | he) | rfl
      · exact Or.inl ⟨_, _, _, rfl⟩
      · split at he
        · simp only [List.mem_singleton] at he
          exact Or.inr (Or.inl ⟨_, _, he⟩)
        · simp at he
      · exact Or.inr (Or.inr ⟨_, _, _, rfl⟩)

/-- The statement of `clk_set_rate_unprepared` about `clk_set_rate_clk`, the code behind the pointer
test. -/
theorem clk_set_rate_unprepared_clk (hw : hooks) (cfg : Nat → clk) (s : clk_state) (c rate : Nat)
    (hop : (cfg c).ops.set_rate = true) (h0 : s.prepare_count c = 0)
    (hne : s.rate c ≠ rate) :
    (((cfg c).vdd_class ≠ none ∧
        ∀ j, j < (cfg c).fmax.length → (cfg c).fmax.getD j 0 < rate) →
      clk_set_rate_clk hw cfg s c rate = (-EINVAL, s)) ∧
    (¬ ((cfg c).vdd_class ≠ none ∧
        ∀ j, j < (cfg c).fmax.length → (cfg c).fmax.getD j 0 < rate) →
      (clk_set_rate_clk hw cfg s c rate).1 = hw.set_rate s.log c rate ∧
      new_events s (clk_set_rate_clk hw cfg s c rate).2 =
        [event.set_rate c rate (hw.set_rate s.log c rate)] ∧
      ((clk_set_rate_clk hw cfg s c rate).2.rate c = rate ↔
        (clk_set_rate_clk hw cfg s c rate).1 = 0) ∧
      (∀ x, x ≠ c → (clk_set_rate_clk hw cfg s c rate).2.rate x = s.rate x)) ∧
    (clk_set_rate_clk hw cfg s c rate).2.vdd = s.vdd ∧
    (clk_set_rate_clk hw cfg s c rate).2.count = s.count ∧
    (clk_set_rate_clk hw cfg s c rate).2.prepare_count = s.prepare_count := by
  have hvalid : is_rate_valid cfg c rate = true ↔
      ¬ ((cfg c).vdd_class ≠ none ∧
        ∀ j, j < (cfg c).fmax.length → (cfg c).fmax.getD j 0 < rate) := by
    unfold is_rate_valid
    cases hvc : (cfg c).vdd_class with
    | none => simp
    | some rail =>
      simp only [decide_eq_true_eq, ne_eq, reduceCtorEq, not_false_eq_true, true_and]
      rw [← find_vdd_level_neg_iff]
      omega
  by_cases hv : is_rate_valid cfg c rate = true
  · have hcase := hvalid.mp hv
    have e : clk_set_rate_clk hw cfg s c rate =
        (if hw.set_rate s.log c rate ≠ 0 then
          (hw.set_rate s.log c rate,
            add_log s [event.set_rate c rate (hw.set_rate s.log c rate)])
        else (hw.set_rate s.log c rate,
          set_clk_rate (add_log s [event.set_rate c rate (hw.set_rate s.log c rate)])
            c rate)) := by
      simp [clk_set_rate_clk, hop, hne, h0, hv]
    rw [e]
    refine ⟨fun h => absurd h hcase, fun _ => ?_, ?_⟩
    · by_cases hrc : hw.set_rate s.log c rate = 0
      · simp [hrc, new_events_of_log]
        intro x hx
        simp [hx]
      · simp [hrc, new_events_add_log, hne]
    · by_cases hrc : hw.set_rate s.log c rate = 0
      · simp [hrc]
      · simp [hrc]
  · have hcase : (cfg c).vdd_class ≠ none ∧
        ∀ j, j < (cfg c).fmax.length → (cfg c).fmax.getD j 0 < rate := by
      by_contra hcon
      exact hv (hvalid.mpr hcon)
    have e : clk_set_rate_clk hw cfg s c rate = (-EINVAL, s) := by
      simp [clk_set_rate_clk, hop, hne, h0, hv]
    rw [e]
    exact ⟨fun _ => rfl, fun h => absurd hcase h, rfl, rfl, rfl⟩

/-- C17: for an unprepared clock with a rate-set hook and a new rate different from the
stored one: if the clock has a rail and no `fmax` entry is `>=` the new rate,
`clk_set_rate` returns `-EINVAL` and leaves the state (the rate included) as it is;
otherwise the rate-set hook is invoked (once, nothing else is logged), its result is
returned, and the stored rate becomes the new rate exactly when the hook succeeds; in
every case no rail (so no vote count) and no prepare or enable count changes. -/
theorem clk_set_rate_unprepared (hw : hooks) (cfg : Nat → clk) (s : clk_state) (c rate : Nat)
    (hop : (cfg c).ops.set_rate = true) (h0 : s.prepare_count c = 0)
    (hne : s.rate c ≠ rate) :
    ∃ res, clk_set_rate hw cfg s (.ptr c) rate = some res ∧
    ((((cfg c).vdd_class ≠ none ∧
          ∀ j, j < (cfg c).fmax.length → (cfg c).fmax.getD j 0 < rate) →
        res = (-EINVAL, s)) ∧
      (¬ ((cfg c).vdd_class ≠ none ∧
          ∀ j, j < (cfg c).fmax.length → (cfg c).fmax.getD j 0 < rate) →
        res.1 = hw.set_rate s.log c rate ∧
        new_events s res.2 = [event.set_rate c rate (hw.set_rate s.log c rate)] ∧
        (res.2.rate c = rate ↔ res.1 = 0) ∧
        (∀ x, x ≠ c → res.2.rate x = s.rate x)) ∧
      res.2.vdd = s.vdd ∧
      res.2.count = s.count ∧
      res.2.prepare_count = s.prepare_count) :=
  ⟨_, rfl, clk_set_rate_unprepared_clk hw cfg s c rate hop h0 hne⟩

/-- Witness of C17: the idle child of the example tree at rate 0, set to 60 MHz (above
the highest `fmax`). -/
theorem clk_set_rate_unprepared_witness :
    ∃ res, clk_set_rate (rate_hooks 0 0) demo_cfg (demo_state 0) (.ptr 1) 60000000 = some res ∧
    ((((demo_cfg 1).vdd_class ≠ none ∧
          ∀ j, j < (demo_cfg 1).fmax.length → (demo_cfg 1).fmax.getD j 0 < 60000000) →
        res = (-EINVAL, demo_state 0)) ∧
      (¬ ((demo_cfg 1).vdd_class ≠ none ∧
          ∀ j, j < (demo_cfg 1).fmax.length → (demo_cfg 1).fmax.getD j 0 < 60000000) →
        res.1 = (rate_hooks 0 0).set_rate (demo_state 0).log 1 60000000 ∧
        new_events (demo_state 0) res.2 =
          [event.set_rate 1 60000000 ((rate_hooks 0 0).set_rate (demo_state 0).log 1 60000000)] ∧
        (res.2.rate 1 = 60000000 ↔ res.1 = 0) ∧
        (∀ x, x ≠ 1 →
          res.2.rate x = (demo_state 0).rate x)) ∧
      res.2.vdd = (demo_state 0).vdd ∧
      res.2.count = (demo_state 0).count ∧
      res.2.prepare_count = (demo_state 0).prepare_count) :=
  clk_set_rate_unprepared (rate_hooks 0 0) demo_cfg (demo_state 0) 1 60000000 (by decide)
    (by decide) (by decide)

/-- An in-range vote that returns 0: the counter of the level is one higher, the other
counters are unchanged and `cur_level` is the highest level with a non-zero count. -/
theorem vote_vdd_level_rc_zero (f : clk_vdd_class → Int → Int) (v : clk_vdd_class)
    (level : Int) (h0 : 0 ≤ level) (hrc : (vote_vdd_level f v level).rc = 0) :
    level < (v.num_levels : Int) ∧
    (vote_vdd_level f v level).vdd.level_votes =
      (fun i => if i = level then v.level_votes level + 1 else v.level_votes i) ∧
    (vote_vdd_level f v level).vdd.num_levels = v.num_levels ∧
    is_highest_voted (vote_vdd_level f v level).vdd
      (vote_vdd_level f v level).vdd.cur_level := by
  have hlt : level < (v.num_levels : Int) := by
    by_contra hge
    rw [(vdd_level_above_range f v level (by omega)).1] at hrc
    simp [EINVAL] at hrc
  refine ⟨hlt, ?_⟩
  rcases vote_vdd_level_cases f v level hlt with ⟨hu, e⟩ | ⟨hne, _, erc, _⟩
  · obtain ⟨hv, hn, _⟩ := update_vdd_votes f (set_votes v level (v.level_votes level + 1))
    have hN : 1 ≤ (set_votes v level (v.level_votes level + 1)).num_levels := by
      rw [set_votes_num_levels]
      omega
    have hres := update_vdd_resolved f _ hN hu
    rw [e]
    refine ⟨by rw [hv]; rfl, by rw [hn, set_votes_num_levels], ?_⟩
    rcases hres with h | ⟨_, hno⟩
    · exact h
    · exfalso
      have e2 : ((level.toNat : Nat) : Int) = level := by omega
      have := hno level.toNat (by rw [hn, set_votes_num_levels]; omega)
      rw [e2, hv] at this
      simp [set_votes] at this
  · rw [erc] at hrc
    exact absurd hrc hne

/-- An in-range unvote of a non-zero counter that returns 0: the counter of the level is
one lower, the other counters are unchanged and `cur_level` is the resolved level. -/
theorem unvote_vdd_level_rc_zero (f : clk_vdd_class → Int → Int) (v : clk_vdd_class)
    (level : Int) (hlt : level < (v.num_levels : Int)) (hnz : v.level_votes level ≠ 0)
    (hN : 1 ≤ v.num_levels) (hrc : (unvote_vdd_level f v level).rc = 0) :
    (unvote_vdd_level f v level).vdd.level_votes =
      (fun i => if i = level then v.level_votes level - 1 else v.level_votes i) ∧
    (unvote_vdd_level f v level).vdd.num_levels = v.num_levels ∧
    is_resolved_level (unvote_vdd_level f v level).vdd
      (unvote_vdd_level f v level).vdd.cur_level := by
  rcases unvote_vdd_level_cases f v level hlt hnz with ⟨hu, e⟩ | ⟨hne, _, erc, _⟩
  · obtain ⟨hv, hn, _⟩ := update_vdd_votes f (set_votes v level (v.level_votes level - 1))
    have hres := update_vdd_resolved f _ (by rw [set_votes_num_levels]; exact hN) hu
    rw [e]
    exact ⟨by rw [hv]; rfl, by rw [hn, set_votes_num_levels], hres⟩
  · rw [erc] at hrc
    exact absurd hrc hne

/-- A successful `vote_rate_vdd` of a clock with a rail: the rate maps to a level of the
rail, that level has one more vote, nothing else changes on the rails, and the rail's
`cur_level` is the highest level with a non-zero count. -/
theorem vote_rate_vdd_ok (hw : hooks) (cfg : Nat → clk) (s : clk_state) (c rate rail : Nat)
    (hvc : (cfg c).vdd_class = some rail) (h0 : (vote_rate_vdd hw cfg s c rate).1 = 0) :
    0 ≤ find_vdd_level (cfg c).fmax rate ∧
    find_vdd_level (cfg c).fmax rate < ((s.vdd rail).num_levels : Int) ∧
    ((vote_rate_vdd hw cfg s c rate).2.vdd rail).level_votes =
      (fun i => if i = find_vdd_level (cfg c).fmax rate
        then (s.vdd rail).level_votes (find_vdd_level (cfg c).fmax rate) + 1
        else (s.vdd rail).level_votes i) ∧
    ((vote_rate_vdd hw cfg s c rate).2.vdd rail).num_levels = (s.vdd rail).num_levels ∧
    is_highest_voted ((vote_rate_vdd hw cfg s c rate).2.vdd rail)
      ((vote_rate_vdd hw cfg s c rate).2.vdd rail).cur_level ∧
    (∀ x, x ≠ rail → (vote_rate_vdd hw cfg s c rate).2.vdd x = s.vdd x) := by
  unfold vote_rate_vdd at h0 ⊢
  rw [hvc] at h0 ⊢
  simp only at h0 ⊢
  generalize find_vdd_level (cfg c).fmax rate = L at h0 ⊢
  by_cases hl : L < 0
  · rw [if_pos hl] at h0
    simp only at h0
    omega
  · rw [if_neg hl] at h0 ⊢
    simp only at h0 ⊢
    obtain ⟨a, b, c', d⟩ := vote_vdd_level_rc_zero (hw.set_vdd s.log rail) (s.vdd rail) L
      (by omega) h0
    refine ⟨by omega, a, ?_, ?_, ?_, ?_⟩
    · simp only [add_log_vdd, set_vdd_class_vdd, if_true]
      exact b
    · simp only [add_log_vdd, set_vdd_class_vdd, if_true]
      exact c'
    · simp only [add_log_vdd, set_vdd_class_vdd, if_true]
      exact d
    · intro x hx
      simp only [add_log_vdd, set_vdd_class_vdd, if_neg hx]

theorem vote_rate_vdd_num_levels (hw : hooks) (cfg : Nat → clk) (s : clk_state)
    (c rate : Nat) (x : Nat) :
    ((vote_rate_vdd hw cfg s c rate).2.vdd x).num_levels = (s.vdd x).num_levels := by
  unfold vote_rate_vdd
  split
  · rfl
  · simp only
    split
    · rfl
    · simp only [add_log_vdd, set_vdd_class_vdd]
      split
      · next hx => rw [vote_vdd_level_num_levels, hx]
      · rfl

/-- The explicit form of `unvote_rate_vdd` for a clock with a rail whose rate maps to a
level. -/
theorem unvote_rate_vdd_eq (hw : hooks) (cfg : Nat → clk) (t : clk_state) (c rate rail : Nat)
    (hvc : (cfg c).vdd_class = some rail) (h0 : 0 ≤ find_vdd_level (cfg c).fmax rate) :
    unvote_rate_vdd hw cfg t c rate =
      add_log (set_vdd_class t rail
        (unvote_vdd_level (hw.set_vdd t.log rail) (t.vdd rail)
          (find_vdd_level (cfg c).fmax rate)).vdd)
        (vdd_events rail (find_vdd_level (cfg c).fmax rate)
          (unvote_vdd_level (hw.set_vdd t.log rail) (t.vdd rail)
            (find_vdd_level (cfg c).fmax rate)) ++
          [event.unvote rail (find_vdd_level (cfg c).fmax rate)
            (unvote_vdd_level (hw.set_vdd t.log rail) (t.vdd rail)
              (find_vdd_level (cfg c).fmax rate)).rc]) := by
  have hl : ¬ find_vdd_level (cfg c).fmax rate < 0 := by omega
  simp [unvote_rate_vdd, hvc, hl]

/-- An `unvote_rate_vdd` whose `unvote_vdd_level` did not return an error was for a level
of the rail. -/
theorem unvote_rate_vdd_lt (hw : hooks) (cfg : Nat → clk) (t : clk_state) (c rate rail : Nat)
    (hvc : (cfg c).vdd_class = some rail) (h0 : 0 ≤ find_vdd_level (cfg c).fmax rate)
    (hok : unvotes_ok (new_events t (unvote_rate_vdd hw cfg t c rate))) :
    find_vdd_level (cfg c).fmax rate < ((t.vdd rail).num_levels : Int) := by
  rw [unvote_rate_vdd_eq hw cfg t c rate rail hvc h0, new_events_set_vdd_class] at hok
  by_contra hge
  have := hok _ (List.mem_append_right _ (List.mem_singleton.mpr rfl))
  rw [(vdd_level_above_range _ _ _ (by omega)).2] at this
  simp [unvote_failed, EINVAL] at this

/-- An `unvote_rate_vdd` that can be relied on, for a level of the rail that has a vote:
that level has one vote less, nothing else changes on the rails, and the rail's
`cur_level` is the resolved level. -/
theorem unvote_rate_vdd_ok (hw : hooks) (cfg : Nat → clk) (t : clk_state) (c rate rail : Nat)
    (hvc : (cfg c).vdd_class = some rail) (h0 : 0 ≤ find_vdd_level (cfg c).fmax rate)
    (hlt : find_vdd_level (cfg c).fmax rate < ((t.vdd rail).num_levels : Int))
    (hnz : (t.vdd rail).level_votes (find_vdd_level (cfg c).fmax rate) ≠ 0)
    (hok : rollback_ok hw (new_events t (unvote_rate_vdd hw cfg t c rate))) :
    ((unvote_rate_vdd hw cfg t c rate).vdd rail).level_votes =
      (fun i => if i = find_vdd_level (cfg c).fmax rate
        then (t.vdd rail).level_votes (find_vdd_level (cfg c).fmax rate) - 1
        else (t.vdd rail).level_votes i) ∧
    ((unvote_rate_vdd hw cfg t c rate).vdd rail).num_levels = (t.vdd rail).num_levels ∧
    is_resolved_level ((unvote_rate_vdd hw cfg t c rate).vdd rail)
      ((unvote_rate_vdd hw cfg t c rate).vdd rail).cur_level ∧
    (∀ x, x ≠ rail → (unvote_rate_vdd hw cfg t c rate).vdd x = t.vdd x) := by
  rw [unvote_rate_vdd_eq hw cfg t c rate rail hvc h0] at hok ⊢
  rw [new_events_set_vdd_class] at hok
  generalize find_vdd_level (cfg c).fmax rate = L at h0 hlt hnz hok ⊢
  have hrc : (unvote_vdd_level (hw.set_vdd t.log rail) (t.vdd rail) L).rc = 0 := by
    rcases hok with hok | hset
    · have := hok _ (List.mem_append_right _ (List.mem_singleton.mpr rfl))
      simpa only [unvote_failed, bne_eq_false_iff_eq] using this
    · rcases unvote_vdd_level_cases (hw.set_vdd t.log rail) (t.vdd rail) L hlt hnz with
        ⟨hu, e⟩ | ⟨hne, _, _, _⟩
      · rw [e]
        exact hu
      · exact absurd (update_vdd_rc_zero _ _ (fun l => hset _ _ _ l)) hne
  obtain ⟨a, b, c'⟩ := unvote_vdd_level_rc_zero (hw.set_vdd t.log rail) (t.vdd rail) L hlt hnz
    (by omega) hrc
  refine ⟨?_, ?_, ?_, ?_⟩
  · simp only [add_log_vdd, set_vdd_class_vdd, if_true]
    exact a
  · simp only [add_log_vdd, set_vdd_class_vdd, if_true]
    exact b
  · simp only [add_log_vdd, set_vdd_class_vdd, if_true]
    exact c'
  · intro x hx
    simp only [add_log_vdd, set_vdd_class_vdd, if_neg hx]

/-- Moving one vote from level `b` to level `a` of a rail keeps the total number of
votes. -/
theorem total_votes_shift (v w : clk_vdd_class) (a b : Int)
    (hN : w.num_levels = v.num_levels)
    (ha0 : 0 ≤ a) (ha : a < (v.num_levels : Int)) (hb0 : 0 ≤ b) (hb : b < (v.num_levels : Int))
    (hpt : ∀ i : Int, (w.level_votes i : Int) =
      (v.level_votes i : Int) + (if i = a then 1 else 0) - (if i = b then 1 else 0)) :
    total_votes w = total_votes v := by
  unfold total_votes
  rw [hN]
  obtain ⟨a', rfl⟩ : ∃ a' : Nat, a = (a' : Int) := ⟨a.toNat, by omega⟩
  obtain ⟨b', rfl⟩ : ∃ b' : Nat, b = (b' : Int) := ⟨b.toNat, by omega⟩
  have ha' : a' ∈ Finset.range v.num_levels := Finset.mem_range.mpr (by omega)
  have hb' : b' ∈ Finset.range v.num_levels := Finset.mem_range.mpr (by omega)
  apply Int.ofNat_injective
  simp only [Int.ofNat_eq_coe]
  push_cast
  have hsum : Finset.sum (Finset.range v.num_levels)
        (fun x => ((w.level_votes (x : Int) : Nat) : Int)) =
      Finset.sum (Finset.range v.num_levels)
        (fun x => ((v.level_votes (x : Int) : Nat) : Int) +
          (if x = a' then 1 else 0) - (if x = b' then 1 else 0)) := by
    refine Finset.sum_congr rfl (fun i _ => ?_)
    rw [hpt (i : Int)]
    simp only [Nat.cast_inj]
  rw [hsum, Finset.sum_sub_distrib, Finset.sum_add_distrib]
  simp [Finset.sum_ite_eq', ha', hb']

/-- The explicit form of `clk_set_rate` on a prepared clock with a rate-set hook, for a
new rate. -/
theorem clk_set_rate_prepared_eq (hw : hooks) (cfg : Nat → clk) (s : clk_state) (c rate : Nat)
    (hop : (cfg c).ops.set_rate = true) (hp : s.prepare_count c ≠ 0)
    (hne : s.rate c ≠ rate) :
    clk_set_rate_clk hw cfg s c rate =
      if (vote_rate_vdd hw cfg s c rate).1 ≠ 0 then
        ((vote_rate_vdd hw cfg s c rate).1, (vote_rate_vdd hw cfg s c rate).2)
      else if hw.set_rate (vote_rate_vdd hw cfg s c rate).2.log c rate ≠ 0 then
        (hw.set_rate (vote_rate_vdd hw cfg s c rate).2.log c rate,
          unvote_rate_vdd hw cfg (add_log (vote_rate_vdd hw cfg s c rate).2
            [event.set_rate c rate (hw.set_rate (vote_rate_vdd hw cfg s c rate).2.log c rate)])
            c rate)
      else
        (hw.set_rate (vote_rate_vdd hw cfg s c rate).2.log c rate,
          set_clk_rate (unvote_rate_vdd hw cfg (add_log (vote_rate_vdd hw cfg s c rate).2
            [event.set_rate c rate (hw.set_rate (vote_rate_vdd hw cfg s c rate).2.log c rate)])
            c (s.rate c)) c rate) := by
  simp only [clk_set_rate_clk, hop, hp, hne, Bool.true_eq_false, if_false, ne_eq,
    not_false_eq_true, if_true]

/-- What `clk_set_rate` never changes: the counts and the number of levels of every
rail. -/
theorem clk_set_rate_frame (hw : hooks) (cfg : Nat → clk) (s : clk_state) (c : Nat)
    (rate : Nat) :
    (clk_set_rate_clk hw cfg s c rate).2.count = s.count ∧
    (clk_set_rate_clk hw cfg s c rate).2.prepare_count = s.prepare_count ∧
    (∀ x, ((clk_set_rate_clk hw cfg s c rate).2.vdd x).num_levels = (s.vdd x).num_levels) := by
  obtain ⟨vc, vp, _, _, _, _⟩ := vote_rate_vdd_spec hw cfg s c rate
  have vn := vote_rate_vdd_num_levels hw cfg s c rate
  unfold clk_set_rate_clk
  simp only
  split
  · exact ⟨rfl, rfl, fun _ => rfl⟩
  · split
    · exact ⟨rfl, rfl, fun _ => rfl⟩
    · split
      · split
        · exact ⟨vc, vp, vn⟩
        · split
          · obtain ⟨uc, up, _, _, un⟩ := unvote_rate_vdd_frame hw cfg
              (add_log (vote_rate_vdd hw cfg s c rate).2
                [event.set_rate c rate
                  (hw.set_rate (vote_rate_vdd hw cfg s c rate).2.log c rate)]) c rate
            refine ⟨by rw [uc]; exact vc, by rw [up]; exact vp, fun x => ?_⟩
            rw [un x]
            exact vn x
          · obtain ⟨uc, up, _, _, un⟩ := unvote_rate_vdd_frame hw cfg
              (add_log (vote_rate_vdd hw cfg s c rate).2
                [event.set_rate c rate
                  (hw.set_rate (vote_rate_vdd hw cfg s c rate).2.log c rate)]) c (s.rate c)
            refine ⟨by simp only [set_clk_rate_count]; rw [uc]; exact vc,
              by simp only [set_clk_rate_prepare_count]; rw [up]; exact vp, fun x => ?_⟩
            simp only [set_clk_rate_vdd]
            rw [un x]
            exact vn x
      · split
        · split <;> exact ⟨rfl, rfl, fun _ => rfl⟩
        · exact ⟨rfl, rfl, fun _ => rfl⟩

/-- A successful `clk_set_rate` on a prepared clock with a rail, from a rate whose level
holds a vote, when the unvote of the old rate can be relied on: the new rate is stored,
one vote moves from the level of the old rate to the level of the new rate, and the
rail's `cur_level` is the resolved level. -/
theorem clk_set_rate_prepared_ok (hw : hooks) (cfg : Nat → clk) (s : clk_state)
    (c rate rail : Nat) (hop : (cfg c).ops.set_rate = true) (hp : s.prepare_count c ≠ 0)
    (hvc : (cfg c).vdd_class = some rail) (hne : s.rate c ≠ rate)
    (hsucc : (clk_set_rate_clk hw cfg s c rate).1 = 0)
    (hold0 : 0 ≤ find_vdd_level (cfg c).fmax (s.rate c))
    (hlo : find_vdd_level (cfg c).fmax (s.rate c) < ((s.vdd rail).num_levels : Int))
    (holdv : (s.vdd rail).level_votes (find_vdd_level (cfg c).fmax (s.rate c)) ≠ 0)
    (hok : rollback_ok hw (new_events s (clk_set_rate_clk hw cfg s c rate).2)) :
    (clk_set_rate_clk hw cfg s c rate).2.rate c = rate ∧
    (∀ x, x ≠ c → (clk_set_rate_clk hw cfg s c rate).2.rate x = s.rate x) ∧
    0 ≤ find_vdd_level (cfg c).fmax rate ∧
    find_vdd_level (cfg c).fmax rate < ((s.vdd rail).num_levels : Int) ∧
    (∀ i : Int, (((clk_set_rate_clk hw cfg s c rate).2.vdd rail).level_votes i : Int) =
      ((s.vdd rail).level_votes i : Int) +
        (if i = find_vdd_level (cfg c).fmax rate then 1 else 0) -
        (if i = find_vdd_level (cfg c).fmax (s.rate c) then 1 else 0)) ∧
    (∀ x, x ≠ rail → (clk_set_rate_clk hw cfg s c rate).2.vdd x = s.vdd x) ∧
    is_resolved_level ((clk_set_rate_clk hw cfg s c rate).2.vdd rail)
      ((clk_set_rate_clk hw cfg s c rate).2.vdd rail).cur_level := by
  rw [clk_set_rate_prepared_eq hw cfg s c rate hop hp hne] at hsucc hok ⊢
  obtain ⟨_, _, vr, ve, _, _⟩ := vote_rate_vdd_spec hw cfg s c rate
  by_cases hv : (vote_rate_vdd hw cfg s c rate).1 = 0
  · obtain ⟨n0, nlt, nv, nn, _, no⟩ := vote_rate_vdd_ok hw cfg s c rate rail hvc hv
    simp only [hv, ne_eq, not_true_eq_false, if_false] at hsucc hok ⊢
    generalize hw.set_rate (vote_rate_vdd hw cfg s c rate).2.log c rate = rcH at hsucc hok ⊢
    by_cases hh : rcH = 0
    · subst hh
      simp only [ne_eq, not_true_eq_false, if_false] at hsucc hok ⊢
      have k1 : (add_log (vote_rate_vdd hw cfg s c rate).2 [event.set_rate c rate 0]).vdd =
          (vote_rate_vdd hw cfg s c rate).2.vdd := rfl
      have k2 : log_extends (vote_rate_vdd hw cfg s c rate).2
          (add_log (vote_rate_vdd hw cfg s c rate).2 [event.set_rate c rate 0]) :=
        log_extends_add_log _ _
      have k3 : (add_log (vote_rate_vdd hw cfg s c rate).2 [event.set_rate c rate 0]).rate =
          (vote_rate_vdd hw cfg s c rate).2.rate := rfl
      generalize add_log (vote_rate_vdd hw cfg s c rate).2 [event.set_rate c rate 0] = t
        at k1 k2 k3 hok ⊢
      obtain ⟨_, _, ur, ue, _⟩ := unvote_rate_vdd_frame hw cfg t c (s.rate c)
      have hok' : rollback_ok hw (new_events t (unvote_rate_vdd hw cfg t c (s.rate c))) :=
        rollback_ok_mid (log_extends_trans ve k2) ue ⟨[], by simp⟩ hok
      have htl : (t.vdd rail).level_votes (find_vdd_level (cfg c).fmax (s.rate c)) ≠ 0 := by
        rw [k1, nv]
        simp only
        split
        · omega
        · exact holdv
      obtain ⟨uv, _, ures, uo⟩ := unvote_rate_vdd_ok hw cfg t c (s.rate c) rail hvc hold0
        (by rw [k1, nn]; exact hlo) htl hok'
      refine ⟨by simp, fun x hx => ?_, n0, nlt, fun i => ?_, fun x hx => ?_, ?_⟩
      · simp only [set_clk_rate_rate, if_neg hx]
        rw [ur, k3, vr]
      · simp only [set_clk_rate_vdd]
        rw [uv, k1, nv]
        simp only
        generalize find_vdd_level (cfg c).fmax rate = Ln at holdv ⊢
        generalize find_vdd_level (cfg c).fmax (s.rate c) = Lo at holdv ⊢
        by_cases h2 : i = Lo
        · subst h2
          by_cases h1 : i = Ln
          · subst h1
            simp
          · simp only [h1, if_false, if_true]
            push_cast [Nat.one_le_iff_ne_zero.mpr holdv]
            omega
        · by_cases h1 : i = Ln
          · subst h1
            simp [h2]
          · simp [h1, h2]
      · simp only [set_clk_rate_vdd]
        rw [uo x hx, k1, no x hx]
      · simpa only [set_clk_rate_vdd] using ures
    · simp only [ne_eq, hh, not_false_eq_true, if_true] at hsucc
  · simp only [ne_eq, hv, not_false_eq_true, if_true] at hsucc

theorem find_vdd_level_neg (fmax : List Nat) (rate : Nat)
    (h : find_vdd_level fmax rate < 0) : find_vdd_level fmax rate = -EINVAL := by
  unfold find_vdd_level at h ⊢
  simp only at h ⊢
  split
  · rfl
  · next hne =>
    rw [if_neg hne] at h
    omega

/-- C14 (counterexample): the child of the example tree, prepared at 10 MHz with its
vote on level 0, is set to 50 MHz; the rate-set hook fails with -7 and the setter fails
when the rollback asks for level 0.  `clk_set_rate` returns -7 with the rate unchanged,
but level 1 of the rail keeps the vote taken for the new rate (1 instead of 0). -/
theorem clk_set_rate_failure_keeps_vote :
    (clk_set_rate (rate_hooks (-5) (-7)) demo_cfg (demo_prepared 10000000 [1, 0] 0) (.ptr 1)
      50000000).map (fun r => (r.1, r.2.rate 1, (r.2.vdd 0).level_votes 1)) =
      some (-7, 10000000, 1) ∧
    ((demo_prepared 10000000 [1, 0] 0).vdd 0).level_votes 1 = 0 := by
  decide

/-- The statement of `clk_set_rate_prepared_failure` about `clk_set_rate_clk`, the code behind the pointer
test. -/
theorem clk_set_rate_prepared_failure_clk (hw : hooks) (cfg : Nat → clk) (s : clk_state)
    (c rate : Nat) (hop : (cfg c).ops.set_rate = true) (hp : s.prepare_count c ≠ 0)
    (hne : s.rate c ≠ rate) :
    ((vote_rate_vdd hw cfg s c rate).1 ≠ 0 →
      (clk_set_rate_clk hw cfg s c rate).1 = (vote_rate_vdd hw cfg s c rate).1 ∧
      (clk_set_rate_clk hw cfg s c rate).2.rate = s.rate ∧
      (clk_set_rate_clk hw cfg s c rate).2.vdd = s.vdd ∧
      ∀ x r k, event.set_rate x r k ∉ new_events s (clk_set_rate_clk hw cfg s c rate).2) ∧
    ((cfg c).vdd_class ≠ none →
      (∀ j, j < (cfg c).fmax.length → (cfg c).fmax.getD j 0 < rate) →
      clk_set_rate_clk hw cfg s c rate = (-EINVAL, s)) ∧
    ((vote_rate_vdd hw cfg s c rate).1 = 0 →
      hw.set_rate (vote_rate_vdd hw cfg s c rate).2.log c rate ≠ 0 →
      (clk_set_rate_clk hw cfg s c rate).1 =
        hw.set_rate (vote_rate_vdd hw cfg s c rate).2.log c rate ∧
      (clk_set_rate_clk hw cfg s c rate).2.rate = s.rate ∧
      (unvotes_ok (new_events s (clk_set_rate_clk hw cfg s c rate).2) →
        ∀ rail i, ((clk_set_rate_clk hw cfg s c rate).2.vdd rail).level_votes i =
          (s.vdd rail).level_votes i)) ∧
    (clk_set_rate_clk hw cfg s c rate).2.count = s.count ∧
    (clk_set_rate_clk hw cfg s c rate).2.prepare_count = s.prepare_count := by
  obtain ⟨fc, fp, _⟩ := clk_set_rate_frame hw cfg s c rate
  refine ⟨?_, ?_, ?_, fc, fp⟩
  · intro hv
    obtain ⟨_, _, vr, _, vfail, _⟩ := vote_rate_vdd_spec hw cfg s c rate
    rw [clk_set_rate_prepared_eq hw cfg s c rate hop hp hne, if_pos hv]
    refine ⟨rfl, vr, vfail hv, ?_⟩
    intro x r k hmem
    rcases vote_rate_vdd_events hw cfg s c rate _ hmem with
      ⟨_, _, _, h⟩ | ⟨_, _, h⟩ | ⟨_, _, _, h⟩ <;> cases h
  · intro hrail hall
    have hneg := (find_vdd_level_neg_iff (cfg c).fmax rate).mpr hall
    have hV : vote_rate_vdd hw cfg s c rate = (-EINVAL, s) := by
      unfold vote_rate_vdd
      cases hvc : (cfg c).vdd_class with
      | none => exact absurd hvc hrail
      | some rail =>
        simp only [hneg, if_true]
        rw [find_vdd_level_neg _ _ hneg]
    rw [clk_set_rate_prepared_eq hw cfg s c rate hop hp hne, hV]
    simp [EINVAL]
  · intro hv hh
    obtain ⟨_, _, vr, ve, _, vundo⟩ := vote_rate_vdd_spec hw cfg s c rate
    have vundo := vundo hv
    rw [clk_set_rate_prepared_eq hw cfg s c rate hop hp hne]
    simp only [hv, ne_eq, not_true_eq_false, if_false, hh, not_false_eq_true, if_true]
    generalize hw.set_rate (vote_rate_vdd hw cfg s c rate).2.log c rate = rcH
    have k1 : (add_log (vote_rate_vdd hw cfg s c rate).2 [event.set_rate c rate rcH]).vdd =
        (vote_rate_vdd hw cfg s c rate).2.vdd := rfl
    have k2 : log_extends (vote_rate_vdd hw cfg s c rate).2
        (add_log (vote_rate_vdd hw cfg s c rate).2 [event.set_rate c rate rcH]) :=
      log_extends_add_log _ _
    have k3 : (add_log (vote_rate_vdd hw cfg s c rate).2 [event.set_rate c rate rcH]).rate =
        (vote_rate_vdd hw cfg s c rate).2.rate := rfl
    generalize add_log (vote_rate_vdd hw cfg s c rate).2 [event.set_rate c rate rcH] = t
      at k1 k2 k3
    obtain ⟨_, _, ur, ue, _⟩ := unvote_rate_vdd_frame hw cfg t c rate
    refine ⟨trivial, by rw [ur, k3, vr], ?_⟩
    intro hok rail i
    have hok' : rollback_ok hw (new_events t (unvote_rate_vdd hw cfg t c rate)) :=
      rollback_ok_mid (log_extends_trans ve k2) ue (log_extends_refl _) (Or.inl hok)
    rw [(vundo t (same_votes_of_vdd k1) hok' rail).2]

/-- C14 (amended): for a prepared clock with a rate-set hook and a new rate different
from the stored one: if the rail vote for the new rate fails (in particular with
`-EINVAL` when the clock has a rail and no `fmax` entry is `>=` the new rate),
`clk_set_rate` returns that error without invoking the rate-set hook, with every rate
and every rail unchanged; if the vote succeeds but the hook fails, `clk_set_rate`
returns the hook's error with every rate unchanged, and every rail's vote counts are as
before the call provided that the `unvote_vdd_level` of the rollback did not return an
error; no prepare or enable count changes. -/
theorem clk_set_rate_prepared_failure (hw : hooks) (cfg : Nat → clk) (s : clk_state)
    (c rate : Nat) (hop : (cfg c).ops.set_rate = true) (hp : s.prepare_count c ≠ 0)
    (hne : s.rate c ≠ rate) :
    ∃ res, clk_set_rate hw cfg s (.ptr c) rate = some res ∧
    (((vote_rate_vdd hw cfg s c rate).1 ≠ 0 →
        res.1 = (vote_rate_vdd hw cfg s c rate).1 ∧
        res.2.rate = s.rate ∧
        res.2.vdd = s.vdd ∧
        ∀ x r k, event.set_rate x r k ∉ new_events s res.2) ∧
      ((cfg c).vdd_class ≠ none →
        (∀ j, j < (cfg c).fmax.length → (cfg c).fmax.getD j 0 < rate) →
        res = (-EINVAL, s)) ∧
      ((vote_rate_vdd hw cfg s c rate).1 = 0 →
        hw.set_rate (vote_rate_vdd hw cfg s c rate).2.log c rate ≠ 0 →
        res.1 = hw.set_rate (vote_rate_vdd hw cfg s c rate).2.log c rate ∧
        res.2.rate = s.rate ∧
        (unvotes_ok (new_events s res.2) →
          ∀ rail i, (res.2.vdd rail).level_votes i = (s.vdd rail).level_votes i)) ∧
      res.2.count = s.count ∧
      res.2.prepare_count = s.prepare_count) :=
  ⟨_, rfl, clk_set_rate_prepared_failure_clk hw cfg s c rate hop hp hne⟩

/-- Witness of C14 (amended): the scenario of the counterexample with a setter that
succeeds. -/
theorem clk_set_rate_prepared_failure_witness :
    (clk_set_rate (rate_hooks 0 (-7)) demo_cfg (demo_prepared 10000000 [1, 0] 0) (.ptr 1)
      50000000).map (fun p => (p.1, decide (unvotes_ok
        (new_events (demo_prepared 10000000 [1, 0] 0) p.2)))) = some (-7, true) ∧
    ∃ res, clk_set_rate (rate_hooks 0 (-7)) demo_cfg (demo_prepared 10000000 [1, 0] 0) (.ptr 1)
        50000000 = some res ∧
    (((vote_rate_vdd (rate_hooks 0 (-7)) demo_cfg (demo_prepared 10000000 [1, 0] 0) 1
            50000000).1 ≠ 0 →
        res.1 = (vote_rate_vdd (rate_hooks 0 (-7)) demo_cfg (demo_prepared 10000000 [1, 0] 0) 1
            50000000).1 ∧
        res.2.rate = (demo_prepared 10000000 [1, 0] 0).rate ∧
        res.2.vdd = (demo_prepared 10000000 [1, 0] 0).vdd ∧
        ∀ x r k, event.set_rate x r k ∉ new_events (demo_prepared 10000000 [1, 0] 0) res.2) ∧
      ((demo_cfg 1).vdd_class ≠ none →
        (∀ j, j < (demo_cfg 1).fmax.length → (demo_cfg 1).fmax.getD j 0 < 50000000) →
        res = (-EINVAL, demo_prepared 10000000 [1, 0] 0)) ∧
      ((vote_rate_vdd (rate_hooks 0 (-7)) demo_cfg (demo_prepared 10000000 [1, 0] 0) 1
            50000000).1 = 0 →
        (rate_hooks 0 (-7)).set_rate
          (vote_rate_vdd (rate_hooks 0 (-7)) demo_cfg (demo_prepared 10000000 [1, 0] 0) 1
            50000000).2.log 1 50000000 ≠ 0 →
        res.1 = (rate_hooks 0 (-7)).set_rate
            (vote_rate_vdd (rate_hooks 0 (-7)) demo_cfg (demo_prepared 10000000 [1, 0] 0) 1
              50000000).2.log 1 50000000 ∧
        res.2.rate = (demo_prepared 10000000 [1, 0] 0).rate ∧
        (unvotes_ok (new_events (demo_prepared 10000000 [1, 0] 0) res.2) →
          ∀ rail i,
            (res.2.vdd rail).level_votes i =
            ((demo_prepared 10000000 [1, 0] 0).vdd rail).level_votes i)) ∧
      res.2.count = (demo_prepared 10000000 [1, 0] 0).count ∧
      res.2.prepare_count = (demo_prepared 10000000 [1, 0] 0).prepare_count) :=
  ⟨by decide, clk_set_rate_prepared_failure (rate_hooks 0 (-7)) demo_cfg
    (demo_prepared 10000000 [1, 0] 0) 1 50000000 (by decide) (by decide) (by decide)⟩

theorem is_resolved_level_unique_both (v : clk_vdd_class) (L M : Int)
    (hL : is_resolved_level v L) (hM : is_resolved_level v M) : L = M := by
  rcases hL with hL | ⟨hL0, _⟩
  · exact is_resolved_level_unique v L M hL hM
  · rcases hM with hM | ⟨hM0, _⟩
    · exact (is_resolved_level_unique v M L hM (Or.inr ⟨hL0, by assumption⟩)).symm
    · rw [hL0, hM0]

theorem is_resolved_level_congr (v w : clk_vdd_class) (L : Int)
    (hN : w.num_levels = v.num_levels) (hv : w.level_votes = v.level_votes)
    (h : is_resolved_level w L) : is_resolved_level v L := by
  unfold is_resolved_level is_highest_voted no_votes at h ⊢
  rw [hN, hv] at h
  exact h

/-- C15 (counterexample): the child of the example tree, prepared at 50 MHz with its
vote on level 1, is set to 10 MHz with a rate-set hook that succeeds and a setter that
fails when asked for level 0.  `clk_set_rate` returns 0 and stores the new rate, but the
vote on level 1 (the level of the old rate) is still there and the rail now carries two
votes instead of one. -/
theorem clk_set_rate_success_keeps_old_vote :
    (clk_set_rate (rate_hooks (-5) 0) demo_cfg (demo_prepared 50000000 [0, 1] 1) (.ptr 1)
      10000000).map (fun r => (r.1, r.2.rate 1, (r.2.vdd 0).level_votes 1,
        total_votes (r.2.vdd 0))) = some (0, 10000000, 1, 2) ∧
    find_vdd_level (demo_cfg 1).fmax 50000000 = 1 ∧
    find_vdd_level (demo_cfg 1).fmax 10000000 = 0 ∧
    ((demo_prepared 50000000 [0, 1] 1).vdd 0).level_votes 1 = 1 ∧
    total_votes ((demo_prepared 50000000 [0, 1] 1).vdd 0) = 1 := by
  decide

/-- The statement of `clk_set_rate_prepared_success` about `clk_set_rate_clk`, the code behind the pointer
test. -/
theorem clk_set_rate_prepared_success_clk (hw : hooks) (cfg : Nat → clk) (s : clk_state)
    (c rate rail : Nat) (hop : (cfg c).ops.set_rate = true) (hp : s.prepare_count c ≠ 0)
    (hvc : (cfg c).vdd_class = some rail) (hne : s.rate c ≠ rate)
    (hsucc : (clk_set_rate_clk hw cfg s c rate).1 = 0)
    (hold0 : 0 ≤ find_vdd_level (cfg c).fmax (s.rate c))
    (hlo : find_vdd_level (cfg c).fmax (s.rate c) < ((s.vdd rail).num_levels : Int))
    (holdv : (s.vdd rail).level_votes (find_vdd_level (cfg c).fmax (s.rate c)) ≠ 0)
    (hok : unvotes_ok (new_events s (clk_set_rate_clk hw cfg s c rate).2)) :
    (clk_set_rate_clk hw cfg s c rate).2.rate c = rate ∧
    (∀ x, x ≠ c → (clk_set_rate_clk hw cfg s c rate).2.rate x = s.rate x) ∧
    0 ≤ find_vdd_level (cfg c).fmax rate ∧
    find_vdd_level (cfg c).fmax rate < ((s.vdd rail).num_levels : Int) ∧
    (∀ i : Int, (((clk_set_rate_clk hw cfg s c rate).2.vdd rail).level_votes i : Int) =
      ((s.vdd rail).level_votes i : Int) +
        (if i = find_vdd_level (cfg c).fmax rate then 1 else 0) -
        (if i = find_vdd_level (cfg c).fmax (s.rate c) then 1 else 0)) ∧
    total_votes ((clk_set_rate_clk hw cfg s c rate).2.vdd rail) =
      total_votes (s.vdd rail) ∧
    (∀ x, x ≠ rail → (clk_set_rate_clk hw cfg s c rate).2.vdd x = s.vdd x) ∧
    (clk_set_rate_clk hw cfg s c rate).2.prepare_count = s.prepare_count ∧
    (clk_set_rate_clk hw cfg s c rate).2.count = s.count := by
  obtain ⟨a, b, n0, nlt, hpt, ho, _⟩ := clk_set_rate_prepared_ok hw cfg s c rate rail hop hp
    hvc hne hsucc hold0 hlo holdv (Or.inl hok)
  obtain ⟨fc, fp, fn⟩ := clk_set_rate_frame hw cfg s c rate
  exact ⟨a, b, n0, nlt, hpt,
    total_votes_shift (s.vdd rail) _ _ _ (fn rail) n0 nlt hold0 hlo hpt, ho, fp, fc⟩

/-- C15 (amended): for a prepared clock with a rail and a rate-set hook whose stored
rate maps to a level of the rail that holds a vote, a successful `clk_set_rate` to a
different rate in which no `unvote_vdd_level` returned an error stores the new rate
(and changes no other rate), and changes the rail's vote table by exactly +1 at
`find_vdd_level` of the new rate and -1 at `find_vdd_level` of the old rate (no net
change when both are the same level); the total number of votes on the rail, every
other rail and every prepare and enable count are unchanged. -/
theorem clk_set_rate_prepared_success (hw : hooks) (cfg : Nat → clk) (s : clk_state)
    (c rate rail : Nat) (hop : (cfg c).ops.set_rate = true) (hp : s.prepare_count c ≠ 0)
    (hvc : (cfg c).vdd_class = some rail) (hne : s.rate c ≠ rate)
    (hold0 : 0 ≤ find_vdd_level (cfg c).fmax (s.rate c))
    (hlo : find_vdd_level (cfg c).fmax (s.rate c) < ((s.vdd rail).num_levels : Int))
    (holdv : (s.vdd rail).level_votes (find_vdd_level (cfg c).fmax (s.rate c)) ≠ 0) :
    ∃ res, clk_set_rate hw cfg s (.ptr c) rate = some res ∧
    (res.1 = 0 →
      unvotes_ok (new_events s res.2) →
      res.2.rate c = rate ∧
      (∀ x, x ≠ c → res.2.rate x = s.rate x) ∧
      0 ≤ find_vdd_level (cfg c).fmax rate ∧
      find_vdd_level (cfg c).fmax rate < ((s.vdd rail).num_levels : Int) ∧
      (∀ i : Int, ((res.2.vdd rail).level_votes i : Int) = ((s.vdd rail).level_votes i : Int) +
          (if i = find_vdd_level (cfg c).fmax rate then 1 else 0) -
          (if i = find_vdd_level (cfg c).fmax (s.rate c) then 1 else 0)) ∧
      total_votes (res.2.vdd rail) = total_votes (s.vdd rail) ∧
      (∀ x, x ≠ rail → res.2.vdd x = s.vdd x) ∧
      res.2.prepare_count = s.prepare_count ∧
      res.2.count = s.count) :=
  ⟨_, rfl, fun hsucc hok => clk_set_rate_prepared_success_clk hw cfg s c rate rail hop hp hvc hne hsucc hold0 hlo holdv hok⟩

/-- Witness of C15 (amended): the child of the example tree, prepared at 10 MHz with
its vote on level 0, set to 50 MHz with hooks and setter succeeding. -/
theorem clk_set_rate_prepared_success_witness :
    (clk_set_rate (rate_hooks 0 0) demo_cfg (demo_prepared 10000000 [1, 0] 0) (.ptr 1)
      50000000).map (fun p => (p.1, decide (unvotes_ok
        (new_events (demo_prepared 10000000 [1, 0] 0) p.2)))) = some (0, true) ∧
    ∃ res, clk_set_rate (rate_hooks 0 0) demo_cfg (demo_prepared 10000000 [1, 0] 0) (.ptr 1)
        50000000 = some res ∧
      (res.1 = 0 → unvotes_ok (new_events (demo_prepared 10000000 [1, 0] 0) res.2) →
        res.2.rate 1 = 50000000 ∧
        (∀ x, x ≠ 1 →
          res.2.rate x = (demo_prepared 10000000 [1, 0] 0).rate x) ∧
        0 ≤ find_vdd_level (demo_cfg 1).fmax 50000000 ∧
        find_vdd_level (demo_cfg 1).fmax 50000000 <
          ((((demo_prepared 10000000 [1, 0] 0).vdd 0).num_levels : Nat) : Int) ∧
        (∀ i : Int,
          ((res.2.vdd 0).level_votes i : Int) =
          (((demo_prepared 10000000 [1, 0] 0).vdd 0).level_votes i : Int) +
            (if i = find_vdd_level (demo_cfg 1).fmax 50000000 then 1 else 0) -
            (if i = find_vdd_level (demo_cfg 1).fmax ((demo_prepared 10000000 [1, 0] 0).rate 1)
              then 1 else 0)) ∧
        total_votes (res.2.vdd 0) = total_votes ((demo_prepared 10000000 [1, 0] 0).vdd 0) ∧
        (∀ x, x ≠ 0 →
          res.2.vdd x = (demo_prepared 10000000 [1, 0] 0).vdd x) ∧
        res.2.prepare_count = (demo_prepared 10000000 [1, 0] 0).prepare_count ∧
        res.2.count = (demo_prepared 10000000 [1, 0] 0).count) :=
  ⟨by decide, clk_set_rate_prepared_success (rate_hooks 0 0) demo_cfg
    (demo_prepared 10000000 [1, 0] 0) 1 50000000 0 (by decide) (by decide) (by decide)
    (by decide) (by decide) (by decide) (by decide)⟩

/-- C16 (counterexample): the child of the example tree, prepared at 10 MHz with its
vote on level 0 and resolved level 0, is set to 50 MHz and back to 10 MHz; the rate-set
hook succeeds and both `clk_set_rate` calls return 0, but the setter fails when the
second call's unvote asks for level 0.  The rate is 10 MHz again, yet level 1 keeps a
vote and the resolved level is 1 instead of 0. -/
theorem clk_set_rate_round_trip_keeps_vote :
    (clk_set_rate (rate_hooks (-5) 0) demo_cfg (demo_prepared 10000000 [1, 0] 0) (.ptr 1)
      50000000).bind (fun ra =>
        (clk_set_rate (rate_hooks (-5) 0) demo_cfg ra.2 (.ptr 1) 10000000).map (fun rb =>
          (ra.1, rb.1, rb.2.rate 1, (rb.2.vdd 0).level_votes 1, (rb.2.vdd 0).cur_level))) =
      some (0, 0, 10000000, 1, 1) ∧
    ((demo_prepared 10000000 [1, 0] 0).vdd 0).level_votes 1 = 0 ∧
    ((demo_prepared 10000000 [1, 0] 0).vdd 0).cur_level = 0 := by
  decide

/-- The statement of `clk_set_rate_round_trip` about `clk_set_rate_clk`, the code behind the
pointer test. -/
theorem clk_set_rate_round_trip_clk (hw : hooks) (cfg : Nat → clk) (s : clk_state)
    (c r2 rail : Nat) (hop : (cfg c).ops.set_rate = true) (hp : s.prepare_count c ≠ 0)
    (hvc : (cfg c).vdd_class = some rail)
    (hset : ∀ log rail v l, hw.set_vdd log rail v l = 0)
    (h1 : 0 ≤ find_vdd_level (cfg c).fmax (s.rate c))
    (h2 : 0 ≤ find_vdd_level (cfg c).fmax r2)
    (hdiff : find_vdd_level (cfg c).fmax (s.rate c) ≠ find_vdd_level (cfg c).fmax r2)
    (hold : (s.vdd rail).level_votes (find_vdd_level (cfg c).fmax (s.rate c)) ≠ 0)
    (hinv : is_resolved_level (s.vdd rail) (s.vdd rail).cur_level)
    (hs1 : (clk_set_rate_clk hw cfg s c r2).1 = 0)
    (hs2 : (clk_set_rate_clk hw cfg (clk_set_rate_clk hw cfg s c r2).2 c
      (s.rate c)).1 = 0) :
    ((clk_set_rate_clk hw cfg (clk_set_rate_clk hw cfg s c r2).2 c
      (s.rate c)).2.vdd rail).level_votes = (s.vdd rail).level_votes ∧
    ((clk_set_rate_clk hw cfg (clk_set_rate_clk hw cfg s c r2).2 c
      (s.rate c)).2.vdd rail).cur_level = (s.vdd rail).cur_level ∧
    (∀ x, x ≠ rail → (clk_set_rate_clk hw cfg (clk_set_rate_clk hw cfg s c r2).2 c
      (s.rate c)).2.vdd x = s.vdd x) ∧
    (clk_set_rate_clk hw cfg (clk_set_rate_clk hw cfg s c r2).2 c (s.rate c)).2.rate =
      s.rate ∧
    clk_set_rate_clk hw cfg s c (s.rate c) = (0, s) := by
  have hne : s.rate c ≠ r2 := by
    intro h
    rw [h] at hdiff
    exact hdiff rfl
  obtain ⟨fc1, fp1, fn1⟩ := clk_set_rate_frame hw cfg s c r2
  generalize hR1 : clk_set_rate_clk hw cfg s c r2 = R1 at hs1 hs2 fc1 fp1 fn1 ⊢
  obtain ⟨fc2, fp2, fn2⟩ := clk_set_rate_frame hw cfg R1.2 c (s.rate c)
  -- the vote of the second call shows that the level of `r1` is a level of the rail
  have hp1 : R1.2.prepare_count c ≠ 0 := by rw [fp1]; exact hp
  have hlt1 : find_vdd_level (cfg c).fmax (s.rate c) < ((s.vdd rail).num_levels : Int) := by
    by_cases hsame : R1.2.rate c = s.rate c
    · exfalso
      have hV1 : (vote_rate_vdd hw cfg s c r2).1 = 0 := by
        by_contra hv
        rw [← hR1, clk_set_rate_prepared_eq hw cfg s c r2 hop hp hne, if_pos hv] at hs1
        exact hv hs1
      have hH1 : hw.set_rate (vote_rate_vdd hw cfg s c r2).2.log c r2 = 0 := by
        by_contra hh
        rw [← hR1, clk_set_rate_prepared_eq hw cfg s c r2 hop hp hne] at hs1
        simp only [hV1, ne_eq, not_true_eq_false, if_false, hh, not_false_eq_true,
          if_true] at hs1
      rw [← hR1, clk_set_rate_prepared_eq hw cfg s c r2 hop hp hne] at hsame
      simp only [hV1, hH1, ne_eq, not_true_eq_false, if_false, set_clk_rate_rate,
        if_true] at hsame
      exact hne hsame.symm
    · have hV2 : (vote_rate_vdd hw cfg R1.2 c (s.rate c)).1 = 0 := by
        by_contra hv
        rw [clk_set_rate_prepared_eq hw cfg R1.2 c (s.rate c) hop hp1 hsame, if_pos hv] at hs2
        exact hv hs2
      have := (vote_rate_vdd_ok hw cfg R1.2 c (s.rate c) rail hvc hV2).2.1
      rw [fn1 rail] at this
      exact this
  have hok1 : rollback_ok hw (new_events s R1.2) := Or.inr hset
  rw [← hR1] at hok1 hs1
  obtain ⟨a1, b1, _, n2lt, pt1, o1, _⟩ := clk_set_rate_prepared_ok hw cfg s c r2 rail hop hp
    hvc hne hs1 h1 hlt1 hold hok1
  rw [hR1] at a1 b1 pt1 o1
  have hne2 : R1.2.rate c ≠ s.rate c := by
    rw [a1]
    exact fun h => hne h.symm
  have hold2 : (R1.2.vdd rail).level_votes (find_vdd_level (cfg c).fmax (R1.2.rate c)) ≠ 0 := by
    rw [a1]
    have := pt1 (find_vdd_level (cfg c).fmax r2)
    simp only [if_true, if_neg (Ne.symm hdiff)] at this
    omega
  obtain ⟨a2, b2, _, _, pt2, o2, res2⟩ := clk_set_rate_prepared_ok hw cfg R1.2 c (s.rate c)
    rail hop hp1 hvc hne2 hs2 (by rw [a1]; exact h2) (by rw [a1, fn1 rail]; exact n2lt) hold2
    (Or.inr hset)
  have hvotes : ((clk_set_rate_clk hw cfg R1.2 c (s.rate c)).2.vdd rail).level_votes =
      (s.vdd rail).level_votes := by
    funext i
    have e1 := pt1 i
    have e2 := pt2 i
    rw [a1] at e2
    omega
  refine ⟨hvotes, ?_, ?_, ?_, ?_⟩
  · exact is_resolved_level_unique_both (s.vdd rail) _ _
      (is_resolved_level_congr (s.vdd rail) _ _ (by rw [fn2 rail, fn1 rail]) hvotes res2) hinv
  · intro x hx
    rw [o2 x hx, o1 x hx]
  · funext x
    by_cases hx : x = c
    · rw [hx, a2]
    · rw [b2 x hx, b1 x hx]
  · simp [clk_set_rate_clk, hop]

/-- C16 (amended): for a prepared clock with a rail and a rate-set hook whose stored rate
`r1` maps to a level that holds a vote, on a rail whose `cur_level` is the resolved
level, and a rate `r2` that maps to a different level: when the rail setter never fails
and both calls return success, `clk_set_rate(r2)` followed by `clk_set_rate(r1)` leaves
every vote count of the rail, the rail's resolved level, every other rail and every
rate as they were (and a leading `clk_set_rate(r1)` changes nothing). -/
theorem clk_set_rate_round_trip (hw : hooks) (cfg : Nat → clk) (s : clk_state)
    (c r2 rail : Nat) (hop : (cfg c).ops.set_rate = true) (hp : s.prepare_count c ≠ 0)
    (hvc : (cfg c).vdd_class = some rail)
    (hset : ∀ log rail v l, hw.set_vdd log rail v l = 0)
    (h1 : 0 ≤ find_vdd_level (cfg c).fmax (s.rate c))
    (h2 : 0 ≤ find_vdd_level (cfg c).fmax r2)
    (hdiff : find_vdd_level (cfg c).fmax (s.rate c) ≠ find_vdd_level (cfg c).fmax r2)
    (hold : (s.vdd rail).level_votes (find_vdd_level (cfg c).fmax (s.rate c)) ≠ 0)
    (hinv : is_resolved_level (s.vdd rail) (s.vdd rail).cur_level) :
    ∃ ra, clk_set_rate hw cfg s (.ptr c) r2 = some ra ∧
    ∃ rb, clk_set_rate hw cfg ra.2 (.ptr c) (s.rate c) = some rb ∧
      (ra.1 = 0 → rb.1 = 0 →
        (rb.2.vdd rail).level_votes = (s.vdd rail).level_votes ∧
        (rb.2.vdd rail).cur_level = (s.vdd rail).cur_level ∧
        (∀ x, x ≠ rail → rb.2.vdd x = s.vdd x) ∧
        rb.2.rate = s.rate ∧
        clk_set_rate hw cfg s (.ptr c) (s.rate c) = some (0, s)) :=
  ⟨_, rfl, _, rfl, fun hs1 hs2 =>
    ⟨(clk_set_rate_round_trip_clk hw cfg s c r2 rail hop hp hvc hset h1 h2 hdiff hold hinv
        hs1 hs2).1,
      (clk_set_rate_round_trip_clk hw cfg s c r2 rail hop hp hvc hset h1 h2 hdiff hold hinv
        hs1 hs2).2.1,
      (clk_set_rate_round_trip_clk hw cfg s c r2 rail hop hp hvc hset h1 h2 hdiff hold hinv
        hs1 hs2).2.2.1,
      (clk_set_rate_round_trip_clk hw cfg s c r2 rail hop hp hvc hset h1 h2 hdiff hold hinv
        hs1 hs2).2.2.2.1,
      congrArg some (clk_set_rate_round_trip_clk hw cfg s c r2 rail hop hp hvc hset h1 h2
        hdiff hold hinv hs1 hs2).2.2.2.2⟩⟩

/-- Witness of C16 (amended): the scenario of the counterexample with a setter that
succeeds. -/
theorem clk_set_rate_round_trip_witness :
    (clk_set_rate (rate_hooks 0 0) demo_cfg (demo_prepared 10000000 [1, 0] 0) (.ptr 1)
      50000000).bind (fun ra =>
        (clk_set_rate (rate_hooks 0 0) demo_cfg ra.2 (.ptr 1)
          ((demo_prepared 10000000 [1, 0] 0).rate 1)).map (fun rb => (ra.1, rb.1))) =
      some (0, 0) ∧
    ∃ ra, clk_set_rate (rate_hooks 0 0) demo_cfg (demo_prepared 10000000 [1, 0] 0) (.ptr 1)
        50000000 = some ra ∧
    ∃ rb, clk_set_rate (rate_hooks 0 0) demo_cfg ra.2 (.ptr 1)
        ((demo_prepared 10000000 [1, 0] 0).rate 1) = some rb ∧
      (ra.1 = 0 → rb.1 = 0 →
        (rb.2.vdd 0).level_votes = ((demo_prepared 10000000 [1, 0] 0).vdd 0).level_votes ∧
        (rb.2.vdd 0).cur_level = ((demo_prepared 10000000 [1, 0] 0).vdd 0).cur_level ∧
        (∀ x, x ≠ 0 → rb.2.vdd x = (demo_prepared 10000000 [1, 0] 0).vdd x) ∧
        rb.2.rate = (demo_prepared 10000000 [1, 0] 0).rate ∧
        clk_set_rate (rate_hooks 0 0) demo_cfg (demo_prepared 10000000 [1, 0] 0) (.ptr 1)
          ((demo_prepared 10000000 [1, 0] 0).rate 1) =
          some (0, demo_prepared 10000000 [1, 0] 0)) :=
  ⟨by decide, clk_set_rate_round_trip (rate_hooks 0 0) demo_cfg
    (demo_prepared 10000000 [1, 0] 0) 1 50000000 0 (by decide) (by decide) (by decide)
    (fun _ _ _ l => by simp [rate_hooks]) (by decide) (by decide) (by decide) (by decide)
    (by decide)⟩

/-- How a successful `clk_prepare` of a clock came about: either the clock was already
prepared and only its count was incremented, or its parent and then its dependency
were prepared, the rail vote and the prepare hook succeeded and the count became the
count after those steps plus one. -/
theorem clk_prepare_success_inv (hw : hooks) (cfg : Nat → clk) (fuel : Nat) (s s' : clk_state)
    (c : Nat) (he : clk_prepare hw cfg (fuel + 1) s (.ptr c) = some (0, s')) :
    (s.prepare_count c ≠ 0 ∧ s' = set_prepare_count s c (s.prepare_count c + 1)) ∨
    (s.prepare_count c = 0 ∧ ∃ s1 s2,
      clk_prepare hw cfg fuel s (clk_get_parent cfg (.ptr c)) = some (0, s1) ∧
      clk_prepare hw cfg fuel s1 (cfg c).depends = some (0, s2) ∧
      (vote_rate_vdd hw cfg s2 c (s2.rate c)).1 = 0 ∧
      ((cfg c).ops.prepare = true →
        hw.prepare (vote_rate_vdd hw cfg s2 c (s2.rate c)).2.log c = 0) ∧
      s' = set_prepare_count
        (add_log (vote_rate_vdd hw cfg s2 c (s2.rate c)).2
          (log_if ((cfg c).ops.prepare = true) (event.prepare c 0))) c
        ((vote_rate_vdd hw cfg s2 c (s2.rate c)).2.prepare_count c + 1)) := by
  rw [clk_prepare] at he
  simp only [err_prepare_clock, err_vote_vdd, err_prepare_depends] at he
  by_cases h0 : s.prepare_count c = 0
  · right
    refine ⟨h0, ?_⟩
    rw [if_pos h0] at he
    split at he
    · cases he
    · next ret1 s1 heq1 =>
      by_cases hr1 : ret1 ≠ 0
      · rw [if_pos hr1] at he
        simp only [Option.some.injEq, Prod.mk.injEq] at he
        exact absurd he.1 hr1
      · rw [if_neg hr1] at he
        have hr1z : ret1 = 0 := by simpa using hr1
        subst hr1z
        split at he
        · cases he
        · next ret2 s2 heq2 =>
          by_cases hr2 : ret2 ≠ 0
          · rw [if_pos hr2] at he
            split at he
            · cases he
            · simp only [Option.some.injEq, Prod.mk.injEq] at he
              exact absurd he.1 hr2
          · rw [if_neg hr2] at he
            have hr2z : ret2 = 0 := by simpa using hr2
            subst hr2z
            refine ⟨s1, s2, heq1, heq2, ?_⟩
            by_cases hr3 : (vote_rate_vdd hw cfg s2 c (s2.rate c)).1 ≠ 0
            · rw [if_pos hr3] at he
              split at he
              · cases he
              · split at he
                · cases he
                · simp only [Option.some.injEq, Prod.mk.injEq] at he
                  exact absurd he.1 hr3
            · rw [if_neg hr3] at he
              have hr3z : (vote_rate_vdd hw cfg s2 c (s2.rate c)).1 = 0 := by simpa using hr3
              refine ⟨hr3z, ?_⟩
              by_cases hop : (cfg c).ops.prepare = true
              · simp only [hop, if_true] at he ⊢
                by_cases hr4 : hw.prepare (vote_rate_vdd hw cfg s2 c (s2.rate c)).2.log c ≠ 0
                · rw [if_pos hr4] at he
                  split at he
                  · cases he
                  · split at he
                    · cases he
                    · simp only [Option.some.injEq, Prod.mk.injEq] at he
                      exact absurd he.1 hr4
                · rw [if_neg hr4] at he
                  have hr4z : hw.prepare (vote_rate_vdd hw cfg s2 c (s2.rate c)).2.log c = 0 :=
                    by simpa using hr4
                  simp only [Option.some.injEq, Prod.mk.injEq] at he
                  refine ⟨fun _ => hr4z, ?_⟩
                  rw [← he.2, hr4z]
                  rfl
              · simp only [hop, Bool.false_eq_true, if_false, hr3z, ne_eq,
                  not_true_eq_false] at he ⊢
                simp only [Option.some.injEq, Prod.mk.injEq, true_and] at he
                refine ⟨fun h => absurd h (by simp), ?_⟩
                rw [← he]
                rfl
  · left
    rw [if_neg h0] at he
    simp only [Option.some.injEq, Prod.mk.injEq, true_and] at he
    exact ⟨h0, he.symm⟩

/-- The first reference: when the parent's and the dependency's `clk_prepare`, the rail
vote and the prepare hook succeed for an unprepared clock, `clk_prepare` of the clock
returns 0 with the state built from those steps. -/
theorem clk_prepare_first (hw : hooks) (cfg : Nat → clk) (fuel : Nat) (s s1 s2 : clk_state)
    (c : Nat) (h0 : s.prepare_count c = 0)
    (hP : clk_prepare hw cfg fuel s (clk_get_parent cfg (.ptr c)) = some (0, s1))
    (hD : clk_prepare hw cfg fuel s1 (cfg c).depends = some (0, s2))
    (hV : (vote_rate_vdd hw cfg s2 c (s2.rate c)).1 = 0)
    (hH : (cfg c).ops.prepare = true →
      hw.prepare (vote_rate_vdd hw cfg s2 c (s2.rate c)).2.log c = 0) :
    clk_prepare hw cfg (fuel + 1) s (.ptr c) = some (0, set_prepare_count
      (add_log (vote_rate_vdd hw cfg s2 c (s2.rate c)).2
        (log_if ((cfg c).ops.prepare = true) (event.prepare c 0))) c
      ((vote_rate_vdd hw cfg s2 c (s2.rate c)).2.prepare_count c + 1)) := by
  rw [clk_prepare, if_pos h0]
  simp only [hP, hD, hV, ne_eq, not_true_eq_false, if_false]
  by_cases hop : (cfg c).ops.prepare = true
  · simp only [hop, hH hop, if_true, ne_eq, not_true_eq_false, if_false]
    rfl
  · simp only [hop, Bool.false_eq_true, if_false, ne_eq, not_true_eq_false]
    rfl

/-- A successful `clk_prepare` never lowers a prepare count, changes prepare counts only
of clocks it reaches, and leaves enable counts and rates alone. -/
theorem clk_prepare_success (hw : hooks) (cfg : Nat → clk) :
    ∀ fuel s r s1, clk_prepare hw cfg fuel s r = some (0, s1) →
      s1.count = s.count ∧ s1.rate = s.rate ∧
      (∀ x, s.prepare_count x ≤ s1.prepare_count x) ∧
      (∀ x, reaches cfg fuel r x = false → s1.prepare_count x = s.prepare_count x) := by
  intro fuel
  induction fuel with
  | zero =>
    intro s r s1 he
    cases r with
    | null =>
      simp only [clk_prepare, Option.some.injEq, Prod.mk.injEq, true_and] at he
      subst he
      exact ⟨rfl, rfl, fun _ => le_refl _, fun _ _ => rfl⟩
    | err e =>
      simp [clk_prepare, EINVAL] at he
    | ptr c => simp [clk_prepare] at he
  | succ fuel ih =>
    intro s r s1 he
    cases r with
    | null =>
      simp only [clk_prepare, Option.some.injEq, Prod.mk.injEq, true_and] at he
      subst he
      exact ⟨rfl, rfl, fun _ => le_refl _, fun _ _ => rfl⟩
    | err e =>
      simp [clk_prepare, EINVAL] at he
    | ptr c =>
      rcases clk_prepare_success_inv hw cfg fuel s s1 c he with
        ⟨_, e⟩ | ⟨_, t1, t2, hP, hD, _, _, e⟩
      · subst e
        refine ⟨rfl, rfl, ?_, ?_⟩
        · intro x
          simp only [set_prepare_count_prepare_count]
          split
          · next hx => rw [hx]; omega
          · exact le_refl _
        · intro x hx
          have hxc : x ≠ c := by
            intro hxc
            simp [reaches, hxc] at hx
          simp [hxc]
      · obtain ⟨c1, r1, m1, f1⟩ := ih _ _ _ hP
        obtain ⟨c2, r2, m2, f2⟩ := ih _ _ _ hD
        obtain ⟨vc, vp, vr, _, _, _⟩ := vote_rate_vdd_spec hw cfg t2 c (t2.rate c)
        subst e
        refine ⟨?_, ?_, ?_, ?_⟩
        · simp only [set_prepare_count_count, add_log_count]
          rw [vc, c2, c1]
        · simp only [set_prepare_count_rate, add_log_rate]
          rw [vr, r2, r1]
        · intro x
          simp only [set_prepare_count_prepare_count, add_log_prepare_count]
          rw [vp]
          have := m1 x
          have := m2 x
          split
          · next hx => rw [← hx]; omega
          · omega
        · intro x hx
          simp only [reaches, Bool.or_eq_false_iff, beq_eq_false_iff_ne, ne_eq] at hx
          obtain ⟨⟨hxc, hxp⟩, hxd⟩ := hx
          simp only [set_prepare_count_prepare_count, add_log_prepare_count, if_neg hxc]
          rw [vp, f2 x hxd, f1 x hxp]

/-- Under acyclic links every clock reached from `r` lies below the rank of `r`. -/
theorem ranked_reaches (cfg : Nat → clk) (h : Nat → Nat) (hr : ranked cfg h) :
    ∀ fuel r x, reaches cfg fuel r x = true → h x < rank h r := by
  intro fuel
  induction fuel with
  | zero =>
    intro r x hx
    simp [reaches] at hx
  | succ fuel ih =>
    intro r x hx
    cases r with
    | null => simp [reaches] at hx
    | err e => simp [reaches] at hx
    | ptr c =>
      obtain ⟨hp, hd⟩ := hr c
      simp only [reaches, Bool.or_eq_true, beq_iff_eq] at hx
      simp only [rank]
      rcases hx with (hx | hx) | hx
      · rw [hx]
        omega
      · have := ih _ _ hx
        omega
      · have := ih _ _ hx
        omega

/-- A successful `clk_prepare` of a clock adds exactly one to the clock's own prepare
count. -/
theorem clk_prepare_own_count (hw : hooks) (cfg : Nat → clk) (h : Nat → Nat)
    (hr : ranked cfg h) (fuel : Nat) (s s1 : clk_state) (p : Nat)
    (he : clk_prepare hw cfg fuel s (.ptr p) = some (0, s1)) :
    s1.prepare_count p = s.prepare_count p + 1 := by
  cases fuel with
  | zero => simp [clk_prepare] at he
  | succ fuel =>
    obtain ⟨hp, hd⟩ := hr p
    rcases clk_prepare_success_inv hw cfg fuel s s1 p he with
      ⟨_, e⟩ | ⟨h0, t1, t2, hP, hD, _, _, e⟩
    · subst e
      simp
    · obtain ⟨_, _, _, f1⟩ := clk_prepare_success hw cfg _ _ _ _ hP
      obtain ⟨_, _, _, f2⟩ := clk_prepare_success hw cfg _ _ _ _ hD
      obtain ⟨_, vp, _, _, _, _⟩ := vote_rate_vdd_spec hw cfg t2 p (t2.rate p)
      have n1 : reaches cfg fuel (clk_get_parent cfg (.ptr p)) p = false := by
        by_contra hcon
        have := ranked_reaches cfg h hr fuel _ p (by simpa using hcon)
        omega
      have n2 : reaches cfg fuel (cfg p).depends p = false := by
        by_contra hcon
        have := ranked_reaches cfg h hr fuel _ p (by simpa using hcon)
        omega
      subst e
      simp only [set_prepare_count_prepare_count, add_log_prepare_count, if_true]
      rw [vp, f2 p n2, f1 p n1]

/-- C12 (counterexample): in the tree where clock 2 has parent 0 and dependency 1 and
clock 1 has parent 0, with every clock idle, `clk_prepare` of clock 2 succeeds and
leaves the parent (clock 0, present and distinct from the dependency) with
`prepare_count` 2, not 1: it is prepared once for clock 2 and once for clock 1. -/
theorem clk_prepare_shared_parent :
    clk_get_parent diamond_cfg (.ptr 2) = .ptr 0 ∧ (diamond_cfg 2).depends = .ptr 1 ∧
    (demo_state 0).prepare_count 0 = 0 ∧ (demo_state 0).prepare_count 2 = 0 ∧
    (clk_prepare (demo_hooks 0 0 0) diamond_cfg 3 (demo_state 0) (.ptr 2)).map
      (fun p => (p.1, p.2.prepare_count 0, p.2.prepare_count 1, p.2.prepare_count 2)) =
      some (0, 2, 1, 1) := by
  decide

/-- C12 (amended): for a clock with `prepare_count == 0` whose parent's and dependency's
`clk_prepare` (run in that order, giving the states `s1` and `s2`), rail vote and
prepare hook all succeed, `clk_prepare` returns success and sets the clock's
`prepare_count` to 1.  The `prepare_count` of the parent, and of the dependency, is
increased by exactly one when it is present and is not the other one or an ancestor of
the other one (a clock reached on several paths is counted once per path); clocks that
are not reached keep their count.  The clock's vote is added on its rail at
`find_vdd_level` of the current rate, on top of the vote table `s2` left by the parent's
and the dependency's prepares; no other rail changes after `s2`, and no enable count and
no rate changes. -/
theorem clk_prepare_first_reference (hw : hooks) (cfg : Nat → clk) (h : Nat → Nat)
    (hr : ranked cfg h) (fuel : Nat) (s s1 s2 : clk_state) (c : Nat)
    (h0 : s.prepare_count c = 0)
    (hP : clk_prepare hw cfg fuel s (clk_get_parent cfg (.ptr c)) = some (0, s1))
    (hD : clk_prepare hw cfg fuel s1 (cfg c).depends = some (0, s2))
    (hV : (vote_rate_vdd hw cfg s2 c (s2.rate c)).1 = 0)
    (hH : (cfg c).ops.prepare = true →
      hw.prepare (vote_rate_vdd hw cfg s2 c (s2.rate c)).2.log c = 0) :
    ∃ s', clk_prepare hw cfg (fuel + 1) s (.ptr c) = some (0, s') ∧
      s'.prepare_count c = 1 ∧
      (∀ p, clk_get_parent cfg (.ptr c) = .ptr p → reaches cfg fuel (cfg c).depends p = false →
        s'.prepare_count p = s.prepare_count p + 1) ∧
      (∀ d, (cfg c).depends = .ptr d →
        reaches cfg fuel (clk_get_parent cfg (.ptr c)) d = false →
        s'.prepare_count d = s.prepare_count d + 1) ∧
      (∀ x, reaches cfg (fuel + 1) (.ptr c) x = false →
        s'.prepare_count x = s.prepare_count x) ∧
      (∀ x, x ≠ c → s'.prepare_count x = s2.prepare_count x) ∧
      ((cfg c).vdd_class = none → s'.vdd = s2.vdd) ∧
      (∀ rail, (cfg c).vdd_class = some rail →
        0 ≤ find_vdd_level (cfg c).fmax (s.rate c) ∧
        find_vdd_level (cfg c).fmax (s.rate c) < ((s2.vdd rail).num_levels : Int) ∧
        (s'.vdd rail).level_votes =
          (fun i => if i = find_vdd_level (cfg c).fmax (s.rate c)
            then (s2.vdd rail).level_votes (find_vdd_level (cfg c).fmax (s.rate c)) + 1
            else (s2.vdd rail).level_votes i) ∧
        ∀ x, x ≠ rail → s'.vdd x = s2.vdd x) ∧
      s'.count = s.count ∧ s'.rate = s.rate := by
  obtain ⟨hp, hd⟩ := hr c
  obtain ⟨c1, r1, _, f1⟩ := clk_prepare_success hw cfg _ _ _ _ hP
  obtain ⟨c2, r2, _, f2⟩ := clk_prepare_success hw cfg _ _ _ _ hD
  obtain ⟨vc, vp, vr, _, _, _⟩ := vote_rate_vdd_spec hw cfg s2 c (s2.rate c)
  have nP : reaches cfg fuel (clk_get_parent cfg (.ptr c)) c = false := by
    by_contra hcon
    have := ranked_reaches cfg h hr fuel _ c (by simpa using hcon)
    omega
  have nD : reaches cfg fuel (cfg c).depends c = false := by
    by_contra hcon
    have := ranked_reaches cfg h hr fuel _ c (by simpa using hcon)
    omega
  have hrate : s2.rate c = s.rate c := by rw [r2, r1]
  refine ⟨_, clk_prepare_first hw cfg fuel s s1 s2 c h0 hP hD hV hH, ?_, ?_, ?_, ?_, ?_, ?_,
    ?_, ?_, ?_⟩
  · simp only [set_prepare_count_prepare_count, if_true]
    rw [vp, f2 c nD, f1 c nP, h0]
  · intro p hpar hnr
    have hpc : p ≠ c := by
      rintro rfl
      rw [hpar] at hp
      simp only [rank] at hp
      omega
    simp only [set_prepare_count_prepare_count, add_log_prepare_count, if_neg hpc]
    rw [hpar] at hP
    rw [vp, f2 p hnr, clk_prepare_own_count hw cfg h hr fuel s s1 p hP]
  · intro d hdep hnr
    have hdc : d ≠ c := by
      rintro rfl
      rw [hdep] at hd
      simp only [rank] at hd
      omega
    simp only [set_prepare_count_prepare_count, add_log_prepare_count, if_neg hdc]
    rw [hdep] at hD
    rw [vp, clk_prepare_own_count hw cfg h hr fuel s1 s2 d hD, f1 d hnr]
  · intro x hx
    simp only [reaches, Bool.or_eq_false_iff, beq_eq_false_iff_ne, ne_eq] at hx
    obtain ⟨⟨hxc, hxp⟩, hxd⟩ := hx
    simp only [set_prepare_count_prepare_count, add_log_prepare_count, if_neg hxc]
    rw [vp, f2 x hxd, f1 x hxp]
  · intro x hxc
    simp only [set_prepare_count_prepare_count, add_log_prepare_count, if_neg hxc]
    rw [vp]
  · intro hnone
    simp only [set_prepare_count_vdd, add_log_vdd]
    simp [vote_rate_vdd, hnone]
  · intro rail hvc
    obtain ⟨a, b, c', _, _, e⟩ := vote_rate_vdd_ok hw cfg s2 c (s2.rate c) rail hvc hV
    simp only [set_prepare_count_vdd, add_log_vdd]
    rw [hrate] at a b c' e ⊢
    exact ⟨a, b, c', e⟩
  · simp only [set_prepare_count_count, add_log_count]
    rw [vc, c2, c1]
  · simp only [set_prepare_count_rate, add_log_rate]
    rw [vr, r2, r1]

/-- Witness of C12 (amended): the idle child of the example tree at 50 MHz; `s1` is the
state after the prepare of its parent, and it has no dependency. -/
theorem clk_prepare_first_reference_witness :
    ∃ s', clk_prepare (demo_hooks 0 0 0) demo_cfg (1 + 1) (demo_state 50000000) (.ptr 1) =
        some (0, s') ∧
      s'.prepare_count 1 = 1 ∧
      (∀ p, clk_get_parent demo_cfg (.ptr 1) = .ptr p →
        reaches demo_cfg 1 (demo_cfg 1).depends p = false →
        s'.prepare_count p = (demo_state 50000000).prepare_count p + 1) ∧
      (∀ d, (demo_cfg 1).depends = .ptr d →
        reaches demo_cfg 1 (clk_get_parent demo_cfg (.ptr 1)) d = false →
        s'.prepare_count d = (demo_state 50000000).prepare_count d + 1) ∧
      (∀ x, reaches demo_cfg (1 + 1) (.ptr 1) x = false →
        s'.prepare_count x = (demo_state 50000000).prepare_count x) ∧
      (∀ x, x ≠ 1 → s'.prepare_count x =
        ((clk_prepare (demo_hooks 0 0 0) demo_cfg 1 (demo_state 50000000) (.ptr 0)).getD
          (0, demo_state 50000000)).2.prepare_count x) ∧
      ((demo_cfg 1).vdd_class = none → s'.vdd =
        ((clk_prepare (demo_hooks 0 0 0) demo_cfg 1 (demo_state 50000000) (.ptr 0)).getD
          (0, demo_state 50000000)).2.vdd) ∧
      (∀ rail, (demo_cfg 1).vdd_class = some rail →
        0 ≤ find_vdd_level (demo_cfg 1).fmax ((demo_state 50000000).rate 1) ∧
        find_vdd_level (demo_cfg 1).fmax ((demo_state 50000000).rate 1) <
          (((((clk_prepare (demo_hooks 0 0 0) demo_cfg 1 (demo_state 50000000) (.ptr 0)).getD
            (0, demo_state 50000000)).2.vdd rail).num_levels : Nat) : Int) ∧
        (s'.vdd rail).level_votes =
          (fun i => if i = find_vdd_level (demo_cfg 1).fmax ((demo_state 50000000).rate 1)
            then (((clk_prepare (demo_hooks 0 0 0) demo_cfg 1 (demo_state 50000000)
              (.ptr 0)).getD (0, demo_state 50000000)).2.vdd rail).level_votes
                (find_vdd_level (demo_cfg 1).fmax ((demo_state 50000000).rate 1)) + 1
            else (((clk_prepare (demo_hooks 0 0 0) demo_cfg 1 (demo_state 50000000)
              (.ptr 0)).getD (0, demo_state 50000000)).2.vdd rail).level_votes i) ∧
        ∀ x, x ≠ rail → s'.vdd x =
          ((clk_prepare (demo_hooks 0 0 0) demo_cfg 1 (demo_state 50000000) (.ptr 0)).getD
            (0, demo_state 50000000)).2.vdd x) ∧
      s'.count = (demo_state 50000000).count ∧ s'.rate = (demo_state 50000000).rate :=
  clk_prepare_first_reference (demo_hooks 0 0 0) demo_cfg (fun c => c) demo_ranked 1
    (demo_state 50000000)
    ((clk_prepare (demo_hooks 0 0 0) demo_cfg 1 (demo_state 50000000) (.ptr 0)).getD
      (0, demo_state 50000000)).2
    ((clk_prepare (demo_hooks 0 0 0) demo_cfg 1 (demo_state 50000000) (.ptr 0)).getD
      (0, demo_state 50000000)).2
    1 (by decide) rfl rfl (by decide) (fun _ => by decide)

/-- A vote for a rate that maps to a level of the rail succeeds when the rail setter
never fails. -/
theorem vote_rate_vdd_hset (hw : hooks) (cfg : Nat → clk) (s : clk_state) (c rate rail : Nat)
    (hvc : (cfg c).vdd_class = some rail)
    (h0 : 0 ≤ find_vdd_level (cfg c).fmax rate)
    (hlt : find_vdd_level (cfg c).fmax rate < ((s.vdd rail).num_levels : Int))
    (hset : ∀ log rail v l, hw.set_vdd log rail v l = 0) :
    (vote_rate_vdd hw cfg s c rate).1 = 0 := by
  unfold vote_rate_vdd
  rw [hvc]
  simp only [if_neg (not_lt.mpr h0)]
  exact (vote_vdd_level_ok _ _ _ h0 hlt (fun l => hset _ _ _ l)).1

/-- The first enable: when the parent's and the dependency's `clk_enable` and the enable
hook succeed for a clock that is not enabled, `clk_enable` of the clock returns 0 with
the state built from those steps. -/
theorem clk_enable_first (hw : hooks) (cfg : Nat → clk) (fuel : Nat) (s s1 s2 : clk_state)
    (c : Nat) (h0 : s.count c = 0)
    (hP : clk_enable hw cfg fuel
      (add_log s (log_if (s.prepare_count c = 0) (event.warn_unprepared c)))
      (clk_get_parent cfg (.ptr c)) = some (0, s1))
    (hD : clk_enable hw cfg fuel s1 (cfg c).depends = some (0, s2))
    (hH : (cfg c).ops.enable = true → hw.enable s2.log c = 0) :
    clk_enable hw cfg (fuel + 1) s (.ptr c) = some (0, set_count
      (add_log s2 (log_if ((cfg c).ops.enable = true) (event.enable c 0))) c
      (s2.count c + 1)) := by
  rw [clk_enable]
  simp only [add_log_count, h0, if_true, hP, hD, ne_eq, not_true_eq_false, if_false]
  by_cases hop : (cfg c).ops.enable = true
  · simp only [hop, hH hop, if_true, ne_eq, not_true_eq_false, if_false]
  · simp only [hop, Bool.false_eq_true, if_false, ne_eq, not_true_eq_false]

/-- The level of a rate in the `fmax` table of the example child. -/
theorem demo_find (rate : Nat) (h : rate ≤ 50000000) :
    find_vdd_level [10000000, 50000000] rate = if rate ≤ 10000000 then 0 else 1 := by
  by_cases h1 : rate ≤ 10000000
  · simp [find_vdd_level, find_vdd_loop, h1]
  · simp [find_vdd_level, find_vdd_loop, h1, h]

theorem rail_of_zero_votes (cur i : Int) : (rail_of [0, 0] cur).level_votes i = 0 := by
  simp only [rail_of]
  split
  · rcases i.toNat with _ | _ | n <;> rfl
  · rfl

/-- On a two-level rail whose only vote is on level `L`, the resolved level is `L`. -/
theorem single_vote_resolved (v : clk_vdd_class) (L M : Int) (hN : v.num_levels = 2)
    (h0 : 0 ≤ L) (hlt : L < 2) (hv : ∀ i, v.level_votes i = if i = L then 1 else 0)
    (hM : is_resolved_level v M) : M = L := by
  refine (is_resolved_level_unique v L M ⟨h0, by rw [hN]; exact hlt, ?_, ?_⟩ hM).symm
  · rw [hv]
    simp
  · intro j _ hlj
    rw [hv, if_neg (by omega)]

/-- The first `clk_prepare` of the child of the example tree, when the prepare hooks and
the rail setter succeed and the child's rate is within its `fmax` table: it returns 0,
the child and the root hold one reference each, and the level of the child's rate has
one more vote. -/
theorem demo_prepare_child (hw : hooks)
    (hset : ∀ log rail v l, hw.set_vdd log rail v l = 0)
    (hprep : ∀ log c, hw.prepare log c = 0) (s : clk_state)
    (h0 : s.prepare_count 0 = 0) (h1 : s.prepare_count 1 = 0)
    (hN : (s.vdd 0).num_levels = 2) (hrate : s.rate 1 ≤ 50000000) :
    ∃ s1, clk_prepare hw demo_cfg 2 s (.ptr 1) = some (0, s1) ∧
      s1.count = s.count ∧ s1.rate = s.rate ∧
      s1.prepare_count 0 = 1 ∧ s1.prepare_count 1 = 1 ∧
      (∀ x, x ≠ 0 → x ≠ 1 → s1.prepare_count x = s.prepare_count x) ∧
      (s1.vdd 0).level_votes =
        (fun i => if i = find_vdd_level [10000000, 50000000] (s.rate 1)
          then (s.vdd 0).level_votes (find_vdd_level [10000000, 50000000] (s.rate 1)) + 1
          else (s.vdd 0).level_votes i) ∧
      (s1.vdd 0).num_levels = 2 ∧
      is_highest_voted (s1.vdd 0) (s1.vdd 0).cur_level ∧
      (∀ x, x ≠ 0 → s1.vdd x = s.vdd x) := by
  have eR : clk_prepare hw demo_cfg 1 s (.ptr 0) =
      some (0, set_prepare_count (add_log s [event.prepare 0 0]) 0 1) := by
    rw [clk_prepare_first hw demo_cfg 0 s s s 0 h0 rfl rfl rfl (fun _ => hprep _ _)]
    simp [vote_rate_vdd, demo_cfg, log_if, h0]
  have hf := demo_find (s.rate 1) hrate
  have hvc : (demo_cfg 1).vdd_class = some 0 := rfl
  have hfm : (demo_cfg 1).fmax = [10000000, 50000000] := rfl
  have kc : (set_prepare_count (add_log s [event.prepare 0 0]) 0 1).count = s.count := rfl
  have kr : (set_prepare_count (add_log s [event.prepare 0 0]) 0 1).rate = s.rate := rfl
  have kv : (set_prepare_count (add_log s [event.prepare 0 0]) 0 1).vdd = s.vdd := rfl
  have k0 : (set_prepare_count (add_log s [event.prepare 0 0]) 0 1).prepare_count 0 = 1 := by
    simp
  have kx : ∀ x, x ≠ 0 →
      (set_prepare_count (add_log s [event.prepare 0 0]) 0 1).prepare_count x =
        s.prepare_count x := by
    intro x hx
    simp [hx]
  generalize set_prepare_count (add_log s [event.prepare 0 0]) 0 1 = sR at eR kc kr kv k0 kx
  have hl0 : 0 ≤ find_vdd_level (demo_cfg 1).fmax (sR.rate 1) := by
    rw [hfm, kr, hf]
    split <;> decide
  have hl1 : find_vdd_level (demo_cfg 1).fmax (sR.rate 1) <
      (((sR.vdd 0).num_levels : Nat) : Int) := by
    rw [hfm, kr, kv, hf, hN]
    split <;> decide
  have hV := vote_rate_vdd_hset hw demo_cfg sR 1 (sR.rate 1) 0 hvc hl0 hl1 hset
  have e1 := clk_prepare_first hw demo_cfg 1 s sR sR 1 h1 eR rfl hV (fun _ => hprep _ _)
  obtain ⟨vc, vp, vr, _, _, _⟩ := vote_rate_vdd_spec hw demo_cfg sR 1 (sR.rate 1)
  obtain ⟨_, _, nv, nn, nh, no⟩ := vote_rate_vdd_ok hw demo_cfg sR 1 (sR.rate 1) 0 hvc hV
  generalize vote_rate_vdd hw demo_cfg sR 1 (sR.rate 1) = V at e1 vc vp vr nv nn nh no
  rw [hfm, kr, kv] at nv
  rw [kv] at nn no
  refine ⟨_, e1, ?_, ?_, ?_, ?_, ?_, ?_, ?_, ?_, ?_⟩
  · simp only [set_prepare_count_count, add_log_count]
    rw [vc, kc]
  · simp only [set_prepare_count_rate, add_log_rate]
    rw [vr, kr]
  · simp only [set_prepare_count_prepare_count, add_log_prepare_count]
    rw [vp, k0]
    simp
  · simp only [set_prepare_count_prepare_count, add_log_prepare_count, if_true]
    rw [vp, kx 1 (by decide), h1]
  · intro x hx0 hx1
    simp only [set_prepare_count_prepare_count, add_log_prepare_count, if_neg hx1]
    rw [vp, kx x hx0]
  · simp only [set_prepare_count_vdd, add_log_vdd]
    exact nv
  · simp only [set_prepare_count_vdd, add_log_vdd]
    rw [nn]
    exact hN
  · simpa only [set_prepare_count_vdd, add_log_vdd] using nh
  · intro x hx
    simp only [set_prepare_count_vdd, add_log_vdd]
    exact no x hx

/-- The first `clk_enable` of the child of the example tree returns 0 when the enable
hooks succeed. -/
theorem demo_enable_child (hw : hooks) (hen : ∀ log c, hw.enable log c = 0) (s : clk_state)
    (h0 : s.count 0 = 0) (h1 : s.count 1 = 0) :
    ∃ s1, clk_enable hw demo_cfg 2 s (.ptr 1) = some (0, s1) := by
  have eR := clk_enable_first hw demo_cfg 0
    (add_log s (log_if (s.prepare_count 1 = 0) (event.warn_unprepared 1))) _ _ 0
    (by simpa using h0) rfl rfl (fun _ => hen _ _)
  exact ⟨_, clk_enable_first hw demo_cfg 1 s _ _ 1 h1 eR rfl (fun _ => hen _ _)⟩

/-- One `clk_set_rate` on the prepared child of the example tree, when the rate-set hook
and the rail setter succeed, the rail carries exactly the child's vote and the new rate
is within the `fmax` table: it returns 0, stores the rate, and the rail carries exactly
one vote, on the level of the new rate, which is the resolved level. -/
theorem demo_set_rate (hw : hooks)
    (hset : ∀ log rail v l, hw.set_vdd log rail v l = 0)
    (hsr : ∀ log c rate, hw.set_rate log c rate = 0) (s : clk_state) (rate : Nat)
    (hr : rate ≤ 50000000) (hp : s.prepare_count 1 ≠ 0) (hN : (s.vdd 0).num_levels = 2)
    (hold : s.rate 1 ≤ 50000000)
    (hv : ∀ i, (s.vdd 0).level_votes i =
      if i = find_vdd_level [10000000, 50000000] (s.rate 1) then 1 else 0)
    (hres : is_resolved_level (s.vdd 0) (s.vdd 0).cur_level) :
    ∃ s1, clk_set_rate_clk hw demo_cfg s 1 rate = (0, s1) ∧ s1.rate 1 = rate ∧
      s1.count = s.count ∧ s1.prepare_count = s.prepare_count ∧
      (s1.vdd 0).num_levels = 2 ∧
      (∀ i, (s1.vdd 0).level_votes i =
        if i = find_vdd_level [10000000, 50000000] rate then 1 else 0) ∧
      (s1.vdd 0).cur_level = find_vdd_level [10000000, 50000000] rate ∧
      is_resolved_level (s1.vdd 0) (find_vdd_level [10000000, 50000000] rate) ∧
      (∀ x, x ≠ 0 → s1.vdd x = s.vdd x) := by
  have hop : (demo_cfg 1).ops.set_rate = true := rfl
  have hvc : (demo_cfg 1).vdd_class = some 0 := rfl
  have hfm : (demo_cfg 1).fmax = [10000000, 50000000] := rfl
  have hfo := demo_find (s.rate 1) hold
  have hfn := demo_find rate hr
  have ho0 : 0 ≤ find_vdd_level [10000000, 50000000] (s.rate 1) := by
    rw [hfo]; split <;> decide
  have ho1 : find_vdd_level [10000000, 50000000] (s.rate 1) < 2 := by
    rw [hfo]; split <;> decide
  have hn0 : 0 ≤ find_vdd_level [10000000, 50000000] rate := by
    rw [hfn]; split <;> decide
  have hn1 : find_vdd_level [10000000, 50000000] rate < 2 := by
    rw [hfn]; split <;> decide
  by_cases hne : s.rate 1 = rate
  · have e : clk_set_rate_clk hw demo_cfg s 1 rate = (0, s) := by
      simp only [clk_set_rate_clk, hop, Bool.true_eq_false, if_false, hne, if_true]
    have hcur := single_vote_resolved (s.vdd 0) _ _ hN ho0 ho1 hv hres
    rw [hne] at hv hcur
    refine ⟨s, e, hne, rfl, rfl, hN, hv, hcur, ?_, fun _ _ => rfl⟩
    rw [← hcur]
    exact hres
  · have hV := vote_rate_vdd_hset hw demo_cfg s 1 rate 0 hvc (by rw [hfm]; exact hn0)
      (by rw [hfm, hN]; exact hn1) hset
    have heq := clk_set_rate_prepared_eq hw demo_cfg s 1 rate hop hp hne
    simp only [hV, hsr, ne_eq, not_true_eq_false, if_false] at heq
    have hsucc : (clk_set_rate_clk hw demo_cfg s 1 rate).1 = 0 := by rw [heq]
    obtain ⟨f, _, fc, fp, fn⟩ := (⟨_, rfl, clk_set_rate_frame hw demo_cfg s 1 rate⟩ :
      ∃ f, f = clk_set_rate_clk hw demo_cfg s 1 rate ∧ _)
    obtain ⟨r1, _, _, _, rv, ro, rres⟩ := clk_set_rate_prepared_ok hw demo_cfg s 1 rate 0 hop hp
      hvc hne hsucc (by rw [hfm]; exact ho0) (by rw [hfm, hN]; exact ho1)
      (by rw [hfm, hv]; simp) (Or.inr hset)
    rw [hfm] at rv
    have hv1 : ∀ i, ((clk_set_rate_clk hw demo_cfg s 1 rate).2.vdd 0).level_votes i =
        if i = find_vdd_level [10000000, 50000000] rate then 1 else 0 := by
      intro i
      have := rv i
      rw [hv i] at this
      split_ifs at this ⊢ <;> simp at this <;> omega
    have hN1 := (fn 0).trans hN
    have hcur := single_vote_resolved _ _ _ hN1 hn0 hn1 hv1 rres
    refine ⟨(clk_set_rate_clk hw demo_cfg s 1 rate).2, ?_, r1, fc, fp, hN1, hv1, hcur, ?_, ro⟩
    · exact Prod.ext hsucc rfl
    · rw [← hcur]
      exact rres

/-- C19: the end-to-end scenario on the example tree (root 0 without rail or parent,
child 1 with parent 0, `fmax` table `[10_000_000, 50_000_000]` and a two-level rail
without votes), started with every clock idle at a rate within the table and with all
hooks and the rail setter succeeding.  Every call of the scenario returns (the fallible
ones with 0); after prepare, enable and `clk_set_rate` to 50 MHz the rail's `cur_level`
is 1 and 1 is the resolved level of its votes; after `clk_set_rate` to 10 MHz both are
0; after disable and unprepare the prepare and enable counts of the child and of the
root are 0 and every vote count of the rail is 0. -/
theorem end_to_end_scenario (hw : hooks)
    (hset : ∀ log rail v l, hw.set_vdd log rail v l = 0)
    (hprep : ∀ log c, hw.prepare log c = 0) (hen : ∀ log c, hw.enable log c = 0)
    (hsr : ∀ log c rate, hw.set_rate log c rate = 0)
    (rate0 : Nat) (hrate : rate0 ≤ 50000000) (cur0 : Int) :
    ∃ s1 s2 s3 s4 s5 s6,
      clk_prepare hw demo_cfg 2 (fresh_state rate0 cur0) (.ptr 1) = some (0, s1) ∧
      clk_enable hw demo_cfg 2 s1 (.ptr 1) = some (0, s2) ∧
      clk_set_rate hw demo_cfg s2 (.ptr 1) 50000000 = some (0, s3) ∧
      (s3.vdd 0).cur_level = 1 ∧ is_resolved_level (s3.vdd 0) 1 ∧
      clk_set_rate hw demo_cfg s3 (.ptr 1) 10000000 = some (0, s4) ∧
      (s4.vdd 0).cur_level = 0 ∧ is_resolved_level (s4.vdd 0) 0 ∧
      clk_disable demo_cfg 2 s4 (.ptr 1) = some s5 ∧
      clk_unprepare hw demo_cfg 2 s5 (.ptr 1) = some s6 ∧
      s6.prepare_count 1 = 0 ∧ s6.count 1 = 0 ∧
      s6.prepare_count 0 = 0 ∧ s6.count 0 = 0 ∧
      ∀ i, (s6.vdd 0).level_votes i = 0 := by
  have hrk : rank (fun c => c) (.ptr 1) ≤ 2 := by decide
  -- prepare
  obtain ⟨s1, e1, c1, r1, p10, p11, p1x, v1, n1, h1, o1⟩ := demo_prepare_child hw hset hprep
    (fresh_state rate0 cur0) rfl rfl rfl hrate
  have v1' : ∀ i, (s1.vdd 0).level_votes i =
      if i = find_vdd_level [10000000, 50000000] (s1.rate 1) then 1 else 0 := by
    intro i
    rw [v1, r1]
    show (if i = find_vdd_level [10000000, 50000000] rate0 then
      (rail_of [0, 0] cur0).level_votes _ + 1 else (rail_of [0, 0] cur0).level_votes i) = _
    simp only [rail_of_zero_votes]
    rfl
  -- enable
  obtain ⟨s2, e2⟩ := demo_enable_child hw hen s1 (by rw [c1]; rfl) (by rw [c1]; rfl)
  obtain ⟨p2, r2, d2, _, _, _⟩ :=
    clk_enable_spec hw demo_cfg (fun c => c) demo_ranked 2 s1 (.ptr 1) 0 s2 e2
  -- set_rate to 50 MHz
  obtain ⟨s3, e3, r3, c3, p3, n3, v3, l3, res3, o3⟩ := demo_set_rate hw hset hsr s2 50000000
    (by decide) (by rw [p2, p11]; decide) (by rw [d2]; exact n1)
    (by rw [r2, r1]; exact hrate) (by rw [d2, r2]; exact v1') (by rw [d2]; exact Or.inl h1)
  -- set_rate to 10 MHz
  obtain ⟨s4, e4, r4, c4, p4, n4, v4, l4, res4, o4⟩ := demo_set_rate hw hset hsr s3 10000000
    (by decide) (by rw [p3, p2, p11]; decide) n3 (by rw [r3])
    (by rw [r3]; exact v3) (by rw [l3]; exact res3)
  -- disable
  obtain ⟨s5, e5, c5⟩ := clk_enable_disable hw demo_cfg (fun c => c) demo_ranked 2 s1 s2 s4
    (.ptr 1) e2 (by rw [c4, c3])
  obtain ⟨p5, r5, d5, _⟩ :=
    clk_disable_frame demo_cfg (fun c => c) demo_ranked 2 s4 (.ptr 1) s5 e5
  -- unprepare, as the undo of a prepare from an idle state with the present rates
  obtain ⟨q1, eq1, _, qr, qp0, qp1, qpx, qv, qn, _, qo⟩ := demo_prepare_child hw hset hprep
    { rate := s5.rate, count := fun _ => 0, prepare_count := fun _ => 0,
      vdd := fun _ => rail_of [0, 0] 0, log := [] } rfl rfl rfl
    (by show s5.rate 1 ≤ 50000000; rw [r5, r4]; decide)
  have hpc : s5.prepare_count = q1.prepare_count := by
    funext x
    rw [p5, p4, p3, p2]
    by_cases hx0 : x = 0
    · rw [hx0, p10, qp0]
    · by_cases hx1 : x = 1
      · rw [hx1, p11, qp1]
      · rw [p1x x hx0 hx1, qpx x hx0 hx1]
        rfl
  have hsv : same_votes s5 q1 := by
    intro x
    by_cases hx0 : x = 0
    · subst hx0
      rw [d5, n4, qn]
      refine ⟨rfl, ?_⟩
      funext i
      rw [v4 i, qv]
      show _ = if i = find_vdd_level [10000000, 50000000] (s5.rate 1) then _ else _
      rw [r5, r4]
      simp only [rail_of_zero_votes]
    · rw [d5, o4 x hx0, o3 x hx0, d2, o1 x hx0, qo x hx0]
      exact ⟨rfl, by funext i; simp only [fresh_state, rail_of_zero_votes]⟩
  obtain ⟨s6, e6, p6, _, v6⟩ := clk_prepare_unprepare hw demo_cfg (fun c => c) demo_ranked 2
    _ q1 s5 (.ptr 1) hrk hset eq1 hpc (by rw [qr]) hsv
  obtain ⟨c6, _, _, _⟩ :=
    clk_unprepare_frame hw demo_cfg (fun c => c) demo_ranked 2 s5 (.ptr 1) s6 e6
  refine ⟨s1, s2, s3, s4, s5, s6, e1, e2, congrArg some e3, ?_, ?_, congrArg some e4, ?_, ?_,
    e5, e6, ?_, ?_, ?_, ?_, ?_⟩
  · rw [l3]; rfl
  · exact res3
  · rw [l4]; rfl
  · exact res4
  · rw [p6]
  · rw [c6, c5, c1]; rfl
  · rw [p6]
  · rw [c6, c5, c1]; rfl
  · intro i
    rw [(v6 0).2]
    exact rail_of_zero_votes 0 i

/-- Witness of C19: the scenario with the example hooks that all succeed, started at
rate 0 with cached level 0. -/
theorem end_to_end_scenario_witness :
    ∃ s1 s2 s3 s4 s5 s6,
      clk_prepare (demo_hooks 0 0 0) demo_cfg 2 (fresh_state 0 0) (.ptr 1) = some (0, s1) ∧
      clk_enable (demo_hooks 0 0 0) demo_cfg 2 s1 (.ptr 1) = some (0, s2) ∧
      clk_set_rate (demo_hooks 0 0 0) demo_cfg s2 (.ptr 1) 50000000 = some (0, s3) ∧
      (s3.vdd 0).cur_level = 1 ∧ is_resolved_level (s3.vdd 0) 1 ∧
      clk_set_rate (demo_hooks 0 0 0) demo_cfg s3 (.ptr 1) 10000000 = some (0, s4) ∧
      (s4.vdd 0).cur_level = 0 ∧ is_resolved_level (s4.vdd 0) 0 ∧
      clk_disable demo_cfg 2 s4 (.ptr 1) = some s5 ∧
      clk_unprepare (demo_hooks 0 0 0) demo_cfg 2 s5 (.ptr 1) = some s6 ∧
      s6.prepare_count 1 = 0 ∧ s6.count 1 = 0 ∧
      s6.prepare_count 0 = 0 ∧ s6.count 0 = 0 ∧
      ∀ i, (s6.vdd 0).level_votes i = 0 :=
  end_to_end_scenario (demo_hooks 0 0 0) (fun _ _ _ l => by simp [demo_hooks])
    (fun _ _ => by simp [demo_hooks]) (fun _ _ => by simp [demo_hooks])
    (fun _ _ _ => rfl) 0 (by decide) 0

theorem no_contract_warning_append (a b : List event) :
    no_contract_warning (a ++ b) ↔ no_contract_warning a ∧ no_contract_warning b := by
  unfold no_contract_warning
  constructor
  · intro h
    exact ⟨fun e he => h e (List.mem_append_left _ he),
      fun e he => h e (List.mem_append_right _ he)⟩
  · rintro ⟨ha, hb⟩ e he
    rcases List.mem_append.mp he with h | h
    · exact ha e h
    · exact hb e h

/-- A part of a run without contract warning has no contract warning. -/
theorem no_contract_warning_mid {s a b t : clk_state} (h1 : log_extends s a)
    (h2 : log_extends a b) (h3 : log_extends b t)
    (h : no_contract_warning (new_events s t)) : no_contract_warning (new_events a b) := by
  rw [new_events_split h1 (log_extends_trans h2 h3), new_events_split h2 h3] at h
  exact ((no_contract_warning_append _ _).mp ((no_contract_warning_append _ _).mp h).2).1

/-- What `clk_disable` does to the state when it returns: the log grows, the prepare
counts stay and no enable count grows. -/
theorem clk_disable_rel (cfg : Nat → clk) :
    ∀ fuel s r t, clk_disable cfg fuel s r = some t →
      log_extends s t ∧ t.prepare_count = s.prepare_count ∧ ∀ x, t.count x ≤ s.count x := by
  intro fuel
  induction fuel with
  | zero =>
    intro s r t he
    cases r with
    | null =>
      simp only [clk_disable, Option.some.injEq] at he
      subst he
      exact ⟨log_extends_refl _, rfl, fun _ => le_refl _⟩
    | err e => simp [clk_disable] at he
    | ptr c => simp [clk_disable] at he
  | succ fuel ih =>
    intro s r t he
    cases r with
    | null =>
      simp only [clk_disable, Option.some.injEq] at he
      subst he
      exact ⟨log_extends_refl _, rfl, fun _ => le_refl _⟩
    | err e => simp [clk_disable] at he
    | ptr c =>
      rw [clk_disable] at he
      simp only [add_log_count] at he
      split at he
      · simp only [Option.some.injEq] at he
        subst he
        exact ⟨log_extends_trans (log_extends_add_log _ _) (log_extends_add_log _ _), rfl,
          fun _ => le_refl _⟩
      · split at he
        · split at he
          · cases he
          · next s2 heq2 =>
            split at he
            · cases he
            · next s3 heq3 =>
              simp only [Option.some.injEq] at he
              subst he
              obtain ⟨l2, p2, c2⟩ := ih _ _ _ heq2
              obtain ⟨l3, p3, c3⟩ := ih _ _ _ heq3
              refine ⟨?_, ?_, fun x => ?_⟩
              · exact log_extends_trans (log_extends_trans (log_extends_trans
                  (log_extends_add_log _ _) (log_extends_add_log _ _)) l2)
                  (log_extends_trans l3 ⟨[], by simp⟩)
              · simp only [set_count_prepare_count]
                rw [p3, p2]
                rfl
              · have h2 := c2 x
                have h3 := c3 x
                simp only [add_log_count] at h2
                simp only [set_count_count]
                split
                · next hx => subst hx; omega
                · omega
        · simp only [Option.some.injEq] at he
          subst he
          refine ⟨⟨_, rfl⟩, rfl, fun x => ?_⟩
          simp only [set_count_count, add_log_count]
          split
          · next hx => subst hx; omega
          · exact le_refl _

/-- The log only grows across `clk_enable`, on every path. -/
theorem clk_enable_log (hw : hooks) (cfg : Nat → clk) :
    ∀ fuel s r rc s1, clk_enable hw cfg fuel s r = some (rc, s1) → log_extends s s1 := by
  intro fuel
  induction fuel with
  | zero =>
    intro s r rc s1 he
    cases r with
    | null =>
      simp only [clk_enable, Option.some.injEq, Prod.mk.injEq] at he
      rw [← he.2]
      exact log_extends_refl _
    | err e => simp [clk_enable] at he
    | ptr c => simp [clk_enable] at he
  | succ fuel ih =>
    intro s r rc s1 he
    cases r with
    | null =>
      simp only [clk_enable, Option.some.injEq, Prod.mk.injEq] at he
      rw [← he.2]
      exact log_extends_refl _
    | err e => simp [clk_enable] at he
    | ptr c =>
      rw [clk_enable] at he
      simp only [err_enable_clock, err_enable_depends, add_log_count] at he
      have l0 : log_extends s
          (add_log s (log_if (s.prepare_count c = 0) (event.warn_unprepared c))) :=
        log_extends_add_log _ _
      split at he
      · split at he
        · cases he
        · next ret1 sa heq1 =>
          have la := log_extends_trans l0 (ih _ _ _ _ heq1)
          by_cases hr1 : ret1 ≠ 0
          · rw [if_pos hr1] at he
            simp only [Option.some.injEq, Prod.mk.injEq] at he
            rw [← he.2]
            exact la
          · rw [if_neg hr1] at he
            split at he
            · cases he
            · next ret2 sb heq2 =>
              have lb := log_extends_trans la (ih _ _ _ _ heq2)
              by_cases hr2 : ret2 ≠ 0
              · rw [if_pos hr2] at he
                split at he
                · cases he
                · next sc heq3 =>
                  simp only [Option.some.injEq, Prod.mk.injEq] at he
                  rw [← he.2]
                  exact log_extends_trans lb (clk_disable_rel cfg _ _ _ _ heq3).1
              · rw [if_neg hr2] at he
                generalize (if (cfg c).ops.enable = true then hw.enable sb.log c else ret2) =
                  ret3 at he
                by_cases hr3 : ret3 ≠ 0
                · rw [if_pos hr3] at he
                  split at he
                  · cases he
                  · next sc heq3 =>
                    split at he
                    · cases he
                    · next sd heq4 =>
                      simp only [Option.some.injEq, Prod.mk.injEq] at he
                      rw [← he.2]
                      exact log_extends_trans (log_extends_trans (log_extends_trans lb
                        (log_extends_add_log _ _)) (clk_disable_rel cfg _ _ _ _ heq3).1)
                        (clk_disable_rel cfg _ _ _ _ heq4).1
                · rw [if_neg hr3] at he
                  simp only [Option.some.injEq, Prod.mk.injEq] at he
                  rw [← he.2]
                  exact log_extends_trans (log_extends_trans lb (log_extends_add_log sb
                    (log_if ((cfg c).ops.enable = true) (event.enable c ret3)))) ⟨[], by simp⟩
      · simp only [Option.some.injEq, Prod.mk.injEq] at he
        rw [← he.2]
        exact log_extends_trans l0 ⟨[], by simp⟩

/-- How a successful `clk_enable` of a clock came about: either the clock was already
enabled and only its count was incremented, or its parent and then its dependency were
enabled, the enable hook succeeded and the count became the count after those steps
plus one.  In both cases the call starts by logging the warning for an unprepared
clock when the prepare count is 0. -/
theorem clk_enable_success_inv (hw : hooks) (cfg : Nat → clk) (fuel : Nat) (s s' : clk_state)
    (c : Nat) (he : clk_enable hw cfg (fuel + 1) s (.ptr c) = some (0, s')) :
    (s.count c ≠ 0 ∧ s' = set_count
      (add_log s (log_if (s.prepare_count c = 0) (event.warn_unprepared c))) c
      (s.count c + 1)) ∨
    (s.count c = 0 ∧ ∃ s1 s2,
      clk_enable hw cfg fuel
        (add_log s (log_if (s.prepare_count c = 0) (event.warn_unprepared c)))
        (clk_get_parent cfg (.ptr c)) = some (0, s1) ∧
      clk_enable hw cfg fuel s1 (cfg c).depends = some (0, s2) ∧
      s' = set_count (add_log s2 (log_if ((cfg c).ops.enable = true) (event.enable c 0))) c
        (s2.count c + 1)) := by
  rw [clk_enable] at he
  simp only [err_enable_clock, err_enable_depends, add_log_count] at he
  by_cases h0 : s.count c = 0
  · right
    refine ⟨h0, ?_⟩
    rw [if_pos h0] at he
    split at he
    · cases he
    · next ret1 s1 heq1 =>
      by_cases hr1 : ret1 ≠ 0
      · rw [if_pos hr1] at he
        simp only [Option.some.injEq, Prod.mk.injEq] at he
        exact absurd he.1 hr1
      · rw [if_neg hr1] at he
        have hr1z : ret1 = 0 := by simpa using hr1
        subst hr1z
        split at he
        · cases he
        · next ret2 s2 heq2 =>
          by_cases hr2 : ret2 ≠ 0
          · rw [if_pos hr2] at he
            split at he
            · cases he
            · simp only [Option.some.injEq, Prod.mk.injEq] at he
              exact absurd he.1 hr2
          · rw [if_neg hr2] at he
            have hr2z : ret2 = 0 := by simpa using hr2
            subst hr2z
            refine ⟨s1, s2, heq1, heq2, ?_⟩
            by_cases hop : (cfg c).ops.enable = true
            · simp only [hop, if_true] at he ⊢
              by_cases hr3 : hw.enable s2.log c ≠ 0
              · rw [if_pos hr3] at he
                split at he
                · cases he
                · split at he
                  · cases he
                  · simp only [Option.some.injEq, Prod.mk.injEq] at he
                    exact absurd he.1 hr3
              · rw [if_neg hr3] at he
                have hr3z : hw.enable s2.log c = 0 := by simpa using hr3
                simp only [Option.some.injEq, Prod.mk.injEq, true_and] at he
                rw [← he, hr3z]
            · simp only [hop, Bool.false_eq_true, if_false, ne_eq, not_true_eq_false] at he ⊢
              simp only [Option.some.injEq, Prod.mk.injEq, true_and] at he
              rw [← he]
  · left
    rw [if_neg h0] at he
    simp only [Option.some.injEq, Prod.mk.injEq, true_and] at he
    exact ⟨h0, he.symm⟩

theorem no_warn_unprepared (n c : Nat)
    (h : no_contract_warning (log_if (n = 0) (event.warn_unprepared c))) : 0 < n := by
  by_contra hn
  have hz : n = 0 := by omega
  have := h (event.warn_unprepared c) (by simp [log_if, hz])
  simp [is_contract_warning] at this

theorem no_warn_enabled (n c : Nat)
    (h : no_contract_warning (log_if (n ≠ 0) (event.warn_enabled c))) : n = 0 := by
  by_contra hn
  have := h (event.warn_enabled c) (by simp [log_if, hn])
  simp [is_contract_warning] at this

/-- A successful `clk_enable` leaves the prepare counts alone and, when it logs no
contract warning, keeps "enabled implies prepared". -/
theorem clk_enable_success_keeps (hw : hooks) (cfg : Nat → clk) :
    ∀ fuel s r s1, clk_enable hw cfg fuel s r = some (0, s1) →
      s1.prepare_count = s.prepare_count ∧
      (enabled_implies_prepared s → no_contract_warning (new_events s s1) →
        enabled_implies_prepared s1) := by
  intro fuel
  induction fuel with
  | zero =>
    intro s r s1 he
    cases r with
    | null =>
      simp only [clk_enable, Option.some.injEq, Prod.mk.injEq, true_and] at he
      subst he
      exact ⟨rfl, fun h _ => h⟩
    | err e => simp [clk_enable, EINVAL] at he
    | ptr c => simp [clk_enable] at he
  | succ fuel ih =>
    intro s r s1 he
    cases r with
    | null =>
      simp only [clk_enable, Option.some.injEq, Prod.mk.injEq, true_and] at he
      subst he
      exact ⟨rfl, fun h _ => h⟩
    | err e => simp [clk_enable, EINVAL] at he
    | ptr c =>
      have l0 : log_extends s
          (add_log s (log_if (s.prepare_count c = 0) (event.warn_unprepared c))) :=
        log_extends_add_log _ _
      have lt := clk_enable_log hw cfg _ _ _ _ _ he
      rcases clk_enable_success_inv hw cfg fuel s s1 c he with ⟨h0, e⟩ | ⟨h0, sa, sb, e1, e2, e⟩
      · subst e
        refine ⟨rfl, fun hI hn x hx => ?_⟩
        have hw0 : no_contract_warning
            (new_events s (add_log s (log_if (s.prepare_count c = 0) (event.warn_unprepared c)))) :=
          no_contract_warning_mid (log_extends_refl s) l0 ⟨[], by simp⟩ hn
        rw [new_events_add_log] at hw0
        have hp := no_warn_unprepared _ _ hw0
        simp only [set_count_prepare_count, add_log_prepare_count]
        simp only [set_count_count, add_log_count] at hx
        by_cases hxc : x = c
        · rw [hxc]
          exact hp
        · rw [if_neg hxc] at hx
          exact hI x hx
      · obtain ⟨pa, ka⟩ := ih _ _ _ e1
        obtain ⟨pb, kb⟩ := ih _ _ _ e2
        have la := clk_enable_log hw cfg _ _ _ _ _ e1
        have lb := clk_enable_log hw cfg _ _ _ _ _ e2
        subst e
        have l3 : log_extends sb (set_count
            (add_log sb (log_if ((cfg c).ops.enable = true) (event.enable c 0))) c
            (sb.count c + 1)) :=
          log_extends_trans (log_extends_add_log sb
            (log_if ((cfg c).ops.enable = true) (event.enable c 0))) ⟨[], by simp⟩
        refine ⟨?_, fun hI hn x hx => ?_⟩
        · simp only [set_count_prepare_count, add_log_prepare_count]
          rw [pb, pa]
          rfl
        · have hw0 : no_contract_warning (new_events s
              (add_log s (log_if (s.prepare_count c = 0) (event.warn_unprepared c)))) :=
            no_contract_warning_mid (log_extends_refl s) l0
              (log_extends_trans la (log_extends_trans lb l3)) hn
          rw [new_events_add_log] at hw0
          have hp := no_warn_unprepared _ _ hw0
          have hIa := ka (fun y hy => hI y hy)
            (no_contract_warning_mid l0 la (log_extends_trans lb l3) hn)
          have hIb := kb hIa
            (no_contract_warning_mid (log_extends_trans l0 la) lb l3 hn)
          simp only [set_count_prepare_count, add_log_prepare_count]
          simp only [set_count_count, add_log_count] at hx
          by_cases hxc : x = c
          · rw [hxc, pb, pa]
            exact hp
          · rw [if_neg hxc] at hx
            exact hIb x hx

/-- When `clk_unprepare` returns, the enable counts are unchanged, the log has grown,
and "enabled implies prepared" is kept when no contract warning was logged. -/
theorem clk_unprepare_keeps (hw : hooks) (cfg : Nat → clk) :
    ∀ fuel s r t, clk_unprepare hw cfg fuel s r = some t →
      t.count = s.count ∧ log_extends s t ∧
      (enabled_implies_prepared s → no_contract_warning (new_events s t) →
        enabled_implies_prepared t) := by
  intro fuel
  induction fuel with
  | zero =>
    intro s r t he
    cases r with
    | null =>
      simp only [clk_unprepare, Option.some.injEq] at he
      subst he
      exact ⟨rfl, log_extends_refl _, fun h _ => h⟩
    | err e => simp [clk_unprepare] at he
    | ptr c => simp [clk_unprepare] at he
  | succ fuel ih =>
    intro s r t he
    cases r with
    | null =>
      simp only [clk_unprepare, Option.some.injEq] at he
      subst he
      exact ⟨rfl, log_extends_refl _, fun h _ => h⟩
    | err e => simp [clk_unprepare] at he
    | ptr c =>
      rw [clk_unprepare] at he
      by_cases h0 : s.prepare_count c = 0
      · rw [if_pos h0] at he
        simp only [Option.some.injEq] at he
        subst he
        exact ⟨rfl, log_extends_add_log _ _, fun h _ => h⟩
      · rw [if_neg h0] at he
        by_cases h1 : s.prepare_count c = 1
        · rw [if_pos h1] at he
          simp only at he
          have k1c : (add_log (add_log s (log_if (s.count c ≠ 0) (event.warn_enabled c)))
              (log_if ((cfg c).ops.unprepare = true) (event.unprepare c))).count = s.count := rfl
          have k1p : (add_log (add_log s (log_if (s.count c ≠ 0) (event.warn_enabled c)))
              (log_if ((cfg c).ops.unprepare = true) (event.unprepare c))).prepare_count =
              s.prepare_count := rfl
          have l1 : log_extends s (add_log s (log_if (s.count c ≠ 0) (event.warn_enabled c))) :=
            log_extends_add_log _ _
          have l2 : log_extends (add_log s (log_if (s.count c ≠ 0) (event.warn_enabled c)))
              (add_log (add_log s (log_if (s.count c ≠ 0) (event.warn_enabled c)))
                (log_if ((cfg c).ops.unprepare = true) (event.unprepare c))) :=
            log_extends_add_log _ _
          generalize add_log (add_log s (log_if (s.count c ≠ 0) (event.warn_enabled c)))
              (log_if ((cfg c).ops.unprepare = true) (event.unprepare c)) = s2 at he k1c k1p l2
          obtain ⟨uc, up, _, ul, _⟩ := unvote_rate_vdd_frame hw cfg s2 c (s2.rate c)
          generalize unvote_rate_vdd hw cfg s2 c (s2.rate c) = s3 at he uc up ul
          split at he
          · cases he
          · next s4 heq4 =>
            split at he
            · cases he
            · next s5 heq5 =>
              simp only [Option.some.injEq] at he
              subst he
              obtain ⟨c4, l4, k4⟩ := ih _ _ _ heq4
              obtain ⟨c5, l5, k5⟩ := ih _ _ _ heq5
              have l6 : log_extends s5 (set_prepare_count s5 c (s5.prepare_count c - 1)) :=
                ⟨[], by simp⟩
              refine ⟨?_, ?_, fun hI hn x hx => ?_⟩
              · simp only [set_prepare_count_count]
                rw [c5, c4, uc, k1c]
              · exact log_extends_trans l1 (log_extends_trans l2 (log_extends_trans ul
                  (log_extends_trans l4 (log_extends_trans l5 l6))))
              · have hw0 : no_contract_warning (new_events s
                    (add_log s (log_if (s.count c ≠ 0) (event.warn_enabled c)))) :=
                  no_contract_warning_mid (log_extends_refl s) l1
                    (log_extends_trans l2 (log_extends_trans ul
                      (log_extends_trans l4 (log_extends_trans l5 l6)))) hn
                rw [new_events_add_log] at hw0
                have hc0 := no_warn_enabled _ _ hw0
                have hI3 : enabled_implies_prepared s3 := by
                  intro y hy
                  rw [uc, k1c] at hy
                  rw [up, k1p]
                  exact hI y hy
                have hI4 := k4 hI3 (no_contract_warning_mid
                  (log_extends_trans l1 (log_extends_trans l2 ul)) l4
                  (log_extends_trans l5 l6) hn)
                have hI5 := k5 hI4 (no_contract_warning_mid
                  (log_extends_trans l1 (log_extends_trans l2 (log_extends_trans ul l4))) l5
                  l6 hn)
                simp only [set_prepare_count_count] at hx
                simp only [set_prepare_count_prepare_count]
                by_cases hxc : x = c
                · exfalso
                  rw [hxc, c5, c4, uc, k1c, hc0] at hx
                  exact absurd hx (by decide)
                · rw [if_neg hxc]
                  exact hI5 x hx
        · rw [if_neg h1] at he
          simp only [Option.some.injEq] at he
          subst he
          refine ⟨rfl, ⟨[], by simp⟩, fun hI _ x hx => ?_⟩
          simp only [set_prepare_count_count] at hx
          simp only [set_prepare_count_prepare_count]
          split
          · omega
          · exact hI x hx

/-- One call of the prepare/enable protocol on a clock covered by the depth bound, when
it returns, grows the log and keeps "enabled implies prepared" when it logs no contract
warning. -/
theorem run_call_keeps (hw : hooks) (cfg : Nat → clk) (h : Nat → Nat) (hr : ranked cfg h)
    (fuel : Nat) (s : clk_state) (k : clk_call) (hf : h (call_clock k) < fuel)
    (s1 : clk_state) (he : run_call hw cfg fuel s k = some s1) :
    log_extends s s1 ∧
      (enabled_implies_prepared s → no_contract_warning (new_events s s1) →
        enabled_implies_prepared s1) := by
  cases k with
  | prepare c =>
    have hrk : rank h (.ptr c) ≤ fuel := hf
    obtain ⟨rc, s1', e, c1, _, l1, _, hfail, _⟩ :=
      clk_prepare_spec hw cfg h hr fuel s (.ptr c) hrk
    simp only [run_call, e, Option.map_some', Option.some.injEq] at he
    subst he
    refine ⟨l1, fun hI _ x hx => ?_⟩
    rw [c1] at hx
    by_cases hrc : rc = 0
    · subst hrc
      have := (clk_prepare_success hw cfg fuel s (.ptr c) s1' e).2.2.1 x
      have := hI x hx
      omega
    · rw [(hfail hrc).1]
      exact hI x hx
  | unprepare c =>
    obtain ⟨_, l1, k1⟩ := clk_unprepare_keeps hw cfg fuel s (.ptr c) s1 he
    exact ⟨l1, k1⟩
  | enable c =>
    cases e : clk_enable hw cfg fuel s (.ptr c) with
    | none => simp [run_call, e] at he
    | some r =>
      obtain ⟨rc, s1'⟩ := r
      simp only [run_call, e, Option.map_some', Option.some.injEq] at he
      subst he
      obtain ⟨p1, _, _, _, hfail, _⟩ := clk_enable_spec hw cfg h hr fuel s (.ptr c) rc s1' e
      refine ⟨clk_enable_log hw cfg _ _ _ _ _ e, fun hI hn => ?_⟩
      by_cases hrc : rc = 0
      · subst hrc
        exact (clk_enable_success_keeps hw cfg fuel s (.ptr c) s1' e).2 hI hn
      · intro x hx
        rw [hfail hrc] at hx
        rw [p1]
        exact hI x hx
  | disable c =>
    obtain ⟨l1, p1, c1⟩ := clk_disable_rel cfg fuel s (.ptr c) s1 he
    refine ⟨l1, fun hI _ x hx => ?_⟩
    rw [p1]
    exact hI x (lt_of_lt_of_le hx (c1 x))

/-- On a tree without error pointers one call of the protocol on a clock covered by the
depth bound returns. -/
theorem run_call_returns (hw : hooks) (cfg : Nat → clk) (h : Nat → Nat) (hr : ranked cfg h)
    (hne : no_error_pointers cfg) (fuel : Nat) (s : clk_state) (k : clk_call)
    (hf : h (call_clock k) < fuel) : ∃ s1, run_call hw cfg fuel s k = some s1 := by
  cases k with
  | prepare c =>
    obtain ⟨rc, s1, e, _⟩ := clk_prepare_spec hw cfg h hr fuel s (.ptr c) hf
    exact ⟨s1, by simp [run_call, e]⟩
  | unprepare c =>
    obtain ⟨t, e, _⟩ := clk_unprepare_returns hw cfg h hr hne fuel s (.ptr c)
      (fun _ => clk_ref.noConfusion) hf
    exact ⟨t, e⟩
  | enable c =>
    obtain ⟨rc, s1, e, _⟩ := clk_enable_returns hw cfg h hr hne fuel s (.ptr c)
      (fun _ => clk_ref.noConfusion) hf
    exact ⟨s1, by simp [run_call, e]⟩
  | disable c =>
    obtain ⟨t, e, _⟩ := clk_disable_returns cfg h hr hne fuel s (.ptr c)
      (fun _ => clk_ref.noConfusion) hf
    exact ⟨t, e⟩

/-- Every sequence of calls on clocks covered by the depth bound, when it returns, keeps
"enabled implies prepared" if the run logs no contract warning. -/
theorem run_calls_keeps (hw : hooks) (cfg : Nat → clk) (h : Nat → Nat) (hr : ranked cfg h)
    (fuel : Nat) (calls : List clk_call) :
    ∀ s, (∀ k ∈ calls, h (call_clock k) < fuel) →
      ∀ t, run_calls hw cfg fuel calls s = some t → log_extends s t ∧
        (enabled_implies_prepared s → no_contract_warning (new_events s t) →
          enabled_implies_prepared t) := by
  induction calls with
  | nil =>
    intro s _ t e
    simp only [run_calls, Option.some.injEq] at e
    subst e
    exact ⟨log_extends_refl s, fun hI _ => hI⟩
  | cons k ks ih =>
    intro s hf t e
    cases e1 : run_call hw cfg fuel s k with
    | none => simp [run_calls, e1] at e
    | some s1 =>
      simp only [run_calls, e1] at e
      obtain ⟨l1, k1⟩ := run_call_keeps hw cfg h hr fuel s k (hf k (List.mem_cons_self _ _))
        s1 e1
      obtain ⟨l2, k2⟩ := ih s1 (fun j hj => hf j (List.mem_cons_of_mem _ hj)) t e
      refine ⟨log_extends_trans l1 l2, fun hI hn => ?_⟩
      rw [new_events_split l1 l2] at hn
      obtain ⟨hn1, hn2⟩ := (no_contract_warning_append _ _).mp hn
      exact k2 (k1 hI hn1) hn2

/-- On a tree without error pointers every sequence of calls on clocks covered by the
depth bound returns. -/
theorem run_calls_returns (hw : hooks) (cfg : Nat → clk) (h : Nat → Nat) (hr : ranked cfg h)
    (hne : no_error_pointers cfg) (fuel : Nat) (calls : List clk_call) :
    ∀ s, (∀ k ∈ calls, h (call_clock k) < fuel) →
      ∃ t, run_calls hw cfg fuel calls s = some t := by
  induction calls with
  | nil =>
    intro s _
    exact ⟨s, rfl⟩
  | cons k ks ih =>
    intro s hf
    obtain ⟨s1, e1⟩ := run_call_returns hw cfg h hr hne fuel s k (hf k (List.mem_cons_self _ _))
    obtain ⟨t, e2⟩ := ih s1 (fun j hj => hf j (List.mem_cons_of_mem _ hj))
    exact ⟨t, by simp only [run_calls, e1]; exact e2⟩

/-- C20 (counterexample): on the example tree with all clocks idle, one `clk_enable` of
the child returns 0 and leaves its enable count at 1 with its prepare count at 0; and
after prepare and enable of the child, one `clk_unprepare` leaves its enable count at 1
with its prepare count back at 0.  Both only log a warning, so "enabled implies
prepared" fails in states reached from idle by calls of the four operations. -/
theorem enabled_not_prepared_reachable :
    (∀ x, (demo_state 0).prepare_count x = 0 ∧ (demo_state 0).count x = 0) ∧
    (∃ s, run_calls (demo_hooks 0 0 0) demo_cfg 2 [clk_call.enable 1] (demo_state 0) = some s ∧
      ¬ enabled_implies_prepared s) ∧
    (∃ s, run_calls (demo_hooks 0 0 0) demo_cfg 2
        [clk_call.prepare 1, clk_call.enable 1, clk_call.unprepare 1] (demo_state 0) = some s ∧
      ¬ enabled_implies_prepared s) := by
  refine ⟨fun _ => ⟨rfl, rfl⟩, ⟨_, rfl, fun hI => ?_⟩, ⟨_, rfl, fun hI => ?_⟩⟩
  · exact absurd (hI 1 (by decide)) (by decide)
  · exact absurd (hI 1 (by decide)) (by decide)

/-- C20 (amended): in every state reached from all clocks idle by any sequence of
`clk_prepare`, `clk_enable`, `clk_disable` and `clk_unprepare` calls (on an acyclic
tree), during which no contract warning was logged (no call found the clock unprepared
where it must be prepared, and no last `clk_unprepare` found the clock still enabled),
every clock with a non-zero enable count has a non-zero prepare count; and on a tree
without error pointers every such sequence of calls returns. -/
theorem enabled_implies_prepared_reachable (hw : hooks) (cfg : Nat → clk) (h : Nat → Nat)
    (hr : ranked cfg h) (fuel : Nat) (calls : List clk_call)
    (hf : ∀ k ∈ calls, h (call_clock k) < fuel) (s0 : clk_state)
    (hidle : ∀ x, s0.prepare_count x = 0 ∧ s0.count x = 0) :
    (no_error_pointers cfg → ∃ s, run_calls hw cfg fuel calls s0 = some s) ∧
    ∀ s, run_calls hw cfg fuel calls s0 = some s →
      no_contract_warning (new_events s0 s) → enabled_implies_prepared s := by
  refine ⟨fun hne => run_calls_returns hw cfg h hr hne fuel calls s0 hf, ?_⟩
  intro s e
  refine (run_calls_keeps hw cfg h hr fuel calls s0 hf s e).2 (fun x hx => ?_)
  rw [(hidle x).2] at hx
  exact absurd hx (by decide)

/-- Witness of C20: prepare, enable, disable and unprepare of the child of the example
tree, from idle; the run returns and logs no contract warning. -/
theorem enabled_implies_prepared_reachable_witness :
    (run_calls (demo_hooks 0 0 0) demo_cfg 2
        [clk_call.prepare 1, clk_call.enable 1, clk_call.disable 1, clk_call.unprepare 1]
        (demo_state 0)).map (fun s => decide (no_contract_warning (new_events (demo_state 0) s)))
      = some true ∧
    (∃ s, run_calls (demo_hooks 0 0 0) demo_cfg 2
        [clk_call.prepare 1, clk_call.enable 1, clk_call.disable 1, clk_call.unprepare 1]
        (demo_state 0) = some s) ∧
    ∀ s, run_calls (demo_hooks 0 0 0) demo_cfg 2
        [clk_call.prepare 1, clk_call.enable 1, clk_call.disable 1, clk_call.unprepare 1]
        (demo_state 0) = some s →
      no_contract_warning (new_events (demo_state 0) s) → enabled_implies_prepared s :=
  ⟨by decide,
    (enabled_implies_prepared_reachable (demo_hooks 0 0 0) demo_cfg (fun c => c)
      demo_ranked 2 _ (by decide) (demo_state 0) (fun _ => ⟨rfl, rfl⟩)).1
      demo_no_error_pointers,
    (enabled_implies_prepared_reachable (demo_hooks 0 0 0) demo_cfg (fun c => c)
      demo_ranked 2 _ (by decide) (demo_state 0) (fun _ => ⟨rfl, rfl⟩)).2⟩
/-! ## Theorems: arbiter round trip, pass-through operations, registration -/

/-- Every event of one `vote_rate_vdd` call belongs to the arbiter, and none is an unvote
record. -/
theorem vote_rate_vdd_rail_events (hw : hooks) (cfg : Nat → clk) (s : clk_state)
    (c rate : Nat) :
    ∀ e ∈ new_events s (vote_rate_vdd hw cfg s c rate).2,
      is_rail_event e = true ∧ ∀ rail l rc, e ≠ event.unvote rail l rc := by
  intro e he
  rcases vote_rate_vdd_events hw cfg s c rate e he with ⟨_, _, _, rfl⟩ | ⟨_, _, rfl⟩ |
    ⟨_, _, _, rfl⟩ <;> exact ⟨rfl, fun _ _ _ h => by cases h⟩

/-- Every event of one `unvote_rate_vdd` call belongs to the arbiter, and none is a vote
record. -/
theorem unvote_rate_vdd_rail_events (hw : hooks) (cfg : Nat → clk) (s : clk_state)
    (c rate : Nat) :
    ∀ e ∈ new_events s (unvote_rate_vdd hw cfg s c rate),
      is_rail_event e = true ∧ ∀ rail l rc, e ≠ event.vote rail l rc := by
  intro e he
  unfold unvote_rate_vdd at he
  split at he
  · simp [new_events_self] at he
  · next rail _ =>
    simp only at he
    split at he
    · simp [new_events_self] at he
    · rw [new_events_set_vdd_class] at he
      simp only [vdd_events, List.mem_append, List.mem_map, List.mem_singleton] at he
      rcases he with (⟨l, _, rfl⟩ | he) | rfl
      · exact ⟨rfl, fun _ _ _ h => by cases h⟩
      · split at he
        · simp only [List.mem_singleton] at he
          subst he
          exact ⟨rfl, fun _ _ _ h => by cases h⟩
        · simp at he
      · exact ⟨rfl, fun _ _ _ h => by cases h⟩

/-- C23 (counterexample): the child of the example tree has a rate-set hook, and that
hook would return -7; `clk_set_rate` to the rate the clock already has returns 0, not
the hook's result, and logs nothing: the hook is not invoked. -/
theorem clk_set_rate_not_forwarded :
    (demo_cfg 1).ops.set_rate = true ∧
    (rate_hooks 0 (-7)).set_rate (demo_state 10000000).log 1 10000000 = -7 ∧
    (clk_set_rate (rate_hooks 0 (-7)) demo_cfg (demo_state 10000000) (.ptr 1) 10000000).map
      (fun r => (r.1, r.2.log)) = some (0, []) := by
  decide

/-- Whenever `clk_set_rate` on a clock with a rate-set hook invokes the hook, it returns
the hook's result. -/
theorem clk_set_rate_clk_forwards (hw : hooks) (cfg : Nat → clk) (s : clk_state) (c : Nat) :
    ∀ rate x r rc, (cfg c).ops.set_rate = true →
      event.set_rate x r rc ∈ new_events s (clk_set_rate_clk hw cfg s c rate).2 →
      x = c ∧ r = rate ∧ (clk_set_rate_clk hw cfg s c rate).1 = rc := by
  intro rate x r rc hop hmem
  unfold clk_set_rate_clk at hmem ⊢
  simp only [hop, Bool.true_eq_false, if_false] at hmem ⊢
  by_cases hsame : s.rate c = rate
  · simp [hsame, new_events_self] at hmem
  · simp only [if_neg hsame] at hmem ⊢
    by_cases hp : s.prepare_count c ≠ 0
    · simp only [if_pos hp] at hmem ⊢
      have lv := (vote_rate_vdd_spec hw cfg s c rate).2.2.2.1
      by_cases hv : (vote_rate_vdd hw cfg s c rate).1 ≠ 0
      · simp only [if_pos hv] at hmem
        exact absurd ((vote_rate_vdd_rail_events hw cfg s c rate _ hmem).1) (by simp [is_rail_event])
      · simp only [if_neg hv] at hmem ⊢
        have l2 : log_extends (vote_rate_vdd hw cfg s c rate).2
            (add_log (vote_rate_vdd hw cfg s c rate).2
              [event.set_rate c rate (hw.set_rate (vote_rate_vdd hw cfg s c rate).2.log c rate)]) :=
          log_extends_add_log _ _
        have key : ∀ t, log_extends (add_log (vote_rate_vdd hw cfg s c rate).2
              [event.set_rate c rate (hw.set_rate (vote_rate_vdd hw cfg s c rate).2.log c rate)]) t →
            (∀ e ∈ new_events (add_log (vote_rate_vdd hw cfg s c rate).2
              [event.set_rate c rate (hw.set_rate (vote_rate_vdd hw cfg s c rate).2.log c rate)]) t,
              is_rail_event e = true) →
            event.set_rate x r rc ∈ new_events s t →
            x = c ∧ r = rate ∧ hw.set_rate (vote_rate_vdd hw cfg s c rate).2.log c rate = rc := by
          intro t l3 h3 hm
          rw [new_events_split lv (log_extends_trans l2 l3), new_events_split l2 l3,
            new_events_add_log] at hm
          simp only [List.mem_append, List.mem_singleton] at hm
          rcases hm with hm | hm | hm
          · exact absurd ((vote_rate_vdd_rail_events hw cfg s c rate _ hm).1)
              (by simp [is_rail_event])
          · cases hm
            exact ⟨rfl, rfl, rfl⟩
          · exact absurd (h3 _ hm) (by simp [is_rail_event])
        by_cases hh : hw.set_rate (vote_rate_vdd hw cfg s c rate).2.log c rate ≠ 0
        · simp only [if_pos hh] at hmem ⊢
          exact key _ (unvote_rate_vdd_frame hw cfg _ c rate).2.2.2.1
            (fun e he => (unvote_rate_vdd_rail_events hw cfg _ c rate e he).1) hmem
        · simp only [if_neg hh] at hmem ⊢
          have l3 : log_extends (add_log (vote_rate_vdd hw cfg s c rate).2
              [event.set_rate c rate (hw.set_rate (vote_rate_vdd hw cfg s c rate).2.log c rate)])
              (set_clk_rate (unvote_rate_vdd hw cfg (add_log (vote_rate_vdd hw cfg s c rate).2
                [event.set_rate c rate
                  (hw.set_rate (vote_rate_vdd hw cfg s c rate).2.log c rate)]) c (s.rate c))
                c rate) :=
            log_extends_trans (unvote_rate_vdd_frame hw cfg _ c (s.rate c)).2.2.2.1 ⟨[], by simp⟩
          refine key _ l3 (fun e he => ?_) hmem
          exact (unvote_rate_vdd_rail_events hw cfg _ c (s.rate c) e he).1
    · simp only [if_neg hp] at hmem ⊢
      by_cases hval : is_rate_valid cfg c rate = true
      · simp only [if_pos hval] at hmem ⊢
        by_cases hh : hw.set_rate s.log c rate ≠ 0
        · simp only [if_pos hh] at hmem ⊢
          rw [new_events_add_log] at hmem
          simp only [List.mem_singleton] at hmem
          cases hmem
          exact ⟨rfl, rfl, rfl⟩
        · simp only [if_neg hh] at hmem ⊢
          have e : new_events s (set_clk_rate (add_log s
              [event.set_rate c rate (hw.set_rate s.log c rate)]) c rate) =
              [event.set_rate c rate (hw.set_rate s.log c rate)] :=
            new_events_of_log _ (by simp)
          rw [e] at hmem
          simp only [List.mem_singleton] at hmem
          cases hmem
          exact ⟨rfl, rfl, rfl⟩
      · simp only [if_neg hval] at hmem
        simp [new_events_self] at hmem

/-- C23 (amended): for every clock, `clk_get_rate` without a `get_rate` hook returns the
cached rate, `clk_get_parent` without a `get_parent` hook returns no parent,
`clk_set_parent` without a `set_parent` hook returns 0, and `clk_round_rate`,
`clk_reset` and `clk_set_rate` without their hook return `-ENOSYS`; none of these
changes the state (no hook is invoked).  With the hook present, `clk_get_rate`,
`clk_get_parent`, `clk_set_parent`, `clk_round_rate` and `clk_reset` invoke it once and
return exactly its result, and `clk_set_rate` returns exactly the hook's result
whenever it invokes the hook. -/
theorem hookless_defaults (hw : hooks) (fw : fwd_hooks) (cfg : Nat → clk) (s : clk_state)
    (c : Nat) :
    ((cfg c).ops.get_rate = false → clk_get_rate fw cfg s (.ptr c) = (s.rate c, s)) ∧
    ((cfg c).ops.get_rate = true → clk_get_rate fw cfg s (.ptr c) =
      (fw.get_rate s.log c, add_log s [event.get_rate c (fw.get_rate s.log c)])) ∧
    ((cfg c).ops.get_parent = false → clk_get_parent cfg (.ptr c) = .null) ∧
    ((cfg c).ops.get_parent = true → clk_get_parent cfg (.ptr c) = (cfg c).parent) ∧
    (∀ p, (cfg c).ops.set_parent = false → clk_set_parent fw cfg s (.ptr c) p = some (0, s)) ∧
    (∀ p, (cfg c).ops.set_parent = true → clk_set_parent fw cfg s (.ptr c) p =
      some (fw.set_parent s.log c p,
        add_log s [event.set_parent c p (fw.set_parent s.log c p)])) ∧
    (∀ rate, (cfg c).ops.round_rate = false →
      clk_round_rate fw cfg s (.ptr c) rate = (-ENOSYS, s)) ∧
    (∀ rate, (cfg c).ops.round_rate = true → clk_round_rate fw cfg s (.ptr c) rate =
      (fw.round_rate s.log c rate,
        add_log s [event.round_rate c rate (fw.round_rate s.log c rate)])) ∧
    (∀ action, (cfg c).ops.reset = false →
      clk_reset fw cfg s (.ptr c) action = (-ENOSYS, s)) ∧
    (∀ action, (cfg c).ops.reset = true → clk_reset fw cfg s (.ptr c) action =
      (fw.reset s.log c action, add_log s [event.reset c action (fw.reset s.log c action)])) ∧
    (∀ rate, (cfg c).ops.set_rate = false →
      clk_set_rate hw cfg s (.ptr c) rate = some (-ENOSYS, s)) ∧
    (∀ rate, (cfg c).ops.set_rate = true →
      ∃ res, clk_set_rate hw cfg s (.ptr c) rate = some res ∧
        ∀ x r rc, event.set_rate x r rc ∈ new_events s res.2 →
          x = c ∧ r = rate ∧ res.1 = rc) := by
  refine ⟨fun h => by simp [clk_get_rate, h], fun h => by simp [clk_get_rate, h],
    fun h => by simp [clk_get_parent, h], fun h => by simp [clk_get_parent, h],
    fun p h => by simp [clk_set_parent, h], fun p h => by simp [clk_set_parent, h],
    fun rate h => by simp [clk_round_rate, h], fun rate h => by simp [clk_round_rate, h],
    fun a h => by simp [clk_reset, h], fun a h => by simp [clk_reset, h],
    fun rate h => by simp [clk_set_rate, clk_set_rate_clk, h],
    fun rate hop => ⟨_, rfl, fun x r rc hmem =>
      clk_set_rate_clk_forwards hw cfg s c rate x r rc hop hmem⟩⟩


theorem dedup_snoc (A : List Nat) (c : Nat) :
    (A ++ [c]).dedup = (A.filter (fun x => decide (x ≠ c))).dedup ++ [c] := by
  rw [List.dedup_append]
  induction A with
  | nil => simp
  | cons a A ih =>
    rw [List.cons_union, ih]
    by_cases hac : a = c
    · subst hac
      simp
    · have hf : (a :: A).filter (fun x => decide (x ≠ c)) =
          a :: A.filter (fun x => decide (x ≠ c)) := by simp [hac]
      rw [hf]
      by_cases hm : a ∈ A.filter (fun x => decide (x ≠ c))
      · rw [List.dedup_cons_of_mem hm]
        apply List.insert_of_mem
        simp only [List.mem_append, List.mem_dedup, List.mem_singleton]
        exact Or.inl hm
      · rw [List.dedup_cons_of_not_mem hm]
        rw [List.insert_of_not_mem]
        · rfl
        · simp only [List.mem_append, List.mem_dedup, List.mem_singleton]
          rintro (h | h)
          · exact hm h
          · exact hac h

theorem tbl_clocks_cons_ptr (c : Nat) (rest : List clk_ref) :
    tbl_clocks (.ptr c :: rest) = c :: tbl_clocks rest := rfl

theorem tbl_clocks_cons_null (rest : List clk_ref) :
    tbl_clocks (.null :: rest) = tbl_clocks rest := rfl

theorem tbl_clocks_cons_err (e : Int) (rest : List clk_ref) :
    tbl_clocks (.err e :: rest) = tbl_clocks rest := rfl

theorem mem_tbl_clocks (table : List clk_ref) (c : Nat) :
    c ∈ tbl_clocks table ↔ .ptr c ∈ table := by
  induction table with
  | nil => simp [tbl_clocks]
  | cons r rest ih =>
    cases r with
    | null => rw [tbl_clocks_cons_null, ih]; simp
    | err e => rw [tbl_clocks_cons_err, ih]; simp
    | ptr d =>
      rw [tbl_clocks_cons_ptr]
      simp only [List.mem_cons, ih, clk_ref.ptr.injEq]

/-- One iteration of the linkage loop on a clock whose parent is a clock and whose
`siblings` node is unlinked: the clock becomes the first entry of the parent's children
list. -/
theorem link_clk_add (cfg : Nat → clk) (ls : link_state) (c p : Nat)
    (hp : clk_get_parent cfg (.ptr c) = .ptr p) (he : ls.siblings_empty c = true) :
    link_clk cfg ls (.ptr c) =
      some { children := fun x => if x = p then c :: ls.children p else ls.children x,
             siblings_empty := fun x => if x = c then false else ls.siblings_empty x } := by
  unfold link_clk
  rw [hp]
  simp [he, list_add]

/-- One iteration of the linkage loop changes nothing for an entry that is no clock, for
a clock without parent and for a clock whose `siblings` node is linked. -/
theorem link_clk_skip (cfg : Nat → clk) (ls : link_state) (r : clk_ref)
    (h : ∀ c, r = .ptr c →
      clk_get_parent cfg (.ptr c) = .null ∨ ls.siblings_empty c = false) :
    link_clk cfg ls r = some ls := by
  cases r with
  | null => simp [link_clk]
  | err e => simp [link_clk]
  | ptr c =>
    unfold link_clk
    rcases h c rfl with h | h
    · rw [h]
    · cases hp : clk_get_parent cfg (.ptr c) with
      | null => rfl
      | err e => simp [h]
      | ptr p => simp [h]

/-- The first loop of `msm_clock_init`, from any linkage state and for a table in which
no unlinked clock has an error pointer as parent: it returns, and each children list
gets in front the table's unlinked clocks with that parent, each once, the latest table
entry first. -/
theorem msm_clock_init_link_children (cfg : Nat → clk) (table : List clk_ref) :
    ∀ ls, (∀ c e, .ptr c ∈ table → ls.siblings_empty c = true →
        clk_get_parent cfg (.ptr c) ≠ .err e) →
      ∃ ls1, msm_clock_init_link cfg table ls = some ls1 ∧
        ∀ p, ls1.children p = ((tbl_clocks table).reverse.filter
          (fun c => decide (clk_get_parent cfg (.ptr c) = .ptr p) &&
            ls.siblings_empty c)).dedup ++ ls.children p := by
  induction table with
  | nil =>
    intro ls _
    exact ⟨ls, rfl, fun p => by simp [tbl_clocks]⟩
  | cons r rest ih =>
    intro ls hnf
    have hskip : link_clk cfg ls r = some ls →
        (∀ p c, r = .ptr c → (decide (clk_get_parent cfg (.ptr c) = .ptr p) &&
          ls.siblings_empty c) = false) →
        ∃ ls1, msm_clock_init_link cfg (r :: rest) ls = some ls1 ∧
        ∀ p, ls1.children p = ((tbl_clocks (r :: rest)).reverse.filter
          (fun c => decide (clk_get_parent cfg (.ptr c) = .ptr p) &&
            ls.siblings_empty c)).dedup ++ ls.children p := by
      intro hl hF
      obtain ⟨ls1, e1, h1⟩ := ih ls (fun c e hm => hnf c e (List.mem_cons_of_mem _ hm))
      refine ⟨ls1, by simp only [msm_clock_init_link, hl]; exact e1, fun p => ?_⟩
      rw [h1 p]
      cases r with
      | null => rw [tbl_clocks_cons_null]
      | err e => rw [tbl_clocks_cons_err]
      | ptr c =>
        rw [tbl_clocks_cons_ptr, List.reverse_cons, List.filter_append]
        have : List.filter (fun c => decide (clk_get_parent cfg (.ptr c) = .ptr p) &&
            ls.siblings_empty c) [c] = [] := by
          simp only [List.filter_cons, hF p c rfl, List.filter_nil]
          rfl
        rw [this, List.append_nil]
    cases r with
    | null => exact hskip (link_clk_skip cfg ls _ (fun c h => by cases h)) (fun p c h => by cases h)
    | err e => exact hskip (link_clk_skip cfg ls _ (fun c h => by cases h)) (fun p c h => by cases h)
    | ptr c =>
      by_cases he : ls.siblings_empty c = true
      · cases hp : clk_get_parent cfg (.ptr c) with
        | null =>
          refine hskip (link_clk_skip cfg ls _ (fun d h => ?_)) (fun p d h => ?_)
          · cases h
            exact Or.inl hp
          · cases h
            simp [hp]
        | err e => exact absurd hp (hnf c e (List.mem_cons_self _ _) he)
        | ptr p0 =>
          have hl := link_clk_add cfg ls c p0 hp he
          obtain ⟨ls1, e1, h1⟩ := ih
            { children := fun x => if x = p0 then c :: ls.children p0 else ls.children x,
              siblings_empty := fun x => if x = c then false else ls.siblings_empty x }
            (fun d e hm hd => by
              have hdc : d ≠ c := by
                intro h
                rw [h] at hd
                simp at hd
              simp only [if_neg hdc] at hd
              exact hnf d e (List.mem_cons_of_mem _ hm) hd)
          refine ⟨ls1, by simp only [msm_clock_init_link, hl]; exact e1, fun p => ?_⟩
          rw [h1 p, tbl_clocks_cons_ptr, List.reverse_cons, List.filter_append]
          simp only
          have hfil : List.filter (fun d => decide (clk_get_parent cfg (.ptr d) = .ptr p) &&
              (if d = c then false else ls.siblings_empty d)) (tbl_clocks rest).reverse =
              List.filter (fun x => decide (x ≠ c))
                (List.filter (fun d => decide (clk_get_parent cfg (.ptr d) = .ptr p) &&
                  ls.siblings_empty d) (tbl_clocks rest).reverse) := by
            rw [List.filter_filter]
            apply List.filter_congr
            intro d _
            by_cases hdc : d = c
            · simp [hdc]
            · simp [hdc]
          by_cases hpp : p = p0
          · subst hpp
            have hc : List.filter (fun d => decide (clk_get_parent cfg (.ptr d) = .ptr p) &&
                ls.siblings_empty d) [c] = [c] := by
              simp [hp, he]
            rw [hc, dedup_snoc, hfil, if_pos rfl]
            simp
          · have hc : List.filter (fun d => decide (clk_get_parent cfg (.ptr d) = .ptr p) &&
                ls.siblings_empty d) [c] = [] := by
              have : ¬ p0 = p := fun h => hpp h.symm
              simp [hp, this]
            rw [hc, List.append_nil, if_neg hpp, hfil]
            congr 2
            apply List.filter_eq_self.mpr
            intro d hd
            have := (List.mem_filter.mp hd).2
            simp only [Bool.and_eq_true, decide_eq_true_eq] at this
            have hdc : d ≠ c := by
              intro h
              rw [h, hp] at this
              exact hpp (clk_ref.ptr.inj this.1).symm
            simp [hdc]
      · have he' : ls.siblings_empty c = false := by simpa using he
        refine hskip (link_clk_skip cfg ls _ (fun d h => ?_)) (fun p d h => ?_)
        · cases h
          exact Or.inr he'
        · cases h
          simp [he']

/-- One iteration of the linkage loop never unlinks a `siblings` node, leaves the clock
of the entry linked when it has a parent, and keeps the lists well-formed. -/
theorem link_clk_siblings (cfg : Nat → clk) (ls ls1 : link_state) (r : clk_ref)
    (h : link_clk cfg ls r = some ls1) :
    (∀ x, ls.siblings_empty x = false → ls1.siblings_empty x = false) ∧
    (∀ c, r = .ptr c → clk_get_parent cfg (.ptr c) ≠ .null → ls1.siblings_empty c = false) ∧
    (links_wf ls → links_wf ls1) := by
  have hid : ls1 = ls → (∀ c, r = .ptr c → clk_get_parent cfg (.ptr c) ≠ .null →
      ls.siblings_empty c = false) →
      (∀ x, ls.siblings_empty x = false → ls1.siblings_empty x = false) ∧
      (∀ c, r = .ptr c → clk_get_parent cfg (.ptr c) ≠ .null → ls1.siblings_empty c = false) ∧
      (links_wf ls → links_wf ls1) := by
    intro e hk
    subst e
    exact ⟨fun _ hx => hx, hk, fun hw => hw⟩
  cases r with
  | null =>
    simp only [link_clk, Option.some.injEq] at h
    exact hid h.symm (fun c hc => by cases hc)
  | err e =>
    simp only [link_clk, Option.some.injEq] at h
    exact hid h.symm (fun c hc => by cases hc)
  | ptr c =>
    by_cases he : ls.siblings_empty c = true
    · cases hp : clk_get_parent cfg (.ptr c) with
      | null =>
        rw [link_clk_skip cfg ls _ (fun d hd => by cases hd; exact Or.inl hp)] at h
        simp only [Option.some.injEq] at h
        exact hid h.symm (fun d hd hn => by cases hd; exact absurd hp hn)
      | err e =>
        unfold link_clk at h
        rw [hp] at h
        simp [he] at h
      | ptr p0 =>
        rw [link_clk_add cfg ls c p0 hp he] at h
        simp only [Option.some.injEq] at h
        subst h
        refine ⟨fun x hx => ?_, fun d hd _ => ?_, fun hw => ?_⟩
        · simp only
          split
          · rfl
          · exact hx
        · cases hd
          simp
        · obtain ⟨w1, w2, w3⟩ := hw
          have hnot : ∀ p, c ∉ ls.children p := by
            intro p hm
            have := w2 p c hm
            rw [he] at this
            cases this
          refine ⟨fun p => ?_, fun p d hm => ?_, fun d p q hp1 hq1 => ?_⟩
          · simp only
            split
            · next hpp =>
              subst hpp
              exact List.nodup_cons.mpr ⟨hnot _, w1 _⟩
            · exact w1 p
          · simp only at hm ⊢
            by_cases hdc : d = c
            · simp [hdc]
            · rw [if_neg hdc]
              split at hm
              · next hpp =>
                rcases List.mem_cons.mp hm with h | h
                · exact absurd h hdc
                · exact w2 _ d h
              · exact w2 p d hm
          · simp only at hp1 hq1
            by_cases hdc : d = c
            · subst hdc
              split at hp1
              · next hpp =>
                split at hq1
                · next hqq => rw [hpp, hqq]
                · exact absurd hq1 (hnot q)
              · exact absurd hp1 (hnot p)
            · have a1 : d ∈ ls.children p := by
                split at hp1
                · next hpp =>
                  rcases List.mem_cons.mp hp1 with h | h
                  · exact absurd h hdc
                  · rw [hpp]; exact h
                · exact hp1
              have a2 : d ∈ ls.children q := by
                split at hq1
                · next hqq =>
                  rcases List.mem_cons.mp hq1 with h | h
                  · exact absurd h hdc
                  · rw [hqq]; exact h
                · exact hq1
              exact w3 d p q a1 a2
    · have he' : ls.siblings_empty c = false := by simpa using he
      rw [link_clk_skip cfg ls _ (fun d hd => by cases hd; exact Or.inr he')] at h
      simp only [Option.some.injEq] at h
      exact hid h.symm (fun d hd _ => by cases hd; exact he')

/-- The linkage loop never unlinks a `siblings` node, leaves every clock of the table
that has a parent linked, and keeps the lists well-formed. -/
theorem msm_clock_init_link_siblings (cfg : Nat → clk) (table : List clk_ref) :
    ∀ ls ls1, msm_clock_init_link cfg table ls = some ls1 →
      (∀ x, ls.siblings_empty x = false → ls1.siblings_empty x = false) ∧
      (∀ c, .ptr c ∈ table → clk_get_parent cfg (.ptr c) ≠ .null →
        ls1.siblings_empty c = false) ∧
      (links_wf ls → links_wf ls1) := by
  induction table with
  | nil =>
    intro ls ls1 h
    simp only [msm_clock_init_link, Option.some.injEq] at h
    subst h
    exact ⟨fun _ hx => hx, fun c hc => by simp at hc, fun hw => hw⟩
  | cons r rest ih =>
    intro ls ls1 h
    simp only [msm_clock_init_link] at h
    split at h
    · cases h
    · next lsm hm =>
      obtain ⟨a1, a2, a3⟩ := link_clk_siblings cfg ls lsm r hm
      obtain ⟨b1, b2, b3⟩ := ih lsm ls1 h
      refine ⟨fun x hx => b1 x (a1 x hx), fun c hc hn => ?_, fun hw => b3 (a3 hw)⟩
      rcases List.mem_cons.mp hc with hc | hc
      · exact b1 c (a2 c hc.symm hn)
      · exact b2 c hc hn

/-- The linkage loop changes nothing over a table whose clocks have no parent or are
linked already. -/
theorem msm_clock_init_link_noop (cfg : Nat → clk) (table : List clk_ref) (ls : link_state)
    (h : ∀ c, .ptr c ∈ table →
      clk_get_parent cfg (.ptr c) = .null ∨ ls.siblings_empty c = false) :
    msm_clock_init_link cfg table ls = some ls := by
  induction table with
  | nil => rfl
  | cons r rest ih =>
    simp only [msm_clock_init_link]
    rw [link_clk_skip cfg ls r (fun c hc => h c (by rw [hc]; exact List.mem_cons_self _ _))]
    exact ih (fun c hc => h c (List.mem_cons_of_mem _ hc))

theorem msm_clock_init_link_append (cfg : Nat → clk) (t1 t2 : List clk_ref) :
    ∀ ls, msm_clock_init_link cfg (t1 ++ t2) ls =
      (msm_clock_init_link cfg t1 ls).bind (msm_clock_init_link cfg t2) := by
  induction t1 with
  | nil => intro ls; rfl
  | cons r rest ih =>
    intro ls
    simp only [List.cons_append, msm_clock_init_link]
    cases link_clk cfg ls r with
    | none => rfl
    | some ls1 => exact ih ls1

/-- C24 (counterexample): in the tree where clocks 1 and 2 both have parent 0, the
linkage loop over the table `1, 2`, from the state where nothing is linked, leaves the
children list of clock 0 as `2, 1`: the later table entry comes first, not the
earlier. -/
theorem msm_clock_init_link_latest_first :
    clk_get_parent diamond_cfg (.ptr 1) = .ptr 0 ∧
    clk_get_parent diamond_cfg (.ptr 2) = .ptr 0 ∧
    (msm_clock_init_link diamond_cfg [.ptr 1, .ptr 2] no_links).map
      (fun ls => ls.children 0) = some [2, 1] := by
  decide

/-- C24 (amended): for every table of clocks none of which is linked yet (and none of
which has an error pointer as parent), the linkage loop of `msm_clock_init` returns and
puts each clock of the table that has a parent into that parent's children list, in
front of the entries the list had: afterwards each parent's children list enumerates
the table's clocks with that parent, each once, the latest table entry first (the
reverse of table order), and a clock with no parent is added to no list. -/
theorem msm_clock_init_link_order (cfg : Nat → clk) (table : List clk_ref) (ls : link_state)
    (hempty : ∀ c, .ptr c ∈ table → ls.siblings_empty c = true)
    (hnf : ∀ c e, .ptr c ∈ table → clk_get_parent cfg (.ptr c) ≠ .err e) :
    ∃ ls1, msm_clock_init_link cfg table ls = some ls1 ∧
      (∀ p, ls1.children p = linked_children cfg table p ++ ls.children p) ∧
      (∀ p c, c ∈ linked_children cfg table p ↔
        .ptr c ∈ table ∧ clk_get_parent cfg (.ptr c) = .ptr p) ∧
      (∀ p, (linked_children cfg table p).Nodup) ∧
      ((tbl_clocks table).Nodup → ∀ p, linked_children cfg table p =
        ((tbl_clocks table).filter
          (fun c => decide (clk_get_parent cfg (.ptr c) = .ptr p))).reverse) ∧
      (∀ c, clk_get_parent cfg (.ptr c) = .null → ∀ p, c ∉ linked_children cfg table p) := by
  obtain ⟨ls1, e1, h1⟩ := msm_clock_init_link_children cfg table ls
    (fun c e hm _ => hnf c e hm)
  have hmem : ∀ p c, c ∈ linked_children cfg table p ↔
      .ptr c ∈ table ∧ clk_get_parent cfg (.ptr c) = .ptr p := by
    intro p c
    simp only [linked_children, List.mem_dedup, List.mem_filter, List.mem_reverse,
      mem_tbl_clocks, decide_eq_true_eq]
  refine ⟨ls1, e1, fun p => ?_, hmem, fun p => List.nodup_dedup _, fun hnd p => ?_,
    fun c hc p hm => ?_⟩
  · rw [h1 p]
    congr 2
    apply List.filter_congr
    intro c hc
    rw [hempty c ((mem_tbl_clocks table c).mp (List.mem_reverse.mp hc)), Bool.and_true]
  · unfold linked_children
    rw [List.Nodup.dedup ((List.nodup_reverse.mpr hnd).filter _), List.filter_reverse]
  · rw [((hmem p c).mp hm).2] at hc
    cases hc

/-- Witness of C24: the table `1, 2, 0` on the tree where clocks 1 and 2 have parent 0,
from the state where nothing is linked. -/
theorem msm_clock_init_link_order_witness :
    ∃ ls1, msm_clock_init_link diamond_cfg [.ptr 1, .ptr 2, .ptr 0] no_links = some ls1 ∧
      (∀ p, ls1.children p =
        linked_children diamond_cfg [.ptr 1, .ptr 2, .ptr 0] p ++ no_links.children p) ∧
      (∀ p c, c ∈ linked_children diamond_cfg [.ptr 1, .ptr 2, .ptr 0] p ↔
        .ptr c ∈ [clk_ref.ptr 1, .ptr 2, .ptr 0] ∧
          clk_get_parent diamond_cfg (.ptr c) = .ptr p) ∧
      (∀ p, (linked_children diamond_cfg [.ptr 1, .ptr 2, .ptr 0] p).Nodup) ∧
      ((tbl_clocks [.ptr 1, .ptr 2, .ptr 0]).Nodup → ∀ p,
        linked_children diamond_cfg [.ptr 1, .ptr 2, .ptr 0] p =
          ((tbl_clocks [.ptr 1, .ptr 2, .ptr 0]).filter
            (fun c => decide (clk_get_parent diamond_cfg (.ptr c) = .ptr p))).reverse) ∧
      (∀ c, clk_get_parent diamond_cfg (.ptr c) = .null →
        ∀ p, c ∉ linked_children diamond_cfg [.ptr 1, .ptr 2, .ptr 0] p) :=
  msm_clock_init_link_order diamond_cfg [.ptr 1, .ptr 2, .ptr 0] no_links
    (fun _ _ => rfl)
    (fun c e _ => by
      unfold clk_get_parent diamond_cfg
      simp only
      split_ifs <;> simp)

/-- C27: the linkage loop of `msm_clock_init` is idempotent.  After a run over a table,
a second run over the same table, or over any table made of clocks of the first one,
returns the state it started from; a table continued by repeated clocks gives the same
result as the table itself; and lists in which each clock appears at most once in at
most one children list stay so. -/
theorem msm_clock_init_link_idempotent (cfg : Nat → clk) (table table2 : List clk_ref)
    (ls ls1 : link_state) (h1 : msm_clock_init_link cfg table ls = some ls1)
    (hsub : ∀ r ∈ table2, r ∈ table) :
    msm_clock_init_link cfg table ls1 = some ls1 ∧
    msm_clock_init_link cfg table2 ls1 = some ls1 ∧
    msm_clock_init_link cfg (table ++ table2) ls = some ls1 ∧
    (links_wf ls → links_wf ls1) := by
  obtain ⟨_, a2, a3⟩ := msm_clock_init_link_siblings cfg table ls ls1 h1
  have key : ∀ t : List clk_ref, (∀ r ∈ t, r ∈ table) →
      msm_clock_init_link cfg t ls1 = some ls1 := by
    intro t ht
    apply msm_clock_init_link_noop
    intro c hc
    by_cases hn : clk_get_parent cfg (.ptr c) = .null
    · exact Or.inl hn
    · exact Or.inr (a2 c (ht _ hc) hn)
  refine ⟨key table (fun _ h => h), key table2 hsub, ?_, a3⟩
  rw [msm_clock_init_link_append, h1]
  exact key table2 hsub

/-- Witness of C27: the table `1, 2, 0` on the tree where clocks 1 and 2 have parent 0,
from the state where nothing is linked, run again and continued by the repeated clocks
`2, 1`. -/
theorem msm_clock_init_link_idempotent_witness :
    links_wf no_links ∧
    ∃ ls1, msm_clock_init_link diamond_cfg [.ptr 1, .ptr 2, .ptr 0] no_links = some ls1 ∧
      ls1.children 0 = [2, 1] ∧
      msm_clock_init_link diamond_cfg [.ptr 1, .ptr 2, .ptr 0] ls1 = some ls1 ∧
      msm_clock_init_link diamond_cfg [.ptr 2, .ptr 1] ls1 = some ls1 ∧
      msm_clock_init_link diamond_cfg ([.ptr 1, .ptr 2, .ptr 0] ++ [.ptr 2, .ptr 1]) no_links =
        some ls1 ∧
      (links_wf no_links → links_wf ls1) :=
  ⟨⟨fun _ => List.nodup_nil, fun _ _ h => by simp [no_links] at h,
    fun _ _ _ h => by simp [no_links] at h⟩,
   _, rfl, rfl,
   msm_clock_init_link_idempotent diamond_cfg [.ptr 1, .ptr 2, .ptr 0] [.ptr 2, .ptr 1]
    no_links _ rfl (by decide)⟩

/-! ## Theorems: ordering inside `clk_set_rate`, rail adequacy -/

/-- Every outcome of `unvote_vdd_level`: the number of levels stays, the arbiter's
invariant is kept, and the vote table is either unchanged or has one vote less at the
(in-range, voted) level. -/
theorem unvote_vdd_level_any (f : clk_vdd_class → Int → Int) (v : clk_vdd_class) (L : Int) :
    (unvote_vdd_level f v L).vdd.num_levels = v.num_levels ∧
    (1 ≤ v.num_levels → is_resolved_level v v.cur_level →
      is_resolved_level (unvote_vdd_level f v L).vdd (unvote_vdd_level f v L).vdd.cur_level) ∧
    ((unvote_vdd_level f v L).vdd = v ∨
      (L < (v.num_levels : Int) ∧ v.level_votes L ≠ 0 ∧
        (unvote_vdd_level f v L).vdd.level_votes =
          fun i => if i = L then v.level_votes L - 1 else v.level_votes i)) := by
  by_cases hge : L ≥ (v.num_levels : Int)
  · rw [(vdd_level_above_range f v L hge).2]
    exact ⟨rfl, fun _ h => h, Or.inl rfl⟩
  · have hlt : L < (v.num_levels : Int) := by omega
    by_cases hz : v.level_votes L = 0
    · have e : unvote_vdd_level f v L = { rc := 0, vdd := v, calls := [], warned := true } := by
        simp [unvote_vdd_level, hge, hz]
      rw [e]
      exact ⟨rfl, fun _ h => h, Or.inl rfl⟩
    · rcases unvote_vdd_level_cases f v L hlt hz with ⟨hrc, e⟩ | ⟨_, e, _, _⟩
      · rw [e]
        obtain ⟨uv, un, _⟩ := update_vdd_votes f (set_votes v L (v.level_votes L - 1))
        refine ⟨un, fun hN _ => update_vdd_resolved f _ (by rw [set_votes_num_levels]; exact hN) hrc,
          Or.inr ⟨hlt, hz, ?_⟩⟩
        rw [uv]
        rfl
      · rw [e]
        exact ⟨rfl, fun _ h => h, Or.inl rfl⟩

/-- Every outcome of `unvote_rate_vdd`, rail by rail: the arbiter's invariant is kept
and the vote table is either unchanged or, on the clock's rail, has one vote less at
the level of the rate. -/
theorem unvote_rate_vdd_any (hw : hooks) (cfg : Nat → clk) (t : clk_state) (c rate x : Nat) :
    (1 ≤ (t.vdd x).num_levels → is_resolved_level (t.vdd x) (t.vdd x).cur_level →
      is_resolved_level ((unvote_rate_vdd hw cfg t c rate).vdd x)
        ((unvote_rate_vdd hw cfg t c rate).vdd x).cur_level) ∧
    ((unvote_rate_vdd hw cfg t c rate).vdd x = t.vdd x ∨
      ((cfg c).vdd_class = some x ∧ 0 ≤ find_vdd_level (cfg c).fmax rate ∧
        find_vdd_level (cfg c).fmax rate < ((t.vdd x).num_levels : Int) ∧
        (t.vdd x).level_votes (find_vdd_level (cfg c).fmax rate) ≠ 0 ∧
        ((unvote_rate_vdd hw cfg t c rate).vdd x).level_votes =
          fun i => if i = find_vdd_level (cfg c).fmax rate
            then (t.vdd x).level_votes (find_vdd_level (cfg c).fmax rate) - 1
            else (t.vdd x).level_votes i)) := by
  unfold unvote_rate_vdd
  cases hvc : (cfg c).vdd_class with
  | none => exact ⟨fun _ h => h, Or.inl rfl⟩
  | some rail =>
    simp only
    by_cases hneg : find_vdd_level (cfg c).fmax rate < 0
    · rw [if_pos hneg]
      exact ⟨fun _ h => h, Or.inl rfl⟩
    · rw [if_neg hneg]
      simp only [add_log_vdd, set_vdd_class_vdd]
      by_cases hx : x = rail
      · subst hx
        simp only [if_true]
        obtain ⟨_, a2, a3⟩ := unvote_vdd_level_any (hw.set_vdd t.log x) (t.vdd x)
          (find_vdd_level (cfg c).fmax rate)
        refine ⟨a2, ?_⟩
        rcases a3 with h | ⟨h1, h2, h3⟩
        · exact Or.inl h
        · exact Or.inr ⟨by first | rfl | trivial, by omega, h1, h2, h3⟩
      · simp only [if_neg hx]
        exact ⟨fun _ h => h, Or.inl (by first | rfl | trivial)⟩

/-- The resolved level is at least every level of the rail that holds a vote. -/
theorem resolved_level_ge (v : clk_vdd_class) (cur L : Int) (h : is_resolved_level v cur)
    (h0 : 0 ≤ L) (hlt : L < (v.num_levels : Int)) (hv : v.level_votes L ≠ 0) : L ≤ cur := by
  have e : ((L.toNat : Nat) : Int) = L := by omega
  rcases h with ⟨_, _, _, hz⟩ | ⟨_, hno⟩
  · by_contra hlt2
    have := hz L.toNat (by omega) (by omega)
    rw [e] at this
    exact hv this
  · have := hno L.toNat (by omega)
    rw [e] at this
    exact absurd this hv

/-- The explicit form of `vote_rate_vdd` for a clock with a rail and a rate that the
`fmax` table maps to a level. -/
theorem vote_rate_vdd_eq (hw : hooks) (cfg : Nat → clk) (s : clk_state) (c rate rail : Nat)
    (hvc : (cfg c).vdd_class = some rail) (h0 : 0 ≤ find_vdd_level (cfg c).fmax rate) :
    vote_rate_vdd hw cfg s c rate =
      ((vote_vdd_level (hw.set_vdd s.log rail) (s.vdd rail)
          (find_vdd_level (cfg c).fmax rate)).rc,
        add_log (set_vdd_class s rail
          (vote_vdd_level (hw.set_vdd s.log rail) (s.vdd rail)
            (find_vdd_level (cfg c).fmax rate)).vdd)
          (vdd_events rail (find_vdd_level (cfg c).fmax rate)
            (vote_vdd_level (hw.set_vdd s.log rail) (s.vdd rail)
              (find_vdd_level (cfg c).fmax rate)) ++
            [event.vote rail (find_vdd_level (cfg c).fmax rate)
              (vote_vdd_level (hw.set_vdd s.log rail) (s.vdd rail)
                (find_vdd_level (cfg c).fmax rate)).rc])) := by
  have hl : ¬ find_vdd_level (cfg c).fmax rate < 0 := by omega
  simp [vote_rate_vdd, hvc, hl]

/-- The statement of `clk_set_rate_hook_window` about `clk_set_rate_clk`, the code behind the pointer
test. -/
theorem clk_set_rate_hook_window_clk (hw : hooks) (cfg : Nat → clk) (s : clk_state)
    (c rate rail : Nat) (hop : (cfg c).ops.set_rate = true) (hp : s.prepare_count c ≠ 0)
    (hvc : (cfg c).vdd_class = some rail) (hne : s.rate c ≠ rate)
    (hinv : is_resolved_level (s.vdd rail) (s.vdd rail).cur_level)
    (hold0 : 0 ≤ find_vdd_level (cfg c).fmax (s.rate c))
    (hlo : find_vdd_level (cfg c).fmax (s.rate c) < ((s.vdd rail).num_levels : Int))
    (holdv : (s.vdd rail).level_votes (find_vdd_level (cfg c).fmax (s.rate c)) ≠ 0) :
    ((∃ rc, event.set_rate c rate rc ∈ new_events s (clk_set_rate_clk hw cfg s c rate).2) ↔
      (vote_rate_vdd hw cfg s c rate).1 = 0) ∧
    ((vote_rate_vdd hw cfg s c rate).1 = 0 →
      (∃ U, new_events s (clk_set_rate_clk hw cfg s c rate).2 =
          new_events s (vote_rate_vdd hw cfg s c rate).2 ++
            [event.set_rate c rate (hw.set_rate (vote_rate_vdd hw cfg s c rate).2.log c rate)] ++
            U ∧
        ∀ e ∈ U, is_rail_event e = true ∧ ∀ r l k, e ≠ event.vote r l k) ∧
      event.vote rail (find_vdd_level (cfg c).fmax rate) 0 ∈
        new_events s (vote_rate_vdd hw cfg s c rate).2 ∧
      (∀ e ∈ new_events s (vote_rate_vdd hw cfg s c rate).2,
        is_rail_event e = true ∧ ∀ r l k, e ≠ event.unvote r l k) ∧
      ((vote_rate_vdd hw cfg s c rate).2.vdd rail).level_votes
        (find_vdd_level (cfg c).fmax rate) ≠ 0 ∧
      ((vote_rate_vdd hw cfg s c rate).2.vdd rail).level_votes
        (find_vdd_level (cfg c).fmax (s.rate c)) ≠ 0 ∧
      is_highest_voted ((vote_rate_vdd hw cfg s c rate).2.vdd rail)
        ((vote_rate_vdd hw cfg s c rate).2.vdd rail).cur_level ∧
      find_vdd_level (cfg c).fmax rate ≤
        ((vote_rate_vdd hw cfg s c rate).2.vdd rail).cur_level ∧
      find_vdd_level (cfg c).fmax (s.rate c) ≤
        ((vote_rate_vdd hw cfg s c rate).2.vdd rail).cur_level) ∧
    is_resolved_level ((clk_set_rate_clk hw cfg s c rate).2.vdd rail)
      ((clk_set_rate_clk hw cfg s c rate).2.vdd rail).cur_level ∧
    find_vdd_level (cfg c).fmax ((clk_set_rate_clk hw cfg s c rate).2.rate c) ≤
      ((clk_set_rate_clk hw cfg s c rate).2.vdd rail).cur_level := by
  have hN : 1 ≤ (s.vdd rail).num_levels := by omega
  have heq := clk_set_rate_prepared_eq hw cfg s c rate hop hp hne
  obtain ⟨_, _, vr, lv, vfail, _⟩ := vote_rate_vdd_spec hw cfg s c rate
  by_cases hv : (vote_rate_vdd hw cfg s c rate).1 = 0
  · -- the vote succeeded: the hook runs in the state after the vote
    obtain ⟨n0, nlt, nv, nn, nh, _⟩ := vote_rate_vdd_ok hw cfg s c rate rail hvc hv
    have hvote : event.vote rail (find_vdd_level (cfg c).fmax rate) 0 ∈
        new_events s (vote_rate_vdd hw cfg s c rate).2 := by
      have e := vote_rate_vdd_eq hw cfg s c rate rail hvc n0
      have hrc : (vote_vdd_level (hw.set_vdd s.log rail) (s.vdd rail)
          (find_vdd_level (cfg c).fmax rate)).rc = 0 := by
        rw [e] at hv
        exact hv
      rw [e, new_events_set_vdd_class, hrc]
      exact List.mem_append_right _ (List.mem_singleton.mpr rfl)
    have hLn : ((vote_rate_vdd hw cfg s c rate).2.vdd rail).level_votes
        (find_vdd_level (cfg c).fmax rate) ≠ 0 := by
      rw [nv]
      simp
    have hLo : ((vote_rate_vdd hw cfg s c rate).2.vdd rail).level_votes
        (find_vdd_level (cfg c).fmax (s.rate c)) ≠ 0 := by
      rw [nv]
      simp only
      split
      · omega
      · exact holdv
    have hres : is_resolved_level ((vote_rate_vdd hw cfg s c rate).2.vdd rail)
        ((vote_rate_vdd hw cfg s c rate).2.vdd rail).cur_level := Or.inl nh
    simp only [hv, ne_eq, not_true_eq_false, if_false] at heq
    -- the state handed to the unvote
    have k1 : (add_log (vote_rate_vdd hw cfg s c rate).2 [event.set_rate c rate
        (hw.set_rate (vote_rate_vdd hw cfg s c rate).2.log c rate)]).vdd =
        (vote_rate_vdd hw cfg s c rate).2.vdd := rfl
    have k2 : log_extends (vote_rate_vdd hw cfg s c rate).2
        (add_log (vote_rate_vdd hw cfg s c rate).2 [event.set_rate c rate
          (hw.set_rate (vote_rate_vdd hw cfg s c rate).2.log c rate)]) :=
      log_extends_add_log _ _
    have k3 : (add_log (vote_rate_vdd hw cfg s c rate).2 [event.set_rate c rate
        (hw.set_rate (vote_rate_vdd hw cfg s c rate).2.log c rate)]).rate =
        (vote_rate_vdd hw cfg s c rate).2.rate := rfl
    have k4 : new_events (vote_rate_vdd hw cfg s c rate).2
        (add_log (vote_rate_vdd hw cfg s c rate).2 [event.set_rate c rate
          (hw.set_rate (vote_rate_vdd hw cfg s c rate).2.log c rate)]) =
        [event.set_rate c rate (hw.set_rate (vote_rate_vdd hw cfg s c rate).2.log c rate)] :=
      new_events_add_log _ _
    generalize add_log (vote_rate_vdd hw cfg s c rate).2 [event.set_rate c rate
      (hw.set_rate (vote_rate_vdd hw cfg s c rate).2.log c rate)] = t at heq k1 k2 k3 k4
    have e1 : (t.vdd rail).level_votes (find_vdd_level (cfg c).fmax rate) =
        (s.vdd rail).level_votes (find_vdd_level (cfg c).fmax rate) + 1 := by
      rw [k1, nv]
      simp
    have e2 : find_vdd_level (cfg c).fmax (s.rate c) ≠ find_vdd_level (cfg c).fmax rate →
        (t.vdd rail).level_votes (find_vdd_level (cfg c).fmax (s.rate c)) =
        (s.vdd rail).level_votes (find_vdd_level (cfg c).fmax (s.rate c)) := by
      intro hh
      rw [k1, nv]
      simp [hh]
    -- whatever rate is unvoted, the log and the rail behave as claimed
    have key : ∀ r2 u, (u.log = (unvote_rate_vdd hw cfg t c r2).log) →
        u.vdd = (unvote_rate_vdd hw cfg t c r2).vdd →
        (clk_set_rate_clk hw cfg s c rate).2 = u →
        (((unvote_rate_vdd hw cfg t c r2).vdd rail).level_votes
          (find_vdd_level (cfg c).fmax (u.rate c)) ≠ 0) →
        0 ≤ find_vdd_level (cfg c).fmax (u.rate c) →
        find_vdd_level (cfg c).fmax (u.rate c) < ((s.vdd rail).num_levels : Int) →
        ((∃ U, new_events s (clk_set_rate_clk hw cfg s c rate).2 =
            new_events s (vote_rate_vdd hw cfg s c rate).2 ++
              [event.set_rate c rate
                (hw.set_rate (vote_rate_vdd hw cfg s c rate).2.log c rate)] ++ U ∧
          ∀ e ∈ U, is_rail_event e = true ∧ ∀ r l k, e ≠ event.vote r l k) ∧
        is_resolved_level ((clk_set_rate_clk hw cfg s c rate).2.vdd rail)
          ((clk_set_rate_clk hw cfg s c rate).2.vdd rail).cur_level ∧
        find_vdd_level (cfg c).fmax ((clk_set_rate_clk hw cfg s c rate).2.rate c) ≤
          ((clk_set_rate_clk hw cfg s c rate).2.vdd rail).cur_level) := by
      intro r2 u hul huv hR hvu h0u hltu
      obtain ⟨_, _, _, ul, un⟩ := unvote_rate_vdd_frame hw cfg t c r2
      obtain ⟨ures, _⟩ := unvote_rate_vdd_any hw cfg t c r2 rail
      have hres2 := ures (by rw [k1, nn]; exact hN) (by rw [k1]; exact hres)
      have l3 : log_extends t u := by
        obtain ⟨es, he⟩ := ul
        exact ⟨es, by rw [hul, he]⟩
      have hne3 : new_events t u = new_events t (unvote_rate_vdd hw cfg t c r2) := by
        unfold new_events
        rw [hul]
      rw [hR]
      refine ⟨⟨new_events t u, ?_, fun e he => ?_⟩, ?_, ?_⟩
      · rw [new_events_split lv (log_extends_trans k2 l3), new_events_split k2 l3, k4,
          List.append_assoc]
      · rw [hne3] at he
        exact unvote_rate_vdd_rail_events hw cfg t c r2 e he
      · rw [huv]
        exact hres2
      · rw [huv]
        exact resolved_level_ge _ _ _ hres2 h0u (by rw [un, k1, nn]; exact hltu) hvu
    have fin : ((∃ U, new_events s (clk_set_rate_clk hw cfg s c rate).2 =
            new_events s (vote_rate_vdd hw cfg s c rate).2 ++
              [event.set_rate c rate
                (hw.set_rate (vote_rate_vdd hw cfg s c rate).2.log c rate)] ++ U ∧
          ∀ e ∈ U, is_rail_event e = true ∧ ∀ r l k, e ≠ event.vote r l k) ∧
        is_resolved_level ((clk_set_rate_clk hw cfg s c rate).2.vdd rail)
          ((clk_set_rate_clk hw cfg s c rate).2.vdd rail).cur_level ∧
        find_vdd_level (cfg c).fmax ((clk_set_rate_clk hw cfg s c rate).2.rate c) ≤
          ((clk_set_rate_clk hw cfg s c rate).2.vdd rail).cur_level) := by
      by_cases hh : hw.set_rate (vote_rate_vdd hw cfg s c rate).2.log c rate ≠ 0
      · -- the hook failed: the new rate is unvoted, the stored rate stays
        simp only [if_pos hh] at heq
        obtain ⟨_, _, ur, _, _⟩ := unvote_rate_vdd_frame hw cfg t c rate
        have hrate : (unvote_rate_vdd hw cfg t c rate).rate c = s.rate c := by
          rw [ur, k3, vr]
        refine key rate (unvote_rate_vdd hw cfg t c rate) rfl rfl (by rw [heq]) ?_
          (by rw [hrate]; exact hold0) (by rw [hrate]; exact hlo)
        rw [hrate]
        rcases (unvote_rate_vdd_any hw cfg t c rate rail).2 with h | ⟨_, _, _, _, h⟩
        · rw [h, k1]
          exact hLo
        · rw [h]
          simp only
          by_cases h1 : find_vdd_level (cfg c).fmax (s.rate c) = find_vdd_level (cfg c).fmax rate
          · rw [if_pos h1, e1, Nat.add_sub_cancel, ← h1]
            exact holdv
          · rw [if_neg h1, e2 h1]
            exact holdv
      · -- the hook succeeded: the old rate is unvoted, the new rate is stored
        simp only [if_neg hh] at heq
        have hrate : (set_clk_rate (unvote_rate_vdd hw cfg t c (s.rate c)) c rate).rate c =
            rate := by simp
        refine key (s.rate c) (set_clk_rate (unvote_rate_vdd hw cfg t c (s.rate c)) c rate)
          rfl rfl (by rw [heq]) ?_ (by rw [hrate]; exact n0) (by rw [hrate]; exact nlt)
        rw [hrate]
        rcases (unvote_rate_vdd_any hw cfg t c (s.rate c) rail).2 with h | ⟨_, _, _, _, h⟩
        · rw [h, k1]
          exact hLn
        · rw [h]
          simp only
          by_cases h1 : find_vdd_level (cfg c).fmax rate = find_vdd_level (cfg c).fmax (s.rate c)
          · rw [if_pos h1, ← h1, e1, Nat.add_sub_cancel, h1]
            exact holdv
          · rw [if_neg h1, e1]
            omega
    refine ⟨⟨fun _ => hv, fun _ => ?_⟩, fun _ => ⟨fin.1, hvote,
      vote_rate_vdd_rail_events hw cfg s c rate, hLn, hLo, nh,
      resolved_level_ge _ _ _ hres n0 (by rw [nn]; exact nlt) hLn,
      resolved_level_ge _ _ _ hres hold0 (by rw [nn]; exact hlo) hLo⟩, fin.2.1, fin.2.2⟩
    obtain ⟨U, hU, _⟩ := fin.1
    refine ⟨hw.set_rate (vote_rate_vdd hw cfg s c rate).2.log c rate, ?_⟩
    rw [hU]
    simp
  · -- the vote failed: nothing but the vote's events, the state of the rails is unchanged
    simp only [ne_eq, hv, not_false_eq_true, if_true] at heq
    have hvdd := vfail hv
    refine ⟨⟨fun ⟨rc, hm⟩ => ?_, fun h => absurd h hv⟩, fun h => absurd h hv, ?_, ?_⟩
    · rw [heq] at hm
      exact absurd ((vote_rate_vdd_rail_events hw cfg s c rate _ hm).1) (by simp [is_rail_event])
    · rw [heq]
      simp only
      rw [hvdd]
      exact hinv
    · rw [heq]
      simp only
      rw [hvdd, vr]
      exact resolved_level_ge _ _ _ hinv hold0 hlo holdv

/-- C26: for a prepared clock with a rail whose `cur_level` is the resolved level and on
which the clock holds the vote for its stored rate `r_old`, and a different new rate
`r_new`: `clk_set_rate` invokes the rate-set hook exactly when the vote for `r_new`
succeeded; the log of the call is then the vote's events (with the successful vote
record, without any unvote record), the hook call, and after it only arbiter events
without any vote record; in the state in which the hook runs both the level of `r_old`
and the level of `r_new` hold a vote and `cur_level`, the highest voted level, is at
least both; and after the call, whatever its result, `cur_level` is the resolved level
and is at least the level of the stored rate. -/
theorem clk_set_rate_hook_window (hw : hooks) (cfg : Nat → clk) (s : clk_state)
    (c rate rail : Nat) (hop : (cfg c).ops.set_rate = true) (hp : s.prepare_count c ≠ 0)
    (hvc : (cfg c).vdd_class = some rail) (hne : s.rate c ≠ rate)
    (hinv : is_resolved_level (s.vdd rail) (s.vdd rail).cur_level)
    (hold0 : 0 ≤ find_vdd_level (cfg c).fmax (s.rate c))
    (hlo : find_vdd_level (cfg c).fmax (s.rate c) < ((s.vdd rail).num_levels : Int))
    (holdv : (s.vdd rail).level_votes (find_vdd_level (cfg c).fmax (s.rate c)) ≠ 0) :
    ∃ res, clk_set_rate hw cfg s (.ptr c) rate = some res ∧
    (((∃ rc, event.set_rate c rate rc ∈ new_events s res.2) ↔
        (vote_rate_vdd hw cfg s c rate).1 = 0) ∧
      ((vote_rate_vdd hw cfg s c rate).1 = 0 →
        (∃ U, new_events s res.2 = new_events s (vote_rate_vdd hw cfg s c rate).2 ++
              [event.set_rate c rate (hw.set_rate (vote_rate_vdd hw cfg s c rate).2.log c rate)] ++
              U ∧
          ∀ e ∈ U, is_rail_event e = true ∧ ∀ r l k, e ≠ event.vote r l k) ∧
        event.vote rail (find_vdd_level (cfg c).fmax rate) 0 ∈
          new_events s (vote_rate_vdd hw cfg s c rate).2 ∧
        (∀ e ∈ new_events s (vote_rate_vdd hw cfg s c rate).2,
          is_rail_event e = true ∧ ∀ r l k, e ≠ event.unvote r l k) ∧
        ((vote_rate_vdd hw cfg s c rate).2.vdd rail).level_votes
          (find_vdd_level (cfg c).fmax rate) ≠ 0 ∧
        ((vote_rate_vdd hw cfg s c rate).2.vdd rail).level_votes
          (find_vdd_level (cfg c).fmax (s.rate c)) ≠ 0 ∧
        is_highest_voted ((vote_rate_vdd hw cfg s c rate).2.vdd rail)
          ((vote_rate_vdd hw cfg s c rate).2.vdd rail).cur_level ∧
        find_vdd_level (cfg c).fmax rate ≤
          ((vote_rate_vdd hw cfg s c rate).2.vdd rail).cur_level ∧
        find_vdd_level (cfg c).fmax (s.rate c) ≤
          ((vote_rate_vdd hw cfg s c rate).2.vdd rail).cur_level) ∧
      is_resolved_level (res.2.vdd rail)
        (res.2.vdd rail).cur_level ∧
      find_vdd_level (cfg c).fmax (res.2.rate c) ≤
        (res.2.vdd rail).cur_level) :=
  ⟨_, rfl, clk_set_rate_hook_window_clk hw cfg s c rate rail hop hp hvc hne hinv hold0 hlo holdv⟩

/-- Witness of C26: the child of the example tree, prepared at 10 MHz with its vote on
level 0, set to 50 MHz with hooks and setter that succeed. -/
theorem clk_set_rate_hook_window_witness :
    (vote_rate_vdd (rate_hooks 0 0) demo_cfg (demo_prepared 10000000 [1, 0] 0) 1 50000000).1 = 0 ∧
    ∃ res, clk_set_rate (rate_hooks 0 0) demo_cfg (demo_prepared 10000000 [1, 0] 0) (.ptr 1)
        50000000 = some res ∧
      is_resolved_level (res.2.vdd 0) (res.2.vdd 0).cur_level ∧
      find_vdd_level (demo_cfg 1).fmax (res.2.rate 1) ≤ (res.2.vdd 0).cur_level :=
  ⟨by decide, (clk_set_rate_hook_window (rate_hooks 0 0) demo_cfg
    (demo_prepared 10000000 [1, 0] 0) 1 50000000 0 (by decide) (by decide) rfl (by decide)
    (by decide) (by decide) (by decide) (by decide)).imp (fun _ hh => ⟨hh.1, hh.2.2.2⟩)⟩
/-! ## Theorems: handoff -/

/-- What `clk_get_rate` leaves alone: everything but the log. -/
theorem clk_get_rate_frame (fw : fwd_hooks) (cfg : Nat → clk) (s : clk_state) (r : clk_ref) :
    (clk_get_rate fw cfg s r).2.count = s.count ∧
    (clk_get_rate fw cfg s r).2.prepare_count = s.prepare_count ∧
    (clk_get_rate fw cfg s r).2.rate = s.rate ∧
    (clk_get_rate fw cfg s r).2.vdd = s.vdd ∧
    log_extends s (clk_get_rate fw cfg s r).2 := by
  cases r with
  | null => exact ⟨rfl, rfl, rfl, rfl, log_extends_refl s⟩
  | err e => exact ⟨rfl, rfl, rfl, rfl, log_extends_refl s⟩
  | ptr c =>
    unfold clk_get_rate
    simp only
    split
    · exact ⟨rfl, rfl, rfl, rfl, log_extends_refl s⟩
    · exact ⟨rfl, rfl, rfl, rfl, log_extends_add_log _ _⟩

/-- Everything the proofs need about one `clk_prepare_enable` call whose depth bound
covers the rank, on a reference without error pointers below it: it returns, the log
grows, the rates stay, counts change only for the clock and the clocks below it, and a
failing call leaves every prepare and enable count as it was. -/
theorem clk_prepare_enable_spec (hw : hooks) (cfg : Nat → clk) (h : Nat → Nat)
    (hr : ranked cfg h) (fuel : Nat) (s : clk_state) (r : clk_ref) (hf : rank h r ≤ fuel)
    (hv : valid_below cfg fuel r = true) :
    ∃ err s1, clk_prepare_enable hw cfg fuel s r = some (err, s1) ∧
      log_extends s s1 ∧ s1.rate = s.rate ∧
      (∀ x, rank h r ≤ h x → s1.count x = s.count x ∧
        s1.prepare_count x = s.prepare_count x) ∧
      (err ≠ 0 → s1.count = s.count ∧ s1.prepare_count = s.prepare_count) := by
  obtain ⟨rc1, s1, e1, c1, r1, l1, f1, fail1, undo1⟩ := clk_prepare_spec hw cfg h hr fuel s r hf
  unfold clk_prepare_enable
  rw [e1]
  simp only
  by_cases hrc1 : rc1 ≠ 0
  · rw [if_pos hrc1]
    refine ⟨rc1, s1, rfl, l1, r1, fun x hx => ⟨by rw [c1], f1 x hx⟩, fun _ => ⟨c1, (fail1 hrc1).1⟩⟩
  · rw [if_neg hrc1]
    have hz : rc1 = 0 := by simpa using hrc1
    obtain ⟨rc2, s2, e2⟩ := clk_enable_valid hw cfg fuel s1 r hv
    obtain ⟨p2, r2, _, f2, fail2, _⟩ := clk_enable_spec hw cfg h hr fuel s1 r rc2 s2 e2
    have l2 := clk_enable_log hw cfg fuel s1 r rc2 s2 e2
    rw [e2]
    simp only
    by_cases hrc2 : rc2 ≠ 0
    · rw [if_pos hrc2]
      obtain ⟨t, e3⟩ := clk_unprepare_valid hw cfg fuel s2 r hv
      obtain ⟨c3, r3, l3, f3⟩ := clk_unprepare_frame hw cfg h hr fuel s2 r t e3
      rw [e3]
      obtain ⟨und, _⟩ := undo1 hz s2 t (fun x _ => by rw [p2]) r2 e3
      have hpc : t.prepare_count = s.prepare_count := by
        funext x
        by_cases hx : h x < rank h r
        · exact und x hx
        · rw [f3 x (by omega), p2, f1 x (by omega)]
      have hc : t.count = s.count := by rw [c3, fail2 hrc2, c1]
      refine ⟨rc2, t, rfl, log_extends_trans l1 (log_extends_trans l2 l3), by rw [r3, r2, r1],
        fun x _ => ⟨by rw [hc], by rw [hpc]⟩, fun _ => ⟨hc, hpc⟩⟩
    · rw [if_neg hrc2]
      refine ⟨rc2, s2, rfl, log_extends_trans l1 l2, by rw [r2, r1],
        fun x hx => ⟨by rw [f2 x hx, c1], by rw [p2, f1 x hx]⟩, fun hne => absurd hne hrc2⟩

/-- Everything the proofs need about one `__handoff_clk` call on a null pointer or a
clock without error pointers below it, whose depth bound covers the rank:
it returns; the log grows; the rates stay; counts change only for clocks below the
rank; the handoff list grows by clocks below the rank; and when the result for a clock
is "disabled", the clock's own counts are unchanged and it is not among the added
records. -/
theorem handoff_frame (ih : init_hooks) (hw : hooks) (fw : fwd_hooks) (cfg : Nat → clk)
    (skip : Nat) (h : Nat → Nat) (hr : ranked cfg h) :
    ∀ fuel st r, rank h r ≤ fuel → valid_below cfg fuel r = true →
      ∃ ret st1 added, __handoff_clk ih hw fw cfg skip fuel st r = some (ret, st1) ∧
        log_extends st.clk st1.clk ∧ st1.clk.rate = st.clk.rate ∧
        (∀ x, rank h r ≤ h x → st1.clk.count x = st.clk.count x ∧
          st1.clk.prepare_count x = st.clk.prepare_count x) ∧
        st1.handoff_list = st.handoff_list ++ added ∧
        (∀ x ∈ added, h x < rank h r) ∧
        (∀ c, r = .ptr c → ret = .HANDOFF_DISABLED_CLK →
          st1.clk.count c = st.clk.count c ∧
          st1.clk.prepare_count c = st.clk.prepare_count c ∧ c ∉ added) := by
  intro fuel
  induction fuel with
  | zero =>
    intro st r hf hre
    cases r with
    | null =>
      exact ⟨handoff.HANDOFF_ENABLED_CLK, st, [], rfl, log_extends_refl _, rfl, fun _ _ => ⟨rfl, rfl⟩,
        by simp, fun _ hx => by simp at hx, fun c hc => by cases hc⟩
    | err e => simp [valid_below] at hre
    | ptr c => simp [rank] at hf
  | succ fuel ihf =>
    intro st r hf hre
    cases r with
    | null =>
      exact ⟨handoff.HANDOFF_ENABLED_CLK, st, [], rfl, log_extends_refl _, rfl, fun _ _ => ⟨rfl, rfl⟩,
        by simp, fun _ hx => by simp at hx, fun c hc => by cases hc⟩
    | err e => simp [valid_below] at hre
    | ptr c =>
      have hidle : ∀ ret : handoff, ∃ (ret1 : handoff) (st1 : init_state) (added : List Nat),
          some (ret, st) = some (ret1, st1) ∧
          log_extends st.clk st1.clk ∧ st1.clk.rate = st.clk.rate ∧
          (∀ x, rank h (.ptr c) ≤ h x → st1.clk.count x = st.clk.count x ∧
            st1.clk.prepare_count x = st.clk.prepare_count x) ∧
          st1.handoff_list = st.handoff_list ++ added ∧
          (∀ x ∈ added, h x < rank h (.ptr c)) ∧
          (∀ d, clk_ref.ptr c = .ptr d → ret1 = .HANDOFF_DISABLED_CLK →
            st1.clk.count d = st.clk.count d ∧
            st1.clk.prepare_count d = st.clk.prepare_count d ∧ d ∉ added) := by
        intro ret
        exact ⟨ret, st, [], rfl, log_extends_refl _, rfl, fun _ _ => ⟨rfl, rfl⟩, by simp,
          fun _ hx => by simp at hx, fun d _ _ => ⟨rfl, rfl, by simp⟩⟩
      rw [__handoff_clk]
      by_cases hcnt : st.clk.count c ≠ 0
      · rw [if_pos hcnt]
        exact hidle _
      · rw [if_neg hcnt]
        by_cases hhook : (cfg c).ops.handoff = false ∨ Nat.land (cfg c).flags skip ≠ 0
        · rw [if_pos hhook]
          exact hidle _
        · rw [if_neg hhook]
          simp only
          have l0 : log_extends st.clk
              (add_log st.clk [event.handoff c (ih.handoff st.clk.log c)]) :=
            log_extends_add_log _ _
          by_cases hret : ih.handoff st.clk.log c = .HANDOFF_ENABLED_CLK
          · rw [if_pos hret]
            have hrp : rank h (clk_get_parent cfg (.ptr c)) ≤ h c := (hr c).1
            have hfc : h c + 1 ≤ fuel + 1 := hf
            obtain ⟨ret2, st2, added2, e2, l2, r2, f2, a2, b2, _⟩ := ihf
              { st with clk := add_log st.clk [event.handoff c (ih.handoff st.clk.log c)] }
              (clk_get_parent cfg (.ptr c)) (by omega) (valid_below_ptr cfg fuel c hre).1
            rw [e2]
            simp only
            have hown : st2.clk.count c = st.clk.count c ∧
                st2.clk.prepare_count c = st.clk.prepare_count c := f2 c hrp
            have hnotin : c ∉ added2 := fun hm => by
              have := b2 c hm
              omega
            by_cases hret2 : ret2 = .HANDOFF_ENABLED_CLK
            · rw [if_pos hret2]
              by_cases hk : ih.kmalloc st2.clk.log = false
              · rw [if_pos hk]
                refine ⟨_, _, added2, rfl, log_extends_trans l0 (log_extends_trans l2
                  (log_extends_add_log _ _)), r2, fun x hx => ?_, a2, fun x hx => ?_,
                  fun d hd _ => ?_⟩
                · exact f2 x (by have hx1 : h c + 1 ≤ h x := hx; omega)
                · have := b2 x hx
                  show h x < h c + 1
                  omega
                · cases hd
                  exact ⟨hown.1, hown.2, hnotin⟩
              · rw [if_neg hk]
                obtain ⟨err, s3, e3, l3, r3, f3, fail3⟩ := clk_prepare_enable_spec hw cfg h hr
                  (fuel + 1) st2.clk (.ptr c) hf hre
                rw [e3]
                simp only
                by_cases herr : err ≠ 0
                · rw [if_pos herr]
                  obtain ⟨fc, fp⟩ := fail3 herr
                  refine ⟨_, _, added2, rfl, log_extends_trans l0 (log_extends_trans l2
                    (log_extends_trans l3 (log_extends_add_log _ _))), r3.trans r2,
                    fun x hx => ?_, a2, fun x hx => ?_, fun d hd _ => ?_⟩
                  · simp only [add_log_count, add_log_prepare_count]
                    rw [fc, fp]
                    exact f2 x (by have hx1 : h c + 1 ≤ h x := hx; omega)
                  · have := b2 x hx
                    show h x < h c + 1
                    omega
                  · cases hd
                    simp only [add_log_count, add_log_prepare_count]
                    rw [fc, fp]
                    exact ⟨hown.1, hown.2, hnotin⟩
                · rw [if_neg herr]
                  obtain ⟨gc, gp, gr, _, gl⟩ := clk_get_rate_frame fw cfg s3 (.ptr c)
                  refine ⟨_, _, added2 ++ [c], rfl, log_extends_trans l0 (log_extends_trans l2
                    (log_extends_trans l3 gl)), gr.trans (r3.trans r2), fun x hx => ?_, by
                      simp only [list_add_tail]
                      rw [a2, List.append_assoc], fun x hx => ?_, fun d _ hdis => ?_⟩
                  · simp only
                    rw [gc, gp]
                    obtain ⟨q1, q2⟩ := f3 x hx
                    obtain ⟨q3, q4⟩ := f2 x (by have hx1 : h c + 1 ≤ h x := hx; omega)
                    exact ⟨q1.trans q3, q2.trans q4⟩
                  · rcases List.mem_append.mp hx with hx | hx
                    · have := b2 x hx
                      show h x < h c + 1
                      omega
                    · simp only [List.mem_singleton] at hx
                      rw [hx]
                      show h c < h c + 1
                      omega
                  · rw [hret2] at hdis
                    cases hdis
            · rw [if_neg hret2]
              refine ⟨ret2, st2, added2, rfl, log_extends_trans l0 l2, r2, fun x hx => ?_, a2,
                fun x hx => ?_, fun d hd _ => ?_⟩
              · exact f2 x (by have hx1 : h c + 1 ≤ h x := hx; omega)
              · have := b2 x hx
                show h x < h c + 1
                omega
              · cases hd
                exact ⟨hown.1, hown.2, hnotin⟩
          · rw [if_neg hret]
            exact ⟨_, _, [], rfl, l0, rfl, fun _ _ => ⟨rfl, rfl⟩, by simp,
              fun _ hx => by simp at hx, fun d _ _ => ⟨rfl, rfl, by simp⟩⟩

theorem handoff_ranked : ranked handoff_cfg (fun c => c) := by
  intro c
  by_cases hc : c = 1
  · subst hc
    simp [handoff_cfg, demo_cfg, clk_get_parent, rank, no_ops]
  · simp [handoff_cfg, demo_cfg, clk_get_parent, rank, no_ops, hc]

theorem handoff_cfg_no_err : ∀ c e, clk_get_parent handoff_cfg (.ptr c) ≠ .err e := by
  intro c e
  by_cases hc : c = 1
  · subst hc
    simp [handoff_cfg, demo_cfg, clk_get_parent, no_ops]
  · simp [handoff_cfg, demo_cfg, clk_get_parent, no_ops, hc]

theorem handoff_no_error_pointers : no_error_pointers handoff_cfg := by
  intro c e
  by_cases hc : c = 1
  · subst hc
    simp [handoff_cfg, demo_cfg, clk_get_parent, no_ops]
  · simp [handoff_cfg, demo_cfg, clk_get_parent, no_ops, hc]

/-- C21: `__handoff_clk` classifies without taking references in every non-acquiring
case.  It returns "enabled" with the state untouched for a null clock and for a clock
with a non-zero enable count; it returns "disabled" with the state untouched for a
clock without `handoff` hook or with the skip-handoff flag; it returns "disabled",
having only called the hook, when the hook reports "disabled"; it returns "disabled"
when the parent's handoff resolves to "disabled", when the allocation fails and when
`clk_prepare_enable` fails.  The call returns (on an acyclic tree without error
pointers as parents or dependencies), and whenever its result is "disabled" the clock's
own prepare and enable counts are unchanged and the clock is not among the records
added to the handoff list; a clock with a non-zero enable count leaves the list as it
is. -/
theorem handoff_classifies (ih : init_hooks) (hw : hooks) (fw : fwd_hooks) (cfg : Nat → clk)
    (skip : Nat) (h : Nat → Nat) (hr : ranked cfg h)
    (hne : no_error_pointers cfg)
    (fuel : Nat) (st : init_state) (c : Nat) (hf : h c ≤ fuel) :
    __handoff_clk ih hw fw cfg skip (fuel + 1) st .null = some (.HANDOFF_ENABLED_CLK, st) ∧
    (st.clk.count c ≠ 0 →
      __handoff_clk ih hw fw cfg skip (fuel + 1) st (.ptr c) =
        some (.HANDOFF_ENABLED_CLK, st)) ∧
    (st.clk.count c = 0 → (cfg c).ops.handoff = false ∨ Nat.land (cfg c).flags skip ≠ 0 →
      __handoff_clk ih hw fw cfg skip (fuel + 1) st (.ptr c) =
        some (.HANDOFF_DISABLED_CLK, st)) ∧
    (st.clk.count c = 0 → (cfg c).ops.handoff = true → Nat.land (cfg c).flags skip = 0 →
      (ih.handoff st.clk.log c = .HANDOFF_DISABLED_CLK →
        __handoff_clk ih hw fw cfg skip (fuel + 1) st (.ptr c) =
          some (.HANDOFF_DISABLED_CLK,
            { st with clk := add_log st.clk [event.handoff c .HANDOFF_DISABLED_CLK] })) ∧
      (ih.handoff st.clk.log c = .HANDOFF_ENABLED_CLK →
        (∀ st2, __handoff_clk ih hw fw cfg skip fuel
            { st with clk := add_log st.clk [event.handoff c .HANDOFF_ENABLED_CLK] }
            (clk_get_parent cfg (.ptr c)) = some (.HANDOFF_DISABLED_CLK, st2) →
          __handoff_clk ih hw fw cfg skip (fuel + 1) st (.ptr c) =
            some (.HANDOFF_DISABLED_CLK, st2)) ∧
        (∀ st2, __handoff_clk ih hw fw cfg skip fuel
            { st with clk := add_log st.clk [event.handoff c .HANDOFF_ENABLED_CLK] }
            (clk_get_parent cfg (.ptr c)) = some (.HANDOFF_ENABLED_CLK, st2) →
          (ih.kmalloc st2.clk.log = false →
            __handoff_clk ih hw fw cfg skip (fuel + 1) st (.ptr c) =
              some (.HANDOFF_DISABLED_CLK,
                { st2 with clk := add_log st2.clk [event.handoff_failed c (-ENOMEM)] })) ∧
          (ih.kmalloc st2.clk.log = true → ∀ err s3,
            clk_prepare_enable hw cfg (fuel + 1) st2.clk (.ptr c) = some (err, s3) → err ≠ 0 →
            __handoff_clk ih hw fw cfg skip (fuel + 1) st (.ptr c) =
              some (.HANDOFF_DISABLED_CLK,
                { st2 with clk := add_log s3 [event.handoff_failed c err] }))))) ∧
    (∃ ret st1 added, __handoff_clk ih hw fw cfg skip (fuel + 1) st (.ptr c) = some (ret, st1) ∧
      st1.handoff_list = st.handoff_list ++ added ∧
      (ret = .HANDOFF_DISABLED_CLK →
        st1.clk.count c = st.clk.count c ∧
        st1.clk.prepare_count c = st.clk.prepare_count c ∧ c ∉ added) ∧
      (st.clk.count c ≠ 0 → added = [])) := by
  refine ⟨rfl, fun hc => ?_, fun hc hh => ?_, fun hc h1 h2 => ⟨fun hd => ?_, fun he =>
    ⟨fun st2 e2 => ?_, fun st2 e2 => ⟨fun hk => ?_, fun hk err s3 e3 herr => ?_⟩⟩⟩, ?_⟩
  · rw [__handoff_clk, if_pos hc]
  · rw [__handoff_clk, if_neg (by simpa using hc), if_pos hh]
  · have hh : ¬ ((cfg c).ops.handoff = false ∨ Nat.land (cfg c).flags skip ≠ 0) := by
      simp [h1, h2]
    rw [__handoff_clk, if_neg (by simpa using hc), if_neg hh]
    simp only [hd]
    rfl
  · have hh : ¬ ((cfg c).ops.handoff = false ∨ Nat.land (cfg c).flags skip ≠ 0) := by
      simp [h1, h2]
    rw [__handoff_clk, if_neg (by simpa using hc), if_neg hh]
    simp only [he, if_true, e2]
    rfl
  · have hh : ¬ ((cfg c).ops.handoff = false ∨ Nat.land (cfg c).flags skip ≠ 0) := by
      simp [h1, h2]
    rw [__handoff_clk, if_neg (by simpa using hc), if_neg hh]
    simp only [he, if_true, e2, hk]
  · have hh : ¬ ((cfg c).ops.handoff = false ∨ Nat.land (cfg c).flags skip ≠ 0) := by
      simp [h1, h2]
    rw [__handoff_clk, if_neg (by simpa using hc), if_neg hh]
    simp only [he, if_true, e2, hk, e3, if_pos herr, Bool.true_eq_false, if_false]
  · obtain ⟨ret, st1, added, e, _, _, _, a, _, d⟩ := handoff_frame ih hw fw cfg skip h hr
      (fuel + 1) st (.ptr c) (by simp only [rank]; omega)
      (valid_below_of_ranked cfg h hr hne (fuel + 1) (.ptr c) (fun _ => clk_ref.noConfusion)
        (by simp only [rank]; omega))
    refine ⟨ret, st1, added, e, a, d c rfl, fun hc => ?_⟩
    rw [__handoff_clk, if_pos hc] at e
    simp only [Option.some.injEq, Prod.mk.injEq] at e
    rw [← e.2] at a
    simpa using a

/-- Witness of C21: the child of the handoff example tree, idle, with hooks reporting
"running" and an enable hook of the child that fails: the root is handed off and
recorded, the child's `clk_prepare_enable` fails, the result is "disabled" and the
child's counts are still 0. -/
theorem handoff_classifies_witness :
    (__handoff_clk (demo_init_hooks .HANDOFF_ENABLED_CLK true) (demo_hooks 0 0 (-5)) no_fwd
        handoff_cfg 256 2 (boot_state 0) (.ptr 1)).map
      (fun p => (p.1, p.2.handoff_list, p.2.clk.count 1, p.2.clk.prepare_count 1,
        p.2.clk.count 0, p.2.clk.prepare_count 0)) =
      some (.HANDOFF_DISABLED_CLK, [0], 0, 0, 1, 1) ∧
    ∃ ret st1 added,
      __handoff_clk (demo_init_hooks .HANDOFF_ENABLED_CLK true) (demo_hooks 0 0 (-5)) no_fwd
        handoff_cfg 256 2 (boot_state 0) (.ptr 1) = some (ret, st1) ∧
      st1.handoff_list = (boot_state 0).handoff_list ++ added ∧
      (ret = .HANDOFF_DISABLED_CLK →
        st1.clk.count 1 = (boot_state 0).clk.count 1 ∧
        st1.clk.prepare_count 1 = (boot_state 0).clk.prepare_count 1 ∧ 1 ∉ added) ∧
      ((boot_state 0).clk.count 1 ≠ 0 → added = []) :=
  ⟨by decide, (handoff_classifies (demo_init_hooks .HANDOFF_ENABLED_CLK true)
    (demo_hooks 0 0 (-5)) no_fwd handoff_cfg 256 (fun c => c) handoff_ranked
    handoff_no_error_pointers 1 (boot_state 0) 1 (by decide)).2.2.2.2⟩

theorem clk_prepare_again (hw : hooks) (cfg : Nat → clk) (fuel : Nat) (s : clk_state) (c : Nat)
    (hp : s.prepare_count c ≠ 0) :
    clk_prepare hw cfg (fuel + 1) s (.ptr c) =
      some (0, set_prepare_count s c (s.prepare_count c + 1)) := by
  rw [clk_prepare, if_neg hp]

theorem clk_enable_again (hw : hooks) (cfg : Nat → clk) (fuel : Nat) (s : clk_state) (c : Nat)
    (hc : s.count c ≠ 0) :
    clk_enable hw cfg (fuel + 1) s (.ptr c) =
      some (0, set_count (add_log s (log_if (s.prepare_count c = 0) (event.warn_unprepared c)))
        c (s.count c + 1)) := by
  rw [clk_enable]
  simp only [add_log_count, if_neg hc]

theorem clk_disable_more (cfg : Nat → clk) (fuel : Nat) (s : clk_state) (c : Nat)
    (h0 : s.count c ≠ 0) (h1 : s.count c ≠ 1) :
    clk_disable cfg (fuel + 1) s (.ptr c) =
      some (set_count (add_log s (log_if (s.prepare_count c = 0) (event.warn_unprepared c)))
        c (s.count c - 1)) := by
  rw [clk_disable]
  simp only [add_log_count, if_neg h0, if_neg h1]

theorem clk_unprepare_more (hw : hooks) (cfg : Nat → clk) (fuel : Nat) (s : clk_state) (c : Nat)
    (h0 : s.prepare_count c ≠ 0) (h1 : s.prepare_count c ≠ 1) :
    clk_unprepare hw cfg (fuel + 1) s (.ptr c) =
      some (set_prepare_count s c (s.prepare_count c - 1)) := by
  rw [clk_unprepare, if_neg h0, if_neg h1]

/-- Below the first clock of a chain on an acyclic tree there is no error pointer. -/
theorem chain_valid (cfg : Nat → clk) (skip : Nat) (h : Nat → Nat) (hr : ranked cfg h) :
    ∀ rest c fuel, is_chain cfg skip (c :: rest) → h c ≤ fuel →
      valid_below cfg (fuel + 1) (.ptr c) = true := by
  have hnull : ∀ fuel, valid_below cfg fuel .null = true := by
    intro fuel
    cases fuel <;> rfl
  intro rest
  induction rest with
  | nil =>
    intro c fuel hch _
    obtain ⟨hp, _, _, hdep, _⟩ := hch
    rw [valid_below, hp, hdep, head_ref, hnull]
    rfl
  | cons p rest ih =>
    intro c fuel hch hf
    obtain ⟨hp, _, _, hdep, hrest⟩ := hch
    have h1 := (hr c).1
    rw [hp] at h1
    have hpc : h p < h c := h1
    obtain ⟨k, rfl⟩ : ∃ k, fuel = k + 1 := ⟨fuel - 1, by omega⟩
    rw [valid_below, hp, hdep, head_ref, hnull, ih p k hrest (by omega)]
    rfl

/-- In a chain on an acyclic tree every later clock is strictly lower than the first
one. -/
theorem chain_heights (cfg : Nat → clk) (skip : Nat) (h : Nat → Nat) (hr : ranked cfg h) :
    ∀ rest c, is_chain cfg skip (c :: rest) → ∀ x ∈ rest, h x < h c := by
  intro rest
  induction rest with
  | nil => intro c _ x hx; simp at hx
  | cons p rest ih =>
    intro c hch x hx
    obtain ⟨hp, _, _, _, hrest⟩ := hch
    have h1 := (hr c).1
    rw [hp] at h1
    have hpc : h p < h c := h1
    rcases List.mem_cons.mp hx with hx | hx
    · rw [hx]
      exact hpc
    · have := ih p hrest x hx
      omega

/-- A successful `clk_prepare_enable` of an idle clock without dependency whose parent,
if it has one, is prepared and enabled: the clock ends with both counts 1, the parent
with both counts one higher, and no other count changes. -/
theorem prepare_enable_chain_step (hw : hooks) (cfg : Nat → clk) (fuel : Nat)
    (s s1 : clk_state) (c : Nat) (rest : List Nat)
    (hpar : clk_get_parent cfg (.ptr c) = head_ref rest) (hdep : (cfg c).depends = .null)
    (hc0 : s.count c = 0) (hp0 : s.prepare_count c = 0)
    (hrest : ∀ p, p ∈ rest.head? → p ≠ c ∧ s.count p ≠ 0 ∧ s.prepare_count p ≠ 0 ∧ 1 ≤ fuel)
    (he : clk_prepare_enable hw cfg (fuel + 1) s (.ptr c) = some (0, s1)) :
    s1.count c = 1 ∧ s1.prepare_count c = 1 ∧
    (∀ p, p ∈ rest.head? → s1.count p = s.count p + 1 ∧
      s1.prepare_count p = s.prepare_count p + 1) ∧
    (∀ x, x ≠ c → x ∉ rest.head? → s1.count x = s.count x ∧
      s1.prepare_count x = s.prepare_count x) := by
  unfold clk_prepare_enable at he
  split at he
  · cases he
  · next ret sa hprep =>
    by_cases hret : ret ≠ 0
    · rw [if_pos hret] at he
      simp only [Option.some.injEq, Prod.mk.injEq] at he
      exact absurd he.1 hret
    · rw [if_neg hret] at he
      have hz : ret = 0 := by simpa using hret
      subst hz
      split at he
      · cases he
      · next ret2 sb hen =>
        by_cases hret2 : ret2 ≠ 0
        · rw [if_pos hret2] at he
          split at he
          · cases he
          · simp only [Option.some.injEq, Prod.mk.injEq] at he
            exact absurd he.1 hret2
        · rw [if_neg hret2] at he
          have hz2 : ret2 = 0 := by simpa using hret2
          subst hz2
          simp only [Option.some.injEq, Prod.mk.injEq, true_and] at he
          subst he
          -- the prepare
          rcases clk_prepare_success_inv hw cfg fuel s sa c hprep with ⟨hne, _⟩ |
            ⟨_, p1, p2, ep1, ep2, _, _, esa⟩
          · exact absurd hp0 hne
          rw [hdep] at ep2
          have ep2' : p2 = p1 := by
            cases fuel <;> simp [clk_prepare] at ep2 <;> exact ep2.symm
          subst ep2'
          obtain ⟨vc, vp, _, _, _, _⟩ := vote_rate_vdd_spec hw cfg p2 c (p2.rate c)
          -- the enable
          rcases clk_enable_success_inv hw cfg fuel sa sb c hen with ⟨hne, _⟩ |
            ⟨_, q1, q2, eq1, eq2, esb⟩
          · rw [esa] at hne
            simp only [set_prepare_count_count, add_log_count] at hne
            rw [vc] at hne
            have : p2.count c = s.count c := by
              rw [(clk_prepare_success hw cfg fuel s _ p2 ep1).1]
            rw [this] at hne
            exact absurd hc0 hne
          rw [hdep] at eq2
          have eq2' : q2 = q1 := by
            cases fuel <;> simp [clk_enable] at eq2 <;> exact eq2.symm
          subst eq2'
          rw [hpar] at ep1 eq1
          cases rest with
          | nil =>
            have e1 : p2 = s := by
              cases fuel <;> simp [head_ref, clk_prepare] at ep1 <;> exact ep1.symm
            have e2 : q2 = add_log sa
                (log_if (sa.prepare_count c = 0) (event.warn_unprepared c)) := by
              cases fuel <;> simp [head_ref, clk_enable] at eq1 <;> exact eq1.symm
            subst e1
            rw [esb, e2, esa]
            simp only [set_count_count, set_count_prepare_count, add_log_count,
              add_log_prepare_count, set_prepare_count_count, set_prepare_count_prepare_count]
            rw [vc, vp, hc0, hp0]
            refine ⟨by simp, by simp, fun p hp => by simp at hp, fun x hx _ => ?_⟩
            simp [hx]
          | cons p rest =>
            obtain ⟨hpc, hcp, hpp, hfuel⟩ := hrest p (by simp)
            obtain ⟨fuel, rfl⟩ : ∃ k, fuel = k + 1 := ⟨fuel - 1, by omega⟩
            simp only [head_ref] at ep1 eq1
            rw [clk_prepare_again hw cfg fuel s p hpp] at ep1
            simp only [Option.some.injEq, Prod.mk.injEq, true_and] at ep1
            subst ep1
            have hsac : sa.count = s.count := by
              rw [esa]
              simp only [set_prepare_count_count, add_log_count]
              rw [vc]
              rfl
            have hsap : ∀ x, sa.prepare_count x =
                if x = c then 1 else if x = p then s.prepare_count p + 1
                  else s.prepare_count x := by
              intro x
              rw [esa]
              simp only [set_prepare_count_prepare_count, add_log_prepare_count]
              rw [vp]
              simp only [set_prepare_count_prepare_count]
              rw [if_neg (Ne.symm hpc), hp0]
            rw [clk_enable_again hw cfg fuel _ p (by
              simp only [add_log_count]
              rw [hsac]
              exact hcp)] at eq1
            simp only [Option.some.injEq, Prod.mk.injEq, true_and] at eq1
            subst eq1
            rw [esb]
            simp only [set_count_count, set_count_prepare_count, add_log_count,
              add_log_prepare_count]
            rw [hsac]
            refine ⟨by simp [hc0, Ne.symm hpc], by simp [hsap], fun q hq => ?_, fun x hx hxp => ?_⟩
            · simp only [List.head?_cons, Option.mem_def, Option.some.injEq] at hq
              subst hq
              simp only [if_neg hpc, if_true]
              rw [hsap, if_neg hpc, if_pos rfl]
              exact ⟨by first | rfl | trivial, rfl⟩
            · have hxp' : x ≠ p := by
                intro h
                apply hxp
                simp [h]
              simp only [if_neg hx, if_neg hxp']
              rw [hsap, if_neg hx, if_neg hxp']
              exact ⟨by first | rfl | trivial, rfl⟩

theorem no_handoff_failure_append (a b : List event) :
    no_handoff_failure (a ++ b) ↔ no_handoff_failure a ∧ no_handoff_failure b := by
  unfold no_handoff_failure
  constructor
  · intro h
    exact ⟨fun e he => h e (List.mem_append_left _ he),
      fun e he => h e (List.mem_append_right _ he)⟩
  · rintro ⟨ha, hb⟩ e he
    rcases List.mem_append.mp he with h | h
    · exact ha e h
    · exact hb e h

theorem no_handoff_failure_mid {s a b t : clk_state} (h1 : log_extends s a)
    (h2 : log_extends a b) (h3 : log_extends b t)
    (h : no_handoff_failure (new_events s t)) : no_handoff_failure (new_events a b) := by
  rw [new_events_split h1 (log_extends_trans h2 h3), new_events_split h2 h3] at h
  exact ((no_handoff_failure_append _ _).mp ((no_handoff_failure_append _ _).mp h).2).1

/-- A run that ends by logging a handoff failure is not free of handoff failures. -/
theorem handoff_failure_logged {s t : clk_state} (c : Nat) (err : Int) (h1 : log_extends s t)
    (h : no_handoff_failure (new_events s (add_log t [event.handoff_failed c err]))) : False := by
  rw [new_events_split h1 (log_extends_add_log _ _), new_events_add_log] at h
  have := ((no_handoff_failure_append _ _).mp h).2 _ (List.mem_singleton.mpr rfl)
  simp [is_handoff_failure] at this

/-- The handoff of a chain of idle clocks whose `handoff` hooks report "running", when
no handoff failure is logged: the result is "enabled", the clocks are recorded from the
root to the first clock, the first clock has both counts 1, every further clock of the
chain has both counts 2, and no other count changes. -/
theorem handoff_chain (ih : init_hooks) (hw : hooks) (fw : fwd_hooks) (cfg : Nat → clk)
    (skip : Nat) (h : Nat → Nat) (hr : ranked cfg h) :
    ∀ rest c fuel st ret st1, is_chain cfg skip (c :: rest) → h c ≤ fuel →
      (∀ x ∈ c :: rest, st.clk.count x = 0 ∧ st.clk.prepare_count x = 0) →
      (∀ x ∈ c :: rest, ∀ log, ih.handoff log x = .HANDOFF_ENABLED_CLK) →
      __handoff_clk ih hw fw cfg skip (fuel + 1) st (.ptr c) = some (ret, st1) →
      no_handoff_failure (new_events st.clk st1.clk) →
      ret = .HANDOFF_ENABLED_CLK ∧
      st1.handoff_list = st.handoff_list ++ (c :: rest).reverse ∧
      st1.clk.count c = 1 ∧ st1.clk.prepare_count c = 1 ∧
      (∀ x ∈ rest, st1.clk.count x = 2 ∧ st1.clk.prepare_count x = 2) ∧
      (∀ x, x ∉ c :: rest → st1.clk.count x = st.clk.count x ∧
        st1.clk.prepare_count x = st.clk.prepare_count x) := by
  intro rest
  induction rest with
  | nil =>
    intro c fuel st ret st1 hch hf hidle hhook e hnf
    have hvc := chain_valid cfg skip h hr [] c fuel hch hf
    obtain ⟨hp, hho, hfl, hdep, _⟩ := hch
    obtain ⟨hc0, hp0⟩ := hidle c (List.mem_cons_self _ _)
    have hh : ¬ ((cfg c).ops.handoff = false ∨ Nat.land (cfg c).flags skip ≠ 0) := by
      simp [hho, hfl]
    rw [__handoff_clk, if_neg (by simpa using hc0), if_neg hh] at e
    simp only [hhook c (List.mem_cons_self _ _), if_true, hp] at e
    have e0 : ∀ st0, __handoff_clk ih hw fw cfg skip fuel st0 (head_ref []) =
        some (.HANDOFF_ENABLED_CLK, st0) := by
      intro st0
      cases fuel <;> rfl
    rw [e0] at e
    simp only [if_true] at e
    by_cases hk : ih.kmalloc (add_log st.clk [event.handoff c .HANDOFF_ENABLED_CLK]).log = false
    · rw [if_pos hk] at e
      simp only [Option.some.injEq, Prod.mk.injEq] at e
      rw [← e.2] at hnf
      exact (handoff_failure_logged c _ (log_extends_add_log _ _) hnf).elim
    · rw [if_neg hk] at e
      obtain ⟨err, s3, e3, l3, _, _, _⟩ := clk_prepare_enable_spec hw cfg h hr (fuel + 1)
        (add_log st.clk [event.handoff c .HANDOFF_ENABLED_CLK]) (.ptr c)
        (by simp only [rank]; omega) hvc
      rw [e3] at e
      simp only at e
      by_cases herr : err ≠ 0
      · rw [if_pos herr] at e
        simp only [Option.some.injEq, Prod.mk.injEq] at e
        rw [← e.2] at hnf
        exact (handoff_failure_logged c _
          (log_extends_trans (log_extends_add_log _ _) l3) hnf).elim
      · rw [if_neg herr] at e
        have hz : err = 0 := by simpa using herr
        subst hz
        simp only [Option.some.injEq, Prod.mk.injEq] at e
        obtain ⟨e1, e2⟩ := e
        subst e2
        obtain ⟨gc, gp, _, _, _⟩ := clk_get_rate_frame fw cfg s3 (.ptr c)
        obtain ⟨a1, a2, _, a4⟩ := prepare_enable_chain_step hw cfg fuel
          (add_log st.clk [event.handoff c .HANDOFF_ENABLED_CLK]) s3 c [] hp hdep
          hc0 hp0 (fun p hp => by simp at hp) e3
        refine ⟨e1.symm, by simp [list_add_tail], by simp only; rw [gc]; exact a1,
          by simp only; rw [gp]; exact a2, fun x hx => by simp at hx, fun x hx => ?_⟩
        have hxc : x ≠ c := fun hxc => hx (by simp [hxc])
        obtain ⟨b1, b2⟩ := a4 x hxc (by simp)
        simp only
        rw [gc, gp]
        exact ⟨b1, b2⟩
  | cons p rest ihr =>
    intro c fuel st ret st1 hch hf hidle hhook e hnf
    have hvc := chain_valid cfg skip h hr (p :: rest) c fuel hch hf
    have hheights := chain_heights cfg skip h hr (p :: rest) c hch
    obtain ⟨hp, hho, hfl, hdep, hrest⟩ := hch
    have hheights2 := chain_heights cfg skip h hr rest p hrest
    obtain ⟨hc0, hp0⟩ := hidle c (List.mem_cons_self _ _)
    have hpc : h p < h c := hheights p (List.mem_cons_self _ _)
    obtain ⟨fuel, rfl⟩ : ∃ k, fuel = k + 1 := ⟨fuel - 1, by omega⟩
    have hh : ¬ ((cfg c).ops.handoff = false ∨ Nat.land (cfg c).flags skip ≠ 0) := by
      simp [hho, hfl]
    rw [__handoff_clk, if_neg (by simpa using hc0), if_neg hh] at e
    simp only [hhook c (List.mem_cons_self _ _), if_true, hp, head_ref] at e
    have l0 : log_extends st.clk (add_log st.clk [event.handoff c .HANDOFF_ENABLED_CLK]) :=
      log_extends_add_log _ _
    obtain ⟨ret2, st2, added2, e2, l2, _, _, _, _, _⟩ := handoff_frame ih hw fw cfg skip h hr
      (fuel + 1) { st with clk := add_log st.clk [event.handoff c .HANDOFF_ENABLED_CLK] }
      (.ptr p) (by simp only [rank]; omega) (chain_valid cfg skip h hr rest p fuel hrest (by omega))
    rw [e2] at e
    simp only at e
    -- what the handoff of the rest of the chain gives, once it is known to be free of failures
    have sub : log_extends st2.clk st1.clk →
        ret2 = .HANDOFF_ENABLED_CLK ∧
        st2.handoff_list = st.handoff_list ++ (p :: rest).reverse ∧
        st2.clk.count p = 1 ∧ st2.clk.prepare_count p = 1 ∧
        (∀ x ∈ rest, st2.clk.count x = 2 ∧ st2.clk.prepare_count x = 2) ∧
        (∀ x, x ∉ p :: rest → st2.clk.count x = st.clk.count x ∧
          st2.clk.prepare_count x = st.clk.prepare_count x) := by
      intro l3
      exact ihr p fuel { st with clk := add_log st.clk [event.handoff c .HANDOFF_ENABLED_CLK] }
        ret2 st2 hrest (by omega)
        (fun x hx => hidle x (List.mem_cons_of_mem _ hx))
        (fun x hx => hhook x (List.mem_cons_of_mem _ hx)) e2
        (no_handoff_failure_mid l0 l2 l3 hnf)
    by_cases hret2 : ret2 = .HANDOFF_ENABLED_CLK
    · rw [if_pos hret2] at e
      by_cases hk : ih.kmalloc st2.clk.log = false
      · rw [if_pos hk] at e
        simp only [Option.some.injEq, Prod.mk.injEq] at e
        rw [← e.2] at hnf
        exact (handoff_failure_logged c _ (log_extends_trans l0 l2) hnf).elim
      · rw [if_neg hk] at e
        obtain ⟨err, s3, e3, l3, _, _, _⟩ := clk_prepare_enable_spec hw cfg h hr (fuel + 1 + 1)
          st2.clk (.ptr c) (by simp only [rank]; omega) hvc
        rw [e3] at e
        simp only at e
        by_cases herr : err ≠ 0
        · rw [if_pos herr] at e
          simp only [Option.some.injEq, Prod.mk.injEq] at e
          rw [← e.2] at hnf
          exact (handoff_failure_logged c _
            (log_extends_trans l0 (log_extends_trans l2 l3)) hnf).elim
        · rw [if_neg herr] at e
          have hz : err = 0 := by simpa using herr
          subst hz
          simp only [Option.some.injEq, Prod.mk.injEq] at e
          obtain ⟨e1, e4⟩ := e
          subst e4
          obtain ⟨gc, gp, _, _, gl⟩ := clk_get_rate_frame fw cfg s3 (.ptr c)
          obtain ⟨_, s1, s2, s3', s4, s5⟩ := sub (log_extends_trans l3 gl)
          have hcnot : c ∉ p :: rest := fun hm => by
            have := hheights c hm
            omega
          obtain ⟨c2, p2⟩ := s5 c hcnot
          obtain ⟨a1, a2, a3, a4⟩ := prepare_enable_chain_step hw cfg (fuel + 1) st2.clk s3 c
            (p :: rest) hp hdep (by rw [c2]; exact hc0) (by rw [p2]; exact hp0)
            (fun q hq => by
              simp only [List.head?_cons, Option.mem_def, Option.some.injEq] at hq
              subst hq
              refine ⟨fun hpc' => ?_, by rw [s2]; decide, by rw [s3']; decide, by omega⟩
              rw [hpc'] at hpc
              omega) e3
          obtain ⟨b1, b2⟩ := a3 p (by simp)
          refine ⟨e1 ▸ hret2, ?_, by simp only; rw [gc]; exact a1, by simp only; rw [gp]; exact a2,
            fun x hx => ?_, fun x hx => ?_⟩
          · simp only [list_add_tail]
            rw [s1]
            simp
          · simp only
            rw [gc, gp]
            rcases List.mem_cons.mp hx with hx | hx
            · rw [hx, b1, b2, s2, s3']
              exact ⟨rfl, rfl⟩
            · have hxc : x ≠ c := fun hxc => hcnot (by rw [← hxc]; exact List.mem_cons_of_mem _ hx)
              have hxp : x ≠ p := fun hxp => by
                have := hheights2 x hx
                rw [hxp] at this
                omega
              obtain ⟨d1, d2⟩ := a4 x hxc (by simp [Ne.symm hxp])
              obtain ⟨d3, d4⟩ := s4 x hx
              exact ⟨d1.trans d3, d2.trans d4⟩
          · simp only
            rw [gc, gp]
            have hxc : x ≠ c := fun hxc => hx (by simp [hxc])
            have hxp : x ≠ p := fun hxp => hx (by simp [hxp])
            have hxr : x ∉ p :: rest := fun hm => hx (List.mem_cons_of_mem _ hm)
            obtain ⟨d1, d2⟩ := a4 x hxc (by simp [Ne.symm hxp])
            obtain ⟨d3, d4⟩ := s5 x hxr
            exact ⟨d1.trans d3, d2.trans d4⟩
    · rw [if_neg hret2] at e
      simp only [Option.some.injEq, Prod.mk.injEq] at e
      rw [← e.2] at sub
      exact absurd (sub (log_extends_refl _)).1 hret2

theorem chain_nodup (cfg : Nat → clk) (skip : Nat) (h : Nat → Nat) (hr : ranked cfg h) :
    ∀ chain, is_chain cfg skip chain → chain.Nodup := by
  intro chain
  induction chain with
  | nil => intro _; exact List.nodup_nil
  | cons c rest ih =>
    intro hch
    have hh := chain_heights cfg skip h hr rest c hch
    refine List.nodup_cons.mpr ⟨fun hm => ?_, ih hch.2.2.2.2⟩
    have := hh c hm
    omega

theorem late_walk_append (hw : hooks) (cfg : Nat → clk) (fuel : Nat) (a b : List Nat) :
    ∀ s, late_walk hw cfg fuel (a ++ b) s =
      (late_walk hw cfg fuel a s).bind (late_walk hw cfg fuel b) := by
  induction a with
  | nil => intro s; rfl
  | cons x a ih =>
    intro s
    simp only [List.cons_append, late_walk]
    cases clk_disable_unprepare hw cfg fuel s (.ptr x) with
    | none => rfl
    | some s1 => exact ih s1

/-- The cleanup of a clock that holds more than one reference of each kind only
decrements its two counts. -/
theorem clk_disable_unprepare_dec (hw : hooks) (cfg : Nat → clk) (fuel : Nat) (s : clk_state)
    (x : Nat) (hc : 2 ≤ s.count x) (hp : 2 ≤ s.prepare_count x) :
    ∃ s1, clk_disable_unprepare hw cfg (fuel + 1) s (.ptr x) = some s1 ∧
      s1.count x = s.count x - 1 ∧ s1.prepare_count x = s.prepare_count x - 1 ∧
      ∀ y, y ≠ x → s1.count y = s.count y ∧ s1.prepare_count y = s.prepare_count y := by
  unfold clk_disable_unprepare
  rw [clk_disable_more cfg fuel s x (by omega) (by omega)]
  simp only
  have hq : ∀ t : clk_state, t.prepare_count x = s.prepare_count x →
      clk_unprepare hw cfg (fuel + 1) t (.ptr x) =
        some (set_prepare_count t x (t.prepare_count x - 1)) :=
    fun t ht => clk_unprepare_more hw cfg fuel t x (by rw [ht]; omega) (by rw [ht]; omega)
  rw [hq (set_count (add_log s (log_if (s.prepare_count x = 0) (event.warn_unprepared x))) x
    (s.count x - 1)) rfl]
  refine ⟨_, rfl, by simp, by simp, fun y hy => by simp [hy]⟩

/-- The cleanup walk over distinct clocks that all hold two references of each kind
leaves each of them with one, and changes no other count. -/
theorem late_walk_ancestors (hw : hooks) (cfg : Nat → clk) (fuel : Nat) (L : List Nat) :
    ∀ s, L.Nodup → (∀ x ∈ L, s.count x = 2 ∧ s.prepare_count x = 2) →
      ∃ s1, late_walk hw cfg (fuel + 1) L s = some s1 ∧
        (∀ x ∈ L, s1.count x = 1 ∧ s1.prepare_count x = 1) ∧
        (∀ x, x ∉ L → s1.count x = s.count x ∧ s1.prepare_count x = s.prepare_count x) := by
  induction L with
  | nil =>
    intro s _ _
    exact ⟨s, rfl, fun x hx => by simp at hx, fun _ _ => ⟨rfl, rfl⟩⟩
  | cons x L ih =>
    intro s hnd hall
    obtain ⟨hxL, hndL⟩ := List.nodup_cons.mp hnd
    obtain ⟨hc, hp⟩ := hall x (List.mem_cons_self _ _)
    obtain ⟨s1, e1, a1, a2, a3⟩ := clk_disable_unprepare_dec hw cfg fuel s x (by omega) (by omega)
    obtain ⟨s2, e2, b1, b2⟩ := ih s1 hndL (fun y hy => by
      have hyx : y ≠ x := fun hyx => hxL (hyx ▸ hy)
      obtain ⟨c1, c2⟩ := a3 y hyx
      obtain ⟨c3, c4⟩ := hall y (List.mem_cons_of_mem _ hy)
      exact ⟨c1.trans c3, c2.trans c4⟩)
    refine ⟨s2, by simp only [late_walk, e1]; exact e2, fun y hy => ?_, fun y hy => ?_⟩
    · rcases List.mem_cons.mp hy with hy | hy
      · obtain ⟨c1, c2⟩ := b2 x hxL
        rw [hy, c1, c2, a1, a2, hc, hp]
        exact ⟨rfl, rfl⟩
      · exact b1 y hy
    · have hyx : y ≠ x := fun hyx => hy (by simp [hyx])
      have hyL : y ∉ L := fun hm => hy (List.mem_cons_of_mem _ hm)
      obtain ⟨c1, c2⟩ := b2 y hyL
      obtain ⟨c3, c4⟩ := a3 y hyx
      exact ⟨c1.trans c3, c2.trans c4⟩

/-- `clk_disable` of the first clock of a chain whose clocks all hold one enable
reference releases them all and changes nothing else. -/
theorem clk_disable_chain (cfg : Nat → clk) (skip : Nat) (h : Nat → Nat) (hr : ranked cfg h) :
    ∀ rest c fuel s, is_chain cfg skip (c :: rest) → h c ≤ fuel →
      (∀ x ∈ c :: rest, s.count x = 1) →
      ∃ s1, clk_disable cfg (fuel + 1) s (.ptr c) = some s1 ∧
        (∀ x ∈ c :: rest, s1.count x = 0) ∧
        (∀ x, x ∉ c :: rest → s1.count x = s.count x) ∧
        s1.prepare_count = s.prepare_count := by
  intro rest
  induction rest with
  | nil =>
    intro c fuel s hch _ hall
    obtain ⟨hp, _, _, hdep, _⟩ := hch
    have hc := hall c (List.mem_cons_self _ _)
    have e0 : ∀ t, clk_disable cfg fuel t .null = some t := by
      intro t
      cases fuel <;> rfl
    rw [clk_disable]
    simp only [add_log_count, hc, if_true, hdep, hp, head_ref, e0]
    simp only [Nat.succ_ne_zero, if_false, one_ne_zero]
    refine ⟨_, rfl, fun x hx => ?_, fun x hx => ?_, rfl⟩
    · simp only [List.mem_singleton] at hx
      simp [hx]
    · have hxc : x ≠ c := fun hxc => hx (by simp [hxc])
      simp [hxc]
  | cons p rest ih =>
    intro c fuel s hch hf hall
    have hheights := chain_heights cfg skip h hr (p :: rest) c hch
    obtain ⟨hp, _, _, hdep, hrest⟩ := hch
    have hc := hall c (List.mem_cons_self _ _)
    have hpc : h p < h c := hheights p (List.mem_cons_self _ _)
    obtain ⟨fuel, rfl⟩ : ∃ k, fuel = k + 1 := ⟨fuel - 1, by omega⟩
    have e0 : ∀ t, clk_disable cfg (fuel + 1) t .null = some t := fun t => rfl
    obtain ⟨s3, e3, a1, a2, a3⟩ := ih p fuel
      (add_log (add_log s (log_if (s.prepare_count c = 0) (event.warn_unprepared c)))
        (log_if ((cfg c).ops.disable = true) (event.disable c)))
      hrest (by omega) (fun x hx => hall x (List.mem_cons_of_mem _ hx))
    have hcnot : c ∉ p :: rest := fun hm => by
      have := hheights c hm
      omega
    rw [clk_disable]
    simp only [add_log_count, hc, if_true, hdep, hp, head_ref, e0, e3]
    simp only [Nat.succ_ne_zero, if_false, one_ne_zero]
    refine ⟨_, rfl, fun x hx => ?_, fun x hx => ?_, ?_⟩
    · simp only [set_count_count]
      rcases List.mem_cons.mp hx with hx | hx
      · rw [if_pos hx, a2 c hcnot]
        exact Nat.sub_eq_zero_of_le (le_of_eq hc)
      · have hxc : x ≠ c := fun hxc => hcnot (hxc ▸ hx)
        rw [if_neg hxc]
        exact a1 x hx
    · have hxc : x ≠ c := fun hxc => hx (by simp [hxc])
      have hxr : x ∉ p :: rest := fun hm => hx (List.mem_cons_of_mem _ hm)
      simp only [set_count_count, if_neg hxc]
      exact a2 x hxr
    · simp only [set_count_prepare_count]
      exact a3

/-- `clk_unprepare` of the first clock of a chain whose clocks all hold one prepare
reference releases them all and changes no other count. -/
theorem clk_unprepare_chain (hw : hooks) (cfg : Nat → clk) (skip : Nat) (h : Nat → Nat)
    (hr : ranked cfg h) :
    ∀ rest c fuel s, is_chain cfg skip (c :: rest) → h c ≤ fuel →
      (∀ x ∈ c :: rest, s.prepare_count x = 1) →
      ∃ s1, clk_unprepare hw cfg (fuel + 1) s (.ptr c) = some s1 ∧
        (∀ x ∈ c :: rest, s1.prepare_count x = 0) ∧
        (∀ x, x ∉ c :: rest → s1.prepare_count x = s.prepare_count x) ∧
        s1.count = s.count := by
  intro rest
  induction rest with
  | nil =>
    intro c fuel s hch _ hall
    obtain ⟨hp, _, _, hdep, _⟩ := hch
    have hc := hall c (List.mem_cons_self _ _)
    have e0 : ∀ t, clk_unprepare hw cfg fuel t .null = some t := by
      intro t
      cases fuel <;> rfl
    obtain ⟨uc, up, _, _, _⟩ := unvote_rate_vdd_frame hw cfg
      (add_log (add_log s (log_if (s.count c ≠ 0) (event.warn_enabled c)))
        (log_if ((cfg c).ops.unprepare = true) (event.unprepare c))) c
      ((add_log (add_log s (log_if (s.count c ≠ 0) (event.warn_enabled c)))
        (log_if ((cfg c).ops.unprepare = true) (event.unprepare c))).rate c)
    rw [clk_unprepare]
    simp only [hc, if_true, hdep, hp, head_ref, e0]
    simp only [one_ne_zero, if_false]
    refine ⟨_, rfl, fun x hx => ?_, fun x hx => ?_, ?_⟩
    · simp only [List.mem_singleton] at hx
      simp only [set_prepare_count_prepare_count, if_pos hx]
      rw [up]
      simp [hc]
    · have hxc : x ≠ c := fun hxc => hx (by simp [hxc])
      simp only [set_prepare_count_prepare_count, if_neg hxc]
      rw [up]
      rfl
    · simp only [set_prepare_count_count]
      rw [uc]
      rfl
  | cons p rest ih =>
    intro c fuel s hch hf hall
    have hheights := chain_heights cfg skip h hr (p :: rest) c hch
    obtain ⟨hp, _, _, hdep, hrest⟩ := hch
    have hc := hall c (List.mem_cons_self _ _)
    have hpc : h p < h c := hheights p (List.mem_cons_self _ _)
    obtain ⟨fuel, rfl⟩ : ∃ k, fuel = k + 1 := ⟨fuel - 1, by omega⟩
    have e0 : ∀ t, clk_unprepare hw cfg (fuel + 1) t .null = some t := fun t => rfl
    obtain ⟨uc, up, _, _, _⟩ := unvote_rate_vdd_frame hw cfg
      (add_log (add_log s (log_if (s.count c ≠ 0) (event.warn_enabled c)))
        (log_if ((cfg c).ops.unprepare = true) (event.unprepare c))) c
      ((add_log (add_log s (log_if (s.count c ≠ 0) (event.warn_enabled c)))
        (log_if ((cfg c).ops.unprepare = true) (event.unprepare c))).rate c)
    generalize hu : unvote_rate_vdd hw cfg
      (add_log (add_log s (log_if (s.count c ≠ 0) (event.warn_enabled c)))
        (log_if ((cfg c).ops.unprepare = true) (event.unprepare c))) c
      ((add_log (add_log s (log_if (s.count c ≠ 0) (event.warn_enabled c)))
        (log_if ((cfg c).ops.unprepare = true) (event.unprepare c))).rate c) = u at uc up
    obtain ⟨s3, e3, a1, a2, a3⟩ := ih p fuel u hrest (by omega) (fun x hx => by
      rw [up]
      exact hall x (List.mem_cons_of_mem _ hx))
    have hcnot : c ∉ p :: rest := fun hm => by
      have := hheights c hm
      omega
    have key : clk_unprepare hw cfg (fuel + 1 + 1) s (.ptr c) =
        some (set_prepare_count s3 c (s3.prepare_count c - 1)) := by
      rw [clk_unprepare]
      simp only [hc, if_true, hdep, hp, head_ref, e0]
      simp only [one_ne_zero, if_false]
      rw [hu, e3]
    refine ⟨_, key, fun x hx => ?_, fun x hx => ?_, ?_⟩
    · simp only [set_prepare_count_prepare_count]
      rcases List.mem_cons.mp hx with hx | hx
      · rw [if_pos hx, a2 c hcnot, up]
        exact Nat.sub_eq_zero_of_le (le_of_eq hc)
      · have hxc : x ≠ c := fun hxc => hcnot (hxc ▸ hx)
        rw [if_neg hxc]
        exact a1 x hx
    · have hxc : x ≠ c := fun hxc => hx (by simp [hxc])
      have hxr : x ∉ p :: rest := fun hm => hx (List.mem_cons_of_mem _ hm)
      simp only [set_prepare_count_prepare_count, if_neg hxc]
      rw [a2 x hxr, up]
      rfl
    · simp only [set_prepare_count_count]
      rw [a3, uc]
      rfl

/-- C22: for every chain of idle clocks ending in a parentless root (on an acyclic tree
without error pointers as parents), whose `handoff` hooks report "running", with an
empty handoff list: `__handoff_clk` on the first clock returns, and when no allocation
and no `clk_prepare_enable` of the handoff failed, it returns "enabled", leaves the
first clock with enable count 1 and prepare count 1, every further clock of the chain
with both counts 2 (so at least 1), and the chain recorded from the root to the first
clock; `clock_late_init` then returns, and after it the prepare and enable counts of
every clock of the chain are 0 and the handoff list is empty. -/
theorem handoff_chain_scenario (ih : init_hooks) (hw : hooks) (fw : fwd_hooks)
    (cfg : Nat → clk) (skip : Nat) (h : Nat → Nat) (hr : ranked cfg h)
    (hne : ∀ c e, clk_get_parent cfg (.ptr c) ≠ .err e)
    (c : Nat) (rest : List Nat) (fuel : Nat) (st : init_state)
    (late_init : Option (List event → Int))
    (hch : is_chain cfg skip (c :: rest)) (hf : h c ≤ fuel)
    (hidle : ∀ x ∈ c :: rest, st.clk.count x = 0 ∧ st.clk.prepare_count x = 0)
    (hhook : ∀ x ∈ c :: rest, ∀ log, ih.handoff log x = .HANDOFF_ENABLED_CLK)
    (hlist : st.handoff_list = []) :
    ∃ ret st1, __handoff_clk ih hw fw cfg skip (fuel + 1) st (.ptr c) = some (ret, st1) ∧
      (no_handoff_failure (new_events st.clk st1.clk) →
        ret = .HANDOFF_ENABLED_CLK ∧
        st1.clk.count c = 1 ∧ st1.clk.prepare_count c = 1 ∧
        (∀ x ∈ rest, st1.clk.count x = 2 ∧ st1.clk.prepare_count x = 2) ∧
        st1.handoff_list = (c :: rest).reverse ∧
        ∃ rc st2, clock_late_init hw cfg (fuel + 1) late_init st1 = some (rc, st2) ∧
          (∀ x ∈ c :: rest, st2.clk.count x = 0 ∧ st2.clk.prepare_count x = 0) ∧
          st2.handoff_list = []) := by
  have _ := hne
  obtain ⟨ret, st1, _, e, _⟩ := handoff_frame ih hw fw cfg skip h hr (fuel + 1) st (.ptr c)
    (by simp only [rank]; omega) (chain_valid cfg skip h hr rest c fuel hch hf)
  refine ⟨ret, st1, e, fun hnf => ?_⟩
  obtain ⟨a1, a2, a3, a4, a5, _⟩ := handoff_chain ih hw fw cfg skip h hr rest c fuel st ret
    st1 hch hf hidle hhook e hnf
  rw [hlist, List.nil_append] at a2
  refine ⟨a1, a3, a4, a5, a2, ?_⟩
  have hnd := chain_nodup cfg skip h hr (c :: rest) hch
  obtain ⟨hcnot, hndr⟩ := List.nodup_cons.mp hnd
  -- the ancestors, from the root down, drop to one reference of each kind
  obtain ⟨s1, e1, b1, b2⟩ := late_walk_ancestors hw cfg fuel rest.reverse st1.clk
    (List.nodup_reverse.mpr hndr) (fun x hx => a5 x (List.mem_reverse.mp hx))
  have hall1 : ∀ x ∈ c :: rest, s1.count x = 1 ∧ s1.prepare_count x = 1 := by
    intro x hx
    rcases List.mem_cons.mp hx with hx | hx
    · obtain ⟨d1, d2⟩ := b2 c (fun hm => hcnot (List.mem_reverse.mp hm))
      rw [hx, d1, d2]
      exact ⟨a3, a4⟩
    · exact b1 x (List.mem_reverse.mpr hx)
  -- the first clock releases the whole chain
  obtain ⟨s2, e2, c1, _, c3⟩ := clk_disable_chain cfg skip h hr rest c fuel s1 hch hf
    (fun x hx => (hall1 x hx).1)
  obtain ⟨s3, e3, d1, _, d3⟩ := clk_unprepare_chain hw cfg skip h hr rest c fuel s2 hch hf
    (fun x hx => by rw [c3]; exact (hall1 x hx).2)
  have hwalk : late_walk hw cfg (fuel + 1) st1.handoff_list st1.clk = some s3 := by
    rw [a2, List.reverse_cons, late_walk_append, e1]
    simp only [Option.some_bind, late_walk, clk_disable_unprepare, e2, e3]
  have hcl : ∃ rc, clock_late_init hw cfg (fuel + 1) late_init st1 =
      some (rc, { clk := s3, handoff_list := [] }) := by
    cases late_init with
    | none => exact ⟨0, by simp only [clock_late_init, hwalk]⟩
    | some f => exact ⟨f s3.log, by simp only [clock_late_init, hwalk]⟩
  obtain ⟨rc, hcl⟩ := hcl
  exact ⟨rc, _, hcl, fun x hx => ⟨by rw [d3]; exact c1 x hx, d1 x hx⟩, rfl⟩

theorem handoff_cfg_chain : is_chain handoff_cfg 256 [1, 0] := by
  exact ⟨rfl, rfl, by decide, rfl, rfl, rfl, by decide, rfl, trivial⟩

/-- Witness of C22: the two-clock scenario, the child and the root of the handoff
example tree, with hooks that all succeed. -/
theorem handoff_chain_scenario_witness :
    ((__handoff_clk (demo_init_hooks .HANDOFF_ENABLED_CLK true) (demo_hooks 0 0 0) no_fwd
        handoff_cfg 256 2 (boot_state 0) (.ptr 1)).map
      (fun p => decide (no_handoff_failure (new_events (boot_state 0).clk p.2.clk)))) =
      some true ∧
    ∃ ret st1,
      __handoff_clk (demo_init_hooks .HANDOFF_ENABLED_CLK true) (demo_hooks 0 0 0) no_fwd
        handoff_cfg 256 2 (boot_state 0) (.ptr 1) = some (ret, st1) ∧
      (no_handoff_failure (new_events (boot_state 0).clk st1.clk) →
        ret = .HANDOFF_ENABLED_CLK ∧
        st1.clk.count 1 = 1 ∧ st1.clk.prepare_count 1 = 1 ∧
        (∀ x ∈ [0], st1.clk.count x = 2 ∧ st1.clk.prepare_count x = 2) ∧
        st1.handoff_list = [1, 0].reverse ∧
        ∃ rc st2, clock_late_init (demo_hooks 0 0 0) handoff_cfg 2 none st1 = some (rc, st2) ∧
          (∀ x ∈ [1, 0], st2.clk.count x = 0 ∧ st2.clk.prepare_count x = 0) ∧
          st2.handoff_list = []) :=
  ⟨by decide, handoff_chain_scenario (demo_init_hooks .HANDOFF_ENABLED_CLK true)
    (demo_hooks 0 0 0) no_fwd handoff_cfg 256 (fun c => c) handoff_ranked handoff_cfg_no_err
    1 [0] 1 (boot_state 0) none handoff_cfg_chain (by decide) (fun _ _ => ⟨rfl, rfl⟩)
    (fun x hx log => by
      simp only [List.mem_cons, List.mem_singleton, List.not_mem_nil, or_false] at hx
      rcases hx with hx | hx <;> subst hx <;> rfl) rfl⟩

/-! ## Theorems: rail adequacy over call sequences -/

theorem adequate_congr (cfg : Nat → clk) (H H2 : Nat → Prop) (s t : clk_state)
    (hH : ∀ c, H2 c → H c) (hrate : t.rate = s.rate) (hvdd : t.vdd = s.vdd)
    (ha : adequate cfg H s) : adequate cfg H2 t := by
  obtain ⟨a1, a2, a3⟩ := ha
  have hl : ∀ c, level_of cfg t c = level_of cfg s c := by
    intro c
    simp only [level_of, hrate]
  refine ⟨?_, ?_, ?_⟩
  · intro c rail hc hvc
    rw [hl, hvdd]
    exact a1 c rail (hH c hc) hvc
  · intro rail L cs hnd hall
    rw [hvdd]
    refine a2 rail L cs hnd ?_
    intro c hc
    obtain ⟨h1, h2, h3⟩ := hall c hc
    exact ⟨hH c h1, h2, by rw [← hl]; exact h3⟩
  · intro rail
    rw [hvdd]
    exact a3 rail

/-- A successful `vote_rate_vdd` for the stored rate of a clock that holds no vote yet
keeps adequacy with that clock added to the holders. -/
theorem adequate_vote (hw : hooks) (cfg : Nat → clk) (H : Nat → Prop) (s : clk_state)
    (c : Nat) (ha : adequate cfg H s) (hc : ¬ H c)
    (h0 : (vote_rate_vdd hw cfg s c (s.rate c)).1 = 0) :
    adequate cfg (fun x => H x ∨ x = c) (vote_rate_vdd hw cfg s c (s.rate c)).2 := by
  obtain ⟨a1, a2, a3⟩ := ha
  have hrate := (vote_rate_vdd_spec hw cfg s c (s.rate c)).2.2.1
  have hl : ∀ x, level_of cfg (vote_rate_vdd hw cfg s c (s.rate c)).2 x = level_of cfg s x := by
    intro x
    simp only [level_of, hrate]
  cases hvc : (cfg c).vdd_class with
  | none =>
    have e : vote_rate_vdd hw cfg s c (s.rate c) = (0, s) := by
      simp [vote_rate_vdd, hvc]
    rw [e]
    refine ⟨?_, ?_, a3⟩
    · intro x rail hx hvx
      rcases hx with hx | hx
      · exact a1 x rail hx hvx
      · subst hx
        rw [hvc] at hvx
        cases hvx
    · intro rail L cs hnd hall
      refine a2 rail L cs hnd ?_
      intro x hx
      obtain ⟨h1, h2, h3⟩ := hall x hx
      rcases h1 with h1 | h1
      · exact ⟨h1, h2, h3⟩
      · subst h1
        rw [hvc] at h2
        cases h2
  | some rail =>
    obtain ⟨v1, v2, v3, v4, v5, v6⟩ := vote_rate_vdd_ok hw cfg s c (s.rate c) rail hvc h0
    have hN := vote_rate_vdd_num_levels hw cfg s c (s.rate c)
    generalize vote_rate_vdd hw cfg s c (s.rate c) = V at hl v3 v4 v5 v6 hrate hN
    refine ⟨?_, ?_, ?_⟩
    · intro x r hx hvx
      rw [hl, hN r]
      rcases hx with hx | hx
      · exact a1 x r hx hvx
      · subst hx
        rw [hvc] at hvx
        cases hvx
        exact ⟨v1, v2⟩
    · intro r L cs hnd hall
      by_cases hr : r = rail
      · subst hr
        rw [v3]
        dsimp only
        by_cases hmem : c ∈ cs
        · obtain ⟨_, _, h3⟩ := hall c hmem
          rw [hl] at h3
          have hL : L = find_vdd_level (cfg c).fmax (s.rate c) := h3.symm
          rw [if_pos hL, ← hL]
          have := a2 r L (cs.erase c) (hnd.erase c) (by
            intro x hx
            rw [hnd.mem_erase_iff] at hx
            obtain ⟨h1, h2, h4⟩ := hall x hx.2
            rcases h1 with h1 | h1
            · exact ⟨h1, h2, by rw [← hl]; exact h4⟩
            · exact absurd h1 hx.1)
          rw [List.length_erase_of_mem hmem] at this
          have hpos : 0 < cs.length := List.length_pos_of_mem hmem
          omega
        · have := a2 r L cs hnd (by
            intro x hx
            obtain ⟨h1, h2, h4⟩ := hall x hx
            rcases h1 with h1 | h1
            · exact ⟨h1, h2, by rw [← hl]; exact h4⟩
            · subst h1
              exact absurd hx hmem)
          split
          · next hL => rw [← hL]; omega
          · exact this
      · rw [v6 r hr]
        refine a2 r L cs hnd ?_
        intro x hx
        obtain ⟨h1, h2, h4⟩ := hall x hx
        rcases h1 with h1 | h1
        · exact ⟨h1, h2, by rw [← hl]; exact h4⟩
        · subst h1
          rw [hvc] at h2
          cases h2
          exact absurd rfl hr
    · intro r
      by_cases hr : r = rail
      · subst hr
        exact Or.inl v5
      · rw [v6 r hr]
        exact a3 r
/-- Every outcome of `unvote_rate_vdd` keeps the arbiter invariant on every rail. -/
theorem unvote_rate_vdd_resolved (hw : hooks) (cfg : Nat → clk) (t : clk_state)
    (c rate x : Nat) (h : is_resolved_level (t.vdd x) (t.vdd x).cur_level) :
    is_resolved_level ((unvote_rate_vdd hw cfg t c rate).vdd x)
      ((unvote_rate_vdd hw cfg t c rate).vdd x).cur_level := by
  obtain ⟨u1, u2⟩ := unvote_rate_vdd_any hw cfg t c rate x
  rcases u2 with u2 | ⟨_, u3, u4, _, _⟩
  · rw [u2]
    exact h
  · exact u1 (by omega) h

/-- After `unvote_rate_vdd` for the stored rate of a holder, adequacy holds for the
other holders, whether the vote was taken back or not. -/
theorem adequate_unvote (hw : hooks) (cfg : Nat → clk) (H : Nat → Prop) (s : clk_state)
    (c : Nat) (ha : adequate cfg H s) (hc : H c) :
    adequate cfg (fun x => H x ∧ x ≠ c) (unvote_rate_vdd hw cfg s c (s.rate c)) := by
  obtain ⟨a1, a2, a3⟩ := ha
  obtain ⟨_, _, hrate, _, hN⟩ := unvote_rate_vdd_frame hw cfg s c (s.rate c)
  have hl : ∀ x, level_of cfg (unvote_rate_vdd hw cfg s c (s.rate c)) x = level_of cfg s x := by
    intro x
    simp only [level_of, hrate]
  refine ⟨?_, ?_, ?_⟩
  · intro x rail hx hvx
    rw [hl, hN]
    exact a1 x rail hx.1 hvx
  · intro rail L cs hnd hall
    have hs : ∀ x ∈ cs, H x ∧ (cfg x).vdd_class = some rail ∧ level_of cfg s x = L := by
      intro x hx
      obtain ⟨h1, h2, h3⟩ := hall x hx
      exact ⟨h1.1, h2, by rw [← hl]; exact h3⟩
    rcases (unvote_rate_vdd_any hw cfg s c (s.rate c) rail).2 with u | ⟨u1, _, _, _, u5⟩
    · rw [u]
      exact a2 rail L cs hnd hs
    · rw [u5]
      dsimp only
      split
      · next hL =>
        have hmem : c ∉ cs := fun hm => (hall c hm).1.2 rfl
        have := a2 rail L (c :: cs) (List.nodup_cons.mpr ⟨hmem, hnd⟩) (by
          intro x hx
          rcases List.mem_cons.mp hx with hx | hx
          · subst hx
            exact ⟨hc, u1, hL.symm⟩
          · exact hs x hx)
        rw [List.length_cons, hL] at this
        omega
      · exact a2 rail L cs hnd hs
  · intro rail
    exact unvote_rate_vdd_resolved hw cfg s c (s.rate c) rail (a3 rail)

/-- Changing the rate of a clock that holds no vote on a rail keeps adequacy. -/
theorem adequate_rate_change (cfg : Nat → clk) (H : Nat → Prop) (s t : clk_state) (c : Nat)
    (ha : adequate cfg H s) (hc : H c → (cfg c).vdd_class = none)
    (hv : t.vdd = s.vdd) (hrt : ∀ x, x ≠ c → t.rate x = s.rate x) :
    adequate cfg H t := by
  obtain ⟨a1, a2, a3⟩ := ha
  have hl : ∀ x rail, H x → (cfg x).vdd_class = some rail →
      level_of cfg t x = level_of cfg s x := by
    intro x rail hx hvx
    have : x ≠ c := by
      intro e
      subst e
      rw [hc hx] at hvx
      cases hvx
    simp only [level_of, hrt x this]
  refine ⟨?_, ?_, ?_⟩
  · intro x rail hx hvx
    rw [hl x rail hx hvx, hv]
    exact a1 x rail hx hvx
  · intro rail L cs hnd hall
    rw [hv]
    refine a2 rail L cs hnd ?_
    intro x hx
    obtain ⟨q1, q2, q3⟩ := hall x hx
    exact ⟨q1, q2, by rw [← hl x rail q1 q2]; exact q3⟩
  · intro rail
    rw [hv]
    exact a3 rail

/-- Adequacy is kept when one holder moves to a new level of its rail and the vote
table gained a vote at the new level and lost at most one at the old level. -/
theorem adequate_move (cfg : Nat → clk) (H : Nat → Prop) (s t : clk_state) (c rail : Nat)
    (ha : adequate cfg H s) (hc : H c) (hvc : (cfg c).vdd_class = some rail)
    (hrt : ∀ x, x ≠ c → t.rate x = s.rate x)
    (hLn : 0 ≤ level_of cfg t c ∧ level_of cfg t c < ((s.vdd rail).num_levels : Int))
    (hvotes : ∀ L, (s.vdd rail).level_votes L + (if L = level_of cfg t c then 1 else 0) ≤
      (t.vdd rail).level_votes L + (if L = level_of cfg s c then 1 else 0))
    (hN : ∀ x, (t.vdd x).num_levels = (s.vdd x).num_levels)
    (hres : ∀ x, is_resolved_level (t.vdd x) (t.vdd x).cur_level)
    (hother : ∀ x, x ≠ rail → (t.vdd x).level_votes = (s.vdd x).level_votes) :
    adequate cfg H t := by
  obtain ⟨a1, a2, a3⟩ := ha
  have hl : ∀ x, x ≠ c → level_of cfg t x = level_of cfg s x := by
    intro x hx
    simp only [level_of, hrt x hx]
  refine ⟨?_, ?_, hres⟩
  · intro x r hx hvx
    rw [hN]
    by_cases hxc : x = c
    · subst hxc
      rw [hvc] at hvx
      cases hvx
      exact hLn
    · rw [hl x hxc]
      exact a1 x r hx hvx
  · intro r L cs hnd hall
    by_cases hr : r = rail
    · subst hr
      have hv := hvotes L
      by_cases hmem : c ∈ cs
      · have hLt : level_of cfg t c = L := (hall c hmem).2.2
        have h1 := a2 r L (cs.erase c) (hnd.erase c) (by
          intro x hx
          rw [hnd.mem_erase_iff] at hx
          obtain ⟨q1, q2, q3⟩ := hall x hx.2
          exact ⟨q1, q2, by rw [← hl x hx.1]; exact q3⟩)
        rw [List.length_erase_of_mem hmem] at h1
        rw [if_pos hLt.symm] at hv
        by_cases hLs : L = level_of cfg s c
        · have h2 := a2 r L cs hnd (by
            intro x hx
            obtain ⟨q1, q2, q3⟩ := hall x hx
            refine ⟨q1, q2, ?_⟩
            by_cases hxc : x = c
            · subst hxc
              exact hLs.symm
            · rw [← hl x hxc]; exact q3)
          rw [if_pos hLs] at hv
          omega
        · rw [if_neg hLs] at hv
          omega
      · have hs : ∀ x ∈ cs, H x ∧ (cfg x).vdd_class = some r ∧ level_of cfg s x = L := by
          intro x hx
          obtain ⟨q1, q2, q3⟩ := hall x hx
          have hxc : x ≠ c := fun e => hmem (e ▸ hx)
          exact ⟨q1, q2, by rw [← hl x hxc]; exact q3⟩
        have h1 := a2 r L cs hnd hs
        by_cases hLs : L = level_of cfg s c
        · have h2 := a2 r L (c :: cs) (List.nodup_cons.mpr ⟨hmem, hnd⟩) (by
            intro x hx
            rcases List.mem_cons.mp hx with hx | hx
            · subst hx
              exact ⟨hc, hvc, hLs.symm⟩
            · exact hs x hx)
          rw [List.length_cons] at h2
          rw [if_pos hLs] at hv
          omega
        · rw [if_neg hLs] at hv
          omega
    · rw [hother r hr]
      refine a2 r L cs hnd ?_
      intro x hx
      obtain ⟨q1, q2, q3⟩ := hall x hx
      have hxc : x ≠ c := by
        intro e
        subst e
        rw [hvc] at q2
        cases q2
        exact hr rfl
      exact ⟨q1, q2, by rw [← hl x hxc]; exact q3⟩
/-- Every outcome of `clk_set_rate` keeps adequacy for the prepared clocks. -/
theorem adequate_set_rate (hw : hooks) (cfg : Nat → clk) (s : clk_state) (c : Nat)
    (rate : Nat) (ha : adequate cfg (fun x => s.prepare_count x ≠ 0) s) :
    adequate cfg (fun x => (clk_set_rate_clk hw cfg s c rate).2.prepare_count x ≠ 0)
      (clk_set_rate_clk hw cfg s c rate).2 := by
  rw [(clk_set_rate_frame hw cfg s c rate).2.1]
  unfold clk_set_rate_clk
  dsimp only
  by_cases h1 : (cfg c).ops.set_rate = false
  · rw [if_pos h1]
    exact ha
  rw [if_neg h1]
  by_cases h2 : s.rate c = rate
  · rw [if_pos h2]
    exact ha
  rw [if_neg h2]
  by_cases h3 : s.prepare_count c ≠ 0
  · rw [if_pos h3]
    obtain ⟨_, _, vr, _, vv, _⟩ := vote_rate_vdd_spec hw cfg s c rate
    by_cases hv0 : (vote_rate_vdd hw cfg s c rate).1 ≠ 0
    · rw [if_pos hv0]
      exact adequate_congr cfg _ _ s _ (fun x hx => hx) vr (vv hv0) ha
    · rw [if_neg hv0]
      have h0 : (vote_rate_vdd hw cfg s c rate).1 = 0 := not_not.mp hv0
      cases hvc : (cfg c).vdd_class with
      | none =>
        have e : vote_rate_vdd hw cfg s c rate = (0, s) := by
          simp [vote_rate_vdd, hvc]
        have eu : ∀ t rt, unvote_rate_vdd hw cfg t c rt = t := by
          intro t rt
          simp [unvote_rate_vdd, hvc]
        rw [e]
        dsimp only
        rw [eu, eu]
        split
        · exact adequate_rate_change cfg _ s _ c ha (fun _ => hvc) rfl (fun _ _ => rfl)
        · refine adequate_rate_change cfg _ s _ c ha (fun _ => hvc) rfl ?_
          intro x hx
          simp [hx]
      | some rail =>
        obtain ⟨v1, v2, v3, v4, v5, v6⟩ := vote_rate_vdd_ok hw cfg s c rate rail hvc h0
        have hN := vote_rate_vdd_num_levels hw cfg s c rate
        obtain ⟨a1, a2, a3⟩ := ha
        have ha : adequate cfg (fun x => s.prepare_count x ≠ 0) s := ⟨a1, a2, a3⟩
        have hresV : ∀ x, is_resolved_level ((vote_rate_vdd hw cfg s c rate).2.vdd x)
            ((vote_rate_vdd hw cfg s c rate).2.vdd x).cur_level := by
          intro x
          by_cases hx : x = rail
          · subst hx
            exact Or.inl v5
          · rw [v6 x hx]
            exact a3 x
        have hold := a1 c rail h3 hvc
        generalize hw.set_rate (vote_rate_vdd hw cfg s c rate).2.log c rate = rc
        generalize hs2 : add_log (vote_rate_vdd hw cfg s c rate).2
          [event.set_rate c rate rc] = s2
        have s2v : s2.vdd = (vote_rate_vdd hw cfg s c rate).2.vdd := by
          rw [← hs2]; rfl
        have s2r : s2.rate = s.rate := by
          rw [← hs2]; exact vr
        have votesfact : ∀ rt L, (s.vdd rail).level_votes L +
            (if L = find_vdd_level (cfg c).fmax rate then 1 else 0) ≤
            ((unvote_rate_vdd hw cfg s2 c rt).vdd rail).level_votes L +
            (if L = find_vdd_level (cfg c).fmax rt then 1 else 0) := by
          intro rt L
          rcases (unvote_rate_vdd_any hw cfg s2 c rt rail).2 with u | ⟨_, _, _, u4, u5⟩
          · rw [u, s2v, v3]
            dsimp only
            split_ifs <;> first | omega | (subst_vars; omega)
          · rw [u5]
            rw [s2v, v3] at u4 ⊢
            dsimp only at u4 ⊢
            generalize find_vdd_level (cfg c).fmax rt = Lr at u4 ⊢
            generalize find_vdd_level (cfg c).fmax rate = Ln at u4 ⊢
            split_ifs at u4 ⊢ <;> first | omega | (subst_vars; omega)
        have key : ∀ rt (t : clk_state), t.vdd = (unvote_rate_vdd hw cfg s2 c rt).vdd →
            (∀ x, x ≠ c → t.rate x = s.rate x) →
            (0 ≤ level_of cfg t c ∧ level_of cfg t c < ((s.vdd rail).num_levels : Int)) →
            (∀ L, (s.vdd rail).level_votes L + (if L = level_of cfg t c then 1 else 0) ≤
              (t.vdd rail).level_votes L + (if L = level_of cfg s c then 1 else 0)) →
            adequate cfg (fun x => s.prepare_count x ≠ 0) t := by
          intro rt t tv tr hLn hvotes
          obtain ⟨_, _, _, _, uN⟩ := unvote_rate_vdd_frame hw cfg s2 c rt
          refine adequate_move cfg _ s t c rail ha h3 hvc tr hLn hvotes ?_ ?_ ?_
          · intro x
            rw [tv, uN, s2v, hN]
          · intro x
            rw [tv]
            refine unvote_rate_vdd_resolved hw cfg s2 c rt x ?_
            rw [s2v]
            exact hresV x
          · intro x hx
            rw [tv]
            rcases (unvote_rate_vdd_any hw cfg s2 c rt x).2 with u | ⟨u1, _⟩
            · rw [u, s2v, v6 x hx]
            · rw [hvc] at u1
              cases u1
              exact absurd rfl hx
        obtain ⟨_, _, ur1, _, _⟩ := unvote_rate_vdd_frame hw cfg s2 c rate
        obtain ⟨_, _, ur2, _, _⟩ := unvote_rate_vdd_frame hw cfg s2 c (s.rate c)
        split
        · have hlt : level_of cfg (unvote_rate_vdd hw cfg s2 c rate) c = level_of cfg s c := by
            simp only [level_of, ur1, s2r]
          refine key rate _ rfl (fun x _ => by rw [ur1, s2r]) ?_ ?_
          · rw [hlt]
            exact hold
          · intro L
            rw [hlt]
            have := votesfact rate L
            dsimp only at this ⊢
            split_ifs at this ⊢ <;> omega
        · have hlt : level_of cfg (set_clk_rate (unvote_rate_vdd hw cfg s2 c (s.rate c)) c rate) c
              = find_vdd_level (cfg c).fmax rate := by
            simp [level_of]
          refine key (s.rate c) _ rfl ?_ ?_ ?_
          · intro x hx
            simp [hx, ur2, s2r]
          · rw [hlt]
            exact ⟨v1, v2⟩
          · intro L
            rw [hlt]
            exact votesfact (s.rate c) L
  · rw [if_neg h3]
    by_cases h4 : is_rate_valid cfg c rate = true
    · rw [if_pos h4]
      split
      · exact adequate_rate_change cfg _ s _ c ha (fun h => absurd h h3) rfl (fun _ _ => rfl)
      · refine adequate_rate_change cfg _ s _ c ha (fun h => absurd h h3) rfl ?_
        intro x hx
        simp [hx]
    · rw [if_neg h4]
      exact ha
/-- Every `clk_unprepare` keeps adequacy for the prepared clocks; `X` holds the clocks
above the current one that are in the middle of their own last release. -/
theorem adequate_unprepare (hw : hooks) (cfg : Nat → clk) (h : Nat → Nat)
    (hr : ranked cfg h) :
    ∀ fuel s r X t, rank h r ≤ fuel → (∀ x ∈ X, rank h r ≤ h x) →
      adequate cfg (prepared_outside X s) s → clk_unprepare hw cfg fuel s r = some t →
      adequate cfg (prepared_outside X t) t := by
  have hnull : ∀ fuel s X t, adequate cfg (prepared_outside X s) s →
      clk_unprepare hw cfg fuel s .null = some t → adequate cfg (prepared_outside X t) t := by
    intro fuel s X t ha ht
    have e : clk_unprepare hw cfg fuel s .null = some s := by cases fuel <;> rfl
    rw [e] at ht
    cases ht
    exact ha
  have herr : ∀ fuel s X t e, adequate cfg (prepared_outside X s) s →
      clk_unprepare hw cfg fuel s (.err e) = some t →
      adequate cfg (prepared_outside X t) t := by
    intro fuel s X t e ha ht
    have e : clk_unprepare hw cfg fuel s (.err e) = none := by cases fuel <;> rfl
    rw [e] at ht
    cases ht
  intro fuel
  induction fuel with
  | zero =>
    intro s r X t hf hX ha ht
    cases r with
    | null => exact hnull 0 s X t ha ht
    | err e => exact herr 0 s X t e ha ht
    | ptr c => simp [rank] at hf
  | succ fuel ih =>
    intro s r X t hf hX ha ht
    cases r with
    | null => exact hnull _ s X t ha ht
    | err e => exact herr _ s X t e ha ht
    | ptr c =>
      have hcX : c ∉ X := by
        intro hc
        have := hX c hc
        simp only [rank] at this
        omega
      have hrd : rank h (cfg c).depends ≤ h c := (hr c).2
      have hrp : rank h (clk_get_parent cfg (.ptr c)) ≤ h c := (hr c).1
      have hfc : h c + 1 ≤ fuel + 1 := hf
      unfold clk_unprepare at ht
      by_cases p0 : s.prepare_count c = 0
      · rw [if_pos p0] at ht
        cases ht
        exact adequate_congr cfg _ _ s _ (fun x hx => hx) rfl rfl ha
      rw [if_neg p0] at ht
      by_cases p1 : s.prepare_count c = 1
      · rw [if_pos p1] at ht
        dsimp only at ht
        generalize hs2 : add_log (add_log s (log_if (s.count c ≠ 0) (event.warn_enabled c)))
          (log_if ((cfg c).ops.unprepare = true) (event.unprepare c)) = s2 at ht
        have s2p : s2.prepare_count = s.prepare_count := by rw [← hs2]; rfl
        have ha2 : adequate cfg (prepared_outside X s) s2 :=
          adequate_congr cfg _ _ s _ (fun x hx => hx) (by rw [← hs2]; rfl)
            (by rw [← hs2]; rfl) ha
        have ha3 := adequate_unvote hw cfg _ s2 c ha2 ⟨p0, hcX⟩
        obtain ⟨_, u3p, _, _, _⟩ := unvote_rate_vdd_frame hw cfg s2 c (s2.rate c)
        generalize unvote_rate_vdd hw cfg s2 c (s2.rate c) = s3 at ht ha3 u3p
        have ha3b : adequate cfg (prepared_outside (c :: X) s3) s3 := by
          refine adequate_congr cfg _ _ s3 _ ?_ rfl rfl ha3
          intro x hx
          obtain ⟨q1, q2⟩ := hx
          rw [u3p, s2p] at q1
          simp only [List.mem_cons, not_or] at q2
          exact ⟨⟨q1, q2.2⟩, q2.1⟩
        have hXd : ∀ x ∈ c :: X, rank h (cfg c).depends ≤ h x := by
          intro x hx
          rcases List.mem_cons.mp hx with hx | hx
          · subst hx; exact hrd
          · have := hX x hx
            simp only [rank] at this
            omega
        have hXp : ∀ x ∈ c :: X, rank h (clk_get_parent cfg (.ptr c)) ≤ h x := by
          intro x hx
          rcases List.mem_cons.mp hx with hx | hx
          · subst hx; exact hrp
          · have := hX x hx
            simp only [rank] at this
            omega
        obtain ⟨s4, e4⟩ : ∃ zz, clk_unprepare hw cfg fuel s3 (cfg c).depends = some zz := by
          cases hq : clk_unprepare hw cfg fuel s3 (cfg c).depends with
          | none => simp [hq] at ht
          | some zz => exact ⟨zz, rfl⟩
        obtain ⟨_, _, _, f4⟩ := clk_unprepare_frame hw cfg h hr fuel s3 (cfg c).depends s4 e4
        rw [e4] at ht
        dsimp only at ht
        have ha4 := ih s3 _ (c :: X) s4 (by omega) hXd ha3b e4
        obtain ⟨s5, e5⟩ : ∃ zz, clk_unprepare hw cfg fuel s4 (clk_get_parent cfg (.ptr c)) = some zz := by
          cases hq : clk_unprepare hw cfg fuel s4 (clk_get_parent cfg (.ptr c)) with
          | none => simp [hq] at ht
          | some zz => exact ⟨zz, rfl⟩
        obtain ⟨_, _, _, f5⟩ := clk_unprepare_frame hw cfg h hr fuel s4 (clk_get_parent cfg (.ptr c)) s5 e5
        rw [e5] at ht
        dsimp only at ht
        have ha5 := ih s4 _ (c :: X) s5 (by omega) hXp ha4 e5
        cases ht
        have p5 : s5.prepare_count c = 1 := by
          rw [f5 c hrp, f4 c hrd, u3p, s2p, p1]
        refine adequate_congr cfg _ _ s5 _ ?_ rfl rfl ha5
        intro x hx
        obtain ⟨q1, q2⟩ := hx
        by_cases hxc : x = c
        · subst hxc
          simp [p5] at q1
        · simp only [set_prepare_count_prepare_count, if_neg hxc] at q1
          exact ⟨q1, by simp [hxc, q2]⟩
      · rw [if_neg p1] at ht
        cases ht
        refine adequate_congr cfg _ _ s _ ?_ rfl rfl ha
        intro x hx
        obtain ⟨q1, q2⟩ := hx
        refine ⟨?_, q2⟩
        by_cases hxc : x = c
        · subst hxc
          exact p0
        · simpa [hxc] using q1
/-- Every outcome of `clk_prepare` keeps adequacy for the prepared clocks. -/
theorem adequate_prepare (hw : hooks) (cfg : Nat → clk) (h : Nat → Nat)
    (hr : ranked cfg h) :
    ∀ fuel s r rc t, rank h r ≤ fuel →
      adequate cfg (prepared_outside [] s) s → clk_prepare hw cfg fuel s r = some (rc, t) →
      adequate cfg (prepared_outside [] t) t := by
  have hnull : ∀ fuel s rc t, adequate cfg (prepared_outside [] s) s →
      clk_prepare hw cfg fuel s .null = some (rc, t) →
      adequate cfg (prepared_outside [] t) t := by
    intro fuel s rc t ha ht
    have e : clk_prepare hw cfg fuel s .null = some (0, s) := by cases fuel <;> rfl
    rw [e] at ht
    cases ht
    exact ha
  have herr : ∀ fuel s rc t e, adequate cfg (prepared_outside [] s) s →
      clk_prepare hw cfg fuel s (.err e) = some (rc, t) →
      adequate cfg (prepared_outside [] t) t := by
    intro fuel s rc t e ha ht
    have e : clk_prepare hw cfg fuel s (.err e) = some (-EINVAL, s) := by cases fuel <;> rfl
    rw [e] at ht
    cases ht
    exact ha
  intro fuel
  induction fuel with
  | zero =>
    intro s r rc t hf ha ht
    cases r with
    | null => exact hnull 0 s rc t ha ht
    | err e => exact herr 0 s rc t e ha ht
    | ptr c => simp [rank] at hf
  | succ fuel ih =>
    intro s r rc t hf ha ht
    cases r with
    | null => exact hnull _ s rc t ha ht
    | err e => exact herr _ s rc t e ha ht
    | ptr c =>
      have hrd : rank h (cfg c).depends ≤ h c := (hr c).2
      have hrp : rank h (clk_get_parent cfg (.ptr c)) ≤ h c := (hr c).1
      have hfc : h c + 1 ≤ fuel + 1 := hf
      have hU := adequate_unprepare hw cfg h hr fuel
      unfold clk_prepare at ht
      by_cases p0 : s.prepare_count c = 0
      · rw [if_pos p0] at ht
        dsimp only at ht
        obtain ⟨ret1, s1, e1, _, _, _, f1, _⟩ := clk_prepare_spec hw cfg h hr fuel s
          (clk_get_parent cfg (.ptr c)) (by omega)
        rw [e1] at ht
        dsimp only at ht
        have ha1 := ih s _ ret1 s1 (by omega) ha e1
        by_cases r1 : ret1 ≠ 0
        · rw [if_pos r1] at ht
          cases ht
          exact ha1
        rw [if_neg r1] at ht
        obtain ⟨ret2, s2, e2, _, _, _, f2, _⟩ := clk_prepare_spec hw cfg h hr fuel s1
          (cfg c).depends (by omega)
        rw [e2] at ht
        dsimp only at ht
        have ha2 := ih s1 _ ret2 s2 (by omega) ha1 e2
        have p2 : s2.prepare_count c = 0 := by
          rw [f2 c hrd, f1 c hrp, p0]
        have hback : ∀ (ret : Int) (u : clk_state), adequate cfg (prepared_outside [] u) u →
            err_vote_vdd hw cfg fuel ret u c (clk_get_parent cfg (.ptr c)) = some (rc, t) →
            adequate cfg (prepared_outside [] t) t := by
          intro ret u hu hret
          unfold err_vote_vdd at hret
          obtain ⟨u1, d1⟩ : ∃ zz, clk_unprepare hw cfg fuel u (cfg c).depends = some zz := by
            cases hq : clk_unprepare hw cfg fuel u (cfg c).depends with
            | none => simp [hq] at hret
            | some zz => exact ⟨zz, rfl⟩
          rw [d1] at hret
          dsimp only at hret
          have hu1 := hU u _ [] u1 (by omega) (fun _ hx => absurd hx (List.not_mem_nil _))
            hu d1
          unfold err_prepare_depends at hret
          obtain ⟨u2, d2⟩ : ∃ zz, clk_unprepare hw cfg fuel u1 (clk_get_parent cfg (.ptr c)) = some zz := by
            cases hq : clk_unprepare hw cfg fuel u1 (clk_get_parent cfg (.ptr c)) with
            | none => simp [hq] at hret
            | some zz => exact ⟨zz, rfl⟩
          rw [d2] at hret
          dsimp only at hret
          have hu2 := hU u1 _ [] u2 (by omega) (fun _ hx => absurd hx (List.not_mem_nil _))
            hu1 d2
          cases hret
          exact hu2
        by_cases r2 : ret2 ≠ 0
        · rw [if_pos r2] at ht
          unfold err_prepare_depends at ht
          obtain ⟨u2, d2⟩ : ∃ zz, clk_unprepare hw cfg fuel s2 (clk_get_parent cfg (.ptr c)) = some zz := by
            cases hq : clk_unprepare hw cfg fuel s2 (clk_get_parent cfg (.ptr c)) with
            | none => simp [hq] at ht
            | some zz => exact ⟨zz, rfl⟩
          rw [d2] at ht
          dsimp only at ht
          have hu2 := hU s2 _ [] u2 (by omega) (fun _ hx => absurd hx (List.not_mem_nil _))
            ha2 d2
          cases ht
          exact hu2
        rw [if_neg r2] at ht
        obtain ⟨_, vp, vr, _, vv, _⟩ := vote_rate_vdd_spec hw cfg s2 c (s2.rate c)
        by_cases hv0 : (vote_rate_vdd hw cfg s2 c (s2.rate c)).1 ≠ 0
        · rw [if_pos hv0] at ht
          refine hback _ _ ?_ ht
          refine adequate_congr cfg _ _ s2 _ ?_ vr (vv hv0) ha2
          intro x hx
          rw [prepared_outside, vp] at hx
          exact hx
        rw [if_neg hv0] at ht
        have hav := adequate_vote hw cfg _ s2 c ha2 (fun hc => hc.1 p2) (not_not.mp hv0)
        generalize vote_rate_vdd hw cfg s2 c (s2.rate c) = V at ht hav vp vr
        generalize (if (cfg c).ops.prepare = true then hw.prepare V.2.log c else V.1) = ret4 at ht
        generalize hs4 : add_log V.2 (log_if ((cfg c).ops.prepare = true)
          (event.prepare c ret4)) = s4 at ht
        have s4p : s4.prepare_count = s2.prepare_count := by rw [← hs4]; exact vp
        have ha4 : adequate cfg (fun x => prepared_outside [] s2 x ∨ x = c) s4 :=
          adequate_congr cfg _ _ V.2 _ (fun x hx => hx) (by rw [← hs4]; rfl)
            (by rw [← hs4]; rfl) hav
        by_cases r4 : ret4 ≠ 0
        · rw [if_pos r4] at ht
          unfold err_prepare_clock at ht
          refine hback _ _ ?_ ht
          have ha5 := adequate_unvote hw cfg _ s4 c ha4 (Or.inr rfl)
          obtain ⟨_, u5p, _, _, _⟩ := unvote_rate_vdd_frame hw cfg s4 c (s4.rate c)
          refine adequate_congr cfg _ _ _ _ ?_ rfl rfl ha5
          intro x hx
          obtain ⟨q1, q2⟩ := hx
          rw [u5p, s4p] at q1
          have hxc : x ≠ c := by
            intro e
            subst e
            exact q1 p2
          exact ⟨Or.inl ⟨q1, q2⟩, hxc⟩
        · rw [if_neg r4] at ht
          cases ht
          refine adequate_congr cfg _ _ s4 _ ?_ rfl rfl ha4
          intro x hx
          obtain ⟨q1, q2⟩ := hx
          by_cases hxc : x = c
          · exact Or.inr hxc
          · simp only [set_prepare_count_prepare_count, if_neg hxc] at q1
            rw [s4p] at q1
            exact Or.inl ⟨q1, q2⟩
      · rw [if_neg p0] at ht
        cases ht
        refine adequate_congr cfg _ _ s _ ?_ rfl rfl ha
        intro x hx
        obtain ⟨q1, q2⟩ := hx
        refine ⟨?_, q2⟩
        by_cases hxc : x = c
        · subst hxc
          exact p0
        · simpa [hxc] using q1
/-- Validity below a reference is kept by every larger depth bound. -/
theorem valid_below_le (cfg : Nat → clk) (r : clk_ref) :
    ∀ a b, a ≤ b → valid_below cfg a r = true → valid_below cfg b r = true := by
  intro a b hab hv
  induction b with
  | zero =>
    have : a = 0 := by omega
    rw [this] at hv
    exact hv
  | succ b ih =>
    by_cases hb : a ≤ b
    · exact valid_below_mono cfg b r (ih hb)
    · have : a = b + 1 := by omega
      rw [this] at hv
      exact hv

/-- No prepare count grows across `clk_unprepare`. -/
theorem clk_unprepare_le (hw : hooks) (cfg : Nat → clk) :
    ∀ fuel s r t, clk_unprepare hw cfg fuel s r = some t →
      ∀ x, t.prepare_count x ≤ s.prepare_count x := by
  intro fuel
  induction fuel with
  | zero =>
    intro s r t he
    cases r with
    | null =>
      simp only [clk_unprepare, Option.some.injEq] at he
      subst he
      exact fun _ => le_refl _
    | err e => simp [clk_unprepare] at he
    | ptr c => simp [clk_unprepare] at he
  | succ fuel ih =>
    intro s r t he
    cases r with
    | null =>
      simp only [clk_unprepare, Option.some.injEq] at he
      subst he
      exact fun _ => le_refl _
    | err e => simp [clk_unprepare] at he
    | ptr c =>
      rw [clk_unprepare] at he
      by_cases h0 : s.prepare_count c = 0
      · rw [if_pos h0] at he
        cases he
        exact fun _ => le_refl _
      · rw [if_neg h0] at he
        by_cases h1 : s.prepare_count c = 1
        · rw [if_pos h1] at he
          simp only at he
          obtain ⟨_, vp, _, _, _⟩ := unvote_rate_vdd_frame hw cfg
            (add_log (add_log s (log_if (s.count c ≠ 0) (event.warn_enabled c)))
              (log_if ((cfg c).ops.unprepare = true) (event.unprepare c))) c
            ((add_log (add_log s (log_if (s.count c ≠ 0) (event.warn_enabled c)))
              (log_if ((cfg c).ops.unprepare = true) (event.unprepare c))).rate c)
          simp only [add_log_prepare_count] at vp
          generalize unvote_rate_vdd hw cfg _ c _ = s3 at he vp
          split at he
          · cases he
          · next s4 heq4 =>
            split at he
            · cases he
            · next s5 heq5 =>
              cases he
              intro x
              have a4 := ih _ _ _ heq4 x
              have a5 := ih _ _ _ heq5 x
              rw [vp] at a4
              simp only [set_prepare_count_prepare_count]
              split
              · next hx =>
                subst hx
                omega
              · omega
        · rw [if_neg h1] at he
          cases he
          intro x
          simp only [set_prepare_count_prepare_count]
          split
          · next hx =>
            subst hx
            omega
          · exact le_refl _

/-- A successful `clk_prepare` met no error pointer below the reference, and the clocks
that are prepared afterwards have no error pointer below them when that held for the
clocks prepared before. -/
theorem clk_prepare_valid (hw : hooks) (cfg : Nat → clk) (h : Nat → Nat) (hr : ranked cfg h) :
    ∀ fuel s r t, prepared_valid cfg h s → clk_prepare hw cfg fuel s r = some (0, t) →
      valid_below cfg (rank h r) r = true ∧ prepared_valid cfg h t := by
  intro fuel
  induction fuel with
  | zero =>
    intro s r t hI he
    cases r with
    | null =>
      simp only [clk_prepare, Option.some.injEq, Prod.mk.injEq, true_and] at he
      subst he
      exact ⟨rfl, hI⟩
    | err e => simp [clk_prepare, EINVAL] at he
    | ptr c => simp [clk_prepare] at he
  | succ fuel ih =>
    intro s r t hI he
    cases r with
    | null =>
      simp only [clk_prepare, Option.some.injEq, Prod.mk.injEq, true_and] at he
      subst he
      exact ⟨rfl, hI⟩
    | err e => simp [clk_prepare, EINVAL] at he
    | ptr c =>
      rcases clk_prepare_success_inv hw cfg fuel s t c he with ⟨hp, et⟩ |
        ⟨_, s1, s2, e1, e2, _, _, et⟩
      · refine ⟨hI c hp, ?_⟩
        intro x hx
        rw [et] at hx
        simp only [set_prepare_count_prepare_count] at hx
        by_cases hxc : x = c
        · rw [hxc]
          exact hI c hp
        · rw [if_neg hxc] at hx
          exact hI x hx
      · obtain ⟨v1, hI1⟩ := ih s _ s1 hI e1
        obtain ⟨v2, hI2⟩ := ih s1 _ s2 hI1 e2
        have hvc : valid_below cfg (h c + 1) (.ptr c) = true := by
          rw [valid_below, Bool.and_eq_true]
          exact ⟨valid_below_le cfg _ _ _ (hr c).1 v1, valid_below_le cfg _ _ _ (hr c).2 v2⟩
        refine ⟨hvc, ?_⟩
        intro x hx
        by_cases hxc : x = c
        · rw [hxc]
          exact hvc
        · rw [et] at hx
          simp only [set_prepare_count_prepare_count, if_neg hxc, add_log_prepare_count] at hx
          rw [(vote_rate_vdd_spec hw cfg s2 c (s2.rate c)).2.1] at hx
          exact hI2 x hx

/-- One call of the prepare and rate interface returns, keeps adequacy and keeps the
clocks below the prepared clocks valid. -/
theorem run_rate_call_adequate (hw : hooks) (cfg : Nat → clk) (h : Nat → Nat)
    (hr : ranked cfg h) (fuel : Nat) (s : clk_state) (k : rate_call)
    (hf : h (rate_call_clock k) < fuel) (ha : adequate cfg (prepared_outside [] s) s)
    (hI : prepared_valid cfg h s) :
    ∃ t, run_rate_call hw cfg fuel s k = some t ∧ adequate cfg (prepared_outside [] t) t ∧
      prepared_valid cfg h t := by
  cases k with
  | prepare c =>
    obtain ⟨rc, t, e, _, _, _, _, hfail, _⟩ := clk_prepare_spec hw cfg h hr fuel s (.ptr c) hf
    refine ⟨t, by simp [run_rate_call, e], ?_, ?_⟩
    · exact adequate_prepare hw cfg h hr fuel s (.ptr c) rc t hf ha e
    · by_cases hrc : rc = 0
      · subst hrc
        exact (clk_prepare_valid hw cfg h hr fuel s (.ptr c) t hI e).2
      · intro x hx
        rw [(hfail hrc).1] at hx
        exact hI x hx
  | unprepare c =>
    have hret : ∃ t, clk_unprepare hw cfg fuel s (.ptr c) = some t := by
      by_cases hp : s.prepare_count c = 0
      · obtain ⟨k, rfl⟩ : ∃ k, fuel = k + 1 := ⟨fuel - 1, by
          have : h c < fuel := hf
          omega⟩
        exact ⟨_, by rw [clk_unprepare, if_pos hp]⟩
      · exact clk_unprepare_valid hw cfg fuel s (.ptr c)
          (valid_below_le cfg _ _ _ hf (hI c hp))
    obtain ⟨t, e⟩ := hret
    refine ⟨t, e, ?_, ?_⟩
    · exact adequate_unprepare hw cfg h hr fuel s (.ptr c) [] t hf
        (fun _ hx => absurd hx (List.not_mem_nil _)) ha e
    · intro x hx
      have := clk_unprepare_le hw cfg fuel s (.ptr c) t e x
      exact hI x (by omega)
  | set_rate c rate =>
    refine ⟨_, rfl, ?_, ?_⟩
    · have h1 : adequate cfg (fun x => s.prepare_count x ≠ 0) s :=
        adequate_congr cfg _ _ s s (fun x hx => ⟨hx, List.not_mem_nil _⟩) rfl rfl ha
      have h2 := adequate_set_rate hw cfg s c rate h1
      exact adequate_congr cfg _ _ _ _ (fun x hx => hx.1) rfl rfl h2
    · intro x hx
      have e : (clk_set_rate_clk hw cfg s c rate).2.prepare_count = s.prepare_count :=
        (clk_set_rate_frame hw cfg s c rate).2.1
      have hx2 : (clk_set_rate_clk hw cfg s c rate).2.prepare_count x ≠ 0 := hx
      rw [e] at hx2
      exact hI x hx2

/-- A sequence of calls of the prepare and rate interface runs to the end, keeps
adequacy and keeps the clocks below the prepared clocks valid. -/
theorem run_rate_calls_adequate (hw : hooks) (cfg : Nat → clk) (h : Nat → Nat)
    (hr : ranked cfg h) (fuel : Nat) (calls : List rate_call) :
    ∀ s, (∀ k ∈ calls, h (rate_call_clock k) < fuel) →
      adequate cfg (prepared_outside [] s) s → prepared_valid cfg h s →
      ∃ t, run_rate_calls hw cfg fuel calls s = some t ∧
        adequate cfg (prepared_outside [] t) t := by
  induction calls with
  | nil =>
    intro s _ ha _
    exact ⟨s, rfl, ha⟩
  | cons k ks ih =>
    intro s hf ha hI
    obtain ⟨s1, e1, a1, i1⟩ := run_rate_call_adequate hw cfg h hr fuel s k
      (hf k (List.mem_cons_self _ _)) ha hI
    obtain ⟨t, e2, a2⟩ := ih s1 (fun j hj => hf j (List.mem_cons_of_mem _ hj)) a1 i1
    exact ⟨t, by simp only [run_rate_calls, e1]; exact e2, a2⟩

/-- C28: rail adequacy.  From a state with every clock unprepared and, on every rail, no
votes and `cur_level` 0, every sequence of `clk_prepare`, `clk_unprepare` and
`clk_set_rate` calls (on an acyclic tree, whatever the calls return) runs to a state in
which every clock with a non-zero prepare count that declares a rail has its stored rate
mapped by `find_vdd_level` to a level of the rail (not `-EINVAL`); the rail's vote count
at that level is at least the number of prepared clocks on that rail whose rate maps to
that level (every duplicate-free list of such clocks is at most that long); the rail's
`cur_level` is the resolved level of its vote table, and it is at least the level of the
clock's rate. -/
theorem rail_adequacy (hw : hooks) (cfg : Nat → clk) (h : Nat → Nat) (hr : ranked cfg h)
    (fuel : Nat) (calls : List rate_call)
    (hf : ∀ k ∈ calls, h (rate_call_clock k) < fuel) (s0 : clk_state)
    (hunprep : ∀ x, s0.prepare_count x = 0)
    (hzero : ∀ rail, (s0.vdd rail).cur_level = 0 ∧ no_votes (s0.vdd rail)) :
    ∃ s, run_rate_calls hw cfg fuel calls s0 = some s ∧
      ∀ c rail, s.prepare_count c ≠ 0 → (cfg c).vdd_class = some rail →
        0 ≤ find_vdd_level (cfg c).fmax (s.rate c) ∧
        find_vdd_level (cfg c).fmax (s.rate c) < ((s.vdd rail).num_levels : Int) ∧
        (∀ cs : List Nat, cs.Nodup →
          (∀ x ∈ cs, s.prepare_count x ≠ 0 ∧ (cfg x).vdd_class = some rail ∧
            find_vdd_level (cfg x).fmax (s.rate x) =
              find_vdd_level (cfg c).fmax (s.rate c)) →
          cs.length ≤ (s.vdd rail).level_votes (find_vdd_level (cfg c).fmax (s.rate c))) ∧
        is_resolved_level (s.vdd rail) (s.vdd rail).cur_level ∧
        find_vdd_level (cfg c).fmax (s.rate c) ≤ (s.vdd rail).cur_level := by
  have h0 : adequate cfg (prepared_outside [] s0) s0 := by
    refine ⟨?_, ?_, ?_⟩
    · intro c rail hc _
      exact absurd (hunprep c) hc.1
    · intro rail L cs _ hall
      cases cs with
      | nil => exact Nat.zero_le _
      | cons x xs => exact absurd (hunprep x) (hall x (List.mem_cons_self _ _)).1.1
    · intro rail
      rw [(hzero rail).1]
      exact Or.inr ⟨rfl, (hzero rail).2⟩
  obtain ⟨s, e, a1, a2, a3⟩ := run_rate_calls_adequate hw cfg h hr fuel calls s0 hf h0
    (fun x hx => absurd (hunprep x) hx)
  refine ⟨s, e, ?_⟩
  intro c rail hc hvc
  have hp : prepared_outside [] s c := ⟨hc, List.not_mem_nil _⟩
  obtain ⟨l0, l1⟩ := a1 c rail hp hvc
  have hcnt : ∀ cs : List Nat, cs.Nodup →
      (∀ x ∈ cs, s.prepare_count x ≠ 0 ∧ (cfg x).vdd_class = some rail ∧
        find_vdd_level (cfg x).fmax (s.rate x) = find_vdd_level (cfg c).fmax (s.rate c)) →
      cs.length ≤ (s.vdd rail).level_votes (find_vdd_level (cfg c).fmax (s.rate c)) := by
    intro cs hnd hall
    refine a2 rail _ cs hnd ?_
    intro x hx
    obtain ⟨q1, q2, q3⟩ := hall x hx
    exact ⟨⟨q1, List.not_mem_nil _⟩, q2, q3⟩
  refine ⟨l0, l1, hcnt, a3 rail, ?_⟩
  refine resolved_level_ge _ _ _ (a3 rail) l0 l1 ?_
  have := hcnt [c] (List.nodup_singleton c) (by
    intro x hx
    rw [List.mem_singleton] at hx
    subst hx
    exact ⟨hc, hvc, rfl⟩)
  simp only [List.length_singleton] at this
  omega

/-- Witness of C28: on the example tree, from idle at 5 MHz, the child is prepared, its
rate is set to 20 MHz, and the root is prepared; the run ends with the child prepared
at 20 MHz and one vote at level 1 of its rail. -/
theorem rail_adequacy_witness :
    (run_rate_calls (demo_hooks 0 0 0) demo_cfg 2
        [rate_call.prepare 1, rate_call.set_rate 1 20000000, rate_call.prepare 0]
        (demo_state 5000000)).map
      (fun s => (s.prepare_count 1, s.rate 1, (s.vdd 0).level_votes 1, (s.vdd 0).cur_level))
      = some (1, 20000000, 1, 1) ∧
    ∃ s, run_rate_calls (demo_hooks 0 0 0) demo_cfg 2
        [rate_call.prepare 1, rate_call.set_rate 1 20000000, rate_call.prepare 0]
        (demo_state 5000000) = some s ∧
      ∀ c rail, s.prepare_count c ≠ 0 → (demo_cfg c).vdd_class = some rail →
        0 ≤ find_vdd_level (demo_cfg c).fmax (s.rate c) ∧
        find_vdd_level (demo_cfg c).fmax (s.rate c) < ((s.vdd rail).num_levels : Int) ∧
        (∀ cs : List Nat, cs.Nodup →
          (∀ x ∈ cs, s.prepare_count x ≠ 0 ∧ (demo_cfg x).vdd_class = some rail ∧
            find_vdd_level (demo_cfg x).fmax (s.rate x) =
              find_vdd_level (demo_cfg c).fmax (s.rate c)) →
          cs.length ≤
            (s.vdd rail).level_votes (find_vdd_level (demo_cfg c).fmax (s.rate c))) ∧
        is_resolved_level (s.vdd rail) (s.vdd rail).cur_level ∧
        find_vdd_level (demo_cfg c).fmax (s.rate c) ≤ (s.vdd rail).cur_level :=
  ⟨by decide, rail_adequacy (demo_hooks 0 0 0) demo_cfg (fun c => c) demo_ranked 2 _
    (by decide) (demo_state 5000000) (fun _ => rfl)
    (fun _ => ⟨rfl, (by decide : no_votes (rail_of [0, 0] 0))⟩)⟩

/-! ## Theorems: ancestor liveness over call sequences -/

theorem bump_ref_apply (d : Nat → Nat) (r : clk_ref) (x : Nat) :
    bump_ref d r x = d x + (if r = .ptr x then 1 else 0) := by
  cases r with
  | null => simp [bump_ref]
  | err e => simp [bump_ref]
  | ptr c =>
    simp only [bump_ref, clk_ref.ptr.injEq]
    by_cases hx : x = c
    · subst hx; simp
    · rw [if_neg hx, if_neg (fun e => hx e.symm)]; rfl

/-- The value of `drop_ref` at a clock. -/
theorem drop_ref_apply (d : Nat → Nat) (r : clk_ref) (x : Nat) :
    drop_ref d r x = d x - (if r = .ptr x then 1 else 0) := by
  cases r with
  | null => simp [drop_ref]
  | err e => simp [drop_ref]
  | ptr c =>
    simp only [drop_ref, clk_ref.ptr.injEq]
    by_cases hx : x = c
    · subst hx; simp
    · rw [if_neg hx, if_neg (fun e => hx e.symm)]; rfl

/-- Dropping the enable that was just added gives the bookkeeping back. -/
theorem drop_bump_ref (d : Nat → Nat) (r : clk_ref) : drop_ref (bump_ref d r) r = d := by
  funext x
  rw [drop_ref_apply, bump_ref_apply]
  split <;> omega

/-- Taking an active clock out of the active set shortens the list of active clocks
that name `x` by one exactly when the clock names `x`. -/
theorem link_list_remove (A : Nat → Prop) (f : Nat → clk_ref) (x c : Nat) (ps : List Nat)
    (hnd : ps.Nodup) (hmem : ∀ y, y ∈ ps ↔ A y ∧ f y = .ptr x) (hc : A c) :
    ∃ qs : List Nat, qs.Nodup ∧ (∀ y, y ∈ qs ↔ (A y ∧ y ≠ c) ∧ f y = .ptr x) ∧
      ps.length = qs.length + (if f c = .ptr x then 1 else 0) := by
  by_cases hf : f c = .ptr x
  · have hcm : c ∈ ps := (hmem c).mpr ⟨hc, hf⟩
    refine ⟨ps.erase c, hnd.erase c, ?_, ?_⟩
    · intro y
      rw [hnd.mem_erase_iff, hmem]
      constructor
      · rintro ⟨h1, h2, h3⟩
        exact ⟨⟨h2, h1⟩, h3⟩
      · rintro ⟨⟨h2, h1⟩, h3⟩
        exact ⟨h1, h2, h3⟩
    · rw [if_pos hf, List.length_erase_of_mem hcm]
      have := List.length_pos_of_mem hcm
      omega
  · refine ⟨ps, hnd, ?_, by rw [if_neg hf]; rfl⟩
    intro y
    rw [hmem]
    constructor
    · rintro ⟨h2, h3⟩
      refine ⟨⟨h2, ?_⟩, h3⟩
      intro e
      subst e
      exact hf h3
    · rintro ⟨⟨h2, _⟩, h3⟩
      exact ⟨h2, h3⟩

/-- Adding an inactive clock to the active set lengthens the list of active clocks that
name `x` by one exactly when the clock names `x`. -/
theorem link_list_add (A : Nat → Prop) (f : Nat → clk_ref) (x c : Nat) (ps : List Nat)
    (hnd : ps.Nodup) (hmem : ∀ y, y ∈ ps ↔ A y ∧ f y = .ptr x) (hc : ¬ A c) :
    ∃ qs : List Nat, qs.Nodup ∧ (∀ y, y ∈ qs ↔ (A y ∨ y = c) ∧ f y = .ptr x) ∧
      qs.length = ps.length + (if f c = .ptr x then 1 else 0) := by
  have hcm : c ∉ ps := fun hm => hc ((hmem c).mp hm).1
  by_cases hf : f c = .ptr x
  · refine ⟨c :: ps, List.nodup_cons.mpr ⟨hcm, hnd⟩, ?_, by rw [if_pos hf]; rfl⟩
    intro y
    rw [List.mem_cons, hmem]
    constructor
    · rintro (h1 | ⟨h2, h3⟩)
      · subst h1
        exact ⟨Or.inr rfl, hf⟩
      · exact ⟨Or.inl h2, h3⟩
    · rintro ⟨h1 | h1, h3⟩
      · exact Or.inr ⟨h1, h3⟩
      · exact Or.inl h1
  · refine ⟨ps, hnd, ?_, by rw [if_neg hf]; rfl⟩
    intro y
    rw [hmem]
    constructor
    · rintro ⟨h2, h3⟩
      exact ⟨Or.inl h2, h3⟩
    · rintro ⟨h1 | h1, h3⟩
      · exact ⟨h1, h3⟩
      · subst h1
        exact absurd h3 hf

/-- The count equation is kept when the active set stays the same and count and direct
enables change together. -/
theorem counted_links_congr (cfg : Nat → clk) (A A2 : Nat → Prop) (cnt cnt2 d d2 : Nat → Nat)
    (hA : ∀ y, A2 y ↔ A y) (hbal : ∀ x, cnt2 x + d x = cnt x + d2 x)
    (h : counted_links cfg A cnt d) : counted_links cfg A2 cnt2 d2 := by
  intro x
  obtain ⟨ps, ds, p1, p2, p3, p4, p5⟩ := h x
  refine ⟨ps, ds, p1, ?_, p3, ?_, ?_⟩
  · intro y
    rw [p2, hA]
  · intro y
    rw [p4, hA]
  · have := hbal x
    omega

/-- A clock that stops being counted as active hands its references back to its parent
and its dependency as direct enables. -/
theorem counted_links_remove (cfg : Nat → clk) (A : Nat → Prop) (cnt d : Nat → Nat) (c : Nat)
    (h : counted_links cfg A cnt d) (hc : A c) :
    counted_links cfg (fun y => A y ∧ y ≠ c) cnt
      (bump_ref (bump_ref d (clk_get_parent cfg (.ptr c))) (cfg c).depends) := by
  intro x
  obtain ⟨ps, ds, p1, p2, p3, p4, p5⟩ := h x
  obtain ⟨qs, q1, q2, q3⟩ := link_list_remove A (fun y => clk_get_parent cfg (.ptr y)) x c ps
    p1 p2 hc
  obtain ⟨es, e1, e2, e3⟩ := link_list_remove A (fun y => (cfg y).depends) x c ds p3 p4 hc
  refine ⟨qs, es, q1, q2, e1, e2, ?_⟩
  rw [bump_ref_apply, bump_ref_apply]
  omega

/-- A clock that becomes active turns one direct enable of its parent and one of its
dependency into its own references. -/
theorem counted_links_add (cfg : Nat → clk) (A : Nat → Prop) (cnt d : Nat → Nat) (c : Nat)
    (h : counted_links cfg A cnt
      (bump_ref (bump_ref d (clk_get_parent cfg (.ptr c))) (cfg c).depends))
    (hc : ¬ A c) :
    counted_links cfg (fun y => A y ∨ y = c) cnt d := by
  intro x
  obtain ⟨ps, ds, p1, p2, p3, p4, p5⟩ := h x
  obtain ⟨qs, q1, q2, q3⟩ := link_list_add A (fun y => clk_get_parent cfg (.ptr y)) x c ps
    p1 p2 hc
  obtain ⟨es, e1, e2, e3⟩ := link_list_add A (fun y => (cfg y).depends) x c ds p3 p4 hc
  refine ⟨qs, es, q1, q2, e1, e2, ?_⟩
  rw [bump_ref_apply, bump_ref_apply] at p5
  omega
/-- A `clk_disable` on a clock with an outstanding direct enable keeps the count
equation, with one direct enable less; `X` holds the clocks above that are in the middle
of their own last disable. -/
theorem counted_links_disable (cfg : Nat → clk) (h : Nat → Nat) (hr : ranked cfg h) :
    ∀ fuel (s : clk_state) r (X : List Nat) d t, rank h r ≤ fuel → (∀ x ∈ X, rank h r ≤ h x) →
      counted_links cfg (fun y => s.count y ≠ 0 ∧ y ∉ X) s.count d →
      (∀ c, r = .ptr c → d c ≠ 0) → clk_disable cfg fuel s r = some t →
      counted_links cfg (fun y => t.count y ≠ 0 ∧ y ∉ X) t.count (drop_ref d r) := by
  have hnull : ∀ fuel (s : clk_state) (X : List Nat) d t,
      counted_links cfg (fun y => s.count y ≠ 0 ∧ y ∉ X) s.count d →
      clk_disable cfg fuel s .null = some t →
      counted_links cfg (fun y => t.count y ≠ 0 ∧ y ∉ X) t.count (drop_ref d .null) := by
    intro fuel s X d t ha ht
    have e : clk_disable cfg fuel s .null = some s := by cases fuel <;> rfl
    rw [e] at ht
    cases ht
    exact ha
  have herr : ∀ fuel (s : clk_state) (X : List Nat) d t e,
      counted_links cfg (fun y => s.count y ≠ 0 ∧ y ∉ X) s.count d →
      clk_disable cfg fuel s (.err e) = some t →
      counted_links cfg (fun y => t.count y ≠ 0 ∧ y ∉ X) t.count (drop_ref d (.err e)) := by
    intro fuel s X d t e ha ht
    have e : clk_disable cfg fuel s (.err e) = none := by cases fuel <;> rfl
    rw [e] at ht
    cases ht
  intro fuel
  induction fuel with
  | zero =>
    intro s r X d t hf hX ha hd ht
    cases r with
    | null => exact hnull 0 s X d t ha ht
    | err e => exact herr 0 s X d t e ha ht
    | ptr c => simp [rank] at hf
  | succ fuel ih =>
    intro s r X d t hf hX ha hd ht
    cases r with
    | null => exact hnull _ s X d t ha ht
    | err e => exact herr _ s X d t e ha ht
    | ptr c =>
      have hcX : c ∉ X := by
        intro hc
        have := hX c hc
        simp only [rank] at this
        omega
      have hrd : rank h (cfg c).depends ≤ h c := (hr c).2
      have hrp : rank h (clk_get_parent cfg (.ptr c)) ≤ h c := (hr c).1
      have hfc : h c + 1 ≤ fuel + 1 := hf
      have hdc : d c ≠ 0 := hd c rfl
      have hcnt : s.count c ≠ 0 := by
        obtain ⟨ps, ds, _, _, _, _, p5⟩ := ha c
        omega
      unfold clk_disable at ht
      dsimp only at ht
      simp only [add_log_count] at ht
      rw [if_neg hcnt] at ht
      by_cases c1 : s.count c = 1
      · rw [if_pos c1] at ht
        generalize hs1 : add_log (add_log s (log_if (s.prepare_count c = 0)
          (event.warn_unprepared c))) (log_if ((cfg c).ops.disable = true) (event.disable c))
          = s1 at ht
        have s1c : s1.count = s.count := by rw [← hs1]; rfl
        have ha1 : counted_links cfg (fun y => s1.count y ≠ 0 ∧ y ∉ c :: X) s1.count
            (bump_ref (bump_ref d (clk_get_parent cfg (.ptr c))) (cfg c).depends) := by
          refine counted_links_congr cfg _ _ s.count _ _ _ ?_ ?_
            (counted_links_remove cfg _ s.count d c ha ⟨hcnt, hcX⟩)
          · intro y
            rw [s1c]
            simp only [List.mem_cons, not_or]
            constructor
            · rintro ⟨q1, q2, q3⟩
              exact ⟨⟨q1, q3⟩, q2⟩
            · rintro ⟨⟨q1, q3⟩, q2⟩
              exact ⟨q1, q2, q3⟩
          · intro x
            rw [s1c]
        have hXd : ∀ x ∈ c :: X, rank h (cfg c).depends ≤ h x := by
          intro x hx
          rcases List.mem_cons.mp hx with hx | hx
          · subst hx; exact hrd
          · have := hX x hx
            simp only [rank] at this
            omega
        have hXp : ∀ x ∈ c :: X, rank h (clk_get_parent cfg (.ptr c)) ≤ h x := by
          intro x hx
          rcases List.mem_cons.mp hx with hx | hx
          · subst hx; exact hrp
          · have := hX x hx
            simp only [rank] at this
            omega
        obtain ⟨s2, e2⟩ : ∃ zz, clk_disable cfg fuel s1 (cfg c).depends = some zz := by
          cases hq : clk_disable cfg fuel s1 (cfg c).depends with
          | none => simp [hq] at ht
          | some zz => exact ⟨zz, rfl⟩
        obtain ⟨_, _, _, f2⟩ := clk_disable_frame cfg h hr fuel s1 (cfg c).depends s2 e2
        rw [e2] at ht
        dsimp only at ht
        have ha2 := ih s1 _ (c :: X) _ s2 (by omega) hXd ha1 (by
          intro x hx
          rw [bump_ref_apply, if_pos hx]
          omega) e2
        rw [drop_bump_ref] at ha2
        obtain ⟨s3, e3⟩ : ∃ zz, clk_disable cfg fuel s2 (clk_get_parent cfg (.ptr c)) = some zz := by
          cases hq : clk_disable cfg fuel s2 (clk_get_parent cfg (.ptr c)) with
          | none => simp [hq] at ht
          | some zz => exact ⟨zz, rfl⟩
        obtain ⟨_, _, _, f3⟩ := clk_disable_frame cfg h hr fuel s2 (clk_get_parent cfg (.ptr c)) s3 e3
        rw [e3] at ht
        dsimp only at ht
        have ha3 := ih s2 _ (c :: X) _ s3 (by omega) hXp ha2 (by
          intro x hx
          rw [bump_ref_apply, if_pos hx]
          omega) e3
        rw [drop_bump_ref] at ha3
        cases ht
        have c3 : s3.count c = 1 := by
          rw [f3 c hrp, f2 c hrd, s1c, c1]
        refine counted_links_congr cfg _ _ s3.count _ d _ ?_ ?_ ha3
        · intro y
          by_cases hy : y = c
          · subst hy
            simp [c3]
          · simp [hy]
        · intro x
          rw [drop_ref_apply]
          by_cases hx : x = c
          · subst hx
            rw [if_pos rfl]
            simp only [set_count_count, if_true, c3]
            omega
          · rw [if_neg (fun e => hx (clk_ref.ptr.inj e).symm)]
            simp only [set_count_count, if_neg hx]
            omega
      · rw [if_neg c1] at ht
        cases ht
        refine counted_links_congr cfg _ _ s.count _ d _ ?_ ?_ ha
        · intro y
          by_cases hy : y = c
          · subst hy
            simp only [set_count_count, add_log_count, if_true]
            constructor
            · rintro ⟨_, q2⟩
              exact ⟨hcnt, q2⟩
            · rintro ⟨_, q2⟩
              exact ⟨by omega, q2⟩
          · simp [hy]
        · intro x
          rw [drop_ref_apply]
          by_cases hx : x = c
          · subst hx
            rw [if_pos rfl]
            simp only [set_count_count, add_log_count, if_true]
            omega
          · rw [if_neg (fun e => hx (clk_ref.ptr.inj e).symm)]
            simp only [set_count_count, add_log_count, if_neg hx]
            omega
/-- The same for a call from outside, with no clock in the middle of a disable. -/
theorem counted_links_disable_top (cfg : Nat → clk) (h : Nat → Nat) (hr : ranked cfg h)
    (fuel : Nat) (s : clk_state) (r : clk_ref) (d : Nat → Nat) (t : clk_state)
    (hf : rank h r ≤ fuel) (ha : counted_links cfg (fun y => s.count y ≠ 0) s.count d)
    (hd : ∀ c, r = .ptr c → d c ≠ 0) (ht : clk_disable cfg fuel s r = some t) :
    counted_links cfg (fun y => t.count y ≠ 0) t.count (drop_ref d r) := by
  have h1 : counted_links cfg (fun y => s.count y ≠ 0 ∧ y ∉ ([] : List Nat)) s.count d :=
    counted_links_congr cfg _ _ s.count _ d _ (fun y => by simp) (fun _ => rfl) ha
  have h2 := counted_links_disable cfg h hr fuel s r [] d t hf
    (fun _ hx => absurd hx (List.not_mem_nil _)) h1 hd ht
  exact counted_links_congr cfg _ _ t.count _ _ _ (fun y => by simp) (fun _ => rfl) h2

/-- Every outcome of `clk_enable` keeps the count equation; a successful call adds one
direct enable. -/
theorem counted_links_enable (hw : hooks) (cfg : Nat → clk) (h : Nat → Nat)
    (hr : ranked cfg h) :
    ∀ fuel (s : clk_state) r d rc t, rank h r ≤ fuel →
      counted_links cfg (fun y => s.count y ≠ 0) s.count d →
      clk_enable hw cfg fuel s r = some (rc, t) →
      counted_links cfg (fun y => t.count y ≠ 0) t.count
        (if rc = 0 then bump_ref d r else d) := by
  have hnull : ∀ fuel (s : clk_state) d rc t,
      counted_links cfg (fun y => s.count y ≠ 0) s.count d →
      clk_enable hw cfg fuel s .null = some (rc, t) →
      counted_links cfg (fun y => t.count y ≠ 0) t.count
        (if rc = 0 then bump_ref d .null else d) := by
    intro fuel s d rc t ha ht
    have e : clk_enable hw cfg fuel s .null = some (0, s) := by cases fuel <;> rfl
    rw [e] at ht
    cases ht
    exact ha
  have herr : ∀ fuel (s : clk_state) d rc t e,
      counted_links cfg (fun y => s.count y ≠ 0) s.count d →
      clk_enable hw cfg fuel s (.err e) = some (rc, t) →
      counted_links cfg (fun y => t.count y ≠ 0) t.count
        (if rc = 0 then bump_ref d (.err e) else d) := by
    intro fuel s d rc t e ha ht
    have e : clk_enable hw cfg fuel s (.err e) = none := by cases fuel <;> rfl
    rw [e] at ht
    cases ht
  intro fuel
  induction fuel with
  | zero =>
    intro s r d rc t hf ha ht
    cases r with
    | null => exact hnull 0 s d rc t ha ht
    | err e => exact herr 0 s d rc t e ha ht
    | ptr c => simp [rank] at hf
  | succ fuel ih =>
    intro s r d rc t hf ha ht
    cases r with
    | null => exact hnull _ s d rc t ha ht
    | err e => exact herr _ s d rc t e ha ht
    | ptr c =>
      have hrd : rank h (cfg c).depends ≤ h c := (hr c).2
      have hrp : rank h (clk_get_parent cfg (.ptr c)) ≤ h c := (hr c).1
      have hfc : h c + 1 ≤ fuel + 1 := hf
      have hD := counted_links_disable_top cfg h hr fuel
      unfold clk_enable at ht
      dsimp only at ht
      simp only [add_log_count] at ht
      generalize hs0 : add_log s (log_if (s.prepare_count c = 0) (event.warn_unprepared c))
        = s0 at ht
      have s0c : s0.count = s.count := by rw [← hs0]; rfl
      have ha0 : counted_links cfg (fun y => s0.count y ≠ 0) s0.count d := by
        rw [s0c]; exact ha
      by_cases c0 : s.count c = 0
      · rw [if_pos c0] at ht
        obtain ⟨ret1, s1, e1⟩ : ∃ zr zz, clk_enable hw cfg fuel s0 (clk_get_parent cfg (.ptr c)) = some (zr, zz) := by
          cases hq : clk_enable hw cfg fuel s0 (clk_get_parent cfg (.ptr c)) with
          | none => simp [hq] at ht
          | some zp => exact ⟨zp.1, zp.2, rfl⟩
        obtain ⟨_, _, _, f1, _⟩ := clk_enable_spec hw cfg h hr fuel s0 (clk_get_parent cfg (.ptr c)) ret1 s1 e1
        rw [e1] at ht
        dsimp only at ht
        have ha1 := ih s0 _ d ret1 s1 (by omega) ha0 e1
        by_cases r1 : ret1 ≠ 0
        · rw [if_pos r1] at ht
          cases ht
          rw [if_neg r1] at ha1 ⊢
          exact ha1
        rw [if_neg r1] at ht
        rw [if_pos (not_not.mp r1)] at ha1
        obtain ⟨ret2, s2, e2⟩ : ∃ zr zz, clk_enable hw cfg fuel s1 (cfg c).depends = some (zr, zz) := by
          cases hq : clk_enable hw cfg fuel s1 (cfg c).depends with
          | none => simp [hq] at ht
          | some zp => exact ⟨zp.1, zp.2, rfl⟩
        obtain ⟨_, _, _, f2, _⟩ := clk_enable_spec hw cfg h hr fuel s1 (cfg c).depends ret2 s2 e2
        rw [e2] at ht
        dsimp only at ht
        have ha2 := ih s1 _ _ ret2 s2 (by omega) ha1 e2
        have hbp : ∀ (u u2 : clk_state),
            counted_links cfg (fun y => u.count y ≠ 0) u.count
              (bump_ref d (clk_get_parent cfg (.ptr c))) →
            clk_disable cfg fuel u (clk_get_parent cfg (.ptr c)) = some u2 →
            counted_links cfg (fun y => u2.count y ≠ 0) u2.count d := by
          intro u u2 hu hu2
          have := hD u _ _ u2 (by omega) hu (by
            intro x hx
            rw [bump_ref_apply, if_pos hx]
            omega) hu2
          rw [drop_bump_ref] at this
          exact this
        by_cases r2 : ret2 ≠ 0
        · rw [if_pos r2] at ht
          rw [if_neg r2] at ha2
          unfold err_enable_depends at ht
          obtain ⟨u2, d2⟩ : ∃ zz, clk_disable cfg fuel s2 (clk_get_parent cfg (.ptr c)) = some zz := by
            cases hq : clk_disable cfg fuel s2 (clk_get_parent cfg (.ptr c)) with
            | none => simp [hq] at ht
            | some zz => exact ⟨zz, rfl⟩
          rw [d2] at ht
          dsimp only at ht
          cases ht
          rw [if_neg r2]
          exact hbp s2 _ ha2 d2
        rw [if_neg r2] at ht
        rw [if_pos (not_not.mp r2)] at ha2
        have c2 : s2.count c = 0 := by
          rw [f2 c hrd, f1 c hrp, s0c, c0]
        generalize (if (cfg c).ops.enable = true then hw.enable s2.log c else ret2) = ret3 at ht
        generalize hs3 : add_log s2 (log_if ((cfg c).ops.enable = true)
          (event.enable c ret3)) = s3 at ht
        have s3c : s3.count = s2.count := by rw [← hs3]; rfl
        have ha3 : counted_links cfg (fun y => s3.count y ≠ 0) s3.count
            (bump_ref (bump_ref d (clk_get_parent cfg (.ptr c))) (cfg c).depends) := by
          rw [s3c]; exact ha2
        by_cases r3 : ret3 ≠ 0
        · rw [if_pos r3] at ht
          unfold err_enable_clock at ht
          obtain ⟨u1, d1⟩ : ∃ zz, clk_disable cfg fuel s3 (cfg c).depends = some zz := by
            cases hq : clk_disable cfg fuel s3 (cfg c).depends with
            | none => simp [hq] at ht
            | some zz => exact ⟨zz, rfl⟩
          rw [d1] at ht
          dsimp only at ht
          have hu1 := hD s3 _ _ u1 (by omega) ha3 (by
            intro x hx
            rw [bump_ref_apply, if_pos hx]
            omega) d1
          rw [drop_bump_ref] at hu1
          unfold err_enable_depends at ht
          obtain ⟨u2, d2⟩ : ∃ zz, clk_disable cfg fuel u1 (clk_get_parent cfg (.ptr c)) = some zz := by
            cases hq : clk_disable cfg fuel u1 (clk_get_parent cfg (.ptr c)) with
            | none => simp [hq] at ht
            | some zz => exact ⟨zz, rfl⟩
          rw [d2] at ht
          dsimp only at ht
          cases ht
          rw [if_neg r3]
          exact hbp u1 _ hu1 d2
        · rw [if_neg r3] at ht
          cases ht
          rw [if_pos rfl]
          have hadd := counted_links_add cfg _ s3.count d c ha3 (by
            rw [s3c]
            exact fun hc => hc c2)
          refine counted_links_congr cfg _ _ s3.count _ d _ ?_ ?_ hadd
          · intro y
            by_cases hy : y = c
            · subst hy
              simp
            · simp [hy]
          · intro x
            rw [bump_ref_apply]
            by_cases hx : x = c
            · subst hx
              rw [if_pos rfl]
              simp only [set_count_count, if_true, s3c]
              omega
            · rw [if_neg (fun e => hx (clk_ref.ptr.inj e).symm)]
              simp only [set_count_count, if_neg hx]
              omega
      · rw [if_neg c0] at ht
        cases ht
        rw [if_pos rfl]
        refine counted_links_congr cfg _ _ s.count _ d _ ?_ ?_ ha
        · intro y
          by_cases hy : y = c
          · subst hy
            simp [c0]
          · simp [hy, s0c]
        · intro x
          rw [bump_ref_apply]
          by_cases hx : x = c
          · subst hx
            rw [if_pos rfl]
            simp only [set_count_count, s0c, if_true]
            omega
          · rw [if_neg (fun e => hx (clk_ref.ptr.inj e).symm)]
            simp only [set_count_count, s0c, if_neg hx]
            omega
/-- One client call, when it returns, keeps the count equation. -/
theorem run_enable_call_links (hw : hooks) (cfg : Nat → clk) (h : Nat → Nat)
    (hr : ranked cfg h) (fuel : Nat) (st : client_state) (k : enable_call)
    (hf : h (enable_call_clock k) < fuel)
    (ha : counted_links cfg (fun y => st.clk.count y ≠ 0) st.clk.count st.direct)
    (hk : ∀ c, k = .disable c → st.direct c ≠ 0)
    (st1 : client_state) (he : run_enable_call hw cfg fuel st k = some st1) :
    counted_links cfg (fun y => st1.clk.count y ≠ 0) st1.clk.count st1.direct := by
  cases k with
  | enable c =>
    cases e : clk_enable hw cfg fuel st.clk (.ptr c) with
    | none => simp [run_enable_call, e] at he
    | some p =>
      obtain ⟨rc, s1⟩ := p
      simp only [run_enable_call, e, Option.some.injEq] at he
      subst he
      exact counted_links_enable hw cfg h hr fuel st.clk (.ptr c) st.direct rc s1 hf ha e
  | disable c =>
    cases e : clk_disable cfg fuel st.clk (.ptr c) with
    | none => simp [run_enable_call, e] at he
    | some s1 =>
      simp only [run_enable_call, e, Option.some.injEq] at he
      subst he
      refine counted_links_disable_top cfg h hr fuel st.clk (.ptr c) st.direct s1 hf ha ?_ e
      intro x hx
      cases hx
      exact hk c rfl

/-- On a tree without error pointers one client call on a clock covered by the depth
bound returns. -/
theorem run_enable_call_returns (hw : hooks) (cfg : Nat → clk) (h : Nat → Nat)
    (hr : ranked cfg h) (hne : no_error_pointers cfg) (fuel : Nat) (st : client_state)
    (k : enable_call) (hf : h (enable_call_clock k) < fuel) :
    ∃ st1, run_enable_call hw cfg fuel st k = some st1 := by
  cases k with
  | enable c =>
    obtain ⟨rc, s1, e, _⟩ := clk_enable_returns hw cfg h hr hne fuel st.clk (.ptr c)
      (fun _ => clk_ref.noConfusion) hf
    exact ⟨{ clk := s1, direct := if rc = 0 then bump_ref st.direct (.ptr c) else st.direct },
      by simp only [run_enable_call, e]⟩
  | disable c =>
    obtain ⟨s1, e, _⟩ := clk_disable_returns cfg h hr hne fuel st.clk (.ptr c)
      (fun _ => clk_ref.noConfusion) hf
    exact ⟨{ clk := s1, direct := drop_ref st.direct (.ptr c) },
      by simp only [run_enable_call, e]⟩

/-- A balanced sequence of client calls, when it runs to the end, keeps the count
equation. -/
theorem run_enable_calls_links (hw : hooks) (cfg : Nat → clk) (h : Nat → Nat)
    (hr : ranked cfg h) (fuel : Nat) (calls : List enable_call) :
    ∀ st, (∀ k ∈ calls, h (enable_call_clock k) < fuel) →
      counted_links cfg (fun y => st.clk.count y ≠ 0) st.clk.count st.direct →
      balanced hw cfg fuel calls st = true →
      ∀ st1, run_enable_calls hw cfg fuel calls st = some st1 →
        counted_links cfg (fun y => st1.clk.count y ≠ 0) st1.clk.count st1.direct := by
  induction calls with
  | nil =>
    intro st _ ha _ st1 e
    simp only [run_enable_calls, Option.some.injEq] at e
    subst e
    exact ha
  | cons k ks ih =>
    intro st hf ha hb st1 e
    simp only [balanced, Bool.and_eq_true] at hb
    obtain ⟨hb1, hb2⟩ := hb
    cases e1 : run_enable_call hw cfg fuel st k with
    | none => simp [run_enable_calls, e1] at e
    | some st2 =>
      simp only [run_enable_calls, e1] at e
      have a1 := run_enable_call_links hw cfg h hr fuel st k
        (hf k (List.mem_cons_self _ _)) ha (by
          intro c hc
          subst hc
          simpa using hb1) st2 e1
      rw [e1] at hb2
      exact ih st2 (fun j hj => hf j (List.mem_cons_of_mem _ hj)) a1 hb2 st1 e

/-- On a tree without error pointers every sequence of client calls on clocks covered
by the depth bound runs to the end. -/
theorem run_enable_calls_returns (hw : hooks) (cfg : Nat → clk) (h : Nat → Nat)
    (hr : ranked cfg h) (hne : no_error_pointers cfg) (fuel : Nat) (calls : List enable_call) :
    ∀ st, (∀ k ∈ calls, h (enable_call_clock k) < fuel) →
      ∃ st1, run_enable_calls hw cfg fuel calls st = some st1 := by
  induction calls with
  | nil =>
    intro st _
    exact ⟨st, rfl⟩
  | cons k ks ih =>
    intro st hf
    obtain ⟨st2, e1⟩ := run_enable_call_returns hw cfg h hr hne fuel st k
      (hf k (List.mem_cons_self _ _))
    obtain ⟨t, e2⟩ := ih st2 (fun j hj => hf j (List.mem_cons_of_mem _ hj))
    exact ⟨t, by simp only [run_enable_calls, e1]; exact e2⟩

/-- C29: ancestor liveness.  With parent and dependency links that are fixed and
acyclic, from a state with every enable count zero and no outstanding client enable,
every sequence of client `clk_enable` and `clk_disable` calls in which no call disables
a clock without an outstanding direct enable ends in a state in which every clock's
enable count equals its number of outstanding direct client enables plus the number of
clocks with a non-zero enable count that name it as parent plus the number that name it
as dependency; hence a clock with a non-zero enable count has a parent and a dependency
(when present) with a non-zero enable count.  On a tree without error pointers the
sequence runs to the end. -/
theorem ancestor_liveness (hw : hooks) (cfg : Nat → clk) (h : Nat → Nat) (hr : ranked cfg h)
    (fuel : Nat) (calls : List enable_call)
    (hf : ∀ k ∈ calls, h (enable_call_clock k) < fuel) (s0 : clk_state)
    (hzero : ∀ x, s0.count x = 0)
    (hbal : balanced hw cfg fuel calls { clk := s0, direct := fun _ => 0 } = true) :
    (no_error_pointers cfg →
      ∃ st, run_enable_calls hw cfg fuel calls { clk := s0, direct := fun _ => 0 } = some st) ∧
    ∀ st, run_enable_calls hw cfg fuel calls { clk := s0, direct := fun _ => 0 } = some st →
      counted_links cfg (fun y => st.clk.count y ≠ 0) st.clk.count st.direct ∧
      ∀ c, st.clk.count c ≠ 0 →
        (∀ p, clk_get_parent cfg (.ptr c) = .ptr p → st.clk.count p ≠ 0) ∧
        (∀ d, (cfg c).depends = .ptr d → st.clk.count d ≠ 0) := by
  have h0 : counted_links cfg (fun y => s0.count y ≠ 0) s0.count (fun _ => 0) := by
    intro x
    refine ⟨[], [], List.nodup_nil, ?_, List.nodup_nil, ?_, ?_⟩
    · intro y
      simp [hzero y]
    · intro y
      simp [hzero y]
    · simp [hzero x]
  refine ⟨fun hne => run_enable_calls_returns hw cfg h hr hne fuel calls _ hf, ?_⟩
  intro st e
  have a := run_enable_calls_links hw cfg h hr fuel calls
    { clk := s0, direct := fun _ => 0 } hf h0 hbal st e
  refine ⟨a, ?_⟩
  intro c hc
  constructor
  · intro p hp
    obtain ⟨ps, ds, _, p2, _, _, p5⟩ := a p
    have := List.length_pos_of_mem ((p2 c).mpr ⟨hc, hp⟩)
    omega
  · intro d hd
    obtain ⟨ps, ds, _, _, _, p4, p5⟩ := a d
    have := List.length_pos_of_mem ((p4 c).mpr ⟨hc, hd⟩)
    omega

/-- Witness of C29: on the example tree, clients enable the child, enable the root and
disable the child; the run ends with one outstanding direct enable of the root. -/
theorem ancestor_liveness_witness :
    (run_enable_calls (demo_hooks 0 0 0) demo_cfg 2
        [enable_call.enable 1, enable_call.enable 0, enable_call.disable 1]
        { clk := demo_state 0, direct := fun _ => 0 }).map
      (fun st => (st.clk.count 0, st.clk.count 1, st.direct 0, st.direct 1))
      = some (1, 0, 1, 0) ∧
    (∃ st, run_enable_calls (demo_hooks 0 0 0) demo_cfg 2
        [enable_call.enable 1, enable_call.enable 0, enable_call.disable 1]
        { clk := demo_state 0, direct := fun _ => 0 } = some st) ∧
    ∀ st, run_enable_calls (demo_hooks 0 0 0) demo_cfg 2
        [enable_call.enable 1, enable_call.enable 0, enable_call.disable 1]
        { clk := demo_state 0, direct := fun _ => 0 } = some st →
      counted_links demo_cfg (fun y => st.clk.count y ≠ 0) st.clk.count st.direct ∧
      ∀ c, st.clk.count c ≠ 0 →
        (∀ p, clk_get_parent demo_cfg (.ptr c) = .ptr p → st.clk.count p ≠ 0) ∧
        (∀ d, (demo_cfg c).depends = .ptr d → st.clk.count d ≠ 0) :=
  ⟨by decide,
    (ancestor_liveness (demo_hooks 0 0 0) demo_cfg (fun c => c) demo_ranked 2 _
      (by decide) (demo_state 0) (fun _ => rfl) (by decide)).1 demo_no_error_pointers,
    (ancestor_liveness (demo_hooks 0 0 0) demo_cfg (fun c => c) demo_ranked 2 _
      (by decide) (demo_state 0) (fun _ => rfl) (by decide)).2⟩
/-! ## Theorems: order of hook calls -/

theorem nest_ranked (link : Bool) : ranked (nest_cfg link) (fun c => c) := by
  intro c
  by_cases h2 : c = 2
  · subst h2
    cases link <;> decide
  · by_cases h1 : c = 1
    · subst h1
      cases link <;> decide
    · simp [nest_cfg, clk_get_parent, rank, no_ops, h2, h1]

/-- The example tree with hooks has no error pointers. -/
theorem nest_no_error_pointers (link : Bool) : no_error_pointers (nest_cfg link) := by
  intro c e
  by_cases h2 : c = 2
  · subst h2
    cases link <;> simp [nest_cfg, clk_get_parent, no_ops]
  · by_cases h1 : c = 1
    · subst h1
      cases link <;> simp [nest_cfg, clk_get_parent, no_ops]
    · simp [nest_cfg, clk_get_parent, no_ops, h2, h1]

/-- Two steps of a falling count: the count reaches zero in exactly one of them when it
reaches zero over both. -/
theorem two_step_down (a b c : Nat) (hk : Prop) [Decidable hk] (e : event) (hab : b ≤ a)
    (hbc : c ≤ b) :
    (if a ≠ 0 ∧ b = 0 ∧ hk then [e] else []) ++ (if b ≠ 0 ∧ c = 0 ∧ hk then [e] else []) =
      if a ≠ 0 ∧ c = 0 ∧ hk then [e] else [] := by
  by_cases h1 : hk
  · by_cases ha : a = 0
    · have hb : b = 0 := by omega
      have hc : c = 0 := by omega
      simp [ha, hb, hc]
    · by_cases hb : b = 0
      · have hc : c = 0 := by omega
        simp [ha, hb, hc, h1]
      · by_cases hc : c = 0
        · simp [ha, hb, hc, h1]
        · simp [ha, hb, hc]
  · simp [h1]

/-- Two steps of a rising count: the count leaves zero in exactly one of them when it
leaves zero over both. -/
theorem two_step_up (a b c : Nat) (hk : Prop) [Decidable hk] (e : event) (hab : a ≤ b)
    (hbc : b ≤ c) :
    (if a = 0 ∧ b ≠ 0 ∧ hk then [e] else []) ++ (if b = 0 ∧ c ≠ 0 ∧ hk then [e] else []) =
      if a = 0 ∧ c ≠ 0 ∧ hk then [e] else [] := by
  by_cases h1 : hk
  · by_cases hc : c = 0
    · have hb : b = 0 := by omega
      have ha : a = 0 := by omega
      simp [ha, hb, hc]
    · by_cases hb : b = 0
      · have ha : a = 0 := by omega
        simp [ha, hb, hc, h1]
      · by_cases ha : a = 0
        · simp [ha, hb, hc, h1]
        · simp [ha, hb, hc]
  · simp [h1]

/-- An optional event that is no hook call of `x` contributes nothing. -/
theorem filter_hook_warn (x : Nat) (p : Prop) [Decidable p] (e : event)
    (he : is_hook_of x e = false) : (log_if p e).filter (is_hook_of x) = [] := by
  unfold log_if
  split
  · simp [he]
  · rfl

/-- An optional hook call of `x` is kept. -/
theorem filter_hook_own (x : Nat) (p : Prop) [Decidable p] (e : event)
    (he : is_hook_of x e = true) : (log_if p e).filter (is_hook_of x) = if p then [e] else [] := by
  unfold log_if
  split
  · simp [he]
  · rfl
/-- Arbiter events are no hook calls. -/
theorem filter_hook_rail (x : Nat) (es : List event)
    (h : ∀ e ∈ es, is_rail_event e = true) : es.filter (is_hook_of x) = [] := by
  rw [List.filter_eq_nil_iff]
  intro e he
  have := h e he
  cases e <;> simp_all [is_rail_event, is_hook_of]

/-- The events of `unvote_rate_vdd` are no hook calls. -/
theorem filter_hook_unvote (hw : hooks) (cfg : Nat → clk) (s : clk_state) (c rate x : Nat) :
    (new_events s (unvote_rate_vdd hw cfg s c rate)).filter (is_hook_of x) = [] :=
  filter_hook_rail x _ (fun e he => (unvote_rate_vdd_rail_events hw cfg s c rate e he).1)

/-- The events of `vote_rate_vdd` are no hook calls. -/
theorem filter_hook_vote (hw : hooks) (cfg : Nat → clk) (s : clk_state) (c rate x : Nat) :
    (new_events s (vote_rate_vdd hw cfg s c rate).2).filter (is_hook_of x) = [] :=
  filter_hook_rail x _ (fun e he => (vote_rate_vdd_rail_events hw cfg s c rate e he).1)

/-- The hook calls of `clk_unprepare`, clock by clock: prepare counts only fall, and the
unprepare hook of `x` is called once exactly when the count of `x` falls to zero. -/
theorem clk_unprepare_hook_events (hw : hooks) (cfg : Nat → clk) (h : Nat → Nat)
    (hr : ranked cfg h) :
    ∀ fuel s r t, rank h r ≤ fuel → clk_unprepare hw cfg fuel s r = some t →
      (∀ x, t.prepare_count x ≤ s.prepare_count x) ∧
      ∀ x, (new_events s t).filter (is_hook_of x) =
        if s.prepare_count x ≠ 0 ∧ t.prepare_count x = 0 ∧ (cfg x).ops.unprepare = true
        then [event.unprepare x] else [] := by
  have hsame : ∀ s : clk_state, (∀ x, s.prepare_count x ≤ s.prepare_count x) ∧
      ∀ x, (new_events s s).filter (is_hook_of x) =
        if s.prepare_count x ≠ 0 ∧ s.prepare_count x = 0 ∧ (cfg x).ops.unprepare = true
        then [event.unprepare x] else [] := by
    intro s
    refine ⟨fun _ => Nat.le_refl _, fun x => ?_⟩
    rw [new_events_self, if_neg (fun hh => hh.1 hh.2.1)]
    rfl
  have hnull : ∀ fuel s t, clk_unprepare hw cfg fuel s .null = some t → t = s := by
    intro fuel s t ht
    have e : clk_unprepare hw cfg fuel s .null = some s := by cases fuel <;> rfl
    rw [e] at ht
    cases ht
    rfl
  have herr : ∀ fuel s t e, clk_unprepare hw cfg fuel s (.err e) = some t → t = s := by
    intro fuel s t e ht
    have e : clk_unprepare hw cfg fuel s (.err e) = none := by cases fuel <;> rfl
    rw [e] at ht
    cases ht
  intro fuel
  induction fuel with
  | zero =>
    intro s r t hf ht
    cases r with
    | null => rw [hnull 0 s t ht]; exact hsame s
    | err e => rw [herr 0 s t e ht]; exact hsame s
    | ptr c => simp [rank] at hf
  | succ fuel ih =>
    intro s r t hf ht
    cases r with
    | null => rw [hnull _ s t ht]; exact hsame s
    | err e => rw [herr _ s t e ht]; exact hsame s
    | ptr c =>
      have hrd : rank h (cfg c).depends ≤ h c := (hr c).2
      have hrp : rank h (clk_get_parent cfg (.ptr c)) ≤ h c := (hr c).1
      have hfc : h c + 1 ≤ fuel + 1 := hf
      unfold clk_unprepare at ht
      by_cases p0 : s.prepare_count c = 0
      · rw [if_pos p0] at ht
        cases ht
        refine ⟨fun _ => Nat.le_refl _, fun x => ?_⟩
        rw [new_events_add_log, if_neg (fun hh => hh.1 hh.2.1)]
        rfl
      rw [if_neg p0] at ht
      by_cases p1 : s.prepare_count c = 1
      · rw [if_pos p1] at ht
        dsimp only at ht
        generalize hs1 : add_log s (log_if (s.count c ≠ 0) (event.warn_enabled c)) = s1 at ht
        generalize hs2 : add_log s1 (log_if ((cfg c).ops.unprepare = true) (event.unprepare c))
          = s2 at ht
        have l1 : log_extends s s1 := by rw [← hs1]; exact log_extends_add_log _ _
        have l2 : log_extends s1 s2 := by rw [← hs2]; exact log_extends_add_log _ _
        have n1 : new_events s s1 = log_if (s.count c ≠ 0) (event.warn_enabled c) := by
          rw [← hs1]; exact new_events_add_log _ _
        have n2 : new_events s1 s2 =
            log_if ((cfg c).ops.unprepare = true) (event.unprepare c) := by
          rw [← hs2]; exact new_events_add_log _ _
        have s2p : s2.prepare_count = s.prepare_count := by rw [← hs2, ← hs1]; rfl
        obtain ⟨_, u3p, _, l3, _⟩ := unvote_rate_vdd_frame hw cfg s2 c (s2.rate c)
        have n3 := fun x => filter_hook_unvote hw cfg s2 c (s2.rate c) x
        generalize unvote_rate_vdd hw cfg s2 c (s2.rate c) = s3 at ht u3p l3 n3
        obtain ⟨s4, e4⟩ : ∃ zz, clk_unprepare hw cfg fuel s3 (cfg c).depends = some zz := by
          cases hq : clk_unprepare hw cfg fuel s3 (cfg c).depends with
          | none => simp [hq] at ht
          | some zz => exact ⟨zz, rfl⟩
        obtain ⟨_, _, l4, f4⟩ := clk_unprepare_frame hw cfg h hr fuel s3 (cfg c).depends s4 e4
        rw [e4] at ht
        dsimp only at ht
        obtain ⟨m4, i4⟩ := ih s3 _ s4 (by omega) e4
        obtain ⟨s5, e5⟩ : ∃ zz, clk_unprepare hw cfg fuel s4 (clk_get_parent cfg (.ptr c)) = some zz := by
          cases hq : clk_unprepare hw cfg fuel s4 (clk_get_parent cfg (.ptr c)) with
          | none => simp [hq] at ht
          | some zz => exact ⟨zz, rfl⟩
        obtain ⟨_, _, l5, f5⟩ := clk_unprepare_frame hw cfg h hr fuel s4 (clk_get_parent cfg (.ptr c)) s5 e5
        rw [e5] at ht
        dsimp only at ht
        obtain ⟨m5, i5⟩ := ih s4 _ s5 (by omega) e5
        cases ht
        have p3 : s3.prepare_count c = 1 := by rw [u3p, s2p, p1]
        have p4 : s4.prepare_count c = 1 := by rw [f4 c hrd, p3]
        have p5 : s5.prepare_count c = 1 := by rw [f5 c hrp, p4]
        have hmono : ∀ x, (set_prepare_count s5 c (s5.prepare_count c - 1)).prepare_count x ≤
            s.prepare_count x := by
          intro x
          have a := m5 x
          have b := m4 x
          rw [u3p, s2p] at b
          simp only [set_prepare_count_prepare_count]
          split
          · next hx => subst hx; omega
          · omega
        refine ⟨hmono, fun x => ?_⟩
        have hsplit : new_events s (set_prepare_count s5 c (s5.prepare_count c - 1)) =
            new_events s s1 ++ new_events s1 s2 ++ new_events s2 s3 ++ new_events s3 s4 ++
              new_events s4 s5 := by
          have e0 : new_events s (set_prepare_count s5 c (s5.prepare_count c - 1)) =
              new_events s s5 := rfl
          rw [e0, new_events_split (log_extends_trans (log_extends_trans (log_extends_trans l1 l2)
            l3) l4) l5, new_events_split (log_extends_trans (log_extends_trans l1 l2) l3) l4,
            new_events_split (log_extends_trans l1 l2) l3, new_events_split l1 l2]
        rw [hsplit]
        simp only [List.filter_append, n3, i4, i5, n1, n2, List.append_nil]
        rw [filter_hook_warn x _ (event.warn_enabled c) rfl, List.nil_append]
        by_cases hx : x = c
        · subst hx
          have n4 : ¬ (s3.prepare_count x ≠ 0 ∧ s4.prepare_count x = 0 ∧
              (cfg x).ops.unprepare = true) := by
            intro hh
            rw [p4] at hh
            exact absurd hh.2.1 (by decide)
          have n5 : ¬ (s4.prepare_count x ≠ 0 ∧ s5.prepare_count x = 0 ∧
              (cfg x).ops.unprepare = true) := by
            intro hh
            rw [p5] at hh
            exact absurd hh.2.1 (by decide)
          rw [filter_hook_own x _ (event.unprepare x) (by simp [is_hook_of]),
            if_neg n4, if_neg n5, List.append_nil, List.append_nil]
          have e5 : (set_prepare_count s5 x (s5.prepare_count x - 1)).prepare_count x = 0 := by
            simp [p5]
          rw [e5]
          by_cases hh : (cfg x).ops.unprepare = true
          · rw [if_pos hh, if_pos ⟨p0, rfl, hh⟩]
          · rw [if_neg hh, if_neg (fun q => hh q.2.2)]
        · rw [filter_hook_warn x _ (event.unprepare c) (by simp [is_hook_of, Ne.symm hx]),
            List.nil_append]
          have e5 : (set_prepare_count s5 c (s5.prepare_count c - 1)).prepare_count x =
              s5.prepare_count x := by
            simp [hx]
          have b := m4 x
          rw [e5, u3p, s2p]
          rw [u3p, s2p] at b
          exact two_step_down _ _ _ _ _ b (m5 x)
      · rw [if_neg p1] at ht
        cases ht
        constructor
        · intro x
          simp only [set_prepare_count_prepare_count]
          split
          · next hx => subst hx; omega
          · exact Nat.le_refl _
        · intro x
          have e0 : new_events s (set_prepare_count s c (s.prepare_count c - 1)) = [] :=
            new_events_self s
          rw [e0]
          rw [if_neg]
          · rfl
          · rintro ⟨q1, q2, _⟩
            simp only [set_prepare_count_prepare_count] at q2
            split at q2
            · next hx => subst hx; omega
            · exact q1 q2
/-- The hook calls of a successful `clk_prepare`, clock by clock: the prepare hook of
`x` is called once, with result 0, exactly when the count of `x` leaves zero. -/
theorem clk_prepare_hook_events (hw : hooks) (cfg : Nat → clk) (h : Nat → Nat)
    (hr : ranked cfg h) :
    ∀ fuel s r t, rank h r ≤ fuel → clk_prepare hw cfg fuel s r = some (0, t) →
      ∀ x, (new_events s t).filter (is_hook_of x) =
        if s.prepare_count x = 0 ∧ t.prepare_count x ≠ 0 ∧ (cfg x).ops.prepare = true
        then [event.prepare x 0] else [] := by
  have hsame : ∀ s : clk_state, ∀ x, (new_events s s).filter (is_hook_of x) =
        if s.prepare_count x = 0 ∧ s.prepare_count x ≠ 0 ∧ (cfg x).ops.prepare = true
        then [event.prepare x 0] else [] := by
    intro s x
    rw [new_events_self, if_neg (fun hh => hh.2.1 hh.1)]
    rfl
  have hnull : ∀ fuel s t, clk_prepare hw cfg fuel s .null = some (0, t) → t = s := by
    intro fuel s t ht
    have e : clk_prepare hw cfg fuel s .null = some (0, s) := by cases fuel <;> rfl
    rw [e] at ht
    cases ht
    rfl
  have herr : ∀ fuel s t e, clk_prepare hw cfg fuel s (.err e) = some (0, t) → False := by
    intro fuel s t e ht
    have e : clk_prepare hw cfg fuel s (.err e) = some (-EINVAL, s) := by cases fuel <;> rfl
    rw [e] at ht
    cases ht
  intro fuel
  induction fuel with
  | zero =>
    intro s r t hf ht
    cases r with
    | null => rw [hnull 0 s t ht]; exact hsame s
    | err e => exact (herr 0 s t e ht).elim
    | ptr c => simp [rank] at hf
  | succ fuel ih =>
    intro s r t hf ht
    cases r with
    | null => rw [hnull _ s t ht]; exact hsame s
    | err e => exact (herr _ s t e ht).elim
    | ptr c =>
      have hrd : rank h (cfg c).depends ≤ h c := (hr c).2
      have hrp : rank h (clk_get_parent cfg (.ptr c)) ≤ h c := (hr c).1
      have hfc : h c + 1 ≤ fuel + 1 := hf
      intro x
      rcases clk_prepare_success_inv hw cfg fuel s t c ht with ⟨p0, e⟩ | ⟨p0, s1, s2, e1, e2, hv, hh, e⟩
      · subst e
        have e0 : new_events s (set_prepare_count s c (s.prepare_count c + 1)) = [] :=
          new_events_self s
        rw [e0, if_neg]
        · rfl
        · rintro ⟨q1, q2, _⟩
          by_cases hx : x = c
          · subst hx; exact p0 q1
          · simp [hx] at q2
            exact q2 q1
      · obtain ⟨_, _, q1, _, _, l1, f1, _⟩ := clk_prepare_spec hw cfg h hr fuel s
          (clk_get_parent cfg (.ptr c)) (by omega)
        rw [e1] at q1
        cases q1
        obtain ⟨_, _, q2, _, _, l2, f2, _⟩ := clk_prepare_spec hw cfg h hr fuel s1
          (cfg c).depends (by omega)
        rw [e2] at q2
        cases q2
        obtain ⟨_, _, m1, _⟩ := clk_prepare_success hw cfg _ _ _ _ e1
        obtain ⟨_, _, m2, _⟩ := clk_prepare_success hw cfg _ _ _ _ e2
        have i1 := ih s _ s1 (by omega) e1 x
        have i2 := ih s1 _ s2 (by omega) e2 x
        obtain ⟨_, vp, _, l3, _, _⟩ := vote_rate_vdd_spec hw cfg s2 c (s2.rate c)
        have n3 := filter_hook_vote hw cfg s2 c (s2.rate c) x
        generalize vote_rate_vdd hw cfg s2 c (s2.rate c) = V at e vp l3 n3
        have hsplit : new_events s t = new_events s s1 ++ new_events s1 s2 ++ new_events s2 V.2 ++
            log_if ((cfg c).ops.prepare = true) (event.prepare c 0) := by
          have l4 : log_extends V.2 t := by
            rw [e]
            exact ⟨_, rfl⟩
          have n4 : new_events V.2 t =
              log_if ((cfg c).ops.prepare = true) (event.prepare c 0) := by
            rw [e]
            exact new_events_add_log _ _
          rw [new_events_split (log_extends_trans (log_extends_trans l1 l2) l3) l4,
            new_events_split (log_extends_trans l1 l2) l3, new_events_split l1 l2, n4]
        rw [hsplit]
        simp only [List.filter_append, n3, i1, i2, List.append_nil]
        have p1 : s1.prepare_count c = 0 := by rw [f1 c hrp, p0]
        have p2 : s2.prepare_count c = 0 := by rw [f2 c hrd, p1]
        by_cases hx : x = c
        · subst hx
          have n1 : ¬ (s.prepare_count x = 0 ∧ s1.prepare_count x ≠ 0 ∧
              (cfg x).ops.prepare = true) := fun q => q.2.1 p1
          have n2 : ¬ (s1.prepare_count x = 0 ∧ s2.prepare_count x ≠ 0 ∧
              (cfg x).ops.prepare = true) := fun q => q.2.1 p2
          rw [filter_hook_own x _ (event.prepare x 0) (by simp [is_hook_of]),
            if_neg n1, if_neg n2, List.nil_append, List.nil_append]
          have et : t.prepare_count x ≠ 0 := by
            rw [e]
            simp
          by_cases hk : (cfg x).ops.prepare = true
          · rw [if_pos hk, if_pos ⟨p0, et, hk⟩]
          · rw [if_neg hk, if_neg (fun q => hk q.2.2)]
        · rw [filter_hook_warn x _ (event.prepare c 0) (by simp [is_hook_of, Ne.symm hx]),
            List.append_nil]
          have et : t.prepare_count x = s2.prepare_count x := by
            rw [e]
            simp [hx, vp]
          rw [et]
          exact two_step_up _ _ _ _ _ (m1 x) (m2 x)
/-- A `clk_unprepare` after a successful `clk_prepare` of the same clock restores
every prepare count. -/
theorem clk_prepare_undo_counts (hw : hooks) (cfg : Nat → clk) (h : Nat → Nat)
    (hr : ranked cfg h) (fuel : Nat) (s s1 t1 t2 : clk_state) (r : clk_ref)
    (hf : rank h r ≤ fuel) (he : clk_prepare hw cfg fuel s r = some (0, s1))
    (hp : t1.prepare_count = s1.prepare_count) (hrt : t1.rate = s1.rate)
    (hu : clk_unprepare hw cfg fuel t1 r = some t2) :
    t2.prepare_count = s.prepare_count := by
  obtain ⟨rc, s1', e, _, _, _, f, _, undo⟩ := clk_prepare_spec hw cfg h hr fuel s r hf
  rw [he] at e
  cases e
  obtain ⟨_, _, _, f2⟩ := clk_unprepare_frame hw cfg h hr fuel t1 r t2 hu
  have u := (undo rfl t1 t2 (fun x _ => congrFun hp x) hrt hu).1
  funext x
  by_cases hx : h x < rank h r
  · exact u x hx
  · rw [f2 x (by omega), hp, f x (by omega)]

/-- The hook calls of a failed `clk_prepare`: none for a clock that was prepared before
or is not among the ancestors, and for the clock itself at most its own failed prepare
hook. -/
theorem clk_prepare_failure_hook_events (hw : hooks) (cfg : Nat → clk) (h : Nat → Nat)
    (hr : ranked cfg h) :
    ∀ fuel s r rc t, rank h r ≤ fuel → clk_prepare hw cfg fuel s r = some (rc, t) → rc ≠ 0 →
      (∀ x, (s.prepare_count x ≠ 0 ∨ reaches cfg fuel r x = false) →
        (new_events s t).filter (is_hook_of x) = []) ∧
      (∀ c, r = .ptr c → (new_events s t).filter (is_hook_of c) = [] ∨
        ∃ rcf, rcf ≠ 0 ∧ (new_events s t).filter (is_hook_of c) = [event.prepare c rcf]) := by
  intro fuel
  induction fuel with
  | zero =>
    intro s r rc t hf ht hrc
    cases r with
    | null => cases ht; exact absurd rfl hrc
    | err e =>
      cases ht
      rw [new_events_self]
      exact ⟨fun _ _ => rfl, fun c hc => by cases hc⟩
    | ptr c => simp [rank] at hf
  | succ fuel ih =>
    intro s r rc t hf ht hrc
    cases r with
    | null => cases ht; exact absurd rfl hrc
    | err e =>
      cases ht
      rw [new_events_self]
      exact ⟨fun _ _ => rfl, fun c hc => by cases hc⟩
    | ptr c =>
      have hrd : rank h (cfg c).depends ≤ h c := (hr c).2
      have hrp : rank h (clk_get_parent cfg (.ptr c)) ≤ h c := (hr c).1
      have hfc : h c + 1 ≤ fuel + 1 := hf
      have L1 := clk_prepare_hook_events hw cfg h hr fuel
      have L2 := clk_unprepare_hook_events hw cfg h hr fuel
      have seg : ∀ (u : clk_state) r rc u', rank h r ≤ fuel →
          clk_prepare hw cfg fuel u r = some (rc, u') →
          ∀ x, (u.prepare_count x ≠ 0 ∨ reaches cfg fuel r x = false) →
            (new_events u u').filter (is_hook_of x) = [] := by
        intro u r rc u' hfr hu x hx
        by_cases z : rc = 0
        · subst z
          rw [L1 u r u' hfr hu x, if_neg]
          rintro ⟨q1, q2, _⟩
          rcases hx with hx | hx
          · exact hx q1
          · rw [(clk_prepare_success hw cfg _ _ _ _ hu).2.2.2 x hx] at q2
            exact q2 q1
        · exact (ih u r rc u' hfr hu z).1 x hx
      unfold clk_prepare at ht
      by_cases p0 : s.prepare_count c = 0
      swap
      · rw [if_neg p0] at ht
        cases ht
        exact absurd rfl hrc
      rw [if_pos p0] at ht
      dsimp only at ht
      have G : ∃ own : List event, (own = [] ∨ ∃ rcf, rcf ≠ 0 ∧ own = [event.prepare c rcf]) ∧
          ∀ x, (s.prepare_count x ≠ 0 ∨
              reaches cfg fuel (clk_get_parent cfg (.ptr c)) x = false) →
            (s.prepare_count x ≠ 0 ∨ reaches cfg fuel (cfg c).depends x = false) →
            (new_events s t).filter (is_hook_of x) = own.filter (is_hook_of x) := by
        obtain ⟨ret1, s1, e1, _, r1, l1, f1, fail1, _⟩ := clk_prepare_spec hw cfg h hr fuel s
          (clk_get_parent cfg (.ptr c)) (by omega)
        rw [e1] at ht
        dsimp only at ht
        by_cases hr1 : ret1 ≠ 0
        · rw [if_pos hr1] at ht
          cases ht
          exact ⟨[], Or.inl rfl, fun x hx1 _ => seg s _ _ _ (by omega) e1 x hx1⟩
        rw [if_neg hr1] at ht
        have z1 : ret1 = 0 := not_not.mp hr1
        subst z1
        obtain ⟨_, _, m1, g1⟩ := clk_prepare_success hw cfg _ _ _ _ e1
        obtain ⟨ret2, s2, e2, _, r2, l2, f2, fail2, _⟩ := clk_prepare_spec hw cfg h hr fuel s1
          (cfg c).depends (by omega)
        rw [e2] at ht
        dsimp only at ht
        have tailP : ∀ u t' : clk_state, u.prepare_count = s1.prepare_count →
            u.rate = s1.rate →
            clk_unprepare hw cfg fuel u (clk_get_parent cfg (.ptr c)) = some t' →
            log_extends u t' ∧ t'.rate = u.rate ∧ t'.prepare_count = s.prepare_count ∧
            ∀ x, (s.prepare_count x ≠ 0 ∨
                reaches cfg fuel (clk_get_parent cfg (.ptr c)) x = false) →
              (new_events u t').filter (is_hook_of x) = [] := by
          intro u t' hup hur hu
          obtain ⟨_, qr, lq, _⟩ := clk_unprepare_frame hw cfg h hr fuel u
            (clk_get_parent cfg (.ptr c)) t' hu
          have hR := clk_prepare_undo_counts hw cfg h hr fuel s s1 u t' _ (by omega) e1 hup hur hu
          refine ⟨lq, qr, hR, fun x hx => ?_⟩
          rw [(L2 u _ t' (by omega) hu).2 x, if_neg]
          rintro ⟨q1, q2, _⟩
          rw [hup] at q1
          rw [hR] at q2
          rcases hx with hx | hx
          · exact hx q2
          · rw [g1 x hx] at q1
            exact q1 q2
        by_cases hr2 : ret2 ≠ 0
        · rw [if_pos hr2] at ht
          unfold err_prepare_depends at ht
          obtain ⟨t', d⟩ : ∃ zz, clk_unprepare hw cfg fuel s2 (clk_get_parent cfg (.ptr c)) = some zz := by
            cases hq : clk_unprepare hw cfg fuel s2 (clk_get_parent cfg (.ptr c)) with
            | none => simp [hq] at ht
            | some zz => exact ⟨zz, rfl⟩
          rw [d] at ht
          dsimp only at ht
          cases ht
          obtain ⟨lt, _, _, ft⟩ := tailP s2 _ (fail2 hr2).1 r2 d
          refine ⟨[], Or.inl rfl, fun x hx1 hx2 => ?_⟩
          rw [new_events_split (log_extends_trans l1 l2) lt, new_events_split l1 l2]
          simp only [List.filter_append]
          rw [seg s _ _ _ (by omega) e1 x hx1, ft x hx1,
            seg s1 _ _ _ (by omega) e2 x (by
              rcases hx2 with hx2 | hx2
              · left
                have := m1 x
                omega
              · exact Or.inr hx2)]
          rfl
        rw [if_neg hr2] at ht
        have z2 : ret2 = 0 := not_not.mp hr2
        subst z2
        obtain ⟨_, _, m2, g2⟩ := clk_prepare_success hw cfg _ _ _ _ e2
        have tailD : ∀ (u t' : clk_state) (ret rc' : Int),
            u.prepare_count = s2.prepare_count → u.rate = s2.rate →
            err_vote_vdd hw cfg fuel ret u c (clk_get_parent cfg (.ptr c)) = some (rc', t') →
            log_extends u t' ∧
            ∀ x, (s.prepare_count x ≠ 0 ∨
                reaches cfg fuel (clk_get_parent cfg (.ptr c)) x = false) →
              (s.prepare_count x ≠ 0 ∨ reaches cfg fuel (cfg c).depends x = false) →
              (new_events u t').filter (is_hook_of x) = [] := by
          intro u t' ret rc' hup hur hu
          unfold err_vote_vdd at hu
          obtain ⟨u1, d1⟩ : ∃ zz, clk_unprepare hw cfg fuel u (cfg c).depends = some zz := by
            cases hq : clk_unprepare hw cfg fuel u (cfg c).depends with
            | none => simp [hq] at hu
            | some zz => exact ⟨zz, rfl⟩
          obtain ⟨_, ur1, lu1, _⟩ := clk_unprepare_frame hw cfg h hr fuel u (cfg c).depends u1 d1
          rw [d1] at hu
          dsimp only at hu
          have hR := clk_prepare_undo_counts hw cfg h hr fuel s1 s2 u u1 _ (by omega) e2 hup
            hur d1
          unfold err_prepare_depends at hu
          obtain ⟨u2, d2⟩ : ∃ zz, clk_unprepare hw cfg fuel u1 (clk_get_parent cfg (.ptr c)) = some zz := by
            cases hq : clk_unprepare hw cfg fuel u1 (clk_get_parent cfg (.ptr c)) with
            | none => simp [hq] at hu
            | some zz => exact ⟨zz, rfl⟩
          rw [d2] at hu
          dsimp only at hu
          cases hu
          obtain ⟨lt, _, _, ft⟩ := tailP u1 _ hR (by rw [ur1, hur, r2]) d2
          refine ⟨log_extends_trans lu1 lt, fun x hx1 hx2 => ?_⟩
          rw [new_events_split lu1 lt, List.filter_append, ft x hx1,
            (L2 u _ u1 (by omega) d1).2 x, if_neg]
          · rfl
          · rintro ⟨q1, q2, _⟩
            rw [hup] at q1
            rw [hR] at q2
            rcases hx2 with hx2 | hx2
            · have := m1 x
              omega
            · rw [g2 x hx2] at q1
              exact q1 q2
        have hx2s : ∀ x, (s.prepare_count x ≠ 0 ∨ reaches cfg fuel (cfg c).depends x = false) →
            (s1.prepare_count x ≠ 0 ∨ reaches cfg fuel (cfg c).depends x = false) := by
          intro x hx2
          rcases hx2 with hx2 | hx2
          · left
            have := m1 x
            omega
          · exact Or.inr hx2
        obtain ⟨_, vp, vr, lv, _, _⟩ := vote_rate_vdd_spec hw cfg s2 c (s2.rate c)
        have nv := fun x => filter_hook_vote hw cfg s2 c (s2.rate c) x
        generalize vote_rate_vdd hw cfg s2 c (s2.rate c) = V at ht vp vr lv nv
        by_cases hv : V.1 ≠ 0
        · rw [if_pos hv] at ht
          obtain ⟨lt, ft⟩ := tailD V.2 t V.1 rc vp vr ht
          refine ⟨[], Or.inl rfl, fun x hx1 hx2 => ?_⟩
          rw [new_events_split (log_extends_trans (log_extends_trans l1 l2) lv) lt,
            new_events_split (log_extends_trans l1 l2) lv, new_events_split l1 l2]
          simp only [List.filter_append]
          rw [seg s _ _ _ (by omega) e1 x hx1, seg s1 _ _ _ (by omega) e2 x (hx2s x hx2),
            nv x, ft x hx1 hx2]
          rfl
        rw [if_neg hv] at ht
        generalize (if (cfg c).ops.prepare = true then hw.prepare V.2.log c else V.1) = ret4 at ht
        generalize hs4 : add_log V.2 (log_if ((cfg c).ops.prepare = true)
          (event.prepare c ret4)) = s4 at ht
        have l4 : log_extends V.2 s4 := by rw [← hs4]; exact log_extends_add_log _ _
        have n4 : new_events V.2 s4 =
            log_if ((cfg c).ops.prepare = true) (event.prepare c ret4) := by
          rw [← hs4]; exact new_events_add_log _ _
        have s4p : s4.prepare_count = s2.prepare_count := by rw [← hs4]; exact vp
        have s4r : s4.rate = s2.rate := by rw [← hs4]; exact vr
        by_cases r4 : ret4 ≠ 0
        · rw [if_pos r4] at ht
          unfold err_prepare_clock at ht
          obtain ⟨_, u5p, u5r, l5, _⟩ := unvote_rate_vdd_frame hw cfg s4 c (s4.rate c)
          have n5 := fun x => filter_hook_unvote hw cfg s4 c (s4.rate c) x
          generalize unvote_rate_vdd hw cfg s4 c (s4.rate c) = s5 at ht u5p u5r l5 n5
          obtain ⟨lt, ft⟩ := tailD s5 t ret4 rc (by rw [u5p, s4p]) (by rw [u5r, s4r]) ht
          refine ⟨log_if ((cfg c).ops.prepare = true) (event.prepare c ret4), ?_,
            fun x hx1 hx2 => ?_⟩
          · unfold log_if
            split
            · exact Or.inr ⟨ret4, r4, rfl⟩
            · exact Or.inl rfl
          · rw [new_events_split (log_extends_trans (log_extends_trans (log_extends_trans
                (log_extends_trans l1 l2) lv) l4) l5) lt,
              new_events_split (log_extends_trans (log_extends_trans
                (log_extends_trans l1 l2) lv) l4) l5,
              new_events_split (log_extends_trans (log_extends_trans l1 l2) lv) l4,
              new_events_split (log_extends_trans l1 l2) lv, new_events_split l1 l2]
            simp only [List.filter_append]
            rw [seg s _ _ _ (by omega) e1 x hx1, seg s1 _ _ _ (by omega) e2 x (hx2s x hx2),
              nv x, ft x hx1 hx2, n5 x, n4]
            simp
        · rw [if_neg r4] at ht
          cases ht
          exact absurd (not_not.mp r4) hrc
      obtain ⟨own, hown, hG⟩ := G
      constructor
      · intro x hx
        have hxc : x ≠ c := by
          rcases hx with hx | hx
          · intro e
            subst e
            exact hx p0
          · intro e
            subst e
            simp [reaches] at hx
        have hx1 : s.prepare_count x ≠ 0 ∨
            reaches cfg fuel (clk_get_parent cfg (.ptr c)) x = false := by
          rcases hx with hx | hx
          · exact Or.inl hx
          · right
            simp only [reaches, Bool.or_eq_false_iff] at hx
            exact hx.1.2
        have hx2 : s.prepare_count x ≠ 0 ∨ reaches cfg fuel (cfg c).depends x = false := by
          rcases hx with hx | hx
          · exact Or.inl hx
          · right
            simp only [reaches, Bool.or_eq_false_iff] at hx
            exact hx.2
        rw [hG x hx1 hx2]
        rcases hown with e | ⟨rcf, _, e⟩
        · rw [e]; rfl
        · rw [e]
          simp [is_hook_of, Ne.symm hxc]
      · intro c' hc'
        cases hc'
        have hx1 : reaches cfg fuel (clk_get_parent cfg (.ptr c)) c = false := by
          by_contra hh
          have := ranked_reaches cfg h hr fuel _ c (by simpa using hh)
          omega
        have hx2 : reaches cfg fuel (cfg c).depends c = false := by
          by_contra hh
          have := ranked_reaches cfg h hr fuel _ c (by simpa using hh)
          omega
        rw [hG c (Or.inr hx1) (Or.inr hx2)]
        rcases hown with e | ⟨rcf, hrcf, e⟩
        · rw [e]; exact Or.inl rfl
        · rw [e]
          exact Or.inr ⟨rcf, hrcf, by simp [is_hook_of]⟩
/-- The hook calls of two runs of events, one after the other. -/
theorem hooks_of_append (xs : List Nat) (a b : List event) :
    hooks_of xs (a ++ b) = hooks_of xs a ++ hooks_of xs b := by
  simp [hooks_of, List.filter_append]

/-- When only the clock `y` of the list has hook calls among the events, they are the
hook calls of the list. -/
theorem hooks_of_only (xs : List Nat) (y : Nat) (es : List event) (hy : y ∈ xs)
    (ho : ∀ x ∈ xs, x ≠ y → es.filter (is_hook_of x) = []) :
    hooks_of xs es = es.filter (is_hook_of y) := by
  unfold hooks_of
  apply List.filter_congr
  intro e he
  by_cases hye : is_hook_of y e = true
  · rw [hye]
    exact List.any_eq_true.mpr ⟨y, hy, hye⟩
  · have hf : is_hook_of y e = false := by simpa using hye
    rw [hf]
    rw [Bool.eq_false_iff]
    intro hany
    obtain ⟨x, hx, hxe⟩ := List.any_eq_true.mp hany
    by_cases hxy : x = y
    · subst hxy
      exact hye hxe
    · have := ho x hx hxy
      rw [List.filter_eq_nil_iff] at this
      exact this e he hxe

/-- The hook calls of three clocks when only one of them has any. -/
theorem hooks_of_three (a b c : Nat) (es l : List event)
    (ha : es.filter (is_hook_of a) = l) (hb : es.filter (is_hook_of b) = [])
    (hc : es.filter (is_hook_of c) = []) :
    hooks_of [a, b, c] es = l ∧ hooks_of [b, a, c] es = l ∧ hooks_of [b, c, a] es = l := by
  have key : ∀ xs : List Nat, a ∈ xs → (∀ x ∈ xs, x = a ∨ x = b ∨ x = c) →
      hooks_of xs es = l := by
    intro xs hm hall
    rw [hooks_of_only xs a es hm, ha]
    intro x hx hne
    rcases hall x hx with e | e | e
    · exact absurd e hne
    · rw [e]; exact hb
    · rw [e]; exact hc
  refine ⟨key _ (by simp) ?_, key _ (by simp) ?_, key _ (by simp) ?_⟩ <;>
    · intro x hx
      simp only [List.mem_cons, List.mem_singleton, List.not_mem_nil, or_false] at hx
      tauto

/-- No hook calls when no clock of the list has any. -/
theorem hooks_of_none (xs : List Nat) (es : List event)
    (ho : ∀ x ∈ xs, es.filter (is_hook_of x) = []) : hooks_of xs es = [] := by
  unfold hooks_of
  rw [List.filter_eq_nil_iff]
  intro e he hany
  obtain ⟨x, hx, hxe⟩ := List.any_eq_true.mp hany
  have := ho x hx
  rw [List.filter_eq_nil_iff] at this
  exact this e he hxe

/-- A `clk_unprepare` after a successful `clk_prepare` of the same clock, from a state
that agrees below the clock: it returns, restores the counts below and keeps the others. -/
theorem clk_prepare_undo_below (hw : hooks) (cfg : Nat → clk) (h : Nat → Nat)
    (hr : ranked cfg h) (fuel : Nat) (s s1 t1 : clk_state) (r : clk_ref)
    (hf : rank h r ≤ fuel) (he : clk_prepare hw cfg fuel s r = some (0, s1))
    (hp : ∀ x, h x < rank h r → t1.prepare_count x = s1.prepare_count x)
    (hrt : t1.rate = s1.rate) :
    ∃ t2, clk_unprepare hw cfg fuel t1 r = some t2 ∧ log_extends t1 t2 ∧ t2.rate = t1.rate ∧
      (∀ x, h x < rank h r → t2.prepare_count x = s.prepare_count x) ∧
      (∀ x, rank h r ≤ h x → t2.prepare_count x = t1.prepare_count x) := by
  obtain ⟨rc, s1', e, _, _, _, f, _, undo⟩ := clk_prepare_spec hw cfg h hr fuel s r hf
  rw [he] at e
  cases e
  obtain ⟨t2, e2, _⟩ := clk_prepare_undo hw cfg h hr fuel s s1 r hf he t1 hp
  obtain ⟨_, r2, l2, f2⟩ := clk_unprepare_frame hw cfg h hr fuel t1 r t2 e2
  exact ⟨t2, e2, l2, r2, (undo rfl t1 t2 hp hrt e2).1, f2⟩

/-- The first step of `clk_prepare` on the node: the prepare of the idle parent calls
the prepare hook of the parent only. -/
theorem prepare_first_events (hw : hooks) (cfg : Nat → clk) (h : Nat → Nat)
    (hr : ranked cfg h) (fuel : Nat) (s s1 : clk_state) (node P D : Nat)
    (hP : clk_get_parent cfg (.ptr node) = .ptr P)
    (hreach : reaches cfg fuel (.ptr P) D = false) (hf : h node ≤ fuel)
    (kP : (cfg P).ops.prepare = true)
    (iP : s.prepare_count P = 0) (iD : s.prepare_count D = 0)
    (e1 : clk_prepare hw cfg fuel s (.ptr P) = some (0, s1)) :
    hooks_of [P, D, node] (new_events s s1) = [event.prepare P 0] ∧
    s1.prepare_count P = 1 ∧ s1.prepare_count D = 0 ∧
    s1.prepare_count node = s.prepare_count node := by
  have hPn : rank h (.ptr P) ≤ h node := by rw [← hP]; exact (hr node).1
  have hPf : rank h (.ptr P) ≤ fuel := by omega
  obtain ⟨_, _, q1, _, _, _, f1, _⟩ := clk_prepare_spec hw cfg h hr fuel s (.ptr P) hPf
  rw [e1] at q1
  cases q1
  obtain ⟨_, _, _, g1⟩ := clk_prepare_success hw cfg _ _ _ _ e1
  have o1 := clk_prepare_own_count hw cfg h hr fuel s s1 P e1
  have d1 : s1.prepare_count D = 0 := by rw [g1 D hreach, iD]
  have L1a := clk_prepare_hook_events hw cfg h hr fuel s _ s1 hPf e1
  refine ⟨(hooks_of_three P D node _ _ ?_ ?_ ?_).1, by omega, d1, f1 node hPn⟩
  · rw [L1a P, if_pos ⟨iP, by omega, kP⟩]
  · rw [L1a D, if_neg (fun q => q.2.1 d1)]
  · rw [L1a node, if_neg (fun q => q.2.1 (by rw [f1 node hPn]; exact q.1))]

/-- The second step: the prepare of the idle dependency calls the prepare hook of the
dependency only. -/
theorem prepare_second_events (hw : hooks) (cfg : Nat → clk) (h : Nat → Nat)
    (hr : ranked cfg h) (fuel : Nat) (s1 s2 : clk_state) (node P D : Nat)
    (hD : (cfg node).depends = .ptr D) (hf : h node ≤ fuel)
    (kD : (cfg D).ops.prepare = true)
    (iP : s1.prepare_count P = 1) (iD : s1.prepare_count D = 0)
    (e2 : clk_prepare hw cfg fuel s1 (.ptr D) = some (0, s2)) :
    hooks_of [P, D, node] (new_events s1 s2) = [event.prepare D 0] ∧
    s2.prepare_count D = 1 ∧ s2.prepare_count node = s1.prepare_count node := by
  have hDn : rank h (.ptr D) ≤ h node := by rw [← hD]; exact (hr node).2
  have hDf : rank h (.ptr D) ≤ fuel := by omega
  obtain ⟨_, _, q2, _, _, _, f2, _⟩ := clk_prepare_spec hw cfg h hr fuel s1 (.ptr D) hDf
  rw [e2] at q2
  cases q2
  have o2 := clk_prepare_own_count hw cfg h hr fuel s1 s2 D e2
  have L1b := clk_prepare_hook_events hw cfg h hr fuel s1 _ s2 hDf e2
  refine ⟨(hooks_of_three D P node _ _ ?_ ?_ ?_).2.1, by omega, f2 node hDn⟩
  · rw [L1b D, if_pos ⟨iD, by omega, kD⟩]
  · rw [L1b P, if_neg (fun q => by have := q.1; omega)]
  · rw [L1b node, if_neg (fun q => q.2.1 (by rw [f2 node hDn]; exact q.1))]

/-- The release of the dependency calls the unprepare hook of the dependency only and
restores the counts to those before its prepare. -/
theorem unprepare_second_events (hw : hooks) (cfg : Nat → clk) (h : Nat → Nat)
    (hr : ranked cfg h) (fuel : Nat) (s1 s2 u : clk_state) (node P D : Nat)
    (hP : clk_get_parent cfg (.ptr node) = .ptr P) (hD : (cfg node).depends = .ptr D)
    (hf : h node ≤ fuel) (kD : (cfg D).ops.unprepare = true)
    (iP : s1.prepare_count P = 1) (iD : s1.prepare_count D = 0)
    (e2 : clk_prepare hw cfg fuel s1 (.ptr D) = some (0, s2))
    (hu : ∀ x, x ≠ node → u.prepare_count x = s2.prepare_count x) (hur : u.rate = s2.rate) :
    ∃ u1, clk_unprepare hw cfg fuel u (.ptr D) = some u1 ∧ log_extends u u1 ∧
      hooks_of [P, D, node] (new_events u u1) = [event.unprepare D] ∧
      (∀ x, x ≠ node → u1.prepare_count x = s1.prepare_count x) ∧ u1.rate = s1.rate := by
  have hPn : rank h (.ptr P) ≤ h node := by rw [← hP]; exact (hr node).1
  have hDn : rank h (.ptr D) ≤ h node := by rw [← hD]; exact (hr node).2
  have hDf : rank h (.ptr D) ≤ fuel := by omega
  have hne : ∀ x, h x < h node → x ≠ node := fun x hx e => by subst e; omega
  have hPne : P ≠ node := hne P (by simp only [rank] at hPn; omega)
  have hDne : D ≠ node := hne D (by simp only [rank] at hDn; omega)
  obtain ⟨_, _, q2, _, r2, _, f2, _⟩ := clk_prepare_spec hw cfg h hr fuel s1 (.ptr D) hDf
  rw [e2] at q2
  cases q2
  have o2 := clk_prepare_own_count hw cfg h hr fuel s1 s2 D e2
  obtain ⟨u1, c1, lu1, ur1, b1, a1⟩ := clk_prepare_undo_below hw cfg h hr fuel s1 s2 u _ hDf e2
    (fun x hx => hu x (hne x (by omega))) hur
  have A : ∀ x, x ≠ node → u1.prepare_count x = s1.prepare_count x := by
    intro x hx
    by_cases hxd : h x < rank h (.ptr D)
    · exact b1 x hxd
    · rw [a1 x (by omega), hu x hx, f2 x (by omega)]
  have L2a := (clk_unprepare_hook_events hw cfg h hr fuel u _ u1 hDf c1).2
  refine ⟨u1, c1, lu1, (hooks_of_three D P node _ _ ?_ ?_ ?_).2.1, A, by rw [ur1, hur, r2]⟩
  · rw [L2a D, if_pos ⟨by rw [hu D hDne]; omega, by rw [A D hDne]; exact iD, kD⟩]
  · rw [L2a P, if_neg (fun q => by have := q.2.1; rw [A P hPne] at this; omega)]
  · rw [L2a node, if_neg (fun q => q.1 (by rw [← a1 node hDn]; exact q.2.1))]

/-- The release of the parent calls the unprepare hook of the parent only. -/
theorem unprepare_first_events (hw : hooks) (cfg : Nat → clk) (h : Nat → Nat)
    (hr : ranked cfg h) (fuel : Nat) (s s1 u1 : clk_state) (node P D : Nat)
    (hP : clk_get_parent cfg (.ptr node) = .ptr P) (hD : (cfg node).depends = .ptr D)
    (hf : h node ≤ fuel) (kP : (cfg P).ops.unprepare = true)
    (iP : s.prepare_count P = 0) (jP : s1.prepare_count P = 1) (jD : s1.prepare_count D = 0)
    (e1 : clk_prepare hw cfg fuel s (.ptr P) = some (0, s1))
    (hu : ∀ x, x ≠ node → u1.prepare_count x = s1.prepare_count x) (hur : u1.rate = s1.rate) :
    ∃ u2, clk_unprepare hw cfg fuel u1 (.ptr P) = some u2 ∧ log_extends u1 u2 ∧
      hooks_of [P, D, node] (new_events u1 u2) = [event.unprepare P] := by
  have hPn : rank h (.ptr P) ≤ h node := by rw [← hP]; exact (hr node).1
  have hDn : rank h (.ptr D) ≤ h node := by rw [← hD]; exact (hr node).2
  have hPf : rank h (.ptr P) ≤ fuel := by omega
  have hne : ∀ x, h x < h node → x ≠ node := fun x hx e => by subst e; omega
  have hPne : P ≠ node := hne P (by simp only [rank] at hPn; omega)
  have hDne : D ≠ node := hne D (by simp only [rank] at hDn; omega)
  obtain ⟨u2, c2, lu2, ur2, b2, a2⟩ := clk_prepare_undo_below hw cfg h hr fuel s s1 u1 _ hPf e1
    (fun x hx => hu x (hne x (by omega))) hur
  have L2b := (clk_unprepare_hook_events hw cfg h hr fuel u1 _ u2 hPf c2).2
  refine ⟨u2, c2, lu2, (hooks_of_three P D node _ _ ?_ ?_ ?_).1⟩
  · rw [L2b P, if_pos ⟨by rw [hu P hPne]; omega, by rw [b2 P (by simp [rank]), iP], kP⟩]
  · rw [L2b D, if_neg (fun q => q.1 (by rw [hu D hDne]; exact jD))]
  · rw [L2b node, if_neg (fun q => q.1 (by rw [← a2 node hPn]; exact q.2.1))]
/-- A single hook call of one of the three clocks is kept. -/
theorem hooks_of_single (P D node x : Nat) (e : event) (hx : x = P ∨ x = D ∨ x = node)
    (he : is_hook_of x e = true) : hooks_of [P, D, node] [e] = [e] := by
  have : [P, D, node].any (fun y => is_hook_of y e) = true := by
    rw [List.any_eq_true]
    refine ⟨x, ?_, he⟩
    simp only [List.mem_cons, List.mem_singleton, List.not_mem_nil, or_false]
    exact hx
  simp [hooks_of, List.filter, this]

/-- The order of the hook calls of `clk_prepare` on a node with an idle parent and an
idle dependency that is not an ancestor of the parent, of the `clk_unprepare` that
follows, and of every failed `clk_prepare`. -/
theorem prepare_nesting (hw : hooks) (cfg : Nat → clk) (h : Nat → Nat)
    (hr : ranked cfg h) (fuel : Nat) (s : clk_state) (node P D : Nat)
    (hP : clk_get_parent cfg (.ptr node) = .ptr P) (hD : (cfg node).depends = .ptr D)
    (hreach : reaches cfg fuel (.ptr P) D = false) (hf : h node ≤ fuel)
    (kP : (cfg P).ops.prepare = true) (kD : (cfg D).ops.prepare = true)
    (kN : (cfg node).ops.prepare = true)
    (uP : (cfg P).ops.unprepare = true) (uD : (cfg D).ops.unprepare = true)
    (uN : (cfg node).ops.unprepare = true)
    (iN : s.prepare_count node = 0) (iP : s.prepare_count P = 0)
    (iD : s.prepare_count D = 0) :
    ∃ rc s1, clk_prepare hw cfg (fuel + 1) s (.ptr node) = some (rc, s1) ∧
      (rc = 0 →
        hooks_of [P, D, node] (new_events s s1) =
          [event.prepare P 0, event.prepare D 0, event.prepare node 0] ∧
        ∀ t1 : clk_state, t1.prepare_count = s1.prepare_count → t1.rate = s1.rate →
          ∃ t2, clk_unprepare hw cfg (fuel + 1) t1 (.ptr node) = some t2 ∧
            hooks_of [P, D, node] (new_events t1 t2) =
              [event.unprepare node, event.unprepare D, event.unprepare P]) ∧
      (rc ≠ 0 → ∃ rcf, rcf ≠ 0 ∧
        (hooks_of [P, D, node] (new_events s s1) = [] ∨
         hooks_of [P, D, node] (new_events s s1) = [event.prepare P rcf] ∨
         hooks_of [P, D, node] (new_events s s1) = [event.prepare P 0, event.unprepare P] ∨
         hooks_of [P, D, node] (new_events s s1) =
           [event.prepare P 0, event.prepare D rcf, event.unprepare P] ∨
         hooks_of [P, D, node] (new_events s s1) =
           [event.prepare P 0, event.prepare D 0, event.unprepare D, event.unprepare P] ∨
         hooks_of [P, D, node] (new_events s s1) =
           [event.prepare P 0, event.prepare D 0, event.prepare node rcf,
            event.unprepare D, event.unprepare P])) := by
  have hPn : rank h (.ptr P) ≤ h node := by rw [← hP]; exact (hr node).1
  have hDn : rank h (.ptr D) ≤ h node := by rw [← hD]; exact (hr node).2
  have hPf : rank h (.ptr P) ≤ fuel := by omega
  have hDf : rank h (.ptr D) ≤ fuel := by omega
  have hne : ∀ x, h x < h node → x ≠ node := fun x hx e => by subst e; omega
  have hPne : P ≠ node := hne P (by simp only [rank] at hPn; omega)
  have hDne : D ≠ node := hne D (by simp only [rank] at hDn; omega)
  have hnr : ∀ r, rank h r ≤ h node → reaches cfg fuel r node = false := by
    intro r hrn
    by_contra hh
    have := ranked_reaches cfg h hr fuel r node (by simpa using hh)
    omega
  have hvote : ∀ (u : clk_state) c rate,
      hooks_of [P, D, node] (new_events u (vote_rate_vdd hw cfg u c rate).2) = [] :=
    fun u c rate => hooks_of_none _ _ (fun x _ => filter_hook_vote hw cfg u c rate x)
  have hunvote : ∀ (u : clk_state) c rate,
      hooks_of [P, D, node] (new_events u (unvote_rate_vdd hw cfg u c rate)) = [] :=
    fun u c rate => hooks_of_none _ _ (fun x _ => filter_hook_unvote hw cfg u c rate x)
  obtain ⟨rc, s', e, _, _, _, _, _, _⟩ := clk_prepare_spec hw cfg h hr (fuel + 1) s (.ptr node)
    (by simp only [rank]; omega)
  refine ⟨rc, s', e, ?_, ?_⟩
  · intro z
    subst z
    rcases clk_prepare_success_inv hw cfg fuel s s' node e with ⟨p0, _⟩ |
      ⟨_, s1, s2, e1, e2, hv, hh, es⟩
    · exact absurd iN p0
    rw [hP] at e1
    rw [hD] at e2
    obtain ⟨_, _, q1, _, r1, l1, f1, _⟩ := clk_prepare_spec hw cfg h hr fuel s (.ptr P) hPf
    rw [e1] at q1
    cases q1
    obtain ⟨_, _, q2, _, r2, l2, f2, _⟩ := clk_prepare_spec hw cfg h hr fuel s1 (.ptr D) hDf
    rw [e2] at q2
    cases q2
    obtain ⟨k1, jP, jD, jN⟩ := prepare_first_events hw cfg h hr fuel s s1 node P D hP hreach hf
      kP iP iD e1
    obtain ⟨k2, _, _⟩ := prepare_second_events hw cfg h hr fuel s1 s2 node P D hD hf kD jP jD e2
    obtain ⟨_, vp, vr, l3, _, _⟩ := vote_rate_vdd_spec hw cfg s2 node (s2.rate node)
    have k3 := hvote s2 node (s2.rate node)
    generalize vote_rate_vdd hw cfg s2 node (s2.rate node) = V at es vp vr l3 k3
    have l4 : log_extends V.2 s' := by
      rw [es]
      exact ⟨_, rfl⟩
    have n4 : new_events V.2 s' = [event.prepare node 0] := by
      rw [es]
      have : new_events V.2 (set_prepare_count (add_log V.2 (log_if ((cfg node).ops.prepare = true)
          (event.prepare node 0))) node (V.2.prepare_count node + 1)) =
          log_if ((cfg node).ops.prepare = true) (event.prepare node 0) :=
        new_events_add_log _ _
      rw [this, log_if, if_pos kN]
    constructor
    · rw [new_events_split (log_extends_trans (log_extends_trans l1 l2) l3) l4,
        new_events_split (log_extends_trans l1 l2) l3, new_events_split l1 l2, n4]
      simp only [hooks_of_append, k1, k2, k3]
      rw [hooks_of_single P D node node _ (Or.inr (Or.inr rfl)) (by simp [is_hook_of])]
      rfl
    · intro t1 hp hrt
      have p2 : s2.prepare_count node = 0 := by rw [f2 node hDn, f1 node hPn, iN]
      have ps : ∀ x, s'.prepare_count x = if x = node then 1 else s2.prepare_count x := by
        intro x
        rw [es]
        simp only [set_prepare_count_prepare_count, add_log_prepare_count, vp, p2]
      have rs : s'.rate = s2.rate := by
        rw [es]
        exact vr
      obtain ⟨t2, et, _⟩ := clk_prepare_undo hw cfg h hr (fuel + 1) s s' (.ptr node)
        (by simp only [rank]; omega) e t1 (fun x _ => congrFun hp x)
      refine ⟨t2, et, ?_⟩
      have t1n : t1.prepare_count node = 1 := by rw [hp, ps, if_pos rfl]
      unfold clk_unprepare at et
      rw [if_neg (by rw [t1n]; decide), if_pos t1n] at et
      dsimp only at et
      rw [hP, hD] at et
      generalize hsa : add_log t1 (log_if (t1.count node ≠ 0) (event.warn_enabled node)) = sa
        at et
      generalize hsb : add_log sa (log_if ((cfg node).ops.unprepare = true)
        (event.unprepare node)) = sb at et
      have la : log_extends t1 sa := by rw [← hsa]; exact log_extends_add_log _ _
      have lb : log_extends sa sb := by rw [← hsb]; exact log_extends_add_log _ _
      have na : new_events t1 sa = log_if (t1.count node ≠ 0) (event.warn_enabled node) := by
        rw [← hsa]; exact new_events_add_log _ _
      have nb : new_events sa sb = [event.unprepare node] := by
        rw [← hsb, new_events_add_log, log_if, if_pos uN]
      have sbp : sb.prepare_count = t1.prepare_count := by rw [← hsb, ← hsa]; rfl
      have sbr : sb.rate = t1.rate := by rw [← hsb, ← hsa]; rfl
      obtain ⟨_, ucp, ucr, lc, _⟩ := unvote_rate_vdd_frame hw cfg sb node (sb.rate node)
      have kc := hunvote sb node (sb.rate node)
      generalize unvote_rate_vdd hw cfg sb node (sb.rate node) = sc at et ucp ucr lc kc
      obtain ⟨u1, c1, lu1, j1, A1, ur1⟩ := unprepare_second_events hw cfg h hr fuel s1 s2 sc
        node P D hP hD hf uD jP jD e2
        (fun x hx => by rw [ucp, sbp, hp, ps, if_neg hx]) (by rw [ucr, sbr, hrt, rs])
      obtain ⟨u2, c2, lu2, j2⟩ := unprepare_first_events hw cfg h hr fuel s s1 u1 node P D hP hD
        hf uP iP jP jD e1 A1 ur1
      rw [c1] at et
      dsimp only at et
      rw [c2] at et
      dsimp only at et
      cases et
      have e0 : new_events t1 (set_prepare_count u2 node (u2.prepare_count node - 1)) =
          new_events t1 u2 := rfl
      rw [e0, new_events_split (log_extends_trans (log_extends_trans (log_extends_trans la lb)
          lc) lu1) lu2,
        new_events_split (log_extends_trans (log_extends_trans la lb) lc) lu1,
        new_events_split (log_extends_trans la lb) lc, new_events_split la lb, na, nb]
      simp only [hooks_of_append, kc, j1, j2]
      rw [hooks_of_single P D node node _ (Or.inr (Or.inr rfl)) (by simp [is_hook_of]),
        hooks_of_none _ _ (fun x _ => filter_hook_warn x _ (event.warn_enabled node) rfl)]
      rfl
  · intro hrc
    have LF := clk_prepare_failure_hook_events hw cfg h hr fuel
    unfold clk_prepare at e
    rw [if_pos iN] at e
    dsimp only at e
    rw [hP, hD] at e
    obtain ⟨ret1, s1, e1, _, r1, l1, f1, fail1, _⟩ := clk_prepare_spec hw cfg h hr fuel s
      (.ptr P) hPf
    rw [e1] at e
    dsimp only at e
    by_cases hr1 : ret1 ≠ 0
    · rw [if_pos hr1] at e
      cases e
      obtain ⟨n1, o1⟩ := LF s _ _ _ hPf e1 hr1
      rcases o1 P rfl with o | ⟨rcf, hrcf, o⟩
      · exact ⟨rc, hrc, Or.inl (hooks_of_three P D node _ _ o (n1 D (Or.inr hreach))
          (n1 node (Or.inr (hnr _ hPn)))).1⟩
      · exact ⟨rcf, hrcf, Or.inr (Or.inl (hooks_of_three P D node _ _ o (n1 D (Or.inr hreach))
          (n1 node (Or.inr (hnr _ hPn)))).1)⟩
    rw [if_neg hr1] at e
    have z1 : ret1 = 0 := not_not.mp hr1
    subst z1
    obtain ⟨k1, jP, jD, jN⟩ := prepare_first_events hw cfg h hr fuel s s1 node P D hP hreach hf
      kP iP iD e1
    obtain ⟨ret2, s2, e2, _, r2, l2, f2, fail2, _⟩ := clk_prepare_spec hw cfg h hr fuel s1
      (.ptr D) hDf
    rw [e2] at e
    dsimp only at e
    by_cases hr2 : ret2 ≠ 0
    · rw [if_pos hr2] at e
      unfold err_prepare_depends at e
      obtain ⟨u2, c2, lu2, j2⟩ := unprepare_first_events hw cfg h hr fuel s s1 s2 node P D hP hD
        hf uP iP jP jD e1 (fun x _ => congrFun (fail2 hr2).1 x) r2
      rw [c2] at e
      dsimp only at e
      cases e
      obtain ⟨n2, o2⟩ := LF s1 _ _ _ hDf e2 hr2
      have nP := n2 P (Or.inl (by omega))
      have nN := n2 node (Or.inr (hnr _ hDn))
      rw [new_events_split (log_extends_trans l1 l2) lu2, new_events_split l1 l2]
      simp only [hooks_of_append, k1, j2]
      rcases o2 D rfl with o | ⟨rcf, hrcf, o⟩
      · rw [(hooks_of_three D P node _ _ o nP nN).2.1]
        exact ⟨rc, hrc, Or.inr (Or.inr (Or.inl rfl))⟩
      · rw [(hooks_of_three D P node _ _ o nP nN).2.1]
        exact ⟨rcf, hrcf, Or.inr (Or.inr (Or.inr (Or.inl rfl)))⟩
    rw [if_neg hr2] at e
    have z2 : ret2 = 0 := not_not.mp hr2
    subst z2
    obtain ⟨k2, _, _⟩ := prepare_second_events hw cfg h hr fuel s1 s2 node P D hD hf kD jP jD e2
    have tail : ∀ (u t' : clk_state) (ret rc' : Int),
        u.prepare_count = s2.prepare_count → u.rate = s2.rate →
        err_vote_vdd hw cfg fuel ret u node (.ptr P) = some (rc', t') →
        log_extends u t' ∧
        hooks_of [P, D, node] (new_events u t') = [event.unprepare D, event.unprepare P] := by
      intro u t' ret rc' hup hur hu
      unfold err_vote_vdd at hu
      rw [hD] at hu
      obtain ⟨u1, c1, lu1, j1, A1, ur1⟩ := unprepare_second_events hw cfg h hr fuel s1 s2 u
        node P D hP hD hf uD jP jD e2 (fun x _ => congrFun hup x) hur
      rw [c1] at hu
      dsimp only at hu
      unfold err_prepare_depends at hu
      obtain ⟨u2, c2, lu2, j2⟩ := unprepare_first_events hw cfg h hr fuel s s1 u1 node P D hP hD
        hf uP iP jP jD e1 A1 ur1
      rw [c2] at hu
      dsimp only at hu
      cases hu
      refine ⟨log_extends_trans lu1 lu2, ?_⟩
      rw [new_events_split lu1 lu2, hooks_of_append, j1, j2]
      rfl
    obtain ⟨_, vp, vr, lv, _, _⟩ := vote_rate_vdd_spec hw cfg s2 node (s2.rate node)
    have k3 := hvote s2 node (s2.rate node)
    generalize vote_rate_vdd hw cfg s2 node (s2.rate node) = V at e vp vr lv k3
    by_cases hv : V.1 ≠ 0
    · rw [if_pos hv] at e
      obtain ⟨lt, jt⟩ := tail V.2 s' V.1 rc vp vr e
      rw [new_events_split (log_extends_trans (log_extends_trans l1 l2) lv) lt,
        new_events_split (log_extends_trans l1 l2) lv, new_events_split l1 l2]
      simp only [hooks_of_append, k1, k2, k3, jt]
      exact ⟨rc, hrc, Or.inr (Or.inr (Or.inr (Or.inr (Or.inl rfl))))⟩
    rw [if_neg hv] at e
    rw [if_pos kN] at e
    generalize hw.prepare V.2.log node = ret4 at e
    generalize hs4 : add_log V.2 (log_if ((cfg node).ops.prepare = true)
      (event.prepare node ret4)) = s4 at e
    have l4 : log_extends V.2 s4 := by rw [← hs4]; exact log_extends_add_log _ _
    have n4 : new_events V.2 s4 = [event.prepare node ret4] := by
      rw [← hs4, new_events_add_log, log_if, if_pos kN]
    have s4p : s4.prepare_count = s2.prepare_count := by rw [← hs4]; exact vp
    have s4r : s4.rate = s2.rate := by rw [← hs4]; exact vr
    by_cases r4 : ret4 ≠ 0
    · rw [if_pos r4] at e
      unfold err_prepare_clock at e
      obtain ⟨_, u5p, u5r, l5, _⟩ := unvote_rate_vdd_frame hw cfg s4 node (s4.rate node)
      have k5 := hunvote s4 node (s4.rate node)
      generalize unvote_rate_vdd hw cfg s4 node (s4.rate node) = s5 at e u5p u5r l5 k5
      obtain ⟨lt, jt⟩ := tail s5 s' ret4 rc (by rw [u5p, s4p]) (by rw [u5r, s4r]) e
      rw [new_events_split (log_extends_trans (log_extends_trans (log_extends_trans
            (log_extends_trans l1 l2) lv) l4) l5) lt,
        new_events_split (log_extends_trans (log_extends_trans
            (log_extends_trans l1 l2) lv) l4) l5,
        new_events_split (log_extends_trans (log_extends_trans l1 l2) lv) l4,
        new_events_split (log_extends_trans l1 l2) lv, new_events_split l1 l2, n4]
      simp only [hooks_of_append, k1, k2, k3, k5, jt]
      rw [hooks_of_single P D node node _ (Or.inr (Or.inr rfl)) (by simp [is_hook_of])]
      exact ⟨ret4, r4, Or.inr (Or.inr (Or.inr (Or.inr (Or.inr rfl))))⟩
    · rw [if_neg r4] at e
      cases e
      exact absurd (not_not.mp r4) hrc

/-- The hook calls of `clk_disable`, clock by clock: the disable hook of `x` is called
once exactly when the enable count of `x` falls to zero. -/
theorem clk_disable_hook_events (cfg : Nat → clk) (h : Nat → Nat) (hr : ranked cfg h) :
    ∀ fuel s r t, rank h r ≤ fuel → clk_disable cfg fuel s r = some t →
      ∀ x, (new_events s t).filter (is_hook_of x) =
        if s.count x ≠ 0 ∧ t.count x = 0 ∧ (cfg x).ops.disable = true
        then [event.disable x] else [] := by
  have hsame : ∀ s : clk_state, ∀ x, (new_events s s).filter (is_hook_of x) =
        if s.count x ≠ 0 ∧ s.count x = 0 ∧ (cfg x).ops.disable = true
        then [event.disable x] else [] := by
    intro s x
    rw [new_events_self, if_neg (fun hh => hh.1 hh.2.1)]
    rfl
  have hnull : ∀ fuel s t, clk_disable cfg fuel s .null = some t → t = s := by
    intro fuel s t ht
    have e : clk_disable cfg fuel s .null = some s := by cases fuel <;> rfl
    rw [e] at ht
    cases ht
    rfl
  have herr : ∀ fuel s t e, clk_disable cfg fuel s (.err e) = some t → t = s := by
    intro fuel s t e ht
    have e : clk_disable cfg fuel s (.err e) = none := by cases fuel <;> rfl
    rw [e] at ht
    cases ht
  intro fuel
  induction fuel with
  | zero =>
    intro s r t hf ht
    cases r with
    | null => rw [hnull 0 s t ht]; exact hsame s
    | err e => rw [herr 0 s t e ht]; exact hsame s
    | ptr c => simp [rank] at hf
  | succ fuel ih =>
    intro s r t hf ht
    cases r with
    | null => rw [hnull _ s t ht]; exact hsame s
    | err e => rw [herr _ s t e ht]; exact hsame s
    | ptr c =>
      have hrd : rank h (cfg c).depends ≤ h c := (hr c).2
      have hrp : rank h (clk_get_parent cfg (.ptr c)) ≤ h c := (hr c).1
      have hfc : h c + 1 ≤ fuel + 1 := hf
      intro x
      unfold clk_disable at ht
      dsimp only at ht
      simp only [add_log_count] at ht
      generalize hs0 : add_log s (log_if (s.prepare_count c = 0) (event.warn_unprepared c))
        = s0 at ht
      have l0 : log_extends s s0 := by rw [← hs0]; exact log_extends_add_log _ _
      have n0 : (new_events s s0).filter (is_hook_of x) = [] := by
        rw [← hs0, new_events_add_log]
        exact filter_hook_warn x _ (event.warn_unprepared c) rfl
      have s0c : s0.count = s.count := by rw [← hs0]; rfl
      by_cases p0 : s.count c = 0
      · rw [if_pos p0] at ht
        cases ht
        have e0 : new_events s (add_log s0 [event.warn_unbalanced c]) =
            new_events s s0 ++ [event.warn_unbalanced c] := by
          rw [new_events_split l0 (log_extends_add_log _ _), new_events_add_log]
        rw [e0, List.filter_append, n0, if_neg]
        · rfl
        · rintro ⟨q1, q2, _⟩
          exact q1 (by rw [← s0c]; exact q2)
      rw [if_neg p0] at ht
      by_cases p1 : s.count c = 1
      · rw [if_pos p1] at ht
        generalize hs1 : add_log s0 (log_if ((cfg c).ops.disable = true) (event.disable c))
          = s1 at ht
        have l1 : log_extends s0 s1 := by rw [← hs1]; exact log_extends_add_log _ _
        have n1 : new_events s0 s1 = log_if ((cfg c).ops.disable = true) (event.disable c) := by
          rw [← hs1]; exact new_events_add_log _ _
        have s1c : s1.count = s.count := by rw [← hs1]; exact s0c
        obtain ⟨s2, e2⟩ : ∃ zz, clk_disable cfg fuel s1 (cfg c).depends = some zz := by
          cases hq : clk_disable cfg fuel s1 (cfg c).depends with
          | none => simp [hq] at ht
          | some zz => exact ⟨zz, rfl⟩
        obtain ⟨_, _, _, f2⟩ := clk_disable_frame cfg h hr fuel s1 (cfg c).depends s2 e2
        rw [e2] at ht
        dsimp only at ht
        obtain ⟨l2, _, m2⟩ := clk_disable_rel cfg fuel s1 _ s2 e2
        have i2 := ih s1 _ s2 (by omega) e2 x
        obtain ⟨s3, e3⟩ : ∃ zz, clk_disable cfg fuel s2 (clk_get_parent cfg (.ptr c)) = some zz := by
          cases hq : clk_disable cfg fuel s2 (clk_get_parent cfg (.ptr c)) with
          | none => simp [hq] at ht
          | some zz => exact ⟨zz, rfl⟩
        obtain ⟨_, _, _, f3⟩ := clk_disable_frame cfg h hr fuel s2 (clk_get_parent cfg (.ptr c)) s3 e3
        rw [e3] at ht
        dsimp only at ht
        obtain ⟨l3, _, m3⟩ := clk_disable_rel cfg fuel s2 _ s3 e3
        have i3 := ih s2 _ s3 (by omega) e3 x
        cases ht
        have c2 : s2.count c = 1 := by rw [f2 c hrd, s1c, p1]
        have c3 : s3.count c = 1 := by rw [f3 c hrp, c2]
        have e0 : new_events s (set_count s3 c (s3.count c - 1)) = new_events s s3 := rfl
        rw [e0, new_events_split (log_extends_trans (log_extends_trans l0 l1) l2) l3,
          new_events_split (log_extends_trans l0 l1) l2, new_events_split l0 l1]
        simp only [List.filter_append, n0, n1, i2, i3, List.nil_append]
        by_cases hx : x = c
        · subst hx
          have k2 : ¬ (s1.count x ≠ 0 ∧ s2.count x = 0 ∧ (cfg x).ops.disable = true) := by
            intro hh
            rw [c2] at hh
            exact absurd hh.2.1 (by decide)
          have k3 : ¬ (s2.count x ≠ 0 ∧ s3.count x = 0 ∧ (cfg x).ops.disable = true) := by
            intro hh
            rw [c3] at hh
            exact absurd hh.2.1 (by decide)
          rw [filter_hook_own x _ (event.disable x) (by simp [is_hook_of]),
            if_neg k2, if_neg k3, List.append_nil, List.append_nil]
          have e5 : (set_count s3 x (s3.count x - 1)).count x = 0 := by
            simp [c3]
          rw [e5]
          by_cases hh : (cfg x).ops.disable = true
          · rw [if_pos hh, if_pos ⟨p0, rfl, hh⟩]
          · rw [if_neg hh, if_neg (fun q => hh q.2.2)]
        · rw [filter_hook_warn x _ (event.disable c) (by simp [is_hook_of, Ne.symm hx]),
            List.nil_append]
          have e5 : (set_count s3 c (s3.count c - 1)).count x = s3.count x := by
            simp [hx]
          have b := m2 x
          rw [e5, s1c]
          rw [s1c] at b
          exact two_step_down _ _ _ _ _ b (m3 x)
      · rw [if_neg p1] at ht
        cases ht
        have e0 : new_events s (set_count s0 c (s.count c - 1)) = new_events s s0 := rfl
        rw [e0, n0, if_neg]
        rintro ⟨q1, q2, _⟩
        simp only [set_count_count] at q2
        split at q2
        · next hx => subst hx; omega
        · rw [s0c] at q2
          exact q1 q2
/-- The hook calls of a successful `clk_enable`, clock by clock, with the frame of the
enable counts: counts only rise, clocks that are not among the ancestors keep theirs, and
the clock itself gains one. -/
theorem clk_enable_hook_events (hw : hooks) (cfg : Nat → clk) (h : Nat → Nat)
    (hr : ranked cfg h) :
    ∀ fuel s r t, rank h r ≤ fuel → clk_enable hw cfg fuel s r = some (0, t) →
      (∀ x, s.count x ≤ t.count x) ∧
      (∀ x, reaches cfg fuel r x = false → t.count x = s.count x) ∧
      (∀ c, r = .ptr c → t.count c = s.count c + 1) ∧
      ∀ x, (new_events s t).filter (is_hook_of x) =
        if s.count x = 0 ∧ t.count x ≠ 0 ∧ (cfg x).ops.enable = true
        then [event.enable x 0] else [] := by
  have hsame : ∀ (s : clk_state) (r : clk_ref) (fuel : Nat), (∀ c, r ≠ .ptr c) →
      (∀ x, s.count x ≤ s.count x) ∧
      (∀ x, reaches cfg fuel r x = false → s.count x = s.count x) ∧
      (∀ c, r = .ptr c → s.count c = s.count c + 1) ∧
      ∀ x, (new_events s s).filter (is_hook_of x) =
        if s.count x = 0 ∧ s.count x ≠ 0 ∧ (cfg x).ops.enable = true
        then [event.enable x 0] else [] := by
    intro s r fuel hrn
    refine ⟨fun _ => Nat.le_refl _, fun _ _ => rfl, fun c hc => absurd hc (hrn c), fun x => ?_⟩
    rw [new_events_self, if_neg (fun hh => hh.2.1 hh.1)]
    rfl
  have hnull : ∀ fuel s t, clk_enable hw cfg fuel s .null = some (0, t) → t = s := by
    intro fuel s t ht
    have e : clk_enable hw cfg fuel s .null = some (0, s) := by cases fuel <;> rfl
    rw [e] at ht
    cases ht
    rfl
  have herr : ∀ fuel s t e, clk_enable hw cfg fuel s (.err e) = some (0, t) → False := by
    intro fuel s t e ht
    have e : clk_enable hw cfg fuel s (.err e) = none := by cases fuel <;> rfl
    rw [e] at ht
    cases ht
  intro fuel
  induction fuel with
  | zero =>
    intro s r t hf ht
    cases r with
    | null => rw [hnull 0 s t ht]; exact hsame s _ _ (fun _ hc => by cases hc)
    | err e => exact (herr 0 s t e ht).elim
    | ptr c => simp [rank] at hf
  | succ fuel ih =>
    intro s r t hf ht
    cases r with
    | null => rw [hnull _ s t ht]; exact hsame s _ _ (fun _ hc => by cases hc)
    | err e => exact (herr _ s t e ht).elim
    | ptr c =>
      have hrd : rank h (cfg c).depends ≤ h c := (hr c).2
      have hrp : rank h (clk_get_parent cfg (.ptr c)) ≤ h c := (hr c).1
      have hfc : h c + 1 ≤ fuel + 1 := hf
      rcases clk_enable_success_inv hw cfg fuel s t c ht with ⟨p0, e⟩ | ⟨p0, s1, s2, e1, e2, e⟩
      · subst e
        refine ⟨?_, ?_, ?_, ?_⟩
        · intro x
          simp only [set_count_count, add_log_count]
          split
          · next hx => subst hx; omega
          · exact Nat.le_refl _
        · intro x hx
          have hxc : x ≠ c := by
            intro e
            subst e
            simp [reaches] at hx
          simp [hxc]
        · intro c' hc'
          cases hc'
          simp
        · intro x
          have e0 : new_events s (set_count (add_log s (log_if (s.prepare_count c = 0)
              (event.warn_unprepared c))) c (s.count c + 1)) =
              log_if (s.prepare_count c = 0) (event.warn_unprepared c) :=
            new_events_add_log _ _
          rw [e0, filter_hook_warn x _ (event.warn_unprepared c) rfl, if_neg]
          rintro ⟨q1, q2, _⟩
          by_cases hx : x = c
          · subst hx; exact p0 q1
          · simp [hx] at q2
            exact q2 q1
      · generalize hs0 : add_log s (log_if (s.prepare_count c = 0) (event.warn_unprepared c))
          = s0 at e1
        have l0 : log_extends s s0 := by rw [← hs0]; exact log_extends_add_log _ _
        have n0 : ∀ x, (new_events s s0).filter (is_hook_of x) = [] := by
          intro x
          rw [← hs0, new_events_add_log]
          exact filter_hook_warn x _ (event.warn_unprepared c) rfl
        have s0c : s0.count = s.count := by rw [← hs0]; rfl
        obtain ⟨_, _, _, f1, _⟩ := clk_enable_spec hw cfg h hr fuel s0
          (clk_get_parent cfg (.ptr c)) _ _ e1
        obtain ⟨_, _, _, f2, _⟩ := clk_enable_spec hw cfg h hr fuel s1 (cfg c).depends _ _ e2
        have l1 := clk_enable_log hw cfg _ _ _ _ _ e1
        have l2 := clk_enable_log hw cfg _ _ _ _ _ e2
        obtain ⟨m1, g1, _, i1⟩ := ih s0 _ s1 (by omega) e1
        obtain ⟨m2, g2, _, i2⟩ := ih s1 _ s2 (by omega) e2
        have c1 : s1.count c = 0 := by rw [f1 c hrp, s0c, p0]
        have c2 : s2.count c = 0 := by rw [f2 c hrd, c1]
        have tc : ∀ x, t.count x = if x = c then 1 else s2.count x := by
          intro x
          rw [e]
          simp only [set_count_count, add_log_count, c2]
        refine ⟨?_, ?_, ?_, ?_⟩
        · intro x
          rw [tc]
          have a := m1 x
          have b := m2 x
          rw [s0c] at a
          split
          · next hx => subst hx; omega
          · omega
        · intro x hx
          simp only [reaches, Bool.or_eq_false_iff] at hx
          obtain ⟨⟨hx0, hx1⟩, hx2⟩ := hx
          have hxc : x ≠ c := by simpa using hx0
          rw [tc, if_neg hxc, g2 x hx2, g1 x hx1, s0c]
        · intro c' hc'
          cases hc'
          rw [tc, if_pos rfl, p0]
        · intro x
          have l3 : log_extends s2 t := by
            rw [e]
            exact ⟨_, rfl⟩
          have n3 : new_events s2 t = log_if ((cfg c).ops.enable = true) (event.enable c 0) := by
            rw [e]
            exact new_events_add_log _ _
          rw [new_events_split (log_extends_trans (log_extends_trans l0 l1) l2) l3,
            new_events_split (log_extends_trans l0 l1) l2, new_events_split l0 l1, n3]
          simp only [List.filter_append, n0, i1, i2, List.nil_append]
          rw [tc, s0c]
          by_cases hx : x = c
          · subst hx
            have k1 : ¬ (s.count x = 0 ∧ s1.count x ≠ 0 ∧ (cfg x).ops.enable = true) :=
              fun q => q.2.1 c1
            have k2 : ¬ (s1.count x = 0 ∧ s2.count x ≠ 0 ∧ (cfg x).ops.enable = true) :=
              fun q => q.2.1 c2
            rw [filter_hook_own x _ (event.enable x 0) (by simp [is_hook_of]),
              if_neg k1, if_neg k2, List.nil_append, List.nil_append, if_pos rfl]
            by_cases hk : (cfg x).ops.enable = true
            · rw [if_pos hk, if_pos ⟨p0, by decide, hk⟩]
            · rw [if_neg hk, if_neg (fun q => hk q.2.2)]
          · rw [filter_hook_warn x _ (event.enable c 0) (by simp [is_hook_of, Ne.symm hx]),
              List.append_nil, if_neg hx]
            have a := m1 x
            rw [s0c] at a
            exact two_step_up _ _ _ _ _ a (m2 x)
/-- A `clk_disable` after a successful `clk_enable` of the same clock, from a state that
agrees below the clock: it returns, restores the counts below and keeps the others. -/
theorem clk_enable_undo_below (hw : hooks) (cfg : Nat → clk) (h : Nat → Nat)
    (hr : ranked cfg h) (fuel : Nat) (s s1 t1 : clk_state) (r : clk_ref)
    (he : clk_enable hw cfg fuel s r = some (0, s1))
    (hp : ∀ x, h x < rank h r → t1.count x = s1.count x) :
    ∃ t2, clk_disable cfg fuel t1 r = some t2 ∧ log_extends t1 t2 ∧
      (∀ x, h x < rank h r → t2.count x = s.count x) ∧
      (∀ x, rank h r ≤ h x → t2.count x = t1.count x) := by
  obtain ⟨_, _, _, _, _, undo⟩ := clk_enable_spec hw cfg h hr fuel s r 0 s1 he
  obtain ⟨t2, e2, u2⟩ := undo rfl t1 hp
  obtain ⟨_, _, _, f2⟩ := clk_disable_frame cfg h hr fuel t1 r t2 e2
  exact ⟨t2, e2, (clk_disable_rel cfg fuel t1 r t2 e2).1, u2, f2⟩

/-- A `clk_disable` after a successful `clk_enable` of the same clock restores every
enable count. -/
theorem clk_enable_undo_counts (hw : hooks) (cfg : Nat → clk) (h : Nat → Nat)
    (hr : ranked cfg h) (fuel : Nat) (s s1 t1 t2 : clk_state) (r : clk_ref)
    (he : clk_enable hw cfg fuel s r = some (0, s1))
    (hp : t1.count = s1.count) (hu : clk_disable cfg fuel t1 r = some t2) :
    t2.count = s.count := by
  obtain ⟨_, _, _, f, _⟩ := clk_enable_spec hw cfg h hr fuel s r 0 s1 he
  obtain ⟨t2', e2, _, b, a⟩ := clk_enable_undo_below hw cfg h hr fuel s s1 t1 r he
    (fun x _ => congrFun hp x)
  rw [hu] at e2
  cases e2
  funext x
  by_cases hx : h x < rank h r
  · exact b x hx
  · rw [a x (by omega), hp, f x (by omega)]

/-- The hook calls of a failed `clk_enable`: none for a clock that was enabled before or
is not among the ancestors, and for the clock itself at most its own failed enable hook. -/
theorem clk_enable_failure_hook_events (hw : hooks) (cfg : Nat → clk) (h : Nat → Nat)
    (hr : ranked cfg h) :
    ∀ fuel s r rc t, rank h r ≤ fuel → clk_enable hw cfg fuel s r = some (rc, t) → rc ≠ 0 →
      (∀ x, (s.count x ≠ 0 ∨ reaches cfg fuel r x = false) →
        (new_events s t).filter (is_hook_of x) = []) ∧
      (∀ c, r = .ptr c → (new_events s t).filter (is_hook_of c) = [] ∨
        ∃ rcf, rcf ≠ 0 ∧ (new_events s t).filter (is_hook_of c) = [event.enable c rcf]) := by
  intro fuel
  induction fuel with
  | zero =>
    intro s r rc t hf ht hrc
    cases r with
    | null => cases ht; exact absurd rfl hrc
    | err e => simp [clk_enable] at ht
    | ptr c => simp [rank] at hf
  | succ fuel ih =>
    intro s r rc t hf ht hrc
    cases r with
    | null => cases ht; exact absurd rfl hrc
    | err e => simp [clk_enable] at ht
    | ptr c =>
      have hrd : rank h (cfg c).depends ≤ h c := (hr c).2
      have hrp : rank h (clk_get_parent cfg (.ptr c)) ≤ h c := (hr c).1
      have hfc : h c + 1 ≤ fuel + 1 := hf
      have L1 := clk_enable_hook_events hw cfg h hr fuel
      have L2 := clk_disable_hook_events cfg h hr fuel
      have seg : ∀ (u : clk_state) r rc u', rank h r ≤ fuel →
          clk_enable hw cfg fuel u r = some (rc, u') →
          ∀ x, (u.count x ≠ 0 ∨ reaches cfg fuel r x = false) →
            (new_events u u').filter (is_hook_of x) = [] := by
        intro u r rc u' hfr hu x hx
        by_cases z : rc = 0
        · subst z
          obtain ⟨_, g, _, i⟩ := L1 u r u' hfr hu
          rw [i x, if_neg]
          rintro ⟨q1, q2, _⟩
          rcases hx with hx | hx
          · exact hx q1
          · rw [g x hx] at q2
            exact q2 q1
        · exact (ih u r rc u' hfr hu z).1 x hx
      unfold clk_enable at ht
      dsimp only at ht
      simp only [add_log_count] at ht
      generalize hs0 : add_log s (log_if (s.prepare_count c = 0) (event.warn_unprepared c))
        = s0 at ht
      have l0 : log_extends s s0 := by rw [← hs0]; exact log_extends_add_log _ _
      have n0 : ∀ x, (new_events s s0).filter (is_hook_of x) = [] := by
        intro x
        rw [← hs0, new_events_add_log]
        exact filter_hook_warn x _ (event.warn_unprepared c) rfl
      have s0c : s0.count = s.count := by rw [← hs0]; rfl
      by_cases p0 : s.count c = 0
      swap
      · rw [if_neg p0] at ht
        cases ht
        exact absurd rfl hrc
      rw [if_pos p0] at ht
      have G : ∃ own : List event, (own = [] ∨ ∃ rcf, rcf ≠ 0 ∧ own = [event.enable c rcf]) ∧
          ∀ x, (s.count x ≠ 0 ∨
              reaches cfg fuel (clk_get_parent cfg (.ptr c)) x = false) →
            (s.count x ≠ 0 ∨ reaches cfg fuel (cfg c).depends x = false) →
            (new_events s t).filter (is_hook_of x) = own.filter (is_hook_of x) := by
        obtain ⟨ret1, s1, e1⟩ : ∃ zr zz, clk_enable hw cfg fuel s0 (clk_get_parent cfg (.ptr c)) = some (zr, zz) := by
          cases hq : clk_enable hw cfg fuel s0 (clk_get_parent cfg (.ptr c)) with
          | none => simp [hq] at ht
          | some zp => exact ⟨zp.1, zp.2, rfl⟩
        obtain ⟨_, _, _, f1, fail1, _⟩ := clk_enable_spec hw cfg h hr fuel s0 (clk_get_parent cfg (.ptr c)) ret1 s1 e1
        rw [e1] at ht
        dsimp only at ht
        have l1 := clk_enable_log hw cfg _ _ _ _ _ e1
        by_cases hr1 : ret1 ≠ 0
        · rw [if_pos hr1] at ht
          cases ht
          refine ⟨[], Or.inl rfl, fun x hx1 _ => ?_⟩
          rw [new_events_split l0 l1, List.filter_append, n0,
            seg s0 _ _ _ (by omega) e1 x (by rw [s0c]; exact hx1)]
          rfl
        rw [if_neg hr1] at ht
        have z1 : ret1 = 0 := not_not.mp hr1
        subst z1
        obtain ⟨m1, g1, _, _⟩ := L1 s0 _ s1 (by omega) e1
        obtain ⟨ret2, s2, e2⟩ : ∃ zr zz, clk_enable hw cfg fuel s1 (cfg c).depends = some (zr, zz) := by
          cases hq : clk_enable hw cfg fuel s1 (cfg c).depends with
          | none => simp [hq] at ht
          | some zp => exact ⟨zp.1, zp.2, rfl⟩
        obtain ⟨_, _, _, f2, fail2, _⟩ := clk_enable_spec hw cfg h hr fuel s1 (cfg c).depends ret2 s2 e2
        rw [e2] at ht
        dsimp only at ht
        have l2 := clk_enable_log hw cfg _ _ _ _ _ e2
        have tailP : ∀ u t' : clk_state, u.count = s1.count →
            clk_disable cfg fuel u (clk_get_parent cfg (.ptr c)) = some t' →
            log_extends u t' ∧ t'.count = s.count ∧
            ∀ x, (s.count x ≠ 0 ∨
                reaches cfg fuel (clk_get_parent cfg (.ptr c)) x = false) →
              (new_events u t').filter (is_hook_of x) = [] := by
          intro u t' hup hu
          have hR := clk_enable_undo_counts hw cfg h hr fuel s0 s1 u t' _ e1 hup hu
          rw [s0c] at hR
          refine ⟨(clk_disable_rel cfg fuel u _ t' hu).1, hR, fun x hx => ?_⟩
          rw [L2 u _ t' (by omega) hu x, if_neg]
          rintro ⟨q1, q2, _⟩
          rw [hup] at q1
          rw [hR] at q2
          rcases hx with hx | hx
          · exact hx q2
          · rw [g1 x hx, s0c] at q1
            exact q1 q2
        have hx2s : ∀ x, (s.count x ≠ 0 ∨ reaches cfg fuel (cfg c).depends x = false) →
            (s1.count x ≠ 0 ∨ reaches cfg fuel (cfg c).depends x = false) := by
          intro x hx2
          rcases hx2 with hx2 | hx2
          · left
            have := m1 x
            rw [s0c] at this
            omega
          · exact Or.inr hx2
        by_cases hr2 : ret2 ≠ 0
        · rw [if_pos hr2] at ht
          unfold err_enable_depends at ht
          obtain ⟨t', d⟩ : ∃ zz, clk_disable cfg fuel s2 (clk_get_parent cfg (.ptr c)) = some zz := by
            cases hq : clk_disable cfg fuel s2 (clk_get_parent cfg (.ptr c)) with
            | none => simp [hq] at ht
            | some zz => exact ⟨zz, rfl⟩
          rw [d] at ht
          dsimp only at ht
          cases ht
          obtain ⟨lt, _, ft⟩ := tailP s2 _ (fail2 hr2) d
          refine ⟨[], Or.inl rfl, fun x hx1 hx2 => ?_⟩
          rw [new_events_split (log_extends_trans (log_extends_trans l0 l1) l2) lt,
            new_events_split (log_extends_trans l0 l1) l2, new_events_split l0 l1]
          simp only [List.filter_append]
          rw [n0, seg s0 _ _ _ (by omega) e1 x (by rw [s0c]; exact hx1), ft x hx1,
            seg s1 _ _ _ (by omega) e2 x (hx2s x hx2)]
          rfl
        rw [if_neg hr2] at ht
        have z2 : ret2 = 0 := not_not.mp hr2
        subst z2
        obtain ⟨m2, g2, _, _⟩ := L1 s1 _ s2 (by omega) e2
        generalize (if (cfg c).ops.enable = true then hw.enable s2.log c else 0) = ret3 at ht
        generalize hs3 : add_log s2 (log_if ((cfg c).ops.enable = true)
          (event.enable c ret3)) = s3 at ht
        have l3 : log_extends s2 s3 := by rw [← hs3]; exact log_extends_add_log _ _
        have n3 : new_events s2 s3 =
            log_if ((cfg c).ops.enable = true) (event.enable c ret3) := by
          rw [← hs3]; exact new_events_add_log _ _
        have s3c : s3.count = s2.count := by rw [← hs3]; rfl
        by_cases r3 : ret3 ≠ 0
        · rw [if_pos r3] at ht
          unfold err_enable_clock at ht
          obtain ⟨u1, d1⟩ : ∃ zz, clk_disable cfg fuel s3 (cfg c).depends = some zz := by
            cases hq : clk_disable cfg fuel s3 (cfg c).depends with
            | none => simp [hq] at ht
            | some zz => exact ⟨zz, rfl⟩
          rw [d1] at ht
          dsimp only at ht
          have lu1 := (clk_disable_rel cfg fuel s3 _ u1 d1).1
          have hR := clk_enable_undo_counts hw cfg h hr fuel s1 s2 s3 u1 _ e2 s3c d1
          unfold err_enable_depends at ht
          obtain ⟨u2, d2⟩ : ∃ zz, clk_disable cfg fuel u1 (clk_get_parent cfg (.ptr c)) = some zz := by
            cases hq : clk_disable cfg fuel u1 (clk_get_parent cfg (.ptr c)) with
            | none => simp [hq] at ht
            | some zz => exact ⟨zz, rfl⟩
          rw [d2] at ht
          dsimp only at ht
          cases ht
          obtain ⟨lt, _, ft⟩ := tailP u1 _ hR d2
          refine ⟨log_if ((cfg c).ops.enable = true) (event.enable c rc), ?_,
            fun x hx1 hx2 => ?_⟩
          · unfold log_if
            split
            · exact Or.inr ⟨rc, hrc, rfl⟩
            · exact Or.inl rfl
          · have fu : (new_events s3 u1).filter (is_hook_of x) = [] := by
              rw [L2 s3 _ u1 (by omega) d1 x, if_neg]
              rintro ⟨q1, q2, _⟩
              rw [s3c] at q1
              rw [hR] at q2
              rcases hx2 with hx2 | hx2
              · have := m1 x
                rw [s0c] at this
                omega
              · rw [g2 x hx2] at q1
                exact q1 q2
            rw [new_events_split (log_extends_trans (log_extends_trans (log_extends_trans
                  (log_extends_trans l0 l1) l2) l3) lu1) lt,
              new_events_split (log_extends_trans (log_extends_trans
                  (log_extends_trans l0 l1) l2) l3) lu1,
              new_events_split (log_extends_trans (log_extends_trans l0 l1) l2) l3,
              new_events_split (log_extends_trans l0 l1) l2, new_events_split l0 l1]
            simp only [List.filter_append]
            rw [n0, seg s0 _ _ _ (by omega) e1 x (by rw [s0c]; exact hx1),
              seg s1 _ _ _ (by omega) e2 x (hx2s x hx2), fu, ft x hx1, n3]
            simp
        · rw [if_neg r3] at ht
          cases ht
          exact absurd rfl hrc
      obtain ⟨own, hown, hG⟩ := G
      constructor
      · intro x hx
        have hxc : x ≠ c := by
          rcases hx with hx | hx
          · intro e
            subst e
            exact hx p0
          · intro e
            subst e
            simp [reaches] at hx
        have hx1 : s.count x ≠ 0 ∨
            reaches cfg fuel (clk_get_parent cfg (.ptr c)) x = false := by
          rcases hx with hx | hx
          · exact Or.inl hx
          · right
            simp only [reaches, Bool.or_eq_false_iff] at hx
            exact hx.1.2
        have hx2 : s.count x ≠ 0 ∨ reaches cfg fuel (cfg c).depends x = false := by
          rcases hx with hx | hx
          · exact Or.inl hx
          · right
            simp only [reaches, Bool.or_eq_false_iff] at hx
            exact hx.2
        rw [hG x hx1 hx2]
        rcases hown with e | ⟨rcf, _, e⟩
        · rw [e]; rfl
        · rw [e]
          simp [is_hook_of, Ne.symm hxc]
      · intro c' hc'
        cases hc'
        have hx1 : reaches cfg fuel (clk_get_parent cfg (.ptr c)) c = false := by
          by_contra hh
          have := ranked_reaches cfg h hr fuel _ c (by simpa using hh)
          omega
        have hx2 : reaches cfg fuel (cfg c).depends c = false := by
          by_contra hh
          have := ranked_reaches cfg h hr fuel _ c (by simpa using hh)
          omega
        rw [hG c (Or.inr hx1) (Or.inr hx2)]
        rcases hown with e | ⟨rcf, hrcf, e⟩
        · rw [e]; exact Or.inl rfl
        · rw [e]
          exact Or.inr ⟨rcf, hrcf, by simp [is_hook_of]⟩
/-- The first step of `clk_enable` on the node: the enable of the idle parent calls the
enable hook of the parent only. -/
theorem enable_first_events (hw : hooks) (cfg : Nat → clk) (h : Nat → Nat)
    (hr : ranked cfg h) (fuel : Nat) (s s1 : clk_state) (node P D : Nat)
    (hP : clk_get_parent cfg (.ptr node) = .ptr P)
    (hreach : reaches cfg fuel (.ptr P) D = false) (hf : h node ≤ fuel)
    (kP : (cfg P).ops.enable = true)
    (iP : s.count P = 0) (iD : s.count D = 0)
    (e1 : clk_enable hw cfg fuel s (.ptr P) = some (0, s1)) :
    hooks_of [P, D, node] (new_events s s1) = [event.enable P 0] ∧
    s1.count P = 1 ∧ s1.count D = 0 ∧ s1.count node = s.count node := by
  have hPn : rank h (.ptr P) ≤ h node := by rw [← hP]; exact (hr node).1
  have hPf : rank h (.ptr P) ≤ fuel := by omega
  obtain ⟨_, _, _, f1, _⟩ := clk_enable_spec hw cfg h hr fuel s (.ptr P) _ _ e1
  obtain ⟨_, g1, o1, L1a⟩ := clk_enable_hook_events hw cfg h hr fuel s _ s1 hPf e1
  have o1 := o1 P rfl
  have d1 : s1.count D = 0 := by rw [g1 D hreach, iD]
  refine ⟨(hooks_of_three P D node _ _ ?_ ?_ ?_).1, by omega, d1, f1 node hPn⟩
  · rw [L1a P, if_pos ⟨iP, by omega, kP⟩]
  · rw [L1a D, if_neg (fun q => q.2.1 d1)]
  · rw [L1a node, if_neg (fun q => q.2.1 (by rw [f1 node hPn]; exact q.1))]

/-- The second step: the enable of the idle dependency calls the enable hook of the
dependency only. -/
theorem enable_second_events (hw : hooks) (cfg : Nat → clk) (h : Nat → Nat)
    (hr : ranked cfg h) (fuel : Nat) (s1 s2 : clk_state) (node P D : Nat)
    (hD : (cfg node).depends = .ptr D) (hf : h node ≤ fuel)
    (kD : (cfg D).ops.enable = true)
    (iP : s1.count P = 1) (iD : s1.count D = 0)
    (e2 : clk_enable hw cfg fuel s1 (.ptr D) = some (0, s2)) :
    hooks_of [P, D, node] (new_events s1 s2) = [event.enable D 0] ∧
    s2.count D = 1 ∧ s2.count node = s1.count node := by
  have hDn : rank h (.ptr D) ≤ h node := by rw [← hD]; exact (hr node).2
  have hDf : rank h (.ptr D) ≤ fuel := by omega
  obtain ⟨_, _, _, f2, _⟩ := clk_enable_spec hw cfg h hr fuel s1 (.ptr D) _ _ e2
  obtain ⟨_, _, o2, L1b⟩ := clk_enable_hook_events hw cfg h hr fuel s1 _ s2 hDf e2
  have o2 := o2 D rfl
  refine ⟨(hooks_of_three D P node _ _ ?_ ?_ ?_).2.1, by omega, f2 node hDn⟩
  · rw [L1b D, if_pos ⟨iD, by omega, kD⟩]
  · rw [L1b P, if_neg (fun q => by have := q.1; omega)]
  · rw [L1b node, if_neg (fun q => q.2.1 (by rw [f2 node hDn]; exact q.1))]

/-- The disable of the dependency calls the disable hook of the dependency only and
restores the counts to those before its enable. -/
theorem disable_second_events (hw : hooks) (cfg : Nat → clk) (h : Nat → Nat)
    (hr : ranked cfg h) (fuel : Nat) (s1 s2 u : clk_state) (node P D : Nat)
    (hP : clk_get_parent cfg (.ptr node) = .ptr P) (hD : (cfg node).depends = .ptr D)
    (hf : h node ≤ fuel) (kD : (cfg D).ops.disable = true)
    (iP : s1.count P = 1) (iD : s1.count D = 0)
    (e2 : clk_enable hw cfg fuel s1 (.ptr D) = some (0, s2))
    (hu : ∀ x, x ≠ node → u.count x = s2.count x) :
    ∃ u1, clk_disable cfg fuel u (.ptr D) = some u1 ∧ log_extends u u1 ∧
      hooks_of [P, D, node] (new_events u u1) = [event.disable D] ∧
      (∀ x, x ≠ node → u1.count x = s1.count x) := by
  have hPn : rank h (.ptr P) ≤ h node := by rw [← hP]; exact (hr node).1
  have hDn : rank h (.ptr D) ≤ h node := by rw [← hD]; exact (hr node).2
  have hDf : rank h (.ptr D) ≤ fuel := by omega
  have hne : ∀ x, h x < h node → x ≠ node := fun x hx e => by subst e; omega
  have hPne : P ≠ node := hne P (by simp only [rank] at hPn; omega)
  have hDne : D ≠ node := hne D (by simp only [rank] at hDn; omega)
  obtain ⟨_, _, _, f2, _⟩ := clk_enable_spec hw cfg h hr fuel s1 (.ptr D) _ _ e2
  have o2 := (clk_enable_hook_events hw cfg h hr fuel s1 _ s2 hDf e2).2.2.1 D rfl
  obtain ⟨u1, c1, lu1, b1, a1⟩ := clk_enable_undo_below hw cfg h hr fuel s1 s2 u _ e2
    (fun x hx => hu x (hne x (by omega)))
  have A : ∀ x, x ≠ node → u1.count x = s1.count x := by
    intro x hx
    by_cases hxd : h x < rank h (.ptr D)
    · exact b1 x hxd
    · rw [a1 x (by omega), hu x hx, f2 x (by omega)]
  have L2a := clk_disable_hook_events cfg h hr fuel u _ u1 hDf c1
  refine ⟨u1, c1, lu1, (hooks_of_three D P node _ _ ?_ ?_ ?_).2.1, A⟩
  · rw [L2a D, if_pos ⟨by rw [hu D hDne]; omega, by rw [A D hDne]; exact iD, kD⟩]
  · rw [L2a P, if_neg (fun q => by have := q.2.1; rw [A P hPne] at this; omega)]
  · rw [L2a node, if_neg (fun q => q.1 (by rw [← a1 node hDn]; exact q.2.1))]

/-- The disable of the parent calls the disable hook of the parent only. -/
theorem disable_first_events (hw : hooks) (cfg : Nat → clk) (h : Nat → Nat)
    (hr : ranked cfg h) (fuel : Nat) (s s1 u1 : clk_state) (node P D : Nat)
    (hP : clk_get_parent cfg (.ptr node) = .ptr P) (hD : (cfg node).depends = .ptr D)
    (hf : h node ≤ fuel) (kP : (cfg P).ops.disable = true)
    (iP : s.count P = 0) (jP : s1.count P = 1) (jD : s1.count D = 0)
    (e1 : clk_enable hw cfg fuel s (.ptr P) = some (0, s1))
    (hu : ∀ x, x ≠ node → u1.count x = s1.count x) :
    ∃ u2, clk_disable cfg fuel u1 (.ptr P) = some u2 ∧ log_extends u1 u2 ∧
      hooks_of [P, D, node] (new_events u1 u2) = [event.disable P] := by
  have hPn : rank h (.ptr P) ≤ h node := by rw [← hP]; exact (hr node).1
  have hDn : rank h (.ptr D) ≤ h node := by rw [← hD]; exact (hr node).2
  have hPf : rank h (.ptr P) ≤ fuel := by omega
  have hne : ∀ x, h x < h node → x ≠ node := fun x hx e => by subst e; omega
  have hPne : P ≠ node := hne P (by simp only [rank] at hPn; omega)
  have hDne : D ≠ node := hne D (by simp only [rank] at hDn; omega)
  obtain ⟨u2, c2, lu2, b2, a2⟩ := clk_enable_undo_below hw cfg h hr fuel s s1 u1 _ e1
    (fun x hx => hu x (hne x (by omega)))
  have L2b := clk_disable_hook_events cfg h hr fuel u1 _ u2 hPf c2
  refine ⟨u2, c2, lu2, (hooks_of_three P D node _ _ ?_ ?_ ?_).1⟩
  · rw [L2b P, if_pos ⟨by rw [hu P hPne]; omega, by rw [b2 P (by simp [rank]), iP], kP⟩]
  · rw [L2b D, if_neg (fun q => q.1 (by rw [hu D hDne]; exact jD))]
  · rw [L2b node, if_neg (fun q => q.1 (by rw [← a2 node hPn]; exact q.2.1))]

/-- The order of the hook calls of a `clk_enable` that returns, on a node with an idle
parent and an idle dependency that is not an ancestor of the parent, of the `clk_disable`
that follows, and of every failed `clk_enable`; the call returns on a tree without error
pointers. -/
theorem enable_nesting (hw : hooks) (cfg : Nat → clk) (h : Nat → Nat)
    (hr : ranked cfg h) (fuel : Nat) (s : clk_state) (node P D : Nat)
    (hP : clk_get_parent cfg (.ptr node) = .ptr P) (hD : (cfg node).depends = .ptr D)
    (hreach : reaches cfg fuel (.ptr P) D = false) (hf : h node ≤ fuel)
    (kP : (cfg P).ops.enable = true) (kD : (cfg D).ops.enable = true)
    (kN : (cfg node).ops.enable = true)
    (uP : (cfg P).ops.disable = true) (uD : (cfg D).ops.disable = true)
    (uN : (cfg node).ops.disable = true)
    (iN : s.count node = 0) (iP : s.count P = 0) (iD : s.count D = 0) :
    (no_error_pointers cfg →
      ∃ rc s1, clk_enable hw cfg (fuel + 1) s (.ptr node) = some (rc, s1)) ∧
    ∀ rc s1, clk_enable hw cfg (fuel + 1) s (.ptr node) = some (rc, s1) →
      (rc = 0 →
        hooks_of [P, D, node] (new_events s s1) =
          [event.enable P 0, event.enable D 0, event.enable node 0] ∧
        ∀ t1 : clk_state, t1.count = s1.count →
          ∃ t2, clk_disable cfg (fuel + 1) t1 (.ptr node) = some t2 ∧
            hooks_of [P, D, node] (new_events t1 t2) =
              [event.disable node, event.disable D, event.disable P]) ∧
      (rc ≠ 0 → ∃ rcf, rcf ≠ 0 ∧
        (hooks_of [P, D, node] (new_events s s1) = [] ∨
         hooks_of [P, D, node] (new_events s s1) = [event.enable P rcf] ∨
         hooks_of [P, D, node] (new_events s s1) = [event.enable P 0, event.disable P] ∨
         hooks_of [P, D, node] (new_events s s1) =
           [event.enable P 0, event.enable D rcf, event.disable P] ∨
         hooks_of [P, D, node] (new_events s s1) =
           [event.enable P 0, event.enable D 0, event.enable node rcf,
            event.disable D, event.disable P])) := by
  have hPn : rank h (.ptr P) ≤ h node := by rw [← hP]; exact (hr node).1
  have hDn : rank h (.ptr D) ≤ h node := by rw [← hD]; exact (hr node).2
  have hPf : rank h (.ptr P) ≤ fuel := by omega
  have hDf : rank h (.ptr D) ≤ fuel := by omega
  have hnr : ∀ r, rank h r ≤ h node → reaches cfg fuel r node = false := by
    intro r hrn
    by_contra hh
    have := ranked_reaches cfg h hr fuel r node (by simpa using hh)
    omega
  have hwarn : ∀ (p : Prop) [Decidable p] (c : Nat),
      hooks_of [P, D, node] (log_if p (event.warn_unprepared c)) = [] :=
    fun p _ c => hooks_of_none _ _ (fun x _ => filter_hook_warn x p (event.warn_unprepared c) rfl)
  refine ⟨fun hne => ?_, fun rc s' e => ⟨?_, ?_⟩⟩
  · obtain ⟨rc, s1, e, _⟩ := clk_enable_returns hw cfg h hr hne (fuel + 1) s (.ptr node)
      (fun _ => clk_ref.noConfusion) (by simp only [rank]; omega)
    exact ⟨rc, s1, e⟩
  · intro z
    subst z
    rcases clk_enable_success_inv hw cfg fuel s s' node e with ⟨p0, _⟩ |
      ⟨_, s1, s2, e1, e2, es⟩
    · exact absurd iN p0
    rw [hP] at e1
    rw [hD] at e2
    generalize hs0 : add_log s (log_if (s.prepare_count node = 0) (event.warn_unprepared node))
      = s0 at e1
    have l0 : log_extends s s0 := by rw [← hs0]; exact log_extends_add_log _ _
    have n0 : hooks_of [P, D, node] (new_events s s0) = [] := by
      rw [← hs0, new_events_add_log]
      exact hwarn _ _
    have s0c : s0.count = s.count := by rw [← hs0]; rfl
    have l1 := clk_enable_log hw cfg _ _ _ _ _ e1
    have l2 := clk_enable_log hw cfg _ _ _ _ _ e2
    obtain ⟨k1, jP, jD, jN⟩ := enable_first_events hw cfg h hr fuel s0 s1 node P D hP hreach hf
      kP (by rw [s0c]; exact iP) (by rw [s0c]; exact iD) e1
    obtain ⟨k2, _, jN2⟩ := enable_second_events hw cfg h hr fuel s1 s2 node P D hD hf kD jP jD e2
    have l3 : log_extends s2 s' := by
      rw [es]
      exact ⟨_, rfl⟩
    have n3 : new_events s2 s' = [event.enable node 0] := by
      rw [es]
      have : new_events s2 (set_count (add_log s2 (log_if ((cfg node).ops.enable = true)
          (event.enable node 0))) node (s2.count node + 1)) =
          log_if ((cfg node).ops.enable = true) (event.enable node 0) :=
        new_events_add_log _ _
      rw [this, log_if, if_pos kN]
    constructor
    · rw [new_events_split (log_extends_trans (log_extends_trans l0 l1) l2) l3,
        new_events_split (log_extends_trans l0 l1) l2, new_events_split l0 l1, n3]
      simp only [hooks_of_append, n0, k1, k2]
      rw [hooks_of_single P D node node _ (Or.inr (Or.inr rfl)) (by simp [is_hook_of])]
      rfl
    · intro t1 hp
      have c2 : s2.count node = 0 := by rw [jN2, jN, s0c, iN]
      have cs : ∀ x, s'.count x = if x = node then 1 else s2.count x := by
        intro x
        rw [es]
        simp only [set_count_count, add_log_count, c2]
      obtain ⟨t2, et, _⟩ := clk_enable_disable hw cfg h hr (fuel + 1) s s' t1 (.ptr node) e hp
      refine ⟨t2, et, ?_⟩
      have t1n : t1.count node = 1 := by rw [hp, cs, if_pos rfl]
      unfold clk_disable at et
      dsimp only at et
      simp only [add_log_count] at et
      rw [if_neg (by rw [t1n]; decide), if_pos t1n, hP, hD] at et
      generalize hsa : add_log t1 (log_if (t1.prepare_count node = 0)
        (event.warn_unprepared node)) = sa at et
      generalize hsb : add_log sa (log_if ((cfg node).ops.disable = true)
        (event.disable node)) = sb at et
      have la : log_extends t1 sa := by rw [← hsa]; exact log_extends_add_log _ _
      have lb : log_extends sa sb := by rw [← hsb]; exact log_extends_add_log _ _
      have na : hooks_of [P, D, node] (new_events t1 sa) = [] := by
        rw [← hsa, new_events_add_log]
        exact hwarn _ _
      have nb : new_events sa sb = [event.disable node] := by
        rw [← hsb, new_events_add_log, log_if, if_pos uN]
      have sbc : sb.count = t1.count := by rw [← hsb, ← hsa]; rfl
      obtain ⟨u1, c1, lu1, j1, A1⟩ := disable_second_events hw cfg h hr fuel s1 s2 sb
        node P D hP hD hf uD jP jD e2 (fun x hx => by rw [sbc, hp, cs, if_neg hx])
      obtain ⟨u2, c2', lu2, j2⟩ := disable_first_events hw cfg h hr fuel s0 s1 u1 node P D hP hD
        hf uP (by rw [s0c]; exact iP) jP jD e1 A1
      rw [c1] at et
      dsimp only at et
      rw [c2'] at et
      dsimp only at et
      cases et
      have e0 : new_events t1 (set_count u2 node (u2.count node - 1)) = new_events t1 u2 := rfl
      rw [e0, new_events_split (log_extends_trans (log_extends_trans la lb) lu1) lu2,
        new_events_split (log_extends_trans la lb) lu1, new_events_split la lb, nb]
      simp only [hooks_of_append, na, j1, j2]
      rw [hooks_of_single P D node node _ (Or.inr (Or.inr rfl)) (by simp [is_hook_of])]
      rfl
  · intro hrc
    have LF := clk_enable_failure_hook_events hw cfg h hr fuel
    unfold clk_enable at e
    dsimp only at e
    simp only [add_log_count] at e
    rw [if_pos iN, hP, hD] at e
    generalize hs0 : add_log s (log_if (s.prepare_count node = 0) (event.warn_unprepared node))
      = s0 at e
    have l0 : log_extends s s0 := by rw [← hs0]; exact log_extends_add_log _ _
    have n0 : hooks_of [P, D, node] (new_events s s0) = [] := by
      rw [← hs0, new_events_add_log]
      exact hwarn _ _
    have s0c : s0.count = s.count := by rw [← hs0]; rfl
    obtain ⟨ret1, s1, e1⟩ : ∃ zr zz, clk_enable hw cfg fuel s0 (.ptr P) = some (zr, zz) := by
      cases hq : clk_enable hw cfg fuel s0 (.ptr P) with
      | none => simp [hq] at e
      | some zp => exact ⟨zp.1, zp.2, rfl⟩
    obtain ⟨_, _, _, f1, fail1, _⟩ := clk_enable_spec hw cfg h hr fuel s0 (.ptr P) ret1 s1 e1
    rw [e1] at e
    dsimp only at e
    have l1 := clk_enable_log hw cfg _ _ _ _ _ e1
    by_cases hr1 : ret1 ≠ 0
    · rw [if_pos hr1] at e
      cases e
      obtain ⟨n1, o1⟩ := LF s0 _ _ _ hPf e1 hr1
      rw [new_events_split l0 l1, hooks_of_append, n0, List.nil_append]
      rcases o1 P rfl with o | ⟨rcf, hrcf, o⟩
      · exact ⟨rc, hrc, Or.inl (hooks_of_three P D node _ _ o (n1 D (Or.inr hreach))
          (n1 node (Or.inr (hnr _ hPn)))).1⟩
      · exact ⟨rcf, hrcf, Or.inr (Or.inl (hooks_of_three P D node _ _ o (n1 D (Or.inr hreach))
          (n1 node (Or.inr (hnr _ hPn)))).1)⟩
    rw [if_neg hr1] at e
    have z1 : ret1 = 0 := not_not.mp hr1
    subst z1
    obtain ⟨k1, jP, jD, jN⟩ := enable_first_events hw cfg h hr fuel s0 s1 node P D hP hreach hf
      kP (by rw [s0c]; exact iP) (by rw [s0c]; exact iD) e1
    obtain ⟨ret2, s2, e2⟩ : ∃ zr zz, clk_enable hw cfg fuel s1 (.ptr D) = some (zr, zz) := by
      cases hq : clk_enable hw cfg fuel s1 (.ptr D) with
      | none => simp [hq] at e
      | some zp => exact ⟨zp.1, zp.2, rfl⟩
    obtain ⟨_, _, _, f2, fail2, _⟩ := clk_enable_spec hw cfg h hr fuel s1 (.ptr D) ret2 s2 e2
    rw [e2] at e
    dsimp only at e
    have l2 := clk_enable_log hw cfg _ _ _ _ _ e2
    by_cases hr2 : ret2 ≠ 0
    · rw [if_pos hr2] at e
      unfold err_enable_depends at e
      obtain ⟨u2, c2, lu2, j2⟩ := disable_first_events hw cfg h hr fuel s0 s1 s2 node P D hP hD
        hf uP (by rw [s0c]; exact iP) jP jD e1 (fun x _ => congrFun (fail2 hr2) x)
      rw [c2] at e
      dsimp only at e
      cases e
      obtain ⟨n2, o2⟩ := LF s1 _ _ _ hDf e2 hr2
      have nP := n2 P (Or.inl (by omega))
      have nN := n2 node (Or.inr (hnr _ hDn))
      rw [new_events_split (log_extends_trans (log_extends_trans l0 l1) l2) lu2,
        new_events_split (log_extends_trans l0 l1) l2, new_events_split l0 l1]
      simp only [hooks_of_append, n0, k1, j2]
      rcases o2 D rfl with o | ⟨rcf, hrcf, o⟩
      · rw [(hooks_of_three D P node _ _ o nP nN).2.1]
        exact ⟨rc, hrc, Or.inr (Or.inr (Or.inl rfl))⟩
      · rw [(hooks_of_three D P node _ _ o nP nN).2.1]
        exact ⟨rcf, hrcf, Or.inr (Or.inr (Or.inr (Or.inl rfl)))⟩
    rw [if_neg hr2] at e
    have z2 : ret2 = 0 := not_not.mp hr2
    subst z2
    obtain ⟨k2, _, _⟩ := enable_second_events hw cfg h hr fuel s1 s2 node P D hD hf kD jP jD e2
    rw [if_pos kN] at e
    generalize hw.enable s2.log node = ret3 at e
    generalize hs3 : add_log s2 (log_if ((cfg node).ops.enable = true)
      (event.enable node ret3)) = s3 at e
    have l3 : log_extends s2 s3 := by rw [← hs3]; exact log_extends_add_log _ _
    have n3 : new_events s2 s3 = [event.enable node ret3] := by
      rw [← hs3, new_events_add_log, log_if, if_pos kN]
    have s3c : s3.count = s2.count := by rw [← hs3]; rfl
    by_cases r3 : ret3 ≠ 0
    · rw [if_pos r3] at e
      unfold err_enable_clock at e
      rw [hD] at e
      obtain ⟨u1, c1, lu1, j1, A1⟩ := disable_second_events hw cfg h hr fuel s1 s2 s3
        node P D hP hD hf uD jP jD e2 (fun x _ => congrFun s3c x)
      rw [c1] at e
      dsimp only at e
      unfold err_enable_depends at e
      obtain ⟨u2, c2, lu2, j2⟩ := disable_first_events hw cfg h hr fuel s0 s1 u1 node P D hP hD
        hf uP (by rw [s0c]; exact iP) jP jD e1 A1
      rw [c2] at e
      dsimp only at e
      cases e
      rw [new_events_split (log_extends_trans (log_extends_trans (log_extends_trans
            (log_extends_trans l0 l1) l2) l3) lu1) lu2,
        new_events_split (log_extends_trans (log_extends_trans
            (log_extends_trans l0 l1) l2) l3) lu1,
        new_events_split (log_extends_trans (log_extends_trans l0 l1) l2) l3,
        new_events_split (log_extends_trans l0 l1) l2, new_events_split l0 l1, n3]
      simp only [hooks_of_append, n0, k1, k2, j1, j2]
      rw [hooks_of_single P D node node _ (Or.inr (Or.inr rfl)) (by simp [is_hook_of])]
      exact ⟨rc, hrc, Or.inr (Or.inr (Or.inr (Or.inr rfl)))⟩
    · rw [if_neg r3] at e
      cases e
      exact absurd rfl hrc

/-- C25 (counterexample): clock 2 has the parent 1 and the dependency 0, and clock 0 is
also the parent of clock 1; all three are idle, have all hooks, and every hook succeeds.
`clk_prepare` and `clk_enable` of clock 2 return 0 and call the hooks of the dependency
first, then the parent, then the node; the `clk_unprepare` and `clk_disable` that follow
call them in the order node, parent, dependency. -/
theorem hook_order_dependency_first :
    clk_get_parent (nest_cfg true) (.ptr 2) = .ptr 1 ∧
    (nest_cfg true 2).depends = .ptr 0 ∧
    has_hooks (nest_cfg true) 2 ∧ has_hooks (nest_cfg true) 1 ∧ has_hooks (nest_cfg true) 0 ∧
    (clk_prepare (demo_hooks 0 0 0) (nest_cfg true) 3 (demo_state 0) (.ptr 2)).map
      (fun r => (r.1, hooks_of [1, 0, 2] (new_events (demo_state 0) r.2)))
      = some (0, [event.prepare 0 0, event.prepare 1 0, event.prepare 2 0]) ∧
    ((clk_prepare (demo_hooks 0 0 0) (nest_cfg true) 3 (demo_state 0) (.ptr 2)).bind
      (fun r => (clk_unprepare (demo_hooks 0 0 0) (nest_cfg true) 3 r.2 (.ptr 2)).map
        (fun t => hooks_of [1, 0, 2] (new_events r.2 t))))
      = some [event.unprepare 2, event.unprepare 1, event.unprepare 0] ∧
    (clk_enable (demo_hooks 0 0 0) (nest_cfg true) 3 (demo_state 0) (.ptr 2)).map
      (fun r => (r.1, hooks_of [1, 0, 2] (new_events (demo_state 0) r.2)))
      = some (0, [event.enable 0 0, event.enable 1 0, event.enable 2 0]) ∧
    ((clk_enable (demo_hooks 0 0 0) (nest_cfg true) 3 (demo_state 0) (.ptr 2)).bind
      (fun r => (clk_disable (nest_cfg true) 3 r.2 (.ptr 2)).map
        (fun t => hooks_of [1, 0, 2] (new_events r.2 t))))
      = some [event.disable 2, event.disable 1, event.disable 0] := by
  decide

/-- C25 (amended): nesting order of the hook calls.  On an acyclic tree, let a node have
the parent `P` and the dependency `D`, where `D` is neither `P` nor an ancestor of `P`
(not reached from `P` through parent and dependency links), and let all three have the
four hooks.  With the three clocks unprepared, `clk_prepare` of the node returns; when
it returns 0 it has called the prepare hooks in the order `P`, `D`, node, and the
`clk_unprepare` that drops this reference calls the unprepare hooks in the order node,
`D`, `P`; when it fails, the hook calls on the three clocks are a prefix of `P`, `D`,
node whose last call may be the failed one, followed by the unprepare hooks of the
clocks whose prepare was completed, dependency before parent.  With the three enable
counts zero the same holds of every `clk_enable` of the node that returns, with
`clk_disable` and the enable and disable hooks: the `clk_disable` after a successful
`clk_enable` returns, and `clk_enable` itself returns when the tree has no error
pointers; behind an error pointer it reads the name of the clock before it tests the
pointer. -/
theorem hook_nesting_order (hw : hooks) (cfg : Nat → clk) (h : Nat → Nat)
    (hr : ranked cfg h) (fuel : Nat) (s : clk_state) (node P D : Nat)
    (hP : clk_get_parent cfg (.ptr node) = .ptr P) (hD : (cfg node).depends = .ptr D)
    (hreach : reaches cfg fuel (.ptr P) D = false) (hf : h node ≤ fuel)
    (kN : has_hooks cfg node) (kP : has_hooks cfg P) (kD : has_hooks cfg D) :
    (s.prepare_count node = 0 → s.prepare_count P = 0 → s.prepare_count D = 0 →
      ∃ rc s1, clk_prepare hw cfg (fuel + 1) s (.ptr node) = some (rc, s1) ∧
        (rc = 0 →
          hooks_of [P, D, node] (new_events s s1) =
            [event.prepare P 0, event.prepare D 0, event.prepare node 0] ∧
          ∀ t1 : clk_state, t1.prepare_count = s1.prepare_count → t1.rate = s1.rate →
            ∃ t2, clk_unprepare hw cfg (fuel + 1) t1 (.ptr node) = some t2 ∧
              hooks_of [P, D, node] (new_events t1 t2) =
                [event.unprepare node, event.unprepare D, event.unprepare P]) ∧
        (rc ≠ 0 → ∃ rcf, rcf ≠ 0 ∧
          (hooks_of [P, D, node] (new_events s s1) = [] ∨
           hooks_of [P, D, node] (new_events s s1) = [event.prepare P rcf] ∨
           hooks_of [P, D, node] (new_events s s1) =
             [event.prepare P 0, event.unprepare P] ∨
           hooks_of [P, D, node] (new_events s s1) =
             [event.prepare P 0, event.prepare D rcf, event.unprepare P] ∨
           hooks_of [P, D, node] (new_events s s1) =
             [event.prepare P 0, event.prepare D 0, event.unprepare D, event.unprepare P] ∨
           hooks_of [P, D, node] (new_events s s1) =
             [event.prepare P 0, event.prepare D 0, event.prepare node rcf,
              event.unprepare D, event.unprepare P]))) ∧
    (s.count node = 0 → s.count P = 0 → s.count D = 0 →
      (no_error_pointers cfg →
        ∃ rc s1, clk_enable hw cfg (fuel + 1) s (.ptr node) = some (rc, s1)) ∧
      ∀ rc s1, clk_enable hw cfg (fuel + 1) s (.ptr node) = some (rc, s1) →
        (rc = 0 →
          hooks_of [P, D, node] (new_events s s1) =
            [event.enable P 0, event.enable D 0, event.enable node 0] ∧
          ∀ t1 : clk_state, t1.count = s1.count →
            ∃ t2, clk_disable cfg (fuel + 1) t1 (.ptr node) = some t2 ∧
              hooks_of [P, D, node] (new_events t1 t2) =
                [event.disable node, event.disable D, event.disable P]) ∧
        (rc ≠ 0 → ∃ rcf, rcf ≠ 0 ∧
          (hooks_of [P, D, node] (new_events s s1) = [] ∨
           hooks_of [P, D, node] (new_events s s1) = [event.enable P rcf] ∨
           hooks_of [P, D, node] (new_events s s1) = [event.enable P 0, event.disable P] ∨
           hooks_of [P, D, node] (new_events s s1) =
             [event.enable P 0, event.enable D rcf, event.disable P] ∨
           hooks_of [P, D, node] (new_events s s1) =
             [event.enable P 0, event.enable D 0, event.enable node rcf,
              event.disable D, event.disable P]))) :=
  ⟨fun iN iP iD => prepare_nesting hw cfg h hr fuel s node P D hP hD hreach hf kP.1 kD.1 kN.1
      kP.2.1 kD.2.1 kN.2.1 iN iP iD,
    fun iN iP iD => enable_nesting hw cfg h hr fuel s node P D hP hD hreach hf kP.2.2.1
      kD.2.2.1 kN.2.2.1 kP.2.2.2 kD.2.2.2 kN.2.2.2 iN iP iD⟩
/-- Witness of C25: clock 2 with the parent 1 and the dependency 0, which is not an
ancestor of clock 1; every hook succeeds, and `clk_prepare` of clock 2 calls the prepare
hooks of the clocks 1, 0, 2 in this order.  The tree has no error pointers, so
`clk_enable` of clock 2 returns. -/
theorem hook_nesting_order_witness :
    (clk_prepare (demo_hooks 0 0 0) (nest_cfg false) 3 (demo_state 0) (.ptr 2)).map
      (fun r => (r.1, hooks_of [1, 0, 2] (new_events (demo_state 0) r.2)))
      = some (0, [event.prepare 1 0, event.prepare 0 0, event.prepare 2 0]) ∧
    (∃ rc s1, clk_prepare (demo_hooks 0 0 0) (nest_cfg false) (2 + 1) (demo_state 0) (.ptr 2) =
        some (rc, s1) ∧
      (rc = 0 →
        hooks_of [1, 0, 2] (new_events (demo_state 0) s1) =
          [event.prepare 1 0, event.prepare 0 0, event.prepare 2 0] ∧
        ∀ t1 : clk_state, t1.prepare_count = s1.prepare_count → t1.rate = s1.rate →
          ∃ t2, clk_unprepare (demo_hooks 0 0 0) (nest_cfg false) (2 + 1) t1 (.ptr 2) =
              some t2 ∧
            hooks_of [1, 0, 2] (new_events t1 t2) =
              [event.unprepare 2, event.unprepare 0, event.unprepare 1]) ∧
      (rc ≠ 0 → ∃ rcf, rcf ≠ 0 ∧
        (hooks_of [1, 0, 2] (new_events (demo_state 0) s1) = [] ∨
         hooks_of [1, 0, 2] (new_events (demo_state 0) s1) = [event.prepare 1 rcf] ∨
         hooks_of [1, 0, 2] (new_events (demo_state 0) s1) =
           [event.prepare 1 0, event.unprepare 1] ∨
         hooks_of [1, 0, 2] (new_events (demo_state 0) s1) =
           [event.prepare 1 0, event.prepare 0 rcf, event.unprepare 1] ∨
         hooks_of [1, 0, 2] (new_events (demo_state 0) s1) =
           [event.prepare 1 0, event.prepare 0 0, event.unprepare 0, event.unprepare 1] ∨
         hooks_of [1, 0, 2] (new_events (demo_state 0) s1) =
           [event.prepare 1 0, event.prepare 0 0, event.prepare 2 rcf,
            event.unprepare 0, event.unprepare 1]))) ∧
    ((∃ rc s1, clk_enable (demo_hooks 0 0 0) (nest_cfg false) (2 + 1) (demo_state 0) (.ptr 2) =
        some (rc, s1)) ∧
      ∀ rc s1, clk_enable (demo_hooks 0 0 0) (nest_cfg false) (2 + 1) (demo_state 0) (.ptr 2) =
        some (rc, s1) →
      (rc = 0 →
        hooks_of [1, 0, 2] (new_events (demo_state 0) s1) =
          [event.enable 1 0, event.enable 0 0, event.enable 2 0] ∧
        ∀ t1 : clk_state, t1.count = s1.count →
          ∃ t2, clk_disable (nest_cfg false) (2 + 1) t1 (.ptr 2) = some t2 ∧
            hooks_of [1, 0, 2] (new_events t1 t2) =
              [event.disable 2, event.disable 0, event.disable 1]) ∧
      (rc ≠ 0 → ∃ rcf, rcf ≠ 0 ∧
        (hooks_of [1, 0, 2] (new_events (demo_state 0) s1) = [] ∨
         hooks_of [1, 0, 2] (new_events (demo_state 0) s1) = [event.enable 1 rcf] ∨
         hooks_of [1, 0, 2] (new_events (demo_state 0) s1) =
           [event.enable 1 0, event.disable 1] ∨
         hooks_of [1, 0, 2] (new_events (demo_state 0) s1) =
           [event.enable 1 0, event.enable 0 rcf, event.disable 1] ∨
         hooks_of [1, 0, 2] (new_events (demo_state 0) s1) =
           [event.enable 1 0, event.enable 0 0, event.enable 2 rcf,
            event.disable 0, event.disable 1]))) :=
  ⟨by decide,
    (hook_nesting_order (demo_hooks 0 0 0) (nest_cfg false) (fun c => c) (nest_ranked false) 2
      (demo_state 0) 2 1 0 (by decide) (by decide) (by decide) (by decide) (by decide)
      (by decide) (by decide)).1 rfl rfl rfl,
    And.imp_left (fun f => f (nest_no_error_pointers false))
      ((hook_nesting_order (demo_hooks 0 0 0) (nest_cfg false) (fun c => c) (nest_ranked false) 2
        (demo_state 0) 2 1 0 (by decide) (by decide) (by decide) (by decide) (by decide)
        (by decide) (by decide)).2 rfl rfl rfl)⟩

end Clock
